import Mathlib

/-!
# Block store and smart-contract scheduler of the node: a shallow embedding

Part 1 embeds `csdb/src/storage.cpp` (class `csdb::Storage`): the rescan performed on
open, `pool_save`, `pool_load_internal` and the background writer `write_routine`.
Part 2 embeds the scheduler of `solver/src/smartcontracts.cpp` (class `cs::SmartContracts`).

Conventions of the embedding:

* byte strings are lists of naturals, machine integers are naturals with an explicit
  reduction modulo `2 ^ w` where the source can overflow;
* the mutable object `Storage::priv` becomes the record `priv`, every member function a
  pure function from the old record to the new one;
* the writer thread is split into the two critical sections it executes
  (`writer_take` under `write_lock`, `writer_put` under `bc_lock`);
* classes the translation unit only includes (`Pool`, `PoolHash`, `Database`) are
  modelled from their description in the specification, and the byte codec of pools is a
  parameter (`PoolCodec`).
-/

namespace csdb

/-- Byte strings, `csdb::internal::byte_array`. -/
abbrev byte_array := List Nat

/-- Modelled from the spec: `PoolHash` (declared in csdb/pool.h, which is not among the
sources) is a digest plus an "empty" sentinel; two hashes are equal when their bytes are. -/
structure PoolHash where
  value : byte_array
deriving DecidableEq, Repr

namespace PoolHash

/-- The default-constructed hash `PoolHash{}`. -/
def empty : PoolHash := ⟨[]⟩

def is_empty (h : PoolHash) : Bool := h.value.isEmpty

def to_binary (h : PoolHash) : byte_array := h.value

end PoolHash

/-- Modelled from the spec: `csdb::Amount` (csdb/amount.h, not among the sources), a
fixed-point quantity, counted here in its smallest unit. Fees read from a transaction
(`counted_fee().to_double()`, `max_fee().to_double()`) are carried as the `Amount` the
source builds from them; the rounding of the passage through `double` is not modelled. -/
abbrev Amount := Int

/-- Modelled from the spec: `csdb::Address` (csdb/address.h, not among the sources) is the
public-key form or the compact numeric wallet id; the default-constructed address is not
valid. -/
inductive Address where
  | invalid
  | public_key (key : byte_array)
  | wallet_id (id : Nat)
deriving DecidableEq, Repr

namespace Address

def is_valid : Address → Bool
  | .invalid => false
  | _ => true

def is_wallet_id : Address → Bool
  | .wallet_id _ => true
  | _ => false

end Address

/-- Modelled from the spec: `csdb::UserField` (csdb/user_field.h, not among the sources), a
value of type Integer, String or Amount; `unknown` is the field of type `Unknown` that
`Transaction::user_field` returns for an id the transaction does not carry. -/
inductive UserField where
  | unknown
  | integer (v : Int)
  | string (v : byte_array)
  | amount (v : Amount)
deriving DecidableEq, Repr

namespace UserField

/-- Embeds `UserField::is_valid`: the type is not `Unknown`. -/
def is_valid : UserField → Bool
  | .unknown => false
  | _ => true

/-- The test `type() == UserField::Type::String`. -/
def is_string : UserField → Bool
  | .string _ => true
  | _ => false

/-- The call `value<std::string>()`: the string held, empty for a field of another type. -/
def value_string : UserField → byte_array
  | .string v => v
  | _ => []

end UserField

/-- Modelled from the spec: `csdb::Transaction` (csdb/transaction.h, not among the
sources) with the attributes the specification lists; `user_fields` maps a field id to its
value. -/
structure Transaction where
  is_valid : Bool
  innerID : Int
  source : Address
  target : Address
  currency : Nat
  amount : Amount
  max_fee : Amount
  counted_fee : Amount
  signature : byte_array
  user_fields : List (Int × UserField)
deriving DecidableEq, Repr

namespace Transaction

/-- The default-constructed transaction `Transaction{}`: not valid. -/
def invalid : Transaction :=
  { is_valid := false, innerID := 0, source := .invalid, target := .invalid, currency := 0,
    amount := 0, max_fee := 0, counted_fee := 0, signature := [], user_fields := [] }

/-- The call `user_field(id)`. -/
def user_field (t : Transaction) (id : Int) : UserField :=
  match t.user_fields.find? (fun f => decide (f.1 = id)) with
  | some f => f.2
  | none => .unknown

/-- The call `add_user_field(id, value)`: sets the field, replacing a previous value. -/
def add_user_field (t : Transaction) (id : Int) (f : UserField) : Transaction :=
  { t with user_fields := t.user_fields.filter (fun g => !decide (g.1 = id)) ++ [(id, f)] }

end Transaction

/-- Modelled from the spec: `csdb::Pool` (csdb/pool.h, not among the sources) with the
attributes the specification lists that the store and the scheduler read. -/
structure Pool where
  is_valid : Bool
  is_read_only : Bool
  hash : PoolHash
  previous_hash : PoolHash
  sequence : Nat
  transactions : List Transaction
  confidants : List byte_array
deriving DecidableEq, Repr

/-- The default-constructed pool `Pool{}`: not valid. -/
def Pool.invalid : Pool :=
  { is_valid := false, is_read_only := false, hash := PoolHash.empty,
    previous_hash := PoolHash.empty, sequence := 0, transactions := [], confidants := [] }

/-- The byte codec of pools, a parameter of the embedding: `PoolHash::calc_from_data`,
`Pool::from_binary`, `Pool::meta_from_binary`, `Pool::to_binary` and `Pool::compose` are
declared outside the translation unit. -/
structure PoolCodec where
  calc_from_data : byte_array → PoolHash
  from_binary : byte_array → Pool
  meta_from_binary : byte_array → Pool × Nat
  to_binary : Pool → byte_array
  compose : Pool → Pool

/-- One record of the key-value store, as written by `db->put(key, seq, value)`. -/
structure Record where
  key : byte_array
  seq : Nat
  value : byte_array
deriving DecidableEq, Repr

/-- Modelled from the spec: the `Database` driver (csdb/database.h, not among the sources)
is "an ordered byte-KV with iteration". `records` lists the content in iteration order. -/
structure Database where
  is_open : Bool
  records : List Record
deriving DecidableEq, Repr

namespace Database

/-- The call `db->get(key, &data)`: the value stored under `key`, if any. -/
def get (db : Database) (key : byte_array) : Option byte_array :=
  (db.records.find? (fun r => decide (r.key = key))).map Record.value

/-- The call `db->put(key, seq, value)`: the record stored under `key` is replaced. -/
def put (db : Database) (key : byte_array) (seq : Nat) (value : byte_array) : Database :=
  { db with records := db.records.filter (fun r => !decide (r.key = key)) ++ [⟨key, seq, value⟩] }

end Database

namespace Storage

/-- The enumeration `Storage::Error`. -/
inductive Error where
  | NoError
  | NotOpen
  | DatabaseError
  | ChainError
  | DataIntegrityError
  | UserCancelled
  | InvalidParameter
deriving DecidableEq, Repr

/-- Embeds `Storage::OpenCallback`: receives `OpenProgress::poolsProcessed` and returns `true` to
cancel; `none` is the null callback. -/
abbrev OpenCallback := Option (Nat → Bool)

/-- Number of values of `size_t`. -/
def size_t_range : Nat := 2 ^ 64

/-- Number of values of `uint32_t`. -/
def uint32_range : Nat := 2 ^ 32

/-- The data members of `Storage::priv`, with the calling thread's slot of the
thread-local `last_error_map`. -/
structure priv where
  db : Option Database
  last_hash : PoolHash
  count_pool : Nat
  write_queue : List Pool
  last_error : Error
deriving DecidableEq, Repr

/-- The locals of `rescan` that live across iterations of its first loop. -/
structure ScanState where
  lastSeq : Nat
  count_pool : Nat
  poolsProcessed : Nat
  als : List (PoolHash × PoolHash)
deriving DecidableEq, Repr

/-- How the first loop of `rescan` ends. -/
inductive ScanResult where
  | completed (s : ScanState)
  | failed (e : Error) (count_pool : Nat)
  | out_of_bounds
deriving DecidableEq, Repr

/-- The call `als.resize(n)`: truncates, or pads with default-constructed pairs. -/
def resize (als : List (PoolHash × PoolHash)) (n : Nat) : List (PoolHash × PoolHash) :=
  als.take n ++ List.replicate (n - als.length) (PoolHash.empty, PoolHash.empty)

/-- One iteration of the first loop of `rescan` on the record value `v`.
`lastSeq` is a `uint32_t`: the assignment and `lastSeq + 1` are reduced modulo `2 ^ 32`.
The write `als[p.sequence()] = ...` past the end of the vector is undefined behaviour in
the source and is reported as `out_of_bounds`. -/
def rescan_step (c : PoolCodec) (callback : OpenCallback) (s : ScanState) (v : byte_array) :
    ScanResult :=
  let real_hash := c.calc_from_data v
  let p := c.from_binary v
  if !p.is_valid then .failed .DataIntegrityError s.count_pool
  else if p.hash ≠ real_hash then .failed .DataIntegrityError s.count_pool
  else
    let count_pool := (s.count_pool + 1) % size_t_range
    let poolsProcessed := s.poolsProcessed + 1
    let cancelled : Bool :=
      match callback with
      | none => false
      | some cb => cb poolsProcessed
    if cancelled then .failed .UserCancelled count_pool
    else
      let lastSeq := if p.sequence ≥ s.lastSeq then p.sequence % uint32_range else s.lastSeq
      let als :=
        if p.sequence ≥ s.lastSeq then resize s.als ((lastSeq + 1) % uint32_range) else s.als
      if p.sequence < als.length then
        .completed
          { lastSeq := lastSeq, count_pool := count_pool, poolsProcessed := poolsProcessed,
            als := als.set p.sequence (real_hash, p.previous_hash) }
      else .out_of_bounds

/-- The first loop of `rescan`, over the record values in iteration order. -/
def rescan_loop (c : PoolCodec) (callback : OpenCallback) :
    ScanState → List byte_array → ScanResult
  | s, [] => .completed s
  | s, v :: vs =>
    match rescan_step c callback s v with
    | .completed s' => rescan_loop c callback s' vs
    | r => r

/-- The second loop of `rescan` ("Now check integrity"), started with `i = 1`; `fuel`
bounds the number of iterations and is the length of `als` at the call. -/
def check_loop (als : List (PoolHash × PoolHash)) : Nat → Nat → PoolHash → PoolHash
  | 0, _, last_hash => last_hash
  | fuel + 1, i, last_hash =>
    if i < als.length then
      if i > 0 ∧ (als.getD i (PoolHash.empty, PoolHash.empty)).2
          ≠ (als.getD (i - 1) (PoolHash.empty, PoolHash.empty)).1 then last_hash
      else check_loop als fuel (i + 1) (als.getD i (PoolHash.empty, PoolHash.empty)).1
    else last_hash

/-- The member `Storage::priv::rescan`. The result is the returned flag with the new
object; `none` stands for undefined behaviour of the source (null `db`, or a write past the
end of `als`). -/
def rescan (c : PoolCodec) (callback : OpenCallback) (d : priv) : Option (Bool × priv) :=
  match d.db with
  | none => none
  | some db =>
    match rescan_loop c callback
        { lastSeq := 0, count_pool := 0, poolsProcessed := 0, als := [] }
        (db.records.map Record.value) with
    | .out_of_bounds => none
    | .failed e n =>
      some (false, { d with last_hash := PoolHash.empty, count_pool := n, last_error := e })
    | .completed s =>
      if s.als.length = 0 then
        some (true, { d with last_hash := PoolHash.empty, count_pool := s.count_pool })
      else
        some (true,
          { d with
            last_hash :=
              check_loop s.als s.als.length 1 (s.als.getD 0 (PoolHash.empty, PoolHash.empty)).1,
            count_pool := s.count_pool })

/-- The member `Storage::open(const OpenOptions&, OpenCallback)`; `opt_db` is `opt.db`. -/
def open_ (c : PoolCodec) (callback : OpenCallback) (opt_db : Option Database) (d : priv) :
    Option (Bool × priv) :=
  match opt_db with
  | none => some (false, { d with last_error := .DatabaseError })
  | some db =>
    let d1 := { d with db := some db }
    if !db.is_open then some (false, { d1 with last_error := .DatabaseError })
    else
      match rescan c callback d1 with
      | none => none
      | some (false, d2) => some (false, { d2 with db := none })
      | some (true, d2) => some (true, { d2 with last_error := .NoError })

/-- The member `Storage::isOpen`. -/
def isOpen (d : priv) : Bool :=
  match d.db with
  | none => false
  | some db => db.is_open

/-- The member `Storage::pool_save`. -/
def pool_save (d : priv) (pool : Pool) : Bool × priv :=
  match d.db with
  | none => (false, { d with last_error := .NotOpen })
  | some db =>
    if !db.is_open then (false, { d with last_error := .NotOpen })
    else if !pool.is_valid then (false, { d with last_error := .InvalidParameter })
    else
      let hash := pool.hash
      if (db.get hash.to_binary).isSome then (false, { d with last_error := .InvalidParameter })
      else
        (true,
          { d with
            write_queue := d.write_queue ++ [pool],
            count_pool := (d.count_pool + 1) % size_t_range,
            last_hash := if d.last_hash = pool.previous_hash then hash else d.last_hash,
            last_error := .NoError })

/-- The member `Storage::pool_load_internal`, run as one step (it holds `bc_lock` from
entry to return). The result is the returned pool, the value left in `trxCnt` and the new
object. -/
def pool_load_internal (c : PoolCodec) (d : priv) (hash : PoolHash) (metaOnly : Bool)
    (trxCnt : Nat) : Pool × Nat × priv :=
  match d.db with
  | none => (Pool.invalid, trxCnt, { d with last_error := .NotOpen })
  | some db =>
    if !db.is_open then (Pool.invalid, trxCnt, { d with last_error := .NotOpen })
    else if hash.is_empty then (Pool.invalid, trxCnt, { d with last_error := .InvalidParameter })
    else
      let finish (res : Pool) (cnt : Nat) : Pool × Nat × priv :=
        if !res.is_valid then (Pool.invalid, cnt, { d with last_error := .DataIntegrityError })
        else (res, cnt, { d with last_error := .NoError })
      let parse (data : byte_array) : Pool × Nat × priv :=
        if metaOnly then finish (c.meta_from_binary data).1 (c.meta_from_binary data).2
        else finish (c.from_binary data) trxCnt
      match db.get hash.to_binary with
      | some data => parse data
      | none =>
        match d.write_queue.find? (fun poolToWrite => decide (poolToWrite.hash = hash)) with
        | some res => finish res res.transactions.length
        | none =>
          match db.get hash.to_binary with
          | none => (Pool.invalid, trxCnt, { d with last_error := .DatabaseError })
          | some data => parse data

/-- The member `Storage::pool_load`. -/
def pool_load (c : PoolCodec) (d : priv) (hash : PoolHash) : Pool × priv :=
  let r := pool_load_internal c d hash false 0
  (r.1, r.2.2)

/-- The store together with the local variable `pool` of the writer thread: `some p`
between the writer's two critical sections, while `p` is neither in the queue nor yet in
the database. -/
structure Store where
  d : priv
  writer_pool : Option Pool
deriving DecidableEq, Repr

/-- First critical section of `write_routine` (under `write_lock`): the front of the write
queue is moved into the local `pool`. -/
def writer_take (s : Store) : Store :=
  match s.writer_pool, s.d.write_queue with
  | none, pool :: rest => { d := { s.d with write_queue := rest }, writer_pool := some pool }
  | _, _ => s

/-- Second section of `write_routine`: `compose` if the pool is still mutable, then
`db->put` under `bc_lock`. The sequence is cast to `uint32_t`. -/
def writer_put (c : PoolCodec) (s : Store) : Store :=
  match s.writer_pool, s.d.db with
  | some pool0, some db =>
    let pool := if !pool0.is_read_only then c.compose pool0 else pool0
    { d := { s.d with
             db := some (db.put pool.hash.to_binary (pool.sequence % uint32_range)
                      (c.to_binary pool)) },
      writer_pool := none }
  | _, _ => s

/-- The operations that drive the store once it is open. -/
inductive Op where
  | save (p : Pool)
  | take
  | put
deriving DecidableEq, Repr

/-- One operation on the store, with the history of pools for which `pool_save` returned
`true` (the pools accepted by the store), newest last. -/
def step (c : PoolCodec) (sa : Store × List Pool) : Op → Store × List Pool
  | .save p =>
    let r := pool_save sa.1.d p
    ({ sa.1 with d := r.2 }, if r.1 then sa.2 ++ [p] else sa.2)
  | .take => (writer_take sa.1, sa.2)
  | .put => (writer_put c sa.1, sa.2)

/-- A sequence of operations, left to right. -/
def run (c : PoolCodec) (sa : Store × List Pool) (ops : List Op) : Store × List Pool :=
  ops.foldl (step c) sa

/-- The state `open` leaves on an open database without records: nothing queued, empty
`last_hash`, zero pools. -/
def empty_open : Store :=
  { d := { db := some { is_open := true, records := [] }, last_hash := PoolHash.empty,
           count_pool := 0, write_queue := [], last_error := .NoError },
    writer_pool := none }

end Storage

end csdb

namespace csdb
namespace Storage

/-- Sequence number of the pool decoded from a record value. -/
def seq_of (c : PoolCodec) (v : byte_array) : Nat := (c.from_binary v).sequence

/-- The pair `rescan` stores for a record value: recomputed hash and `previous_hash`. -/
def slot_of (c : PoolCodec) (v : byte_array) : PoolHash × PoolHash :=
  (c.calc_from_data v, (c.from_binary v).previous_hash)

/-- Largest sequence number among the record values (0 for none). -/
def max_seq (c : PoolCodec) (vs : List byte_array) : Nat :=
  vs.foldl (fun m v => max m (seq_of c v)) 0

/-- The slot written last for sequence `i` when the values are processed in order. -/
def slot_at (c : PoolCodec) (vs : List byte_array) (i : Nat) : PoolHash × PoolHash :=
  vs.foldl (fun acc v => if seq_of c v = i then slot_of c v else acc)
    (PoolHash.empty, PoolHash.empty)

/-- What the locals of `rescan` hold once the values `done` have been processed. -/
structure ScanInv (c : PoolCodec) (done : List byte_array) (s : ScanState) : Prop where
  nil : done = [] → s.als = [] ∧ s.lastSeq = 0
  len : done ≠ [] →
    s.als.length = s.lastSeq + 1 ∧ s.lastSeq + 1 < uint32_range ∧ s.lastSeq = max_seq c done
  slots : ∀ i, s.als.getD i (PoolHash.empty, PoolHash.empty) = slot_at c done i
  count : s.count_pool = done.length % size_t_range

end Storage
end csdb

namespace csdb
namespace Storage
namespace sample

/-- A small concrete codec used to run the store on explicit data: a pool is serialised
as its sequence followed by the bytes of `previous_hash`, and the hash of a byte string is
the string itself behind the tag byte 7 (so it is never empty and never collides). -/
def codec : PoolCodec :=
  { calc_from_data := fun v => ⟨7 :: v⟩
    from_binary := fun v =>
      match v with
      | [] => Pool.invalid
      | seq :: prev =>
        { is_valid := true, is_read_only := true, hash := ⟨7 :: seq :: prev⟩,
          previous_hash := ⟨prev⟩, sequence := seq, transactions := [], confidants := [] }
    meta_from_binary := fun v =>
      match v with
      | [] => (Pool.invalid, 0)
      | seq :: prev =>
        ({ is_valid := true, is_read_only := true, hash := ⟨7 :: seq :: prev⟩,
           previous_hash := ⟨prev⟩, sequence := seq, transactions := [], confidants := [] }, 0)
    to_binary := fun p => p.sequence :: p.previous_hash.value
    compose := fun p => p }

/-- Serialised pools of a correctly linked chain: sequence 0 (no parent), then 1, 2, 3, 4,
each naming the hash of its predecessor. -/
def bytes0 : byte_array := [0]
def bytes1 : byte_array := 1 :: 7 :: bytes0
def bytes2 : byte_array := 2 :: 7 :: bytes1
def bytes3 : byte_array := 3 :: 7 :: bytes2
def bytes4 : byte_array := 4 :: 7 :: bytes3

/-- The record the writer stores for a serialised pool. -/
def record (v : byte_array) : Record :=
  { key := (codec.calc_from_data v).to_binary, seq := (codec.from_binary v).sequence, value := v }

/-- A store object around the database content `vs`, before `rescan` has run. -/
def store_of (vs : List byte_array) : priv :=
  { db := some { is_open := true, records := vs.map record }, last_hash := PoolHash.empty,
    count_pool := 0, write_queue := [], last_error := .NoError }

end sample
end Storage
end csdb

namespace csdb
namespace Storage

/-- The chain behind a hash, through the pools accepted by the store: the hash is empty, or
it is the hash of an accepted pool whose `previous_hash` is again linked. -/
inductive LinkedTo (accepted : List Pool) : PoolHash → Prop where
  | root : LinkedTo accepted PoolHash.empty
  | link (P : Pool) : P ∈ accepted → LinkedTo accepted P.previous_hash →
      LinkedTo accepted P.hash

namespace sample

/-- The pool of sequence 0 of the sample chain. -/
def pool0 : Pool := codec.from_binary bytes0

/-- The pool of sequence 1 of the sample chain; its `previous_hash` is the hash of `pool0`. -/
def pool1 : Pool := codec.from_binary bytes1

/-- A pool of sequence 5 whose `previous_hash` names no stored pool. -/
def pool5 : Pool := codec.from_binary [5, 9]

end sample
end Storage
end csdb

/-!
## Part 2: the smart-contract scheduler (`cs::SmartContracts`)

The mutable object becomes the record `SmartContracts`; every member function is a pure
function that takes the environment `Env` (the collaborators the scheduler calls: block
chain, executor, consensus, codecs) and the old record, and returns the new record.
Signals and calls that leave the scheduler are appended to `log`. Iterators into
`exe_queue` are positions in the list.
-/

namespace cs

open csdb

abbrev Bytes := List Nat
abbrev Sequence := Nat
abbrev TransactionsPacket := List Transaction

/-- Modelled from the spec: the ids of the user fields of smart-contract transactions
(`cs::trx_uf`, declared in smartcontracts.hpp, which is not among the sources).
`deploy::Code` and `start::Methods` are field 0 and `new_state::Value` is field -2, as the
comment in `is_smart_contract` says; the other fields of a new-state have ids of their
own. -/
structure trx_uf where
  Code : Int := 0
  Methods : Int := 0
  Value : Int := -2
  RefStart : Int := 1
  Fee : Int := 2
  RetVal : Int := 3

/-- The field ids in use. -/
def uf : trx_uf := {}

/-- Modelled from the spec: `SmartContractRef` is (pool_hash, sequence, transaction_index);
the struct is declared in smartcontracts.hpp, which is not among the sources. -/
structure SmartContractRef where
  hash : PoolHash
  sequence : Sequence
  transaction : Nat
deriving DecidableEq, Repr

namespace SmartContractRef

/-- Largest value of the 64-bit fields, stored by the default constructor and by
`from_user_field` on malformed input. -/
def max_value : Nat := 2 ^ 64 - 1

/-- The default-constructed reference. -/
def unset : SmartContractRef :=
  { hash := PoolHash.empty, sequence := max_value, transaction := max_value }

/-- Modelled from the spec: a reference is valid when it points to a transaction, that is
when it is not the default-constructed one. -/
def is_valid (r : SmartContractRef) : Bool :=
  !r.hash.is_empty && r.sequence != max_value && r.transaction != max_value

/-- Modelled from the spec: two references are the same call when block sequence and
transaction index agree (`operator==` of smartcontracts.hpp). -/
def same (a b : SmartContractRef) : Bool :=
  a.sequence == b.sequence && a.transaction == b.transaction

end SmartContractRef

/-- The enumeration `SmartContractStatus`. -/
inductive SmartContractStatus where
  | Idle
  | Waiting
  | Running
  | Finished
  | Closed
deriving DecidableEq, Repr

/-- The enumeration `PayableStatus`. -/
inductive PayableStatus where
  | Unknown
  | Absent
  | Implemented
  | ImplementedVer1
deriving DecidableEq, Repr

/-- Modelled from the spec: `implements_payable` of smartcontracts.hpp. -/
def implements_payable (p : PayableStatus) : Bool :=
  p == .Implemented || p == .ImplementedVer1

/-- Modelled from the spec: `StateItem` of smartcontracts.hpp. `uses` maps a method name to
the contracts (address, method) the method calls. -/
structure StateItem where
  payable : PayableStatus
  ref_deploy : SmartContractRef
  ref_execute : SmartContractRef
  state : Bytes
  uses : List (String × List (Address × String))
  is_locked : Bool
deriving DecidableEq, Repr

/-- The default-constructed `StateItem`. -/
def StateItem.default : StateItem :=
  { payable := .Unknown, ref_deploy := SmartContractRef.unset, ref_execute := SmartContractRef.unset,
    state := [], uses := [], is_locked := false }

/-- Modelled from the spec: `ExecutionItem` of smartcontracts.hpp, in the order of the
aggregate initialisation in `QueueItem::add`. -/
structure ExecutionItem where
  ref_start : SmartContractRef
  avail_fee : Amount
  new_state_fee : Amount
  consumed_fee : Amount
  uses : List Address
  result : TransactionsPacket
deriving DecidableEq, Repr

/-- Modelled from the spec: `QueueItem` of smartcontracts.hpp (without the consensus
object it owns). -/
structure QueueItem where
  executions : List ExecutionItem
  status : SmartContractStatus
  seq_enqueue : Sequence
  seq_start : Sequence
  seq_finish : Sequence
  abs_addr : Address
  is_executor : Bool
  is_rejected : Bool
deriving DecidableEq, Repr

/-- Modelled from the spec: the return value `general::Variant` of a call, as far as the
scheduler builds it (unset, an error code in `v_byte`, or a value of the executor). -/
inductive Variant where
  | unset
  | v_byte (b : Nat)
  | other (payload : Bytes)
deriving DecidableEq, Repr

/-- Modelled from the spec: one entry of `SmartContractDeploy::byteCodeObjects`. -/
structure ByteCodeObject where
  name : String
  byteCode : Bytes
deriving DecidableEq, Repr

/-- Modelled from the spec: the structure `api::SmartContractInvocation`, as far as the
scheduler reads it. -/
structure SmartContractInvocation where
  method : String
  params : List Variant
  usedContracts : List Bytes
  byteCodeObjects : List ByteCodeObject
deriving DecidableEq, Repr

/-- Modelled from the spec: an annotation of a contract method (`@UsesContract(addr,
method)`), as returned by the executor. -/
structure Annotation where
  name : String
  arguments : List (String × String)
deriving DecidableEq, Repr

/-- Modelled from the spec: a method of a contract, as returned by the executor; `arguments`
lists the types of the arguments. -/
structure MethodDescription where
  name : String
  returnType : String
  arguments : List String
  annotations : List Annotation
deriving DecidableEq, Repr

/-- Modelled from the spec: the answer of the executor to `get_contract_methods`. -/
structure GetContractMethodsResult where
  status_code : Nat
  methods : List MethodDescription
deriving DecidableEq, Repr

/-- Modelled from the spec: the result `SmartExecutionData` of one call, handed back by the
executor task (`new_state`, `ret_value`, `emitted_txs`, `subsequent_states` and the fee). -/
structure SmartExecutionData where
  contract_ref : SmartContractRef
  executor_fee : Amount
  error : String
  newState : Bytes
  retValue : Variant
  trxns : List Transaction
  states : List (Address × Bytes)
deriving DecidableEq, Repr

/-- What leaves the scheduler: emitted signals, jobs handed to the executor, packets handed
to the consensus. -/
inductive Event where
  | payable_invoke (t : Transaction)
  | payable_timeout (t : Transaction)
  | emitted_accepted (t starter : Transaction)
  | smart_executed (packet : TransactionsPacket)
  | execute (calls : List (SmartContractRef × Amount))
  | fake_stages (ref_start : SmartContractRef)
  | start_consensus (refs : List SmartContractRef) (packet : TransactionsPacket)
deriving DecidableEq, Repr

/-- The collaborators of the scheduler and the constants it takes from headers that are not
among the sources. -/
structure Env where
  /-- Stands for `BlockChain::loadBlock`. -/
  loadBlock : Sequence → Pool
  /-- Stands for `BlockChain::getLastSequence`. -/
  getLastSequence : Sequence
  /-- Stands for `absolute_address`: the public-key form of an address. -/
  absolute_address : Address → Address
  /-- Stands for `BlockChain::getAddressFromKey`. -/
  getAddressFromKey : Bytes → Address
  /-- Stands for `BlockChain::findWalletData` followed by `trxTail_`: `none` when the wallet is not found
  or its tail is empty, else the last transaction id. -/
  lastTransactionId : Address → Option Nat
  /-- Stands for `deserialize<api::SmartContractInvocation>`. -/
  deserialize : Bytes → SmartContractInvocation
  /-- Stands for `serialize` of a `general::Variant`. -/
  serialize_variant : Variant → Bytes
  /-- Stands for `SmartContractRef::to_user_field`. -/
  ref_to_bytes : SmartContractRef → Bytes
  /-- The stream read of `SmartContractRef::from_user_field`; `none` on malformed input. -/
  ref_of_bytes : Bytes → Option SmartContractRef
  /-- Whether `exec_handler_ptr` is set. -/
  has_exec_handler : Bool
  /-- Stands for `Executor::isConnect`. -/
  isConnect : Bool
  /-- Stands for `Executor::getContractMethods`. -/
  getContractMethods : List ByteCodeObject → GetContractMethodsResult
  /-- Stands for `DecodeBase58` followed by `Address::from_public_key`. -/
  address_of_base58 : String → Option Address
  /-- Stands for `start_consensus`. -/
  start_consensus : QueueItem → TransactionsPacket → Bool
  /-- Stands for `Node::retriveSmartConfidants`. -/
  retriveSmartConfidants : Sequence → List Bytes
  /-- Validity of a transaction built by the eight-argument constructor of
  `csdb::Transaction`. -/
  built_is_valid : Transaction → Bool
  /-- Stands for `csdb::AmountCommission(a.to_double())`, the conversion of an amount to the
  fee format in which a transaction holds `max_fee` and `counted_fee` (csdb, not among the
  sources): the 16 bits of the fee; only the low 16 bits of the number are used. -/
  commission_bits : Amount → Nat
  /-- Stands for the amount that the 16 bits of a fee stand for. -/
  commission_amount : Nat → Amount
  /-- Whether records of `cslog()` are produced, so that the expressions streamed into them
  are evaluated. -/
  cslog_enabled : Bool
  MaxRoundsCancelContract : Nat
  MaxRoundsExecuteContract : Nat
  PayableName : String
  TypeVoid : String
  TypeString : String
  TypeBigDecimal : String
  TypeByteArray : String
  UsesContract : String
  UsesContractAddr : String
  UsesContractMethod : String

/-- The amount that `max_fee` or `counted_fee` of a transaction holds when it is given
`csdb::AmountCommission(a.to_double())`. -/
def Env.amount_commission (env : Env) (a : Amount) : Amount :=
  env.commission_amount (env.commission_bits a % 2 ^ 16)

/-- The data members of `cs::SmartContracts`. -/
structure SmartContracts where
  known_contracts : List (Address × StateItem)
  exe_queue : List QueueItem
  replenish_contract : List SmartContractRef
  execution_allowed : Bool
  force_execution : Bool
  node_id : Bytes
  log : List Event
deriving DecidableEq, Repr

namespace SmartContracts

/-- The call `known_contracts.find(addr)`. -/
def find_contract (s : SmartContracts) (addr : Address) : Option StateItem :=
  (s.known_contracts.find? (fun e => decide (e.1 = addr))).map Prod.snd

/-- Writes to the entry of `addr` in `known_contracts`, through `operator[]` or an
iterator: the entry is replaced, or created when there is none. -/
def set_contract (s : SmartContracts) (addr : Address) (st : StateItem) : SmartContracts :=
  { s with
    known_contracts :=
      if s.known_contracts.any (fun e => decide (e.1 = addr)) then
        s.known_contracts.map (fun e => if e.1 = addr then (addr, st) else e)
      else s.known_contracts ++ [(addr, st)] }

/-- The call `known_contracts[addr]`: the entry, default-constructed when there is none. -/
def contract_or_default (s : SmartContracts) (addr : Address) : StateItem :=
  (s.find_contract addr).getD StateItem.default

/-- Appends an outgoing event. -/
def emit (s : SmartContracts) (e : Event) : SmartContracts :=
  { s with log := s.log ++ [e] }

end SmartContracts

/-- Embeds `SmartContractRef::from_user_field`: on malformed input the reference is reset. -/
def SmartContractRef.from_user_field (env : Env) (fld : UserField) : SmartContractRef :=
  match env.ref_of_bytes fld.value_string with
  | some r => r
  | none => SmartContractRef.unset

/-- Embeds `SmartContractRef::to_user_field`. -/
def SmartContractRef.to_user_field (env : Env) (r : SmartContractRef) : UserField :=
  .string (env.ref_to_bytes r)

/-- Embeds `set_return_value`. -/
def set_return_value (env : Env) (t : Transaction) (val : Variant) : Transaction :=
  t.add_user_field uf.RetVal (.string (env.serialize_variant val))

/-- Embeds `SmartContracts::is_new_state`. -/
def is_new_state (tr : Transaction) : Bool :=
  (tr.user_field uf.Value).is_string && (tr.user_field uf.RefStart).is_string

/-- Embeds `SmartContracts::is_smart_contract`. -/
def is_smart_contract (tr : Transaction) : Bool :=
  if !tr.is_valid then false
  else
    let f := tr.user_field uf.Code
    let f := if !f.is_valid then tr.user_field uf.Value else f
    f.is_valid && f.is_string

/-- Embeds `SmartContracts::is_executable`. -/
def is_executable (tr : Transaction) : Bool :=
  is_smart_contract tr && !is_new_state tr

/-- Embeds `SmartContracts::is_deploy`. -/
def is_deploy (env : Env) (tr : Transaction) : Bool :=
  if !is_executable tr then false
  else
    let f := tr.user_field uf.Code
    if !f.is_valid then false
    else (env.deserialize f.value_string).method.isEmpty

/-- Embeds `SmartContracts::is_start`. -/
def is_start (env : Env) (tr : Transaction) : Bool :=
  is_executable tr && !is_deploy env tr

/-- Embeds `SmartContracts::get_transaction`. -/
def get_transaction (env : Env) (contract : SmartContractRef) : Transaction :=
  let block := env.loadBlock contract.sequence
  if !block.is_valid then Transaction.invalid
  else if contract.transaction ≥ block.transactions.length then Transaction.invalid
  else block.transactions.getD contract.transaction Transaction.invalid

/-- Embeds `SmartContracts::find_deploy_info`. -/
def find_deploy_info (env : Env) (s : SmartContracts) (abs_addr : Address) :
    Option SmartContractInvocation :=
  match s.find_contract abs_addr with
  | none => none
  | some val =>
    if val.ref_deploy.is_valid then
      let tr_deploy := get_transaction env val.ref_deploy
      if tr_deploy.is_valid then
        let fld := tr_deploy.user_field uf.Code
        if fld.is_valid then
          let data := fld.value_string
          if !data.isEmpty then some (env.deserialize data) else none
        else none
      else none
    else none

/-- Modelled from the spec: `in_known_contracts` of smartcontracts.hpp, the contract of the
absolute form of the address is registered. -/
def in_known_contracts (env : Env) (s : SmartContracts) (addr : Address) : Bool :=
  (s.find_contract (env.absolute_address addr)).isSome

/-- Modelled from the spec: `is_metadata_actual` of smartcontracts.hpp, the payable status
of the contract is known ("refresh metadata lazily if unknown"). -/
def is_metadata_actual (s : SmartContracts) (abs_addr : Address) : Bool :=
  match s.find_contract abs_addr with
  | none => false
  | some st => st.payable != .Unknown

/-- The payable test of one method in `update_metadata`. -/
def payable_of_method (env : Env) (payable : PayableStatus) (m : MethodDescription) :
    PayableStatus :=
  if payable != .ImplementedVer1 then
    if m.name == env.PayableName then
      match m.arguments with
      | [a0, a1] =>
        if m.returnType == env.TypeVoid && a0 == env.TypeString then
          if a1 == env.TypeString then .Implemented else payable
        else if m.returnType == env.TypeString && a0 == env.TypeBigDecimal then
          if a1 == env.TypeByteArray then .ImplementedVer1 else payable
        else payable
      | _ => payable
    else payable
  else payable

/-- The assignment `state.uses[name][addr] = method`. -/
def set_use (uses : List (String × List (Address × String))) (name : String) (addr : Address)
    (method : String) : List (String × List (Address × String)) :=
  let put (u : List (Address × String)) : List (Address × String) :=
    if u.any (fun e => decide (e.1 = addr)) then
      u.map (fun e => if e.1 = addr then (addr, method) else e)
    else u ++ [(addr, method)]
  if uses.any (fun e => decide (e.1 = name)) then
    uses.map (fun e => if e.1 = name then (name, put e.2) else e)
  else uses ++ [(name, put [])]

/-- The annotations of one method in `update_metadata`. -/
def uses_of_annotations (env : Env) (name : String) :
    List Annotation → List (String × List (Address × String)) →
      List (String × List (Address × String))
  | [], uses => uses
  | a :: rest, uses =>
    let uses' :=
      if a.name == env.UsesContract then
        match a.arguments.find? (fun e => decide (e.1 = env.UsesContractAddr)) with
        | none => uses
        | some arg =>
          match env.address_of_base58 arg.2 with
          | none => uses
          | some addr =>
            if addr.is_valid then
              let method :=
                match a.arguments.find? (fun e => decide (e.1 = env.UsesContractMethod)) with
                | some m => m.2
                | none => ""
              set_use uses name addr method
            else uses
      else uses
    uses_of_annotations env name rest uses'

/-- The loop over `result.methods` in `update_metadata`. -/
def scan_methods (env : Env) : List MethodDescription → StateItem → StateItem
  | [], state => state
  | m :: rest, state =>
    let state1 := { state with payable := payable_of_method env state.payable m }
    let state2 := { state1 with uses := uses_of_annotations env m.name m.annotations state1.uses }
    scan_methods env rest state2

/-- Embeds `SmartContracts::update_metadata`; the result is the returned flag, the new value of the
`StateItem` passed by reference, and the object (for `execution_allowed`). -/
def update_metadata (env : Env) (s : SmartContracts) (contract : SmartContractInvocation)
    (state : StateItem) : Bool × StateItem × SmartContracts :=
  if !env.has_exec_handler then (false, state, s)
  else
    let result := env.getContractMethods contract.byteCodeObjects
    if result.status_code ≠ 0 then
      (false, state, { s with execution_allowed := env.isConnect })
    else
      (true, scan_methods env result.methods { state with payable := .Absent }, s)

/-- Embeds `SmartContracts::is_payable`. -/
def is_payable (env : Env) (s : SmartContracts) (abs_addr : Address) : Bool × SmartContracts :=
  match s.find_contract abs_addr with
  | none => (false, s)
  | some state =>
    if state.payable != .Unknown then (implements_payable state.payable, s)
    else
      match find_deploy_info env s abs_addr with
      | none => (false, s)
      | some deploy =>
        let r := update_metadata env s deploy state
        let s' := r.2.2.set_contract abs_addr r.2.1
        if !r.1 then (false, s') else (implements_payable r.2.1.payable, s')

/-- Embeds `SmartContracts::is_payable_target`. -/
def is_payable_target (env : Env) (s : SmartContracts) (tr : Transaction) :
    Bool × SmartContracts :=
  let abs_addr := env.absolute_address tr.target
  if !in_known_contracts env s abs_addr then (false, s)
  else is_payable env s abs_addr

/-- Embeds `SmartContracts::get_smart_contract_impl`. -/
def get_smart_contract_impl (env : Env) (s : SmartContracts) (tr : Transaction) :
    Option SmartContractInvocation × SmartContracts :=
  let r :=
    if !is_smart_contract tr then is_payable_target env s tr else (false, s)
  let is_replenish_contract := r.1
  let s1 := r.2
  if !is_smart_contract tr && !is_replenish_contract then (none, s1)
  else
    let abs_addr := env.absolute_address tr.target
    if is_new_state tr || is_replenish_contract then
      (find_deploy_info env s1 abs_addr, s1)
    else
      let fld := tr.user_field uf.Code
      if fld.is_valid then
        let data := fld.value_string
        if !data.isEmpty then
          let invoke := env.deserialize data
          if invoke.method.isEmpty then (some invoke, s1)
          else
            match find_deploy_info env s1 abs_addr with
            | some deploy =>
              (some { deploy with method := invoke.method, params := invoke.params }, s1)
            | none => (none, s1)
        else (none, s1)
      else (none, s1)


/-- Embeds `SmartContracts::print_executed_method`, streamed into `cslog()` by its callers: only
its effect on the object is kept (the lookups may refresh contract metadata). -/
def print_executed_method (env : Env) (s : SmartContracts) (ref : SmartContractRef) :
    SmartContracts :=
  if !env.cslog_enabled then s
  else
    let t := get_transaction env ref
    if !t.is_valid then s
    else if is_executable t then (get_smart_contract_impl env s t).2
    else (is_payable_target env s t).2

/-- Embeds `SmartContracts::get_executed_method_name`. -/
def get_executed_method_name (env : Env) (s : SmartContracts) (ref : SmartContractRef) :
    String × SmartContracts :=
  let t := get_transaction env ref
  if !t.is_valid then ("", s)
  else if is_executable t then
    let r := get_smart_contract_impl env s t
    match r.1 with
    | none => ("", r.2)
    | some invoke_info =>
      if invoke_info.method.isEmpty then ("constructor", r.2) else (invoke_info.method, r.2)
  else
    let r := is_payable_target env s t
    if r.1 then (env.PayableName, r.2) else ("", r.2)

/-- Modelled from the spec: `find_in_queue` of smartcontracts.hpp, the position of the
first queue item that holds an execution started by `item`; the length of the queue stands
for `exe_queue.end()`. -/
def find_in_queue (s : SmartContracts) (item : SmartContractRef) : Nat :=
  s.exe_queue.findIdx (fun it => it.executions.any (fun e => e.ref_start.same item))

/-- Modelled from the spec: `find_in_queue_item` of smartcontracts.hpp, the position in
`it.executions` of the execution started by `item`, the length for `end()`. -/
def find_in_queue_item (it : QueueItem) (item : SmartContractRef) : Nat :=
  it.executions.findIdx (fun e => e.ref_start.same item)

/-- Modelled from the spec: `is_locked` of smartcontracts.hpp, the lock flag of a registered
contract; an address that is not registered is not locked. -/
def is_locked (s : SmartContracts) (abs_addr : Address) : Bool :=
  match s.find_contract abs_addr with
  | some st => st.is_locked
  | none => false

/-- Embeds `SmartContracts::update_lock_status(const csdb::Address&, bool)`. -/
def update_lock_status (s : SmartContracts) (abs_addr : Address) (value : Bool) :
    SmartContracts :=
  match s.find_contract abs_addr with
  | some st =>
    if st.is_locked != value then s.set_contract abs_addr { st with is_locked := value } else s
  | none => s

/-- Modelled from the spec: `update_lock_status(const QueueItem&, bool)` of
smartcontracts.hpp sets the lock of the item's contract and of every contract in the uses
lists of its executions ("its own address or any address in its executions' expanded uses
set"). -/
def update_lock_status_item (env : Env) (s : SmartContracts) (item : QueueItem) (value : Bool) :
    SmartContracts :=
  (item.executions.flatMap (fun e => e.uses)).foldl
    (fun acc u => update_lock_status acc (env.absolute_address u) value)
    (update_lock_status s item.abs_addr value)

/-- Embeds `SmartContracts::update_status`: the new value of the item passed by reference, and the
object. -/
def update_status (env : Env) (s : SmartContracts) (item : QueueItem) (r : Sequence)
    (status : SmartContractStatus) : QueueItem × SmartContracts :=
  let item1 := { item with status := status }
  match status with
  | .Waiting => ({ item1 with seq_enqueue := r }, s)
  | .Running =>
    let item2 := { item1 with seq_start := r }
    (item2, update_lock_status_item env s item2 true)
  | .Finished => ({ item1 with seq_finish := r }, s)
  | .Closed => (item1, update_lock_status_item env s item1 false)
  | .Idle => (item1, s)

/-- Writes the queue item at position `i`. -/
def set_item (s : SmartContracts) (i : Nat) (item : QueueItem) : SmartContracts :=
  { s with exe_queue := s.exe_queue.set i item }

/-- Embeds `update_status` applied to the queue item at position `i`. -/
def update_status_at (env : Env) (s : SmartContracts) (i : Nat) (r : Sequence)
    (status : SmartContractStatus) : SmartContracts :=
  match s.exe_queue.get? i with
  | none => s
  | some item =>
    let u := update_status env s item r status
    set_item u.2 i u.1

/-- Embeds `SmartContracts::remove_from_queue(queue_iterator)`; afterwards position `i` holds the
element that followed. -/
def remove_from_queue_at (env : Env) (s : SmartContracts) (i : Nat) : SmartContracts :=
  match s.exe_queue.get? i with
  | none => s
  | some it =>
    let s1 := it.executions.foldl (fun acc e => print_executed_method env acc e.ref_start) s
    let s2 := if it.status = .Closed then update_lock_status_item env s1 it false else s1
    { s2 with exe_queue := s2.exe_queue.eraseIdx i }

/-- Embeds `SmartContracts::remove_from_queue(const SmartContractRef&)`. -/
def remove_from_queue (env : Env) (s : SmartContracts) (item : SmartContractRef) :
    SmartContracts :=
  let i := find_in_queue s item
  match s.exe_queue.get? i with
  | none => s
  | some it =>
    let j := find_in_queue_item it item
    let s1 :=
      match it.executions.get? j with
      | some execution =>
        set_item (print_executed_method env s execution.ref_start) i
          { it with executions := it.executions.eraseIdx j }
      | none => s
    match s1.exe_queue.get? i with
    | some it1 => if it1.executions.isEmpty then remove_from_queue_at env s1 i else s1
    | none => s1

/-- Embeds `SmartContracts::test_contracts_locks`. -/
def test_contracts_locks (s : SmartContracts) : SmartContracts :=
  if s.exe_queue.any (fun e => e.status = .Running || e.status = .Finished) then s
  else { s with known_contracts := s.known_contracts.map (fun e => (e.1, { e.2 with is_locked := false })) }

/-- Embeds `SmartContracts::smart_round_fee`. -/
def smart_round_fee (block : Pool) : Amount :=
  (block.transactions.map (fun t => t.counted_fee)).sum

/-- Embeds `SmartContracts::QueueItem::add`. -/
def QueueItem.add (env : Env) (item : QueueItem) (ref_contract : SmartContractRef)
    (tr_start : Transaction) : QueueItem :=
  let tr_start_fee := tr_start.counted_fee
  let new_state_fee := tr_start_fee
  let avail_fee := tr_start.max_fee - tr_start_fee - new_state_fee
  let uses : List Address :=
    if is_executable tr_start then
      let fld := tr_start.user_field uf.Methods
      if fld.is_valid then
        let data := fld.value_string
        if !data.isEmpty then
          ((env.deserialize data).usedContracts.map env.getAddressFromKey).filter Address.is_valid
        else []
      else []
    else []
  let avail_fee := avail_fee - new_state_fee * uses.length
  { item with
    executions := item.executions ++
      [{ ref_start := ref_contract, avail_fee := avail_fee, new_state_fee := new_state_fee,
         consumed_fee := 0, uses := uses, result := [] }] }

/-- Modelled from the spec: the constructor `QueueItem(ref, abs_addr, tr_start)` of
smartcontracts.hpp creates a waiting item for the contract and adds the call. -/
def QueueItem.create (env : Env) (ref_contract : SmartContractRef) (abs_addr : Address)
    (tr_start : Transaction) : QueueItem :=
  QueueItem.add env
    { executions := [], status := .Waiting, seq_enqueue := 0, seq_start := 0, seq_finish := 0,
      abs_addr := abs_addr, is_executor := false, is_rejected := false }
    ref_contract tr_start

/-- The first loop of `execute_async`: the job list, or `none` when a call is neither
executable nor a replenish of a payable contract. -/
def execute_async_collect (env : Env) :
    List ExecutionItem → SmartContracts → List (SmartContractRef × Amount) →
      Option (List (SmartContractRef × Amount)) × SmartContracts
  | [], s, acc => (some acc, s)
  | execution :: rest, s, acc =>
    let start_tr := get_transaction env execution.ref_start
    if !is_executable start_tr then
      let r := is_payable_target env s start_tr
      if !r.1 then (none, r.2)
      else execute_async_collect env rest r.2 (acc ++ [(execution.ref_start, execution.avail_fee)])
    else execute_async_collect env rest s (acc ++ [(execution.ref_start, execution.avail_fee)])

/-- Embeds `SmartContracts::execute_async`: the job handed to the executor task is recorded as an
`execute` event; its completion comes back through `on_execution_completed_impl`. -/
def execute_async (env : Env) (s : SmartContracts) (executions : List ExecutionItem) :
    Bool × SmartContracts :=
  let r := execute_async_collect env executions s []
  match r.1 with
  | none => (false, r.2)
  | some data_list =>
    if data_list.isEmpty then (false, r.2) else (true, r.2.emit (.execute data_list))

/-- The loop of `test_executor_availability` over the queue. -/
def refresh_running_metadata (env : Env) : List QueueItem → SmartContracts → SmartContracts
  | [], s => s
  | exe_item :: rest, s =>
    if exe_item.status = .Running || exe_item.status = .Finished then
      if !is_metadata_actual s exe_item.abs_addr then
        match find_deploy_info env s exe_item.abs_addr with
        | some deploy =>
          match s.find_contract exe_item.abs_addr with
          | some st =>
            let r := update_metadata env s deploy st
            let s1 := r.2.2.set_contract exe_item.abs_addr r.2.1
            if !r.1 && !s1.execution_allowed then s1
            else refresh_running_metadata env rest s1
          | none => refresh_running_metadata env rest s
        | none => refresh_running_metadata env rest s
      else refresh_running_metadata env rest s
    else refresh_running_metadata env rest s

/-- Embeds `SmartContracts::test_executor_availability`. -/
def test_executor_availability (env : Env) (s : SmartContracts) : Bool × SmartContracts :=
  if !s.execution_allowed then
    let s1 := { s with execution_allowed := env.has_exec_handler && env.isConnect }
    if s1.execution_allowed then
      let s2 := refresh_running_metadata env s1.exe_queue s1
      (s2.execution_allowed, s2)
    else (false, s1)
  else (true, s)

/-- The test `wait_until_unlock` of `test_exe_queue` for a waiting item. -/
def wait_until_unlock (env : Env) (s : SmartContracts) (it : QueueItem) : Bool :=
  if is_locked s it.abs_addr then true
  else it.executions.any (fun execution =>
    execution.uses.any (fun u => is_locked s (env.absolute_address u)))

/-- The test `it->is_executor && !execution_allowed && !test_executor_availability()` of
`test_exe_queue`, with the effect of the call it makes. -/
def executor_unavailable (env : Env) (s : SmartContracts) (it : QueueItem) :
    Bool × SmartContracts :=
  if it.is_executor && !s.execution_allowed then
    let r := test_executor_availability env s
    (!r.1, r.2)
  else (false, s)

/-- The branch of `test_exe_queue` taken when the executor is not available: the item at
position `i` gives up the executor role and, if this node is among the confidants of the
call, the fake stages are sent for the first execution. -/
def skip_execution (env : Env) (s : SmartContracts) (i : Nat) (it : QueueItem) :
    SmartContracts :=
  let s1 := set_item s i { it with is_executor := false }
  let confidants := env.retriveSmartConfidants it.seq_enqueue
  if confidants.any (fun conf => decide (conf = s1.node_id)) then
    match it.executions.head? with
    | some e => s1.emit (.fake_stages e.ref_start)
    | none => s1
  else s1

/-- What `test_exe_queue` does with a waiting item at position `i` that nothing locks: the
item becomes Running and, on a node that has to execute it, the job is started (or the
fake stages are sent when the executor is unavailable). -/
def start_item (env : Env) (s : SmartContracts) (i : Nat) : SmartContracts :=
  let s1 := update_status_at env s i env.getLastSequence .Running
  match s1.exe_queue.get? i with
  | none => s1
  | some it =>
    if it.is_executor || s1.force_execution then
      let u := executor_unavailable env s1 it
      if u.1 then skip_execution env u.2 i it
      else (execute_async env u.2 it.executions).2
    else s1

/-- The body of the loop of `test_exe_queue` for the item `it` found at position `i`: the
new object and the position the iterator moves to. -/
def test_exe_queue_step (env : Env) (s : SmartContracts) (i : Nat) (it : QueueItem) :
    SmartContracts × Nat :=
  if it.status = .Closed then (remove_from_queue_at env s i, i)
  else if it.executions.isEmpty then (remove_from_queue_at env s i, i)
  else if it.status = .Running then (s, i + 1)
  else if it.status = .Finished then (s, i + 1)
  else if wait_until_unlock env s it then (s, i + 1)
  else (start_item env s i, i + 1)

/-- The loop of `test_exe_queue`: `i` is the position of the iterator, `fuel` bounds the
number of iterations (every iteration removes the item at `i` or advances `i`, so the
length of the queue is enough). -/
def test_exe_queue_loop (env : Env) : Nat → Nat → SmartContracts → SmartContracts
  | 0, _, s => s
  | fuel + 1, i, s =>
    match s.exe_queue.get? i with
    | none => s
    | some it =>
      test_exe_queue_loop env fuel (test_exe_queue_step env s i it).2
        (test_exe_queue_step env s i it).1

/-- Embeds `SmartContracts::test_exe_queue`. -/
def test_exe_queue (env : Env) (s : SmartContracts) : SmartContracts :=
  test_exe_queue_loop env s.exe_queue.length 0 s


/-- Embeds `SmartContracts::next_inner_id`. -/
def next_inner_id (env : Env) (addr : Address) : Nat :=
  match env.lastTransactionId (env.absolute_address addr) with
  | some last => last + 1
  | none => 1

/-- Embeds `SmartContracts::create_new_state`. The two fees are handed to the constructor of
the transaction as `csdb::AmountCommission(x.to_double())`. -/
def create_new_state (env : Env) (item : ExecutionItem) (new_id : Int) : Transaction :=
  let src := get_transaction env item.ref_start
  if !src.is_valid then Transaction.invalid
  else
    let built : Transaction :=
      { is_valid := true, innerID := new_id, source := src.target, target := src.target,
        currency := src.currency, amount := 0,
        max_fee := env.amount_commission (item.avail_fee - item.consumed_fee),
        counted_fee := env.amount_commission item.new_state_fee,
        signature := [], user_fields := [] }
    let result := { built with is_valid := env.built_is_valid built }
    let result := result.add_user_field uf.RefStart (item.ref_start.to_user_field env)
    result.add_user_field uf.Fee (.amount item.consumed_fee)

/-- Modelled from the spec: `SmartExecutionData::setError` (smartcontracts.hpp) as used by
`test_exe_conditions`, a result without new state whose return value is the error code.
The data is otherwise default-constructed. -/
def error_data (ref : SmartContractRef) (code : Nat) (message : String) : SmartExecutionData :=
  { contract_ref := ref, executor_fee := 0, error := message, newState := [],
    retValue := .v_byte code, trxns := [], states := [] }

/-- The loop over `data_item.result.trxns` in `on_execution_completed_impl`. -/
def add_emitted : List Transaction → Int → TransactionsPacket → Int × TransactionsPacket
  | [], next_id, packet => (next_id, packet)
  | tr :: rest, next_id, packet =>
    if tr.innerID = 0 then
      add_emitted rest (next_id + 1) (packet ++ [{ tr with innerID := next_id + 1 }])
    else add_emitted rest next_id (packet ++ [tr])

/-- The loop over `data_item.result.states` in `on_execution_completed_impl`; `call` is the
execution found again through `find_in_queue_item`. -/
def add_subsequent_states (env : Env) (call : Option ExecutionItem) :
    List (Address × Bytes) → Int → TransactionsPacket → Int × TransactionsPacket
  | [], next_id, packet => (next_id, packet)
  | (addr, state) :: rest, next_id, packet =>
    match call with
    | none => add_subsequent_states env call rest next_id packet
    | some it_call =>
      let t := create_new_state env it_call (next_id + 1)
      if t.is_valid then
        let t := { t with innerID := (next_inner_id env addr : Int), source := addr, target := addr }
        let t := t.add_user_field uf.Value (.string state)
        let t := t.add_user_field uf.Fee (.amount 0)
        let t := set_return_value env t .unset
        add_subsequent_states env call rest (next_id + 1) (packet ++ [t])
      else add_subsequent_states env call rest (next_id + 1) packet

/-- State of the loop over `data_list` in `on_execution_completed_impl`. -/
structure CompletionLoop where
  s : SmartContracts
  next_id : Int
  integral_packet : TransactionsPacket
  returned : Bool

/-- One iteration of the loop over `data_list` in `on_execution_completed_impl`, for the
queue item at position `i`; `returned` records the `return` taken when the starter of a
call cannot be loaded. -/
def completion_step (env : Env) (i : Nat) (l : CompletionLoop) (data_item : SmartExecutionData) :
    CompletionLoop :=
  if l.returned then l
  else
    match l.s.exe_queue.get? i with
    | none => l
    | some it =>
      let j := find_in_queue_item it data_item.contract_ref
      match it.executions.get? j with
      | none => l
      | some execution0 =>
        let execution := { execution0 with consumed_fee := data_item.executor_fee, result := [] }
        let next_id : Int :=
          if l.next_id > 0 then l.next_id + 1
          else
            let starter := get_transaction env execution.ref_start
            if starter.is_valid then
              (next_inner_id env (env.absolute_address starter.target) : Int)
            else 1
        let result := create_new_state env execution next_id
        let write (e : ExecutionItem) : SmartContracts :=
          set_item l.s i { it with executions := it.executions.set j e }
        let fallback : Option Transaction :=
          if !result.is_valid then
            let tmp := get_transaction env data_item.contract_ref
            if !tmp.is_valid then none
            else
              let fake :=
                QueueItem.create env data_item.contract_ref (env.absolute_address tmp.target) tmp
              match fake.executions.head? with
              | some e => some (create_new_state env e next_id)
              | none => some result
          else some result
        match fallback with
        | none =>
          { s := write execution, next_id := next_id, integral_packet := l.integral_packet,
            returned := true }
        | some result =>
          if !data_item.error.isEmpty then
            let result := result.add_user_field uf.Value (.string [])
            let result := set_return_value env result data_item.retValue
            let packet := [result]
            { s := write { execution with result := packet }, next_id := next_id,
              integral_packet := l.integral_packet ++ packet, returned := false }
          else
            let result := result.add_user_field uf.Value (.string data_item.newState)
            let result := set_return_value env result data_item.retValue
            let r1 := add_emitted data_item.trxns next_id [result]
            let r2 := add_subsequent_states env (some execution) data_item.states r1.1 r1.2
            { s := write { execution with result := r2.2 }, next_id := r2.1,
              integral_packet := l.integral_packet ++ r2.2, returned := false }

/-- Embeds `SmartContracts::on_execution_completed_impl`. -/
def on_execution_completed_impl (env : Env) (s : SmartContracts)
    (data_list : List SmartExecutionData) : SmartContracts :=
  match data_list.head? with
  | none => s
  | some front =>
    let i := find_in_queue s front.contract_ref
    match s.exe_queue.get? i with
    | none => s
    | some it =>
      if it.status = .Finished || it.status = .Closed then s
      else
        let s1 := update_status_at env s i env.getLastSequence .Finished
        let l := data_list.foldl (completion_step env i)
          { s := s1, next_id := 0, integral_packet := [], returned := false }
        if l.returned then l.s
        else
          match l.s.exe_queue.get? i with
          | none => l.s
          | some it1 =>
            let started : Bool × SmartContracts :=
              if !it1.is_executor then (false, l.s)
              else
                (env.start_consensus it1 l.integral_packet,
                  l.s.emit (.start_consensus (it1.executions.map (fun e => e.ref_start))
                    l.integral_packet))
            let s2 := if !started.1 then remove_from_queue_at env started.2 i else started.2
            s2.emit (.smart_executed l.integral_packet)

/-- The loop over `item.executions` of the out-of-fee test in `test_exe_conditions`:
the executions with the round fee added, up to and including the first that is out of fee,
and whether one was. -/
def charge_round_fee (add_fee : Amount) : List ExecutionItem → List ExecutionItem × Bool
  | [] => ([], false)
  | execution :: rest =>
    let e := { execution with consumed_fee := execution.consumed_fee + add_fee }
    if e.avail_fee < e.consumed_fee then (e :: rest, true)
    else
      let r := charge_round_fee add_fee rest
      (e :: r.1, r.2)

/-- The signals of the unconditional timeout in `test_exe_conditions`. -/
def timeout_signals (env : Env) (s : SmartContracts) (executions : List ExecutionItem) :
    SmartContracts :=
  executions.foldl
    (fun acc execution =>
      let starter := get_transaction env execution.ref_start
      if starter.is_valid && !is_executable starter then acc.emit (.payable_timeout starter)
      else acc)
    s

/-- Cancels the queue item at position `i` from `test_exe_conditions`: on an executor node
the completion handler is run with the error for every execution, otherwise the item is
marked Finished. -/
def cancel_item (env : Env) (s : SmartContracts) (i : Nat) (it : QueueItem) (seq : Sequence)
    (code : Nat) (message : String) : SmartContracts :=
  if it.is_executor then
    let data_list := it.executions.map (fun e => error_data e.ref_start code message)
    if !data_list.isEmpty then on_execution_completed_impl env s data_list else s
  else update_status_at env s i seq .Finished

/-- Modelled from the spec: the error codes `TimeExpired=1`, `OutOfFunds=2`,
`ConsensusRejected=6` of `cs::error`. -/
def error_TimeExpired : Nat := 1
def error_OutOfFunds : Nat := 2
def error_ConsensusRejected : Nat := 6

/-- The body of the loop of `test_exe_conditions` for the item found at position `i`. -/
def test_exe_conditions_step (env : Env) (block : Pool) (s : SmartContracts) (i : Nat)
    (item : QueueItem) : SmartContracts :=
  let seq := block.sequence
  if item.status ≠ .Running ∧ item.status ≠ .Finished then s
  else if seq > item.seq_start ∧ seq - item.seq_start > env.MaxRoundsCancelContract then
    timeout_signals env (update_status_at env s i seq .Closed) item.executions
  else if item.status = .Running then
    if seq > item.seq_start ∧ seq - item.seq_start > env.MaxRoundsExecuteContract then
      cancel_item env s i item seq error_TimeExpired "contract execution timeout"
    else
      let r := charge_round_fee (smart_round_fee block) item.executions
      let item1 := { item with executions := r.1 }
      let s1 := set_item s i item1
      if r.2 then
        cancel_item env s1 i item1 seq error_OutOfFunds "contract execution is out of funds"
      else s1
  else s

/-- The loop of `test_exe_conditions` over the queue, `for (auto& item : exe_queue)`, with the
iterator at position `i`. A turn that runs the completion handler can erase an item of the
queue (`remove_from_queue`, when the consensus is not started); the iterator of the range-for
is then invalid, and what the source does next is undefined: the pass has no result. -/
def test_exe_conditions_loop (env : Env) (block : Pool) : Nat → Nat → SmartContracts →
    Option SmartContracts
  | 0, _, s => some s
  | fuel + 1, i, s =>
    match s.exe_queue.get? i with
    | none => some s
    | some item =>
      let s' := test_exe_conditions_step env block s i item
      if s'.exe_queue.length < s.exe_queue.length then none
      else test_exe_conditions_loop env block fuel (i + 1) s'

/-- Embeds `SmartContracts::test_exe_conditions`; `none` when an item is erased during the
range-for (see `test_exe_conditions_loop`). -/
def test_exe_conditions (env : Env) (s : SmartContracts) (block : Pool) :
    Option SmartContracts :=
  if s.exe_queue.isEmpty then some s
  else test_exe_conditions_loop env block s.exe_queue.length 0 s


/-- Number of `uses` entries the executor reports for the deploy transaction recorded for a
contract. -/
def reported_uses (env : Env) (st : StateItem) : Nat :=
  ((env.getContractMethods
      (env.deserialize ((get_transaction env st.ref_deploy).user_field uf.Code).value_string).byteCodeObjects).methods.map
    (fun m => m.annotations.length)).sum

/-- A bound on the depth of the recursion of `add_uses_from`: every level appends to `uses`
an address that was not yet in it, taken from a `uses` table that is either present in
`known_contracts` or filled in by `update_metadata` from the executor's answer for the
deploy transaction of a registered contract. -/
def uses_fuel (env : Env) (s : SmartContracts) : Nat :=
  1 + (s.known_contracts.map (fun e => (e.2.uses.map (fun u => u.2.length)).sum)).sum
    + s.known_contracts.length * (s.known_contracts.map (fun e => reported_uses env e.2)).sum

/-- Embeds `SmartContracts::add_uses_from`; `fuel` bounds the depth of the recursion. The result
is the vector `uses` passed by reference, and the object. -/
def add_uses_from (env : Env) : Nat → SmartContracts → Address → String → List Address →
    List Address × SmartContracts
  | 0, s, _, _, uses => (uses, s)
  | fuel + 1, s, abs_addr, method, uses =>
    match s.find_contract abs_addr with
    | none => (uses, s)
    | some st =>
      let s1 : SmartContracts :=
        if st.uses.isEmpty && st.payable == .Unknown then
          let t := get_transaction env st.ref_deploy
          if t.is_valid then
            let r := get_smart_contract_impl env s t
            match r.1 with
            | some invoke_info =>
              let u := update_metadata env r.2 invoke_info (r.2.contract_or_default abs_addr)
              let s' := u.2.2.set_contract abs_addr u.2.1
              if !u.1 then { s' with execution_allowed := false } else s'
            | none => r.2
          else s
        else s
      let subcalls := ((s1.contract_or_default abs_addr).uses.filter
        (fun e => decide (e.1 = method))).flatMap (fun e => e.2)
      subcalls.foldl
        (fun (acc : List Address × SmartContracts) sub =>
          if acc.1.contains sub.1 then acc
          else add_uses_from env fuel acc.2 sub.1 sub.2 (acc.1 ++ [sub.1]))
        (uses, s1)

/-- Modelled from the spec: `contains_me` of smartcontracts.hpp, this node is among the
confidants. -/
def contains_me (s : SmartContracts) (confidants : List Bytes) : Bool :=
  confidants.any (fun c => decide (c = s.node_id))

/-- The metadata refresh of `enqueue` for a call that opens a new queue item. -/
def enqueue_metadata (env : Env) (s : SmartContracts) (new_item : SmartContractRef)
    (t : Transaction) (abs_addr : Address) : SmartContracts :=
  if is_deploy env t then
    let r := get_smart_contract_impl env s t
    match r.1 with
    | some invoke_info =>
      let state := { r.2.contract_or_default abs_addr with ref_deploy := new_item }
      let u := update_metadata env (r.2.set_contract abs_addr state) invoke_info state
      u.2.2.set_contract abs_addr u.2.1
    | none => r.2
  else
    let s1 :=
      if !is_metadata_actual s abs_addr then
        let r := get_smart_contract_impl env s t
        match r.1 with
        | some invoke_info =>
          let state := r.2.contract_or_default abs_addr
          let u := update_metadata env (r.2.set_contract abs_addr state) invoke_info state
          u.2.2.set_contract abs_addr u.2.1
        | none => r.2
      else s
    (is_payable env s1 abs_addr).2

/-- Embeds `SmartContracts::enqueue`. -/
def enqueue (env : Env) (s : SmartContracts) (block : Pool) (trx_idx : Nat) : SmartContracts :=
  if trx_idx ≥ block.transactions.length then s
  else
    let new_item : SmartContractRef :=
      { hash := block.hash, sequence := block.sequence, transaction := trx_idx }
    let t := block.transactions.getD trx_idx Transaction.invalid
    let abs_addr := env.absolute_address t.target
    if find_in_queue s new_item < s.exe_queue.length then s
    else
      let pos := s.exe_queue.findIdx
        (fun it => it.seq_enqueue == new_item.sequence && decide (it.abs_addr = abs_addr))
      let s1 : SmartContracts :=
        match s.exe_queue.get? pos with
        | none =>
          let s' := print_executed_method env (enqueue_metadata env s new_item t abs_addr) new_item
          { s' with exe_queue := s'.exe_queue ++ [QueueItem.create env new_item abs_addr t] }
        | some it => set_item s pos (QueueItem.add env it new_item t)
      match s1.exe_queue.get? pos with
      | none => s1
      | some it =>
        let finish (s' : SmartContracts) : SmartContracts :=
          match s'.exe_queue.get? pos with
          | none => s'
          | some it' =>
            let u := update_status env s' it' new_item.sequence .Waiting
            set_item u.2 pos { u.1 with is_executor := contains_me u.2 block.confidants }
        let j := find_in_queue_item it new_item
        match it.executions.get? j with
        | none => finish s1
        | some execution =>
          let m := get_executed_method_name env s1 new_item
          let cnt_0 := execution.uses.length
          let au := add_uses_from env (uses_fuel env m.2) m.2 abs_addr m.1 execution.uses
          let cnt := au.1.length
          let write (e : ExecutionItem) : SmartContracts :=
            set_item au.2 pos { it with executions := it.executions.set j e }
          if au.1.any (fun u => !in_known_contracts env au.2 u) then
            remove_from_queue env (write { execution with uses := au.1 }) new_item
          else
            finish (write
              { execution with
                uses := au.1,
                avail_fee := execution.avail_fee - execution.new_state_fee * ((cnt - cnt_0 : Nat) : Int),
                consumed_fee := execution.consumed_fee + smart_round_fee block })

/-- Erases from `replenish_contract` the first reference equal to `ref`, if any. -/
def erase_replenish (s : SmartContracts) (ref : SmartContractRef) : SmartContracts :=
  { s with replenish_contract :=
      s.replenish_contract.eraseIdx (s.replenish_contract.findIdx (fun r => r.same ref)) }

/-- Embeds `SmartContracts::update_contract_state`. -/
def update_contract_state (env : Env) (s : SmartContracts) (t : Transaction) (reading_db : Bool) :
    Bool × SmartContracts :=
  let fld := t.user_field uf.Value
  if !fld.is_valid then (false, s)
  else
    let state_value := fld.value_string
    if !state_value.isEmpty then
      let abs_addr := env.absolute_address t.target
      if abs_addr.is_valid then
        let item := { s.contract_or_default abs_addr with state := state_value }
        let fld := t.user_field uf.RefStart
        if fld.is_valid then
          let ref := SmartContractRef.from_user_field env fld
          let t_start := get_transaction env ref
          if t_start.is_valid then
            if is_executable t_start then
              if is_deploy env t_start then
                (true, s.set_contract abs_addr { item with ref_deploy := ref })
              else (true, s.set_contract abs_addr { item with ref_execute := ref })
            else
              let s1 := if reading_db then erase_replenish s ref else s
              (true, s1.set_contract abs_addr { item with ref_execute := ref })
          else (true, s.set_contract abs_addr item)
        else (true, s.set_contract abs_addr item)
      else (true, s)
    else
      let s1 :=
        if !s.replenish_contract.isEmpty then
          let fld := t.user_field uf.RefStart
          if fld.is_valid then
            let ref := SmartContractRef.from_user_field env fld
            if (get_transaction env ref).is_valid then erase_replenish s ref else s
          else s
        else s
      (false, s1)

/-- Embeds `SmartContracts::on_new_state`. -/
def on_new_state (env : Env) (s : SmartContracts) (block : Pool) (trx_idx : Nat) :
    SmartContracts :=
  let s1 : SmartContracts :=
    if !block.is_valid || decide (trx_idx ≥ block.transactions.length) then s
    else
      let new_state := get_transaction env
        { hash := block.hash, sequence := block.sequence, transaction := trx_idx }
      if !new_state.is_valid then s
      else
        let fld_contract_ref := new_state.user_field uf.RefStart
        if !fld_contract_ref.is_valid then s
        else
          let contract_ref := SmartContractRef.from_user_field env fld_contract_ref
          let s2 := (update_contract_state env s new_state false).2
          let abs_addr := env.absolute_address new_state.target
          let s3 := update_lock_status s2 abs_addr false
          remove_from_queue env s3 contract_ref
  test_exe_queue env s1

/-- The dispatch of one transaction of a stored block in `on_store_block`. -/
def inspect_transaction (env : Env) (s : SmartContracts) (block : Pool) (tr_idx : Nat)
    (tr : Transaction) : SmartContracts :=
  if is_smart_contract tr then
    let is_deploy := is_deploy env tr
    let is_start := if is_deploy then false else is_start env tr
    if is_deploy || is_start then enqueue env s block tr_idx
    else if is_new_state tr then on_new_state env s block tr_idx
    else s
  else
    let r := is_payable_target env s tr
    if r.1 then enqueue env (r.2.emit (.payable_invoke tr)) block tr_idx
    else
      let abs_addr := env.absolute_address tr.source
      match r.2.find_contract abs_addr with
      | some state =>
        let starter := get_transaction env state.ref_execute
        if implements_payable state.payable && starter.is_valid then
          r.2.emit (.emitted_accepted tr starter)
        else r.2
      | none => r.2

/-- The loop of `on_store_block` over the transactions of the block. -/
def inspect_transactions (env : Env) (block : Pool) :
    List Transaction → Nat → SmartContracts → SmartContracts
  | [], _, s => s
  | tr :: rest, tr_idx, s =>
    inspect_transactions env block rest (tr_idx + 1) (inspect_transaction env s block tr_idx tr)

/-- Embeds `SmartContracts::on_store_block`; `none` when `test_exe_conditions` erases an
item during its range-for. -/
def on_store_block (env : Env) (s : SmartContracts) (block : Pool) : Option SmartContracts :=
  let s1 := (test_executor_availability env s).2
  match test_exe_conditions env s1 block with
  | none => none
  | some s2 =>
    let s3 := test_exe_queue env s2
    let s4 := test_contracts_locks s3
    let s5 := inspect_transactions env block block.transactions 0 s4
    some (test_exe_queue env s5)

/-- The scheduler as its constructor leaves it. -/
def SmartContracts.init (node_id : Bytes) (force_execution : Bool) : SmartContracts :=
  { known_contracts := [], exe_queue := [], replenish_contract := [], execution_allowed := true,
    force_execution := force_execution, node_id := node_id, log := [] }

end cs

namespace cs
namespace sample

open csdb

/-- A contract address and the key of the account that deploys and calls it. -/
def contract : Address := .public_key [1]
def user : Address := .public_key [9]

/-- Serialised invocations: `[1]` is a deploy (no method name), `[2]` a call of `m`. -/
def deserialize : Bytes → SmartContractInvocation
  | [2] => { method := "m", params := [], usedContracts := [], byteCodeObjects := [] }
  | _ => { method := "", params := [], usedContracts := [],
           byteCodeObjects := [{ name := "C", byteCode := [0] }] }

/-- A reference is serialised as sequence, transaction index, then the hash bytes. -/
def ref_to_bytes (r : SmartContractRef) : Bytes := r.sequence :: r.transaction :: r.hash.value

def ref_of_bytes : Bytes → Option SmartContractRef
  | seq :: trx :: hash => some { hash := ⟨hash⟩, sequence := seq, transaction := trx }
  | _ => none

/-- Block 1 holds the deploy of the contract (index 0) and a call of it (index 1), both
with `counted_fee` 1 and `max_fee` 100. -/
def tx_deploy : Transaction :=
  { is_valid := true, innerID := 1, source := user, target := contract, currency := 1,
    amount := 0, max_fee := 100, counted_fee := 1, signature := [],
    user_fields := [(0, .string [1])] }

def tx_start : Transaction :=
  { is_valid := true, innerID := 2, source := user, target := contract, currency := 1,
    amount := 0, max_fee := 100, counted_fee := 1, signature := [],
    user_fields := [(0, .string [2])] }

def block1 : Pool :=
  { is_valid := true, is_read_only := true, hash := ⟨[7, 1]⟩, previous_hash := ⟨[7, 0]⟩,
    sequence := 1, transactions := [tx_deploy, tx_start], confidants := [[3], [4]] }

/-- Block 2 holds the new-state transaction of the deploy: source and target are the
contract, `RefStart` names transaction 0 of block 1. -/
def tx_new_state : Transaction :=
  { is_valid := true, innerID := 1, source := contract, target := contract, currency := 1,
    amount := 0, max_fee := 97, counted_fee := 0, signature := [],
    user_fields :=
      [(-2, .string [5]), (1, .string (ref_to_bytes { hash := ⟨[7, 1]⟩, sequence := 1, transaction := 0 })),
       (2, .amount 0), (3, .string [])] }

def block2 : Pool :=
  { is_valid := true, is_read_only := true, hash := ⟨[7, 2]⟩, previous_hash := ⟨[7, 1]⟩,
    sequence := 2, transactions := [tx_new_state], confidants := [[3], [4]] }

/-- Block 2, variant: instead of a new-state it holds one more call of the contract. -/
def block2_call : Pool :=
  { is_valid := true, is_read_only := true, hash := ⟨[7, 2]⟩, previous_hash := ⟨[7, 1]⟩,
    sequence := 2, transactions := [tx_start], confidants := [[3], [4]] }

/-- A fee format of 16 bits: an amount below 1000 is held as it is, a larger one without its
last decimal digit. -/
def commission_bits (a : Amount) : Nat := if a < 1000 then a.toNat else 1000 + (a / 10).toNat

/-- The amount that 16 bits of the sample fee format stand for. -/
def commission_amount (n : Nat) : Amount := if n < 1000 then n else ((n - 1000) * 10 : Nat)

/-- The environment of a node whose chain is `chain` (block of sequence 1 first): the node
is attached to a connected executor that reports no methods for the contract, and the
consensus does not start. -/
def env (chain : List Pool) : Env :=
  { loadBlock := fun n => if n = 0 then Pool.invalid else chain.getD (n - 1) Pool.invalid
    getLastSequence := chain.length
    absolute_address := fun a => a
    getAddressFromKey := fun k => .public_key k
    lastTransactionId := fun _ => none
    deserialize := deserialize
    serialize_variant := fun _ => []
    ref_to_bytes := ref_to_bytes
    ref_of_bytes := ref_of_bytes
    has_exec_handler := true
    isConnect := true
    getContractMethods := fun _ => { status_code := 0, methods := [] }
    address_of_base58 := fun _ => none
    start_consensus := fun _ _ => false
    retriveSmartConfidants := fun _ => [[3], [4]]
    built_is_valid := fun _ => true
    commission_bits := commission_bits
    commission_amount := commission_amount
    cslog_enabled := true
    MaxRoundsCancelContract := 100
    MaxRoundsExecuteContract := 50
    PayableName := "payable"
    TypeVoid := "void"
    TypeString := "java.lang.String"
    TypeBigDecimal := "java.math.BigDecimal"
    TypeByteArray := "byte[]"
    UsesContract := "Contract"
    UsesContractAddr := "address"
    UsesContractMethod := "method" }

/-- The scheduler after `on_store_block`, for the sample runs, all of which have a result
(the scheduler is left as it is for a call that has none). -/
def store (env : Env) (s : SmartContracts) (block : Pool) : SmartContracts :=
  (on_store_block env s block).getD s

/-- The scheduler of node `[8]`, which is not among the confidants `[3]`, `[4]`, after
block 1 has been stored. -/
def after_block1 : SmartContracts :=
  store (env [block1]) (SmartContracts.init [8] false) block1

/-- The scheduler after block 1 and then block 2 (the new-state of the deploy). -/
def after_block2 : SmartContracts :=
  store (env [block1, block2]) after_block1 block2

/-- The scheduler after block 1 and then the variant of block 2 with one more call. -/
def after_block2_call : SmartContracts :=
  store (env [block1, block2_call]) after_block1 block2_call

/-- The second queue item of `after_block2_call`: the call of block 2, waiting. -/
def waiting_call : QueueItem :=
  { executions :=
      [{ ref_start := { hash := ⟨[7, 2]⟩, sequence := 2, transaction := 0 }, avail_fee := 98,
         new_state_fee := 1, consumed_fee := 1, uses := [], result := [] }],
    status := .Waiting, seq_enqueue := 2, seq_start := 0, seq_finish := 0, abs_addr := contract,
    is_executor := false, is_rejected := false }

end sample
end cs

namespace cs

open csdb

/-- Modelled from the spec: a digest (`cscrypto::kHashSize`) and a public key
(`cscrypto::kPublicKeySize`) have 32 bytes; the constants are declared in cscrypto, which is
not among the sources. -/
def kHashSize : Nat := 32
def kPublicKeySize : Nat := 32

/-- Modelled from the spec: `Address::public_key()` of csdb/address.h, the key of an address
in public-key form. The callers embedded here assume that form (`Assuming
deployer.is_public_key()`); the empty key stands for the value of the call on another
address, which the sources do not tell. -/
def public_key_of : Address → Bytes
  | .public_key key => key
  | _ => []

/-- The bytes of a `uint64_t` as they lie in memory, low-order byte first (the node is built
for little-endian hosts): what `reinterpret_cast<const cscrypto::Byte*>(&trId)` points to. -/
def uint64_bytes (x : Nat) : Bytes :=
  (List.range 8).map (fun k => x / 256 ^ k % 256)

/-- Modelled from the spec: `api::SmartContractDeploy`, as far as the address of a contract
depends on it. -/
structure SmartContractDeploy where
  byteCodeObjects : List ByteCodeObject
deriving DecidableEq, Repr

/-- The member `smartContractDeploy` of an invocation. -/
def SmartContractInvocation.smartContractDeploy (c : SmartContractInvocation) :
    SmartContractDeploy :=
  { byteCodeObjects := c.byteCodeObjects }

/-- Embeds `SmartContracts::get_valid_smart_address`; `calculateHash` stands for
`cscrypto::calculateHash`, and `trId` is taken as the `uint64_t` the parameter is. -/
def get_valid_smart_address (calculateHash : Bytes → Bytes) (deployer : Address) (trId : Nat)
    (data : SmartContractDeploy) : Address :=
  let kInnerIdSize := 6
  let byteCode : Bytes :=
    data.byteCodeObjects.foldl (fun acc curr_byteCode => acc ++ curr_byteCode.byteCode) []
  let dPk := public_key_of deployer
  let idPtr := uint64_bytes (trId % 2 ^ 64)
  let strToHash := dPk ++ idPtr.take kInnerIdSize ++ byteCode
  let hash := calculateHash strToHash
  let res := (List.range kPublicKeySize).map (fun k => if k < kHashSize then hash.getD k 0 else 0)
  Address.public_key res

/-- The contract address in the words of the specification: the address whose key is
`H(deployer_pk || inner_id(6 bytes) || concat_bytecode)`, the inner id given by its six
low-order bytes, least significant first. -/
def spec_contract_address (H : Bytes → Bytes) (deployer_pk : Bytes) (inner_id : Nat)
    (bytecode : List Bytes) : Address :=
  Address.public_key
    (H (deployer_pk ++ [inner_id % 256, inner_id / 256 % 256, inner_id / 256 ^ 2 % 256,
      inner_id / 256 ^ 3 % 256, inner_id / 256 ^ 4 % 256, inner_id / 256 ^ 5 % 256]
      ++ bytecode.flatten))


namespace sample

/-- A stand-in for the hash function: 32 bytes computed from the sum and the length of the
input. -/
def calculateHash (b : Bytes) : Bytes :=
  (List.range 32).map (fun k => (b.sum + k * b.length) % 256)

end sample

end cs

namespace cs

open csdb

/-- The markers `kInvalidMarker` and `kValidMarker` of itervalidator.cpp. -/
def kInvalidMarker : Nat := 0
def kValidMarker : Nat := 1

/-- Modelled from the spec: a `cs::TransactionsPacket` with what the validator reads of it,
the ordered transactions, the (confidant index, signature) list and the content hash. -/
structure Packet where
  transactions : List Transaction
  signatures : List (Nat × Bytes)
  hash : Bytes
deriving DecidableEq, Repr

/-- Modelled from the spec: `cs::Characteristic`, the holder of the mask. -/
structure Characteristic where
  mask : Bytes
deriving DecidableEq, Repr

/-- The collaborators of the validator, reached through `SolverContext` and `pTransval_`,
none of which is among the sources; `σ` is the state of the `TransactionsValidator` and of
the wallets it works on. -/
structure SolverContext (σ : Type) where
  /-- The collaborators of the scheduler `context.smart_contracts()`; `env.loadBlock` is
  `context.blockchain().loadBlock`. -/
  env : Env
  /-- Stands for `BlockChain::getAddressByType(addr, AddressType::PublicKey)`. -/
  getAddressByType : Address → Address
  /-- Stands for `BlockChain::findWalletData`: the key `address_` stored for a wallet id. -/
  findWalletData : Nat → Bytes
  /-- Stands for `csdb::Transaction::verify_signature`. -/
  verify_signature : Transaction → Bytes → Bool
  /-- Stands for `cscrypto::verifySignature(signature, public_key, hash, kHashSize)`. -/
  verifySignature : Bytes → Bytes → Bytes → Bool
  /-- Stands for `cscrypto::calculateHash`. -/
  calculateHash : Bytes → Bytes
  /-- The field id `trx_uf::smart_gen::RefStart`. -/
  smart_gen_RefStart : Int
  /-- The fee `BlockChain::setTransactionsFees` stores in the transaction at an index. -/
  fee : List Transaction → Bytes → Nat → Amount
  /-- Stands for `context.wallets().updateFromSource()`. -/
  updateFromSource : σ → σ
  /-- Stands for `TransactionsValidator::reset`. -/
  reset : σ → Nat → σ
  /-- Stands for `TransactionsValidator::validateTransaction`. -/
  validateTransaction : σ → SmartContracts → List Transaction → Nat → Bool × σ
  /-- Stands for `TransactionsValidator::checkRejectedSmarts`: the number of restored
  transactions, and the mask passed by reference. -/
  checkRejectedSmarts : σ → SmartContracts → List Transaction → Bytes → Nat × Bytes × σ
  /-- Stands for `TransactionsValidator::validateByGraph`, with the mask passed by reference. -/
  validateByGraph : σ → SmartContracts → Bytes → List Transaction → Bytes × σ
  /-- Stands for `TransactionsValidator::addRejectedNewState`. -/
  addRejectedNewState : σ → Address → σ
  /-- Stands for `TransactionsValidator::clearCaches`. -/
  clearCaches : σ → σ

/-- The data of `cs::IterValidator`, together with the scheduler the context gives access
to. -/
structure IterValidator (σ : Type) where
  pTransval : σ
  smartSourceInvalidSignatures : List Address
  smart_contracts : SmartContracts

namespace IterValidator

variable {σ : Type}

/-- The call `smartSourceInvalidSignatures_.insert(addr)` on the `std::set`. -/
def insert_invalid (v : IterValidator σ) (addr : Address) : IterValidator σ :=
  if v.smartSourceInvalidSignatures.contains addr then v
  else { v with smartSourceInvalidSignatures := v.smartSourceInvalidSignatures ++ [addr] }

/-- The loop over the signatures of a packet in `checkSignaturesSmartSource`: the value of
`correctSignaturesCounter`. -/
def count_correct_signatures (ctx : SolverContext σ) (confidants : List Bytes) (hash : Bytes) :
    List (Nat × Bytes) → Nat → Nat
  | [], correctSignaturesCounter => correctSignaturesCounter
  | signature :: rest, correctSignaturesCounter =>
    if signature.1 < confidants.length then
      let confidantPublicKey := confidants.getD signature.1 []
      if ctx.verifySignature signature.2 confidantPublicKey hash then
        count_correct_signatures ctx confidants hash rest (correctSignaturesCounter + 1)
      else count_correct_signatures ctx confidants hash rest correctSignaturesCounter
    else count_correct_signatures ctx confidants hash rest correctSignaturesCounter

/-- The body of the loop of `checkSignaturesSmartSource` for one packet. -/
def check_packet (ctx : SolverContext σ) (v : IterValidator σ) (smartContractPacket : Packet) :
    IterValidator σ :=
  match smartContractPacket.transactions.head? with
  | none => v
  | some transaction =>
    let smartRef :=
      if is_new_state transaction then
        SmartContractRef.from_user_field ctx.env (transaction.user_field uf.RefStart)
      else SmartContractRef.from_user_field ctx.env (transaction.user_field ctx.smart_gen_RefStart)
    if !smartRef.is_valid then v.insert_invalid transaction.source
    else
      let poolWithInitTr := ctx.env.loadBlock smartRef.sequence
      if !poolWithInitTr.is_valid then v.insert_invalid transaction.source
      else
        let confidants := poolWithInitTr.confidants
        let correctSignaturesCounter :=
          count_correct_signatures ctx confidants smartContractPacket.hash
            smartContractPacket.signatures 0
        if correctSignaturesCounter < confidants.length / 2 + 1 then
          v.insert_invalid transaction.source
        else v

/-- Embeds `IterValidator::checkSignaturesSmartSource`. -/
def checkSignaturesSmartSource (ctx : SolverContext σ) (v : IterValidator σ)
    (smartContractsPackets : List Packet) : IterValidator σ :=
  smartContractsPackets.foldl (check_packet ctx) { v with smartSourceInvalidSignatures := [] }

/-- Modelled from the spec: `SmartContracts::is_known_smart_contract` of smartcontracts.hpp,
the address is a registered contract. -/
def is_known_smart_contract (ctx : SolverContext σ) (v : IterValidator σ) (addr : Address) :
    Bool :=
  in_known_contracts ctx.env v.smart_contracts addr

/-- Embeds `IterValidator::checkTransactionSignature`. -/
def checkTransactionSignature (ctx : SolverContext σ) (v : IterValidator σ)
    (transaction : Transaction) : Bool :=
  let src := transaction.source
  let isSmart := is_smart_contract transaction
  let smartSourceTransaction :=
    if !isSmart then is_known_smart_contract ctx v transaction.source else false
  if !is_new_state transaction && !smartSourceTransaction then
    if src.is_wallet_id then
      match src with
      | .wallet_id id => ctx.verify_signature transaction (ctx.findWalletData id)
      | _ => ctx.verify_signature transaction (public_key_of src)
    else ctx.verify_signature transaction (public_key_of src)
  else
    if is_new_state transaction && decide (src ≠ transaction.target) then false
    else if v.smartSourceInvalidSignatures.contains transaction.source then false
    else true

/-- The body of the loop of `checkTransactionsSignatures` for the index `i`: the mask and
the validator. -/
def check_signature_at (ctx : SolverContext σ) (transactions : List Transaction)
    (maskSize : Nat) (acc : Bytes × IterValidator σ) (i : Nat) : Bytes × IterValidator σ :=
  if i < maskSize then
    let transaction := transactions.getD i Transaction.invalid
    let correctSignature := checkTransactionSignature ctx acc.2 transaction
    if !correctSignature then
      let characteristicMask := acc.1.set i kInvalidMarker
      if is_new_state transaction then
        (characteristicMask,
          { acc.2 with
            pTransval := ctx.addRejectedNewState acc.2.pTransval
              (ctx.env.absolute_address transaction.source) })
      else (characteristicMask, acc.2)
    else acc
  else acc

/-- Embeds `IterValidator::checkTransactionsSignatures`: the mask passed by reference, and the
validator. -/
def checkTransactionsSignatures (ctx : SolverContext σ) (v : IterValidator σ)
    (transactions : List Transaction) (characteristicMask : Bytes) (smartsPackets : List Packet) :
    Bytes × IterValidator σ :=
  let v1 := checkSignaturesSmartSource ctx v smartsPackets
  (List.range transactions.length).foldl
    (check_signature_at ctx transactions characteristicMask.length) (characteristicMask, v1)

/-- Modelled from the spec: the public `SmartContracts::get_smart_contract` of
smartcontracts.hpp takes the lock of the scheduler and calls `get_smart_contract_impl`. -/
def get_smart_contract (ctx : SolverContext σ) (v : IterValidator σ) (tr : Transaction) :
    Option SmartContractInvocation × IterValidator σ :=
  let r := get_smart_contract_impl ctx.env v.smart_contracts tr
  (r.1, { v with smart_contracts := r.2 })

/-- Embeds `IterValidator::deployAdditionalCheck`; the inner id, an `int64_t`, is converted to the
`uint64_t` parameter of `get_valid_smart_address`. -/
def deployAdditionalCheck (ctx : SolverContext σ) (v : IterValidator σ)
    (transaction : Transaction) : Bool × IterValidator σ :=
  let sci := get_smart_contract ctx v transaction
  match sci.1 with
  | some value =>
    if value.method.isEmpty then
      let deployer := ctx.getAddressByType transaction.source
      (decide (get_valid_smart_address ctx.calculateHash deployer
          (transaction.innerID % 2 ^ 64).toNat value.smartContractDeploy = transaction.target),
        sci.2)
    else (true, sci.2)
  | none => (true, sci.2)

/-- The body of the per-transaction loop of `validateTransactions` for the index `i`. The
counters `blockedCounter`, `restoredCounter` and the flag `needOneMoreIteration` they feed
are not kept: the function overwrites the flag with `false` before it returns it. -/
def validate_at (ctx : SolverContext σ) (transactions : List Transaction)
    (acc : Bytes × IterValidator σ) (i : Nat) : Bytes × IterValidator σ :=
  if acc.1.getD i kInvalidMarker = kInvalidMarker then acc
  else
    let transaction := transactions.getD i Transaction.invalid
    let r := ctx.validateTransaction acc.2.pTransval acc.2.smart_contracts transactions i
    let v1 := { acc.2 with pTransval := r.2 }
    let d :=
      if r.1 && is_deploy ctx.env transaction then deployAdditionalCheck ctx v1 transaction
      else (r.1, v1)
    if !d.1 then (acc.1.set i kInvalidMarker, d.2)
    else (acc.1.set i kValidMarker, d.2)

/-- The per-transaction loop of `validateTransactions`. -/
def validate_each (ctx : SolverContext σ) (v : IterValidator σ) (characteristicMask : Bytes)
    (transactions : List Transaction) : Bytes × IterValidator σ :=
  (List.range transactions.length).foldl (validate_at ctx transactions) (characteristicMask, v)

/-- Embeds `IterValidator::validateTransactions`: the returned flag, the mask passed by reference,
and the validator. The mask is as long as the transaction list in the one call of the
sources. -/
def validateTransactions (ctx : SolverContext σ) (v : IterValidator σ)
    (characteristicMask : Bytes) (transactions : List Transaction) :
    Bool × Bytes × IterValidator σ :=
  let l := validate_each ctx v characteristicMask transactions
  let r := ctx.checkRejectedSmarts l.2.pTransval l.2.smart_contracts transactions l.1
  let g := ctx.validateByGraph r.2.2 l.2.smart_contracts r.2.1 transactions
  (false, g.1, { l.2 with pTransval := g.2 })

/-- Embeds `IterValidator::checkRejectedSmarts`: the list handed to `send_rejected_smarts` (empty
when nothing is sent). -/
def checkRejectedSmarts (ctx : SolverContext σ) (characteristicMask : Bytes)
    (transactions : List Transaction) : List (Sequence × Nat) :=
  (List.range transactions.length).filterMap (fun i =>
    let tr := transactions.getD i Transaction.invalid
    if i < characteristicMask.length ∧ characteristicMask.getD i kValidMarker = kInvalidMarker then
      if is_new_state tr then
        let fld := tr.user_field uf.RefStart
        if fld.is_valid then
          let ref := SmartContractRef.from_user_field ctx.env fld
          some (ref.sequence, ref.transaction % 2 ^ 32)
        else none
      else none
    else none)

/-- What `formCharacteristic` leaves: the characteristic it returns, the list sent with
`send_rejected_smarts`, the transactions with their fees set, and the validator. -/
structure Formed (σ : Type) where
  characteristic : Characteristic
  rejectList : List (Sequence × Nat)
  transactions : List Transaction
  validator : IterValidator σ

/-- The call `BlockChain::setTransactionsFees(transactions, mask)`. -/
def setTransactionsFees (ctx : SolverContext σ) (transactions : List Transaction) (mask : Bytes) :
    List Transaction :=
  (List.range transactions.length).map (fun i =>
    { transactions.getD i Transaction.invalid with counted_fee := ctx.fee transactions mask i })

/-- The `do ... while (needNewIteration)` loop of `formCharacteristic`; `fuel` bounds the number
of iterations, `none` when it runs out. -/
def iterate (ctx : SolverContext σ) :
    Nat → Bytes → List Transaction → IterValidator σ →
      Option (Bytes × List Transaction × IterValidator σ)
  | 0, _, _, _ => none
  | fuel + 1, mask, transactions, v =>
    let transactions1 := setTransactionsFees ctx transactions mask
    let v1 :=
      { v with pTransval := ctx.reset (ctx.updateFromSource v.pTransval) transactions1.length }
    let r := validateTransactions ctx v1 mask transactions1
    if r.1 then iterate ctx fuel r.2.1 transactions1 r.2.2
    else some (r.2.1, transactions1, r.2.2)

/-- Embeds `IterValidator::formCharacteristic`. -/
def formCharacteristic (ctx : SolverContext σ) (v : IterValidator σ) (fuel : Nat)
    (transactions : List Transaction) (smartsPackets : List Packet) : Option (Formed σ) :=
  let mask := List.replicate transactions.length kValidMarker
  let s := checkTransactionsSignatures ctx v transactions mask smartsPackets
  match iterate ctx fuel s.1 transactions s.2 with
  | none => none
  | some r =>
    some
      { characteristic := { mask := r.1 }
        rejectList := checkRejectedSmarts ctx r.1 r.2.1
        transactions := r.2.1
        validator := { r.2.2 with pTransval := ctx.clearCaches r.2.2.pTransval } }

end IterValidator

end cs

namespace cs
namespace IterValidator

open csdb

variable {σ : Type}

/-- In the words of the specification: the number of signatures of a packet that verify over
the packet hash against the confidants of a block, a signature whose confidant index is not
below the number of confidants not being counted. -/
def spec_valid_signatures (ctx : SolverContext σ) (confidants : List Bytes) (p : Packet) : Nat :=
  (p.signatures.filter (fun sg =>
    decide (sg.1 < confidants.length) &&
      ctx.verifySignature sg.2 (confidants.getD sg.1 []) p.hash)).length

/-- In the words of the specification: a smart packet with first transaction `t` is refused
when its `RefStart` is malformed, or the block it refers to cannot be loaded, or fewer than
`floor(n/2) + 1` of its signatures verify against the `n` confidants of that block. -/
def spec_packet_refused (ctx : SolverContext σ) (p : Packet) (t : Transaction) : Bool :=
  let ref := SmartContractRef.from_user_field ctx.env
    (t.user_field (if is_new_state t then uf.RefStart else ctx.smart_gen_RefStart))
  let block := ctx.env.loadBlock ref.sequence
  !ref.is_valid || !block.is_valid ||
    decide (spec_valid_signatures ctx block.confidants p < block.confidants.length / 2 + 1)

end IterValidator
end cs

namespace cs
namespace sample

open csdb

/-- A validator context over the chain that holds block 1: the ordinary validation accepts
every transaction, the two mask passes of the `TransactionsValidator` change nothing, no
signature verifies under a key, and a packet signature verifies when it repeats the key of
its confidant. -/
def context : SolverContext Unit :=
  { env := env [block1]
    getAddressByType := fun a => a
    findWalletData := fun _ => []
    verify_signature := fun _ _ => false
    verifySignature := fun signature key _ => signature == key
    calculateHash := calculateHash
    smart_gen_RefStart := 0
    fee := fun transactions _ i => (transactions.getD i Transaction.invalid).counted_fee
    updateFromSource := fun w => w
    reset := fun w _ => w
    validateTransaction := fun w _ _ _ => (true, w)
    checkRejectedSmarts := fun w _ _ mask => (0, mask, w)
    validateByGraph := fun w _ mask _ => (mask, w)
    addRejectedNewState := fun w _ => w
    clearCaches := fun w => w }

/-- A validator whose invalid-signatures set still holds the address of the user from an
earlier round, next to a scheduler that has stored nothing. -/
def validator : IterValidator Unit :=
  { pTransval := (), smartSourceInvalidSignatures := [user],
    smart_contracts := SmartContracts.init [8] false }

end sample
end cs

namespace cs

open csdb

/-- What is left of the fee of an execution: `avail_fee - consumed_fee`. -/
def fee_left (e : ExecutionItem) : Amount := e.avail_fee - e.consumed_fee

/-- What the cancellation of the item `x` at position `i` of the queue `q` can leave: the
queue as it was, the item marked Finished, or, when the completion handler ran, an item at
a position `i0` not after `i` that was neither Finished nor Closed, written back as
Finished with the same calls, or erased. -/
def cancel_result (env : Env) (seq : Sequence) (i : Nat) (x : QueueItem)
    (q q' : List QueueItem) : Prop :=
  q' = q ∨
  q' = q.set i { x with status := .Finished, seq_finish := seq } ∨
  ∃ i0 old X, i0 ≤ i ∧ q.get? i0 = some old ∧
    old.status ≠ .Finished ∧ old.status ≠ .Closed ∧
    X.map (fun e => e.ref_start) = old.executions.map (fun e => e.ref_start) ∧
    (q' = q.set i0 { old with status := .Finished, seq_finish := env.getLastSequence,
                              executions := X } ∨
      q' = q.eraseIdx i0)

/-- What one turn of the pass of `test_exe_conditions`, for the item `item` found at
position `i` of the queue `q`, can leave: the queue as it was; the item marked Closed, when
it was Running or Finished for more than `MaxRoundsCancelContract` blocks; or else, for a
Running item, the item with or without the round fee charged, and then possibly
cancelled. -/
def turn_result (env : Env) (block : Pool) (i : Nat) (item : QueueItem)
    (q q' : List QueueItem) : Prop :=
  q' = q ∨
  ((item.status = .Running ∨ item.status = .Finished) ∧
    block.sequence - item.seq_start > env.MaxRoundsCancelContract ∧
    q' = q.set i { item with status := .Closed }) ∨
  (item.status = .Running ∧ ¬ block.sequence - item.seq_start > env.MaxRoundsCancelContract ∧
    ∃ x, (x = item ∨
        x = { item with
              executions := (charge_round_fee (smart_round_fee block) item.executions).1 }) ∧
      (q' = q.set i x ∨ cancel_result env block.sequence i x (q.set i x) q'))

/-- No contract is locked in `s'` that is not locked in `s`. -/
def no_new_locks (s s' : SmartContracts) : Prop :=
  ∀ a, is_locked s' a = true → is_locked s a = true

end cs

namespace cs

open csdb

/-- The queue item `it'` stands for the same calls as `it`: it was enqueued and started at
the same blocks for the same contract, and its executions were started by the same
transactions. -/
def same_calls (it it' : QueueItem) : Prop :=
  it'.seq_enqueue = it.seq_enqueue ∧ it'.seq_start = it.seq_start ∧
    it'.abs_addr = it.abs_addr ∧
    it'.executions.map (fun e => e.ref_start) = it.executions.map (fun e => e.ref_start)

end cs

namespace cs

open csdb

/-- The execution `e'` is the execution `e` completed by the scheduler itself with the error
`code`: the fee consumed is the fee of the error data (none), and the result is one
transaction whose `Value` is the empty string and whose `RetVal` is the error code. -/
def cancelled_with (env : Env) (code : Nat) (e e' : ExecutionItem) : Prop :=
  e'.ref_start = e.ref_start ∧ e'.avail_fee = e.avail_fee ∧
    e'.new_state_fee = e.new_state_fee ∧ e'.uses = e.uses ∧ e'.consumed_fee = 0 ∧
    ∃ t, e'.result = [t] ∧ t.user_field uf.Value = .string [] ∧
      t.user_field uf.RetVal = .string (env.serialize_variant (.v_byte code))

end cs

namespace cs
namespace sample

open csdb

/-- The queue item of `after_block1`: the deploy and the call of block 1, coalesced, Running
since block 1 on a node that does not execute them. -/
def running_item : QueueItem :=
  { executions :=
      [{ ref_start := { hash := ⟨[7, 1]⟩, sequence := 1, transaction := 0 }, avail_fee := 98,
         new_state_fee := 1, consumed_fee := 2, uses := [], result := [] },
       { ref_start := { hash := ⟨[7, 1]⟩, sequence := 1, transaction := 1 }, avail_fee := 98,
         new_state_fee := 1, consumed_fee := 2, uses := [], result := [] }],
    status := .Running, seq_enqueue := 1, seq_start := 1, seq_finish := 0, abs_addr := contract,
    is_executor := false, is_rejected := false }

/-- The environment of a node for which the consensus on contract results starts. -/
def env_consensus (chain : List Pool) : Env :=
  { env chain with start_consensus := fun _ _ => true }

/-- The scheduler of node `[3]`, one of the confidants of block 1, after block 1 has been
stored: the node executes the calls of the block. -/
def executor_after_block1 : SmartContracts :=
  store (env_consensus [block1]) (SmartContracts.init [3] false) block1

/-- The scheduler of node `[3]` after block 1 when the consensus on contract results does not
start (the environment `env`). -/
def executor_without_consensus : SmartContracts :=
  store (env [block1]) (SmartContracts.init [3] false) block1

/-- The queue item of `executor_after_block1` and of `executor_without_consensus`. -/
def executor_item : QueueItem := { running_item with is_executor := true }

/-- An empty block 59 blocks after block 1: past `MaxRoundsExecuteContract` (50), not past
`MaxRoundsCancelContract` (100). -/
def block60 : Pool :=
  { is_valid := true, is_read_only := true, hash := ⟨[7, 60]⟩, previous_hash := ⟨[7, 59]⟩,
    sequence := 60, transactions := [], confidants := [[3], [4]] }

/-- An empty block 199 blocks after block 1: past `MaxRoundsCancelContract`. -/
def block200 : Pool :=
  { is_valid := true, is_read_only := true, hash := ⟨[7, 200]⟩, previous_hash := ⟨[7, 199]⟩,
    sequence := 200, transactions := [], confidants := [[3], [4]] }

end sample
end cs

namespace cs

open csdb

/-- The first part of `enqueue`, up to the point where the call is placed in the queue
(the search for an item of this block and contract, then the new item or `QueueItem::add`):
the object, and the position of the item that holds the call. -/
def enqueue_place (env : Env) (s : SmartContracts) (block : Pool) (trx_idx : Nat) :
    SmartContracts × Nat :=
  let new_item : SmartContractRef :=
    { hash := block.hash, sequence := block.sequence, transaction := trx_idx }
  let t := block.transactions.getD trx_idx Transaction.invalid
  let abs_addr := env.absolute_address t.target
  let pos := s.exe_queue.findIdx
    (fun it => it.seq_enqueue == new_item.sequence && decide (it.abs_addr = abs_addr))
  match s.exe_queue.get? pos with
  | none =>
    let s' := print_executed_method env (enqueue_metadata env s new_item t abs_addr) new_item
    ({ s' with exe_queue := s'.exe_queue ++ [QueueItem.create env new_item abs_addr t] }, pos)
  | some it => (set_item s pos (QueueItem.add env it new_item t), pos)

/-- The list `execution->uses` of the call that `enqueue` has placed, after `add_uses_from`
has expanded it, with the object as the expansion leaves it; `none` when the call is not
found in its item. -/
def enqueue_uses (env : Env) (s : SmartContracts) (block : Pool) (trx_idx : Nat) :
    Option (List Address × SmartContracts) :=
  let new_item : SmartContractRef :=
    { hash := block.hash, sequence := block.sequence, transaction := trx_idx }
  let t := block.transactions.getD trx_idx Transaction.invalid
  let abs_addr := env.absolute_address t.target
  let p := enqueue_place env s block trx_idx
  match p.1.exe_queue.get? p.2 with
  | none => none
  | some it =>
    match it.executions.get? (find_in_queue_item it new_item) with
    | none => none
    | some execution =>
      let m := get_executed_method_name env p.1 new_item
      some (add_uses_from env (uses_fuel env m.2) m.2 abs_addr m.1 execution.uses)

/-- The test of `enqueue` on the expanded uses of the call it has placed: every address of
the list is a known contract, so that the call is not cancelled. -/
def uses_known (env : Env) (s : SmartContracts) (block : Pool) (trx_idx : Nat) : Bool :=
  match enqueue_uses env s block trx_idx with
  | none => true
  | some au => au.1.all (fun u => in_known_contracts env au.2 u)

/-- The reference to transaction `trx_idx` of `block`, as `enqueue` builds it. -/
def ref_of (block : Pool) (trx_idx : Nat) : SmartContractRef :=
  { hash := block.hash, sequence := block.sequence, transaction := trx_idx }

/-- The contract called by transaction `trx_idx` of `block`: the absolute form of its
target. -/
def called_contract (env : Env) (block : Pool) (trx_idx : Nat) : Address :=
  env.absolute_address (block.transactions.getD trx_idx Transaction.invalid).target

end cs

namespace cs

open csdb

/-- The statement `grouped_failed[key].emplace_back(value)` of `on_reject` on the
`std::map`, kept as the list of its entries in ascending order of the key. -/
def grouped_insert : List (Sequence × List Nat) → Sequence → Nat → List (Sequence × List Nat)
  | [], key, value => [(key, [value])]
  | (k, values) :: rest, key, value =>
    if key = k then (k, values ++ [value]) :: rest
    else if key < k then (key, [value]) :: (k, values) :: rest
    else (k, values) :: grouped_insert rest key value

/-- The map `grouped_failed` of `on_reject`: the transaction indices of the reject list by
block sequence. The lists of the map hold `uint16_t`, so every index is taken modulo
`2 ^ 16`. -/
def group_rejected (reject_list : List (Sequence × Nat)) : List (Sequence × List Nat) :=
  reject_list.foldl (fun m item => grouped_insert m item.1 (item.2 % 2 ^ 16)) []

/-- The test `std::find(executions.cbegin(), executions.cend(),
it_exe->ref_start.transaction) != executions.cend()` of `on_reject`. -/
def is_rejected_call (executions : List Nat) (e : ExecutionItem) : Bool :=
  executions.contains e.ref_start.transaction

/-- The loop of `on_reject` over the executions of one queue item: `none` when no call of
the item is rejected or the item is already marked `is_rejected`; else the executions that
stay in the item (those before the first rejected call), the vector `reject` and the vector
`restart` (with the results cleared). -/
def split_rejected (executions : List Nat) (it : QueueItem) :
    Option (List ExecutionItem × List ExecutionItem × List ExecutionItem) :=
  let k := it.executions.findIdx (is_rejected_call executions)
  if k < it.executions.length then
    if it.is_rejected then none
    else
      let rest := it.executions.drop k
      some (it.executions.take k,
        rest.filter (is_rejected_call executions),
        (rest.filter (fun e => !is_rejected_call executions e)).map
          (fun e => { e with result := [] }))
  else none

/-- Modelled from the spec: `QueueItem::fork` of smartcontracts.hpp, a copy of the item
without its executions (the calls are assigned by the caller). -/
def QueueItem.fork (it : QueueItem) : QueueItem :=
  { it with executions := [] }

/-- The loop of `on_reject` over `e.result.transactions()` for one execution of the new
rejected item: the first new-state of the contract found in the result gets an empty `Value`
and the return value `ConsensusRejected` and replaces the result; the second component is
what is added to `integral_pack`. A result without such a new-state is left as it is. -/
def reject_result (env : Env) (abs_addr : Address) (e : ExecutionItem) :
    ExecutionItem × TransactionsPacket :=
  match e.result.find?
      (fun t => is_new_state t && decide (env.absolute_address t.target = abs_addr)) with
  | some t =>
    let t := t.add_user_field uf.Value (.string [])
    let t := set_return_value env t (.v_byte error_ConsensusRejected)
    ({ e with result := [t] }, [t])
  | none => (e, [])

/-- The new queue item `new_rejected_item` that `on_reject` makes of the vector `reject`,
and the packet handed to the consensus. -/
def rejected_item (env : Env) (s : SmartContracts) (current_sequence : Sequence)
    (it : QueueItem) (reject : List ExecutionItem) : QueueItem × TransactionsPacket :=
  let forked := { it.fork with executions := reject }
  let u := update_status env s forked current_sequence .Finished
  let new_rejected_item := { u.1 with is_rejected := true }
  let results := new_rejected_item.executions.map (reject_result env new_rejected_item.abs_addr)
  ({ new_rejected_item with executions := results.map Prod.fst },
    results.flatMap Prod.snd)

/-- The new queue item `new_restart_item` that `on_reject` makes of the vector `restart`. -/
def restart_item (env : Env) (s : SmartContracts) (current_sequence : Sequence)
    (it : QueueItem) (restart : List ExecutionItem) : QueueItem :=
  (update_status env s { it.fork with executions := restart } current_sequence .Waiting).1

/-- The body of the loop of `on_reject` over the queue for the item `it` at position `i`,
up to the test for an item left without executions: the object and the list
`new_queue_items`. -/
def on_reject_item (env : Env) (current_sequence sequence : Sequence) (executions : List Nat)
    (s : SmartContracts) (new_queue_items : List QueueItem) (i : Nat) (it : QueueItem) :
    SmartContracts × List QueueItem :=
  if it.seq_enqueue = sequence then
    match split_rejected executions it with
    | none => (s, new_queue_items)
    | some (stay, reject, restart) =>
      let it_queue := { it with executions := stay }
      let s1 := set_item s i it_queue
      let r1 : SmartContracts × List QueueItem :=
        if !reject.isEmpty then
          let r := rejected_item env s1 current_sequence it_queue reject
          (s1.emit (.start_consensus (r.1.executions.map (fun e => e.ref_start)) r.2),
            new_queue_items ++ [r.1])
        else (s1, new_queue_items)
      if !restart.isEmpty then
        (r1.1, r1.2 ++ [restart_item env r1.1 current_sequence it_queue restart])
      else r1
  else (s, new_queue_items)

/-- The loop of `on_reject` over the queue for one block sequence of the reject list; `i` is
the position of the iterator, `fuel` bounds the number of iterations. After an item left
without executions is erased the iterator stands on the item that followed, and is then
advanced as after every other item. -/
def on_reject_scan (env : Env) (current_sequence sequence : Sequence) (executions : List Nat) :
    Nat → Nat → SmartContracts → List QueueItem → SmartContracts × List QueueItem
  | 0, _, s, new_queue_items => (s, new_queue_items)
  | fuel + 1, i, s, new_queue_items =>
    match s.exe_queue.get? i with
    | none => (s, new_queue_items)
    | some it =>
      let r := on_reject_item env current_sequence sequence executions s new_queue_items i it
      match r.1.exe_queue.get? i with
      | none => r
      | some it_queue =>
        if it_queue.executions.isEmpty then
          let s2 := { r.1 with exe_queue := r.1.exe_queue.eraseIdx i }
          if i ≥ s2.exe_queue.length then (s2, r.2)
          else on_reject_scan env current_sequence sequence executions fuel (i + 1) s2 r.2
        else on_reject_scan env current_sequence sequence executions fuel (i + 1) r.1 r.2

/-- The body of the loop of `on_reject` over `grouped_failed`, for one block sequence. -/
def on_reject_group (env : Env) (current_sequence : Sequence) (s : SmartContracts)
    (group : Sequence × List Nat) : SmartContracts :=
  if group.2.isEmpty then s
  else
    let r := on_reject_scan env current_sequence group.1 group.2 s.exe_queue.length 0 s []
    if !r.2.isEmpty then { r.1 with exe_queue := r.1.exe_queue ++ r.2 } else r.1

/-- The part of `on_reject` before the final `test_exe_queue()`. -/
def on_reject_groups (env : Env) (s : SmartContracts) (reject_list : List (Sequence × Nat)) :
    SmartContracts :=
  (group_rejected reject_list).foldl (on_reject_group env env.getLastSequence) s

/-- Embeds `SmartContracts::on_reject`. -/
def on_reject (env : Env) (s : SmartContracts) (reject_list : List (Sequence × Nat)) :
    SmartContracts :=
  if reject_list.isEmpty then s
  else test_exe_queue env (on_reject_groups env s reject_list)

end cs
namespace cs

open csdb

/-- The transaction indices that the reject list names for the block sequence `seq`, as
`on_reject` reads them (modulo `2 ^ 16`), in the order of the list. -/
def rejected_indices (reject_list : List (Sequence × Nat)) (seq : Sequence) : List Nat :=
  (reject_list.filter (fun r => decide (r.1 = seq))).map (fun r => r.2 % 2 ^ 16)

end cs
namespace cs

open csdb

/-- One iteration of the loop of `on_reject` over the queue for the block sequence `seq`,
seen from the queue `q` and the list `new_queue_items`: the item `x` at the position of the
iterator is left as it is, or erased when it holds no executions, or split; a split item
keeps the executions `stay`, or is erased when none stays, and new items are appended to
`new_queue_items`; their executions are executions of `x`, with the fees they had. -/
def reject_turn (seq : Sequence) (idxs : List Nat) (q new q' new' : List QueueItem) : Prop :=
  ∃ i x, q.get? i = some x ∧
    ((new' = new ∧ ((x.executions ≠ [] ∧ q' = q) ∨ (x.executions = [] ∧ q' = q.eraseIdx i))) ∨
     (x.seq_enqueue = seq ∧ ∃ stay reject restart,
        split_rejected idxs x = some (stay, reject, restart) ∧
        (∃ added, new' = new ++ added ∧
          ∀ a ∈ added, ∀ e' ∈ a.executions, ∃ e ∈ x.executions,
            e'.ref_start = e.ref_start ∧ e'.avail_fee = e.avail_fee ∧
            e'.consumed_fee = e.consumed_fee) ∧
        ((stay ≠ [] ∧ q' = q.set i { x with executions := stay }) ∨
         (stay = [] ∧ q' = q.eraseIdx i))))

/-- An item that the loop of `on_reject` for the block sequence `seq` leaves in the queue as
it is: it holds executions and is not split. -/
def reject_stable (seq : Sequence) (idxs : List Nat) (m : QueueItem) : Prop :=
  m.executions ≠ [] ∧ (m.seq_enqueue = seq → split_rejected idxs m = none)

/-- An item that the loop of `on_reject` for the block sequence `seq` does not erase: it
holds executions and, when it is split, its first call is not rejected. -/
def reject_kept (seq : Sequence) (idxs : List Nat) (a : QueueItem) : Prop :=
  a.executions ≠ [] ∧
    (a.seq_enqueue = seq → a.is_rejected = false →
      ∀ e, a.executions.head? = some e → is_rejected_call idxs e = false)

/-- The result of a rejected execution `e` in the new rejected item of the contract
`abs_addr` is `e'`: when the result holds a new-state of the contract it is reduced to one
new-state transaction with an empty `Value` and the return value `ConsensusRejected`,
otherwise it is unchanged; nothing else of the execution changes. -/
def rejected_as (env : Env) (abs_addr : Address) (e e' : ExecutionItem) : Prop :=
  e'.ref_start = e.ref_start ∧ e'.avail_fee = e.avail_fee ∧ e'.new_state_fee = e.new_state_fee ∧
  e'.consumed_fee = e.consumed_fee ∧ e'.uses = e.uses ∧
  ((∃ t ∈ e.result, is_new_state t = true ∧ env.absolute_address t.target = abs_addr) →
    ∃ t', e'.result = [t'] ∧ is_new_state t' = true ∧
      t'.user_field uf.Value = .string [] ∧
      t'.user_field uf.RetVal = .string (env.serialize_variant (.v_byte error_ConsensusRejected))) ∧
  ((∀ t ∈ e.result, ¬ (is_new_state t = true ∧ env.absolute_address t.target = abs_addr)) →
    e'.result = e.result)

end cs
namespace cs
namespace sample

open csdb

/-- What the executor hands back for transaction `trx` of block 1: no error, a new state,
the fee `fee`. -/
def executed (trx : Nat) (fee : Amount) : SmartExecutionData :=
  { contract_ref := { hash := ⟨[7, 1]⟩, sequence := 1, transaction := trx },
    executor_fee := fee, error := "", newState := [5, trx], retValue := .unset, trxns := [],
    states := [] }

/-- The scheduler of the executor node `[3]` after block 1 and after the two calls of the
block have been executed: the item is Finished, each call holds its new-state. -/
def executed_block1 : SmartContracts :=
  on_execution_completed_impl (env_consensus [block1]) executor_after_block1
    [executed 0 1, executed 1 1]

end sample
end cs

namespace cs
namespace sample

open csdb

/-- The new-state that the completion of transaction `trx` of block 1 leaves in the result
of the call. -/
def executed_new_state (trx : Nat) : Transaction :=
  { is_valid := true, innerID := (trx : Int) + 1, source := contract, target := contract,
    currency := 1, amount := 0, max_fee := 97, counted_fee := 1, signature := [],
    user_fields :=
      [(1, .string [1, trx, 7, 1]), (2, .amount 1), (-2, .string [5, trx]), (3, .string [])] }

/-- The queue item of `executed_block1`. -/
def executed_item : QueueItem :=
  { executions :=
      [{ ref_start := { hash := ⟨[7, 1]⟩, sequence := 1, transaction := 0 }, avail_fee := 98,
         new_state_fee := 1, consumed_fee := 1, uses := [], result := [executed_new_state 0] },
       { ref_start := { hash := ⟨[7, 1]⟩, sequence := 1, transaction := 1 }, avail_fee := 98,
         new_state_fee := 1, consumed_fee := 1, uses := [], result := [executed_new_state 1] }],
    status := .Finished, seq_enqueue := 1, seq_start := 1, seq_finish := 1, abs_addr := contract,
    is_executor := true, is_rejected := false }

end sample
end cs

namespace cs
namespace sample

open csdb

/-- A block right after block 1 whose only transaction is a plain transfer with a counted
fee of 200, so that the round fee `smart_round_fee` of the block is 200. -/
def block2_costly : Pool :=
  { is_valid := true, is_read_only := true, hash := ⟨[7, 2]⟩, previous_hash := ⟨[7, 1]⟩,
    sequence := 2,
    transactions :=
      [{ is_valid := true, innerID := 3, source := user, target := user, currency := 1,
         amount := 5, max_fee := 300, counted_fee := 200, signature := [], user_fields := [] }],
    confidants := [[3], [4]] }

end sample
end cs

namespace cs

open csdb

/-- The list `execution.uses` as `QueueItem::add` fills it: the valid addresses of the
contracts declared in the invocation of an executable transaction. -/
def declared_uses (env : Env) (tr_start : Transaction) : List Address :=
  if is_executable tr_start then
    let fld := tr_start.user_field uf.Methods
    if fld.is_valid then
      let data := fld.value_string
      if !data.isEmpty then
        ((env.deserialize data).usedContracts.map env.getAddressFromKey).filter Address.is_valid
      else []
    else []
  else []

namespace sample

/-- A second contract, registered in `known_contracts`. -/
def contract2 : Address := .public_key [2]

/-- A call of `contract` whose invocation (`[3]`) declares a use of `contract2`. -/
def tx_start_uses : Transaction :=
  { is_valid := true, innerID := 4, source := user, target := contract, currency := 1,
    amount := 0, max_fee := 100, counted_fee := 3, signature := [],
    user_fields := [(0, .string [3])] }

/-- Block 2, variant: it holds the call that declares a use. -/
def block2_uses : Pool :=
  { is_valid := true, is_read_only := true, hash := ⟨[7, 2]⟩, previous_hash := ⟨[7, 1]⟩,
    sequence := 2, transactions := [tx_start_uses], confidants := [[3], [4]] }

/-- The environment `env` with an invocation `[3]` that declares the use of the contract of
key `[2]`. -/
def env_uses (chain : List Pool) : Env :=
  { env chain with
    deserialize := fun b =>
      if b = [3] then
        { method := "m", params := [], usedContracts := [[2]], byteCodeObjects := [] }
      else deserialize b }

/-- The scheduler after block 1, with `contract2` registered as well. -/
def after_block1_uses : SmartContracts :=
  (store (env_uses [block1]) (SmartContracts.init [8] false) block1).set_contract
    contract2 StateItem.default

end sample
end cs

namespace cs
namespace IterValidator

open csdb

variable {σ : Type}

/-- In the words of the specification: the distinct confidant indices, among the `n`
confidants of a block, that have a valid signature over the packet hash among the
signatures of a packet. -/
def spec_distinct_valid_confidants (ctx : SolverContext σ) (confidants : List Bytes)
    (p : Packet) : List Nat :=
  ((p.signatures.filter (fun sg =>
    decide (sg.1 < confidants.length) &&
      ctx.verifySignature sg.2 (confidants.getD sg.1 []) p.hash)).map Prod.fst).dedup

end IterValidator

namespace sample

/-- A packet that carries the new-state of the deploy of block 1 and, twice, the signature
of the confidant of index 0 of that block. -/
def packet_repeated : Packet :=
  { transactions := [tx_new_state], signatures := [(0, [3]), (0, [3])], hash := [5] }

/-- A packet that carries the same new-state with the signatures of both confidants. -/
def packet_signed : Packet :=
  { transactions := [tx_new_state], signatures := [(0, [3]), (1, [4])], hash := [5] }

end sample
end cs

namespace cs

open csdb

/-- The inner ids that the emitted transactions `E` of a call got from the running counter
`next_id`: those of the transactions that came without an inner id. -/
def counter_ids (trxns E : TransactionsPacket) : List Int :=
  ((trxns.zip E).filter (fun p => decide (p.1.innerID = 0))).map (fun p => p.2.innerID)

/-- What a completed call `d` contributes to the integral packet of
`on_execution_completed_impl`, with the inner ids `ids` taken from the running counter
`next_id`: the new-state of the call, whose source is the target of the starter; the
transactions emitted by a successful call, as they came or, when they came without an inner
id, with an id from the counter; and the new-states of the subsequent contracts, each
numbered by `next_inner_id` of its contract. -/
def call_chunk (env : Env) (d : SmartExecutionData) (chunk : TransactionsPacket)
    (ids : List Int) : Prop :=
  ∃ (primary : Transaction) (E S : TransactionsPacket),
    chunk = primary :: (E ++ S) ∧
    is_new_state primary = true ∧
    primary.source = (get_transaction env d.contract_ref).target ∧
    List.Forall₂
      (fun tr t => (tr.innerID ≠ 0 ∧ t = tr) ∨
        (tr.innerID = 0 ∧ t = { tr with innerID := t.innerID }))
      (if d.error.isEmpty then d.trxns else []) E ∧
    ids = primary.innerID :: counter_ids (if d.error.isEmpty then d.trxns else []) E ∧
    ∀ t ∈ S, is_new_state t = true ∧ t.innerID = (next_inner_id env t.source : Int) ∧
      t.target = t.source ∧ ∃ st ∈ d.states, st.1 = t.source

end cs

namespace cs

open csdb

/-- The integral packet `packet` of `on_execution_completed_impl` for the data `all`, as the
contributions `calls` of the completed calls (the data of the call, what it contributes, and
the inner ids it took from the running counter): the packet is made of the contributions in
their order, each is that of one of the data; the inner ids taken from the counter increase
strictly through the packet; and the first of them, the inner id of the first new-state, is
`next_inner_id` of the contract, the target of the starter of the first completed call. -/
def packet_of_calls (env : Env) (all : List SmartExecutionData) (packet : TransactionsPacket)
    (calls : List (SmartExecutionData × TransactionsPacket × List Int)) : Prop :=
  packet = calls.flatMap (fun c => c.2.1) ∧
  (∀ c ∈ calls, c.1 ∈ all ∧ call_chunk env c.1 c.2.1 c.2.2) ∧
  (calls.flatMap (fun c => c.2.2)).Pairwise (· < ·) ∧
  ∀ c, calls.head? = some c →
    c.2.2.head? = some (next_inner_id env
      (env.absolute_address (get_transaction env c.1.contract_ref).target) : Int)

end cs
namespace cs
namespace sample

open csdb

/-- The results of the two calls of block 1, both successful, each with a new state of the
subsequent contract `contract2`. -/
def completed_calls : List SmartExecutionData :=
  [{ contract_ref := { hash := ⟨[7, 1]⟩, sequence := 1, transaction := 0 }, executor_fee := 1,
     error := "", newState := [5], retValue := .unset, trxns := [],
     states := [(contract2, [6])] },
   { contract_ref := { hash := ⟨[7, 1]⟩, sequence := 1, transaction := 1 }, executor_fee := 1,
     error := "", newState := [8], retValue := .unset, trxns := [],
     states := [(contract2, [7])] }]

/-- The packet announced by the last event of a log, empty when the last event is not
`smart_executed`. -/
def announced_packet (log : List Event) : TransactionsPacket :=
  match log.getLast? with
  | some (.smart_executed packet) => packet
  | _ => []

end sample
end cs

namespace cs

open csdb

/-- The executions held over all the items of a queue, each identified by its `ref_start`, in
the order of the queue. -/
def queue_refs (q : List QueueItem) : List SmartContractRef :=
  q.flatMap (fun it => it.executions.map (fun e => e.ref_start))

end cs

namespace cs

open csdb

/-- Modelled from the spec: one entry of `ExecuteResult::smartsRes`, the answer of the
executor for one transaction (`new_state`, `ret_value`, the response and the execution
cost); the structure is declared with the executor, which is not among the sources. -/
structure SmartRes where
  newState : Bytes
  retValue : Variant
  response_code : Int
  response_message : String
  executionCost : Nat
deriving DecidableEq, Repr

/-- Modelled from the spec: `executor::Executor::ExecuteResult`, what `executeTransaction`
returns. -/
structure ExecuteResult where
  smartsRes : List SmartRes
  response_code : Int
  response_message : String
  trxns : List Transaction
  states : List (Address × Bytes)
  selfMeasuredCost : Nat
deriving DecidableEq, Repr

/-- The default-constructed `ExecuteResult`. -/
def ExecuteResult.empty : ExecuteResult :=
  { smartsRes := [], response_code := 0, response_message := "", trxns := [], states := [],
    selfMeasuredCost := 0 }

/-- The enumeration `executor::Executor::MethodNameConvention`. -/
inductive MethodNameConvention where
  | Default
  | PayableLegacy
  | Payable
deriving DecidableEq, Repr

/-- Modelled from the spec: `executor::Executor::ExecuteTransactionInfo`, with the members
that `execute` sets. -/
structure ExecuteTransactionInfo where
  transaction : Transaction
  feeLimit : Amount
  convention : MethodNameConvention
deriving DecidableEq, Repr

/-- Modelled from the spec: `SmartExecutionData` of smartcontracts.hpp with the members that
`execute` and the job of `execute_async` read and write: the call, the fee limit and then
the fee, the result of the executor, the error text and the state handed over from the
previous call of a multi-call. -/
structure ExecutionData where
  contract_ref : SmartContractRef
  executor_fee : Amount
  result : ExecuteResult
  error : String
  explicit_last_state : Bytes
deriving DecidableEq, Repr

/-- The executor as `execute` reaches it through `exec_handler_ptr`, with the helpers of
headers that are not among the sources. -/
structure Executor where
  /-- Stands for `Executor::executeTransaction(smarts, explicit_last_state)`. -/
  executeTransaction : List ExecuteTransactionInfo → Bytes → Option ExecuteResult
  /-- Stands for `fee::getExecutionFee`. -/
  getExecutionFee : Nat → Amount
  /-- Stands for `is_smart` of smartcontracts.hpp. -/
  is_smart : Transaction → Bool
  /-- Whether the node is built with `USE_SELF_MEASURED_FEE`. -/
  use_self_measured_fee : Bool
  /-- Stands for the test `total_fee.to_double() < DBL_EPSILON`. -/
  below_epsilon : Amount → Bool
  /-- What `SmartExecutionData::setError(code, message)` of smartcontracts.hpp makes of the
  result it finds. -/
  error_result : Nat → ExecuteResult → ExecuteResult

/-- Modelled from the spec: the error codes `ExecuteTransaction=7`, `InternalBug=8` of
`cs::error`. -/
def error_ExecuteTransaction : Nat := 7
def error_InternalBug : Nat := 8

/-- Modelled from the spec: `SmartExecutionData::setError` of smartcontracts.hpp stores the
message as the error text and the code in the result. -/
def ExecutionData.setError (x : Executor) (data : ExecutionData) (code : Nat)
    (message : String) : ExecutionData :=
  { data with error := message, result := x.error_result code data.result }

/-- Embeds `SmartContracts::execute`: the value returned, the data passed by reference, and
the object. -/
def execute (env : Env) (x : Executor) (s : SmartContracts) (data : ExecutionData) :
    Bool × ExecutionData × SmartContracts :=
  let data : ExecutionData :=
    if !data.result.smartsRes.isEmpty then
      { data with result := { data.result with smartsRes := [] } }
    else data
  if !env.has_exec_handler then
    (false, data.setError x error_ExecuteTransaction "contract executor is unavailable", s)
  else
    let transaction := get_transaction env data.contract_ref
    if !transaction.is_valid then
      (false, data.setError x error_InternalBug "load starter transaction failed", s)
    else
      let s1 := print_executed_method env s data.contract_ref
      let convention : MethodNameConvention :=
        if !x.is_smart transaction then
          match s1.find_contract (env.absolute_address transaction.target) with
          | some state =>
            if state.payable = .Implemented then .PayableLegacy
            else if state.payable = .ImplementedVer1 then .Payable
            else .Default
          | none => .Default
        else .Default
      let smarts : List ExecuteTransactionInfo :=
        [{ transaction := transaction, feeLimit := data.executor_fee, convention := convention }]
      match x.executeTransaction smarts data.explicit_last_state with
      | some value =>
        let data := { data with result := value }
        match data.result.smartsRes.head? with
        | some result =>
          if data.result.response_code = 0 then
            if result.response_code = 0 then
              let total_fee : Amount :=
                (data.result.smartsRes.map (fun r => x.getExecutionFee r.executionCost)).sum
              let total_fee : Amount :=
                if x.use_self_measured_fee && x.below_epsilon total_fee then
                  x.getExecutionFee data.result.selfMeasuredCost
                else total_fee
              if total_fee > data.executor_fee then
                (true, data.setError x error_OutOfFunds "contract execution is out of funds", s1)
              else (true, { data with executor_fee := total_fee }, s1)
            else
              let data := { data with error := result.response_message }
              if data.error.isEmpty then
                (true, { data with
                  error := "contract execution failed, new contract state is empty" }, s1)
              else (true, data, s1)
          else
            let data := { data with error := data.result.response_message }
            if data.error.isEmpty then
              (true, data.setError x error_ExecuteTransaction
                "contract execution failed, contract state is unchanged", s1)
            else (true, data, s1)
        | none =>
          (true, data.setError x error_ExecuteTransaction
            "contract execution failed, contract state is unchanged", s1)
      | none =>
        (true, data.setError x error_ExecuteTransaction "contract execution failed", s1)

/-- The data list that the first loop of `execute_async` builds: one datum per call, with the
reference of the call and its available fee as fee limit, otherwise default-constructed. -/
def job_data (calls : List (SmartContractRef × Amount)) : List ExecutionData :=
  calls.map (fun c =>
    { contract_ref := c.1, executor_fee := c.2, result := ExecuteResult.empty, error := "",
      explicit_last_state := [] })

/-- The loop of the runnable object of `execute_async` over `data_list`; `last_state` is the
local variable of that name. -/
def run_job (env : Env) (x : Executor) :
    List ExecutionData → Bytes → SmartContracts → List ExecutionData × SmartContracts
  | [], _, s => ([], s)
  | data :: rest, last_state, s =>
    let data := { data with explicit_last_state := last_state }
    let r := execute env x s data
    if !r.1 then
      let data := r.2.1
      let data :=
        if data.error.isEmpty then { data with error := "failed to invoke contract" } else data
      let t := run_job env x rest last_state r.2.2
      (data :: t.1, t.2)
    else
      let data := r.2.1
      let last_state :=
        match data.result.smartsRes.head? with
        | some front => front.newState
        | none => last_state
      let t := run_job env x rest last_state r.2.2
      (data :: t.1, t.2)

/-- The runnable object of `execute_async`: the data list it returns to
`on_execution_completed`, and the object. -/
def runnable (env : Env) (x : Executor) (s : SmartContracts) (data_list : List ExecutionData) :
    List ExecutionData × SmartContracts :=
  if !data_list.isEmpty then run_job env x data_list [] s else (data_list, s)

/-- The job of `execute_async(executions)`: `none` when no job is started, else what the
runnable object returns when it is run on the data list built for the executions. -/
def execute_async_job (env : Env) (x : Executor) (s : SmartContracts)
    (executions : List ExecutionItem) : Option (List ExecutionData × SmartContracts) :=
  let r := execute_async_collect env executions s []
  match r.1 with
  | none => none
  | some calls =>
    if calls.isEmpty then none else some (runnable env x r.2 (job_data calls))

end cs
namespace cs
namespace sample

open csdb

/-- An executor that answers every call with one result whose new state is the state it was
handed followed by the inner id of the transaction executed (so that the state tells which
calls were run on it), at no cost; `setError` leaves one answer with an empty state and the
error code. -/
def executor : Executor :=
  { executeTransaction := fun smarts explicit_last_state =>
      some { smartsRes := smarts.map (fun info =>
                { newState := explicit_last_state ++ [info.transaction.innerID.toNat],
                  retValue := .unset, response_code := 0, response_message := "",
                  executionCost := 0 }),
             response_code := 0, response_message := "", trxns := [], states := [],
             selfMeasuredCost := 0 }
    getExecutionFee := fun _ => 0
    is_smart := fun _ => true
    use_self_measured_fee := false
    below_epsilon := fun _ => false
    error_result := fun code r =>
      { r with smartsRes :=
          [{ newState := [], retValue := .v_byte code, response_code := 0,
             response_message := "", executionCost := 0 }] } }

end sample
end cs

namespace cs

open csdb

/-- Modelled from the spec: the bits of the flags byte of a packet (`BaseFlags` of
packet.hpp, which is not among the sources). The values of the bits are parameters; the
tests of opackstream_tests.cpp tell that `Fragmented | NetworkMsg` is `0x03`. -/
structure BaseFlags where
  Fragmented : Nat
  NetworkMsg : Nat
deriving DecidableEq, Repr

/-- The test `flags & bit` of a flag. -/
def has_flag (flags bit : Nat) : Bool := flags &&& bit != 0

/-- A 16-bit field as it lies in a packet, low-order byte first. -/
def uint16_bytes (v : Nat) : Bytes := [v % 256, v / 256 % 256]

/-- Modelled from the spec: `cs::OPackStream` of packstream.hpp, which is not among the
sources; only the calls that the tests of opackstream_tests.cpp make are known. The record
holds an implementation of these calls over a state `σ`: the constructor with the key of
the sender, `init(flags)`, `clear()`, `getPacketsCount()`, and the encoding of the packet
that `getPackets()` points to (`getStreamData` of the tests). -/
structure OPackStream (σ : Type) where
  create : Bytes → σ
  init : σ → Nat → σ
  clear : σ → σ
  getPacketsCount : σ → Nat
  getStreamData : σ → Bytes

/-- Modelled from the spec: the header of a packet as the packet-framing sentence and the
claim describe it: the flags byte; when `Fragmented` is set, the two 16-bit fields
packets-total and packet-index, low-order byte first, and, unless `NetworkMsg` is set, the
8-byte message id and the 32-byte key of the sender. The sentence lists packets-total
before packet-index; which of the two fields comes first in the packet is the parameter
`index_first` (`false`: the order of the sentence). -/
def spec_header (bits : BaseFlags) (index_first : Bool) (flags total index id : Nat)
    (key : Bytes) : Bytes :=
  [flags % 256] ++
    (if has_flag flags bits.Fragmented then
      (if index_first then uint16_bytes index ++ uint16_bytes total
        else uint16_bytes total ++ uint16_bytes index) ++
        (if has_flag flags bits.NetworkMsg then [] else uint64_bytes id ++ key)
    else [])

/-- The state of `spec_stream`: the key of the sender and the packets of the message under
construction. -/
structure SpecStream where
  sender : Bytes
  packets : List Bytes
deriving DecidableEq, Repr

/-- Modelled from the spec: a stream in the words of the claim. `init(flags)` starts a
message with the id `id` that has one packet, the packet 0 of 1, holding `spec_header`;
`clear()` drops the packets; the packet count is the number of packets. -/
def spec_stream (bits : BaseFlags) (index_first : Bool) (id : Nat) : OPackStream SpecStream :=
  { create := fun key => { sender := key, packets := [] }
    init := fun s flags =>
      { s with packets := [spec_header bits index_first flags 1 0 id s.sender] }
    clear := fun s => { s with packets := [] }
    getPacketsCount := fun s => s.packets.length
    getStreamData := fun s => s.packets.headD [] }

/-- The constant `kPublicKey` of opackstream_tests.cpp. -/
def kPublicKey : Bytes :=
  [0x53, 0x4b, 0xd3, 0xdf, 0x77, 0x29, 0xfd, 0xcf, 0xea, 0x4a, 0xcd, 0x0e, 0xcc, 0x14, 0xaa, 0x05,
   0x0b, 0x77, 0x11, 0x6d, 0x8f, 0xcd, 0x80, 0x4b, 0x45, 0x36, 0x6b, 0x5c, 0xae, 0x4a, 0x06, 0x82]

/-- The array `encoded_expected` of the test
`InitializationWithFragmentedAndNetworkMsgFlags`. -/
def encoded_expected_network_msg (flags : Nat) : Bytes := [flags, 0x00, 0x00, 0x01, 0x00]

/-- The array `encoded_expected` of the test `InitializationWithFragmentedFlagOnly`. -/
def encoded_expected_fragmented (flags : Nat) : Bytes :=
  [flags, 0x00, 0x00, 0x01, 0x00, 0x01, 0x00, 0x00, 0x00, 0x00, 0x00, 0x00, 0x00, 0x53, 0x4b,
   0xd3, 0xdf, 0x77, 0x29, 0xfd, 0xcf, 0xea, 0x4a, 0xcd, 0x0e, 0xcc, 0x14, 0xaa, 0x05, 0x0b,
   0x77, 0x11, 0x6d, 0x8f, 0xcd, 0x80, 0x4b, 0x45, 0x36, 0x6b, 0x5c, 0xae, 0x4a, 0x06, 0x82]

/-- Embeds the test `InitializationWithFragmentedAndNetworkMsgFlags` for a stream
implementation: whether its assertions hold. -/
def test_InitializationWithFragmentedAndNetworkMsgFlags {σ : Type} (impl : OPackStream σ)
    (bits : BaseFlags) : Bool :=
  let stream := impl.create kPublicKey
  let flags := bits.Fragmented ||| bits.NetworkMsg
  let stream := impl.init stream flags
  let encoded := impl.getStreamData stream
  decide (encoded.length = (encoded_expected_network_msg flags).length) &&
    decide (encoded = encoded_expected_network_msg flags)

/-- Embeds the test `InitializationWithFragmentedFlagOnly`. -/
def test_InitializationWithFragmentedFlagOnly {σ : Type} (impl : OPackStream σ)
    (bits : BaseFlags) : Bool :=
  let stream := impl.create kPublicKey
  let flags := bits.Fragmented
  let stream := impl.init stream flags
  let encoded := impl.getStreamData stream
  decide (1 = impl.getPacketsCount stream) &&
    decide (encoded.length = (encoded_expected_fragmented flags).length) &&
    decide (encoded = encoded_expected_fragmented flags)

/-- Embeds the test `WithoutInitializationPacketsCountIsZero`. -/
def test_WithoutInitializationPacketsCountIsZero {σ : Type} (impl : OPackStream σ) : Bool :=
  let stream := impl.create kPublicKey
  decide (0 = impl.getPacketsCount stream)

/-- Embeds the test `AfterClearPacketsCountIsZero`. -/
def test_AfterClearPacketsCountIsZero {σ : Type} (impl : OPackStream σ) (bits : BaseFlags) :
    Bool :=
  let stream := impl.create kPublicKey
  let stream := impl.init stream bits.Fragmented
  let stream := impl.clear stream
  decide (0 = impl.getPacketsCount stream)

/-- Embeds the test `getPacketsCount`. -/
def test_getPacketsCount {σ : Type} (impl : OPackStream σ) (bits : BaseFlags) : Bool :=
  let oPackStream := impl.create kPublicKey
  let oPackStream := impl.init oPackStream (bits.Fragmented ||| bits.NetworkMsg)
  decide (1 = impl.getPacketsCount oPackStream)

namespace sample

/-- Values of the flag bits with `Fragmented | NetworkMsg = 0x03`. -/
def base_flags : BaseFlags := { Fragmented := 2, NetworkMsg := 1 }

end sample

end cs

namespace cs
namespace sample

open csdb

/-- The deploy of a second contract, `contract2`. -/
def tx_deploy2 : Transaction := { tx_deploy with innerID := 3, target := contract2 }

/-- An empty block with the sequence `n`. -/
def empty_block (n : Nat) : Pool :=
  { is_valid := true, is_read_only := true, hash := ⟨[7, n]⟩, previous_hash := ⟨[7, n - 1]⟩,
    sequence := n, transactions := [], confidants := [[3], [4]] }

/-- The environment of a node whose last block has the sequence `n`, for a chain whose
block of sequence `k` is `block_at k`, with the consensus on contract results starting or
not. -/
def chain_env (block_at : Nat → Pool) (n : Nat) (consensus : Bool) : Env :=
  { env [] with
    loadBlock := fun k => if k = 0 ∨ n < k then Pool.invalid else block_at k
    getLastSequence := n
    start_consensus := fun _ _ => consensus }

/-- The scheduler of node `[3]`, a confidant of every block, after `on_store_block` for the
blocks 1 to `n` of a chain, from the scheduler as constructed, the consensus on contract
results starting; `none` when one of the calls has no result. -/
def run_blocks (block_at : Nat → Pool) (n : Nat) : Option SmartContracts :=
  (List.range' 1 n).foldl
    (fun acc k => acc.bind (fun s => on_store_block (chain_env block_at k true) s (block_at k)))
    (some (SmartContracts.init [3] false))

/-- A chain: block 1 deploys `contract` and `contract2`, the other blocks are empty. -/
def two_chain (n : Nat) : Pool :=
  if n = 1 then { empty_block 1 with transactions := [tx_deploy, tx_deploy2] }
  else empty_block n

/-- The chain `two_chain` with a block 2 that has a round fee of 200. -/
def costly_chain (n : Nat) : Pool :=
  if n = 2 then { empty_block 2 with transactions := block2_costly.transactions }
  else two_chain n

/-- A chain: block 1 deploys `contract`, block 2 calls it and deploys `contract2`, block 60
holds the new-state of the deploy of `contract`, block 103 has a round fee of 200, and the
other blocks are empty. -/
def late_chain (n : Nat) : Pool :=
  if n = 1 then { empty_block 1 with transactions := [tx_deploy] }
  else if n = 2 then { empty_block 2 with transactions := [tx_start, tx_deploy2] }
  else if n = 60 then { empty_block 60 with transactions := [tx_new_state] }
  else if n = 103 then { empty_block 103 with transactions := block2_costly.transactions }
  else empty_block n

/-- The scheduler of node `[3]` after block 1 of `two_chain`. -/
def executor_two_started : SmartContracts :=
  (run_blocks two_chain 1).getD (SmartContracts.init [3] false)

/-- The scheduler of node `[3]` after the blocks 1 to 51 of `two_chain`. -/
def executor_two_items : SmartContracts :=
  (run_blocks two_chain 51).getD (SmartContracts.init [3] false)

/-- The scheduler of node `[3]` after the blocks 1 to 102 of `late_chain`. -/
def executor_late : SmartContracts :=
  (run_blocks late_chain 102).getD (SmartContracts.init [3] false)

/-- The first item of `executor_two_items`, the deploy of `contract`. -/
def first_item : QueueItem :=
  { executions :=
      [{ ref_start := { hash := ⟨[7, 1]⟩, sequence := 1, transaction := 0 }, avail_fee := 98,
         new_state_fee := 1, consumed_fee := 2, uses := [], result := [] }],
    status := .Running, seq_enqueue := 1, seq_start := 1, seq_finish := 0, abs_addr := contract,
    is_executor := true, is_rejected := false }

/-- The second item of `executor_two_items`, the deploy of `contract2`. -/
def second_item : QueueItem :=
  { executions :=
      [{ ref_start := { hash := ⟨[7, 1]⟩, sequence := 1, transaction := 1 }, avail_fee := 98,
         new_state_fee := 1, consumed_fee := 2, uses := [], result := [] }],
    status := .Running, seq_enqueue := 1, seq_start := 1, seq_finish := 0, abs_addr := contract2,
    is_executor := true, is_rejected := false }

/-- The first item of `executor_late`: the call of `contract` of block 2, which waited for
the new-state of the deploy and has been Running since block 60. -/
def late_item : QueueItem :=
  { executions :=
      [{ ref_start := { hash := ⟨[7, 2]⟩, sequence := 2, transaction := 0 }, avail_fee := 98,
         new_state_fee := 1, consumed_fee := 2, uses := [], result := [] }],
    status := .Running, seq_enqueue := 2, seq_start := 60, seq_finish := 0, abs_addr := contract,
    is_executor := true, is_rejected := false }

/-- The second item of `executor_late`: the deploy of `contract2` of block 2, Running since
block 2, stopped with `TimeExpired` at block 53 and Finished since, its new-state not in
the chain. -/
def timed_out_item : QueueItem :=
  { executions :=
      [{ ref_start := { hash := ⟨[7, 2]⟩, sequence := 2, transaction := 1 }, avail_fee := 98,
         new_state_fee := 1, consumed_fee := 0, uses := [],
         result :=
           [{ is_valid := true, innerID := 1, source := contract2, target := contract2,
              currency := 1, amount := 0, max_fee := 98, counted_fee := 1, signature := [],
              user_fields :=
                [(1, .string [2, 1, 7, 2]), (2, .amount 0), (-2, .string []),
                 (3, .string [])] }] }],
    status := .Finished, seq_enqueue := 2, seq_start := 2, seq_finish := 53,
    abs_addr := contract2, is_executor := true, is_rejected := false }

end sample
end cs

/-! ## Theorems -/

namespace csdb
namespace Storage

theorem resize_length (als : List (PoolHash × PoolHash)) (n : Nat) :
    (resize als n).length = n := by
  unfold resize
  simp only [List.length_append, List.length_take, List.length_replicate]
  omega

theorem resize_getD (als : List (PoolHash × PoolHash)) (n i : Nat) (h : als.length ≤ n) :
    (resize als n).getD i (PoolHash.empty, PoolHash.empty)
      = als.getD i (PoolHash.empty, PoolHash.empty) := by
  unfold resize
  rw [List.take_of_length_le h]
  simp only [List.getD_eq_getElem?_getD]
  by_cases hi : i < als.length
  · rw [List.getElem?_append_left hi]
  · have hi' : als.length ≤ i := Nat.le_of_not_lt hi
    rw [List.getElem?_append_right hi', List.getElem?_eq_none hi']
    by_cases h2 : i - als.length < n - als.length
    · rw [List.getElem?_replicate_of_lt h2]; rfl
    · rw [List.getElem?_eq_none (by simpa using Nat.le_of_not_lt h2)]

theorem set_getD (als : List (PoolHash × PoolHash)) (j i : Nat) (x : PoolHash × PoolHash)
    (hj : j < als.length) :
    (als.set j x).getD i (PoolHash.empty, PoolHash.empty)
      = if j = i then x else als.getD i (PoolHash.empty, PoolHash.empty) := by
  simp only [List.getD_eq_getElem?_getD, List.getElem?_set]
  by_cases h : j = i
  · subst h; simp [hj]
  · simp [h]


theorem max_seq_snoc (c : PoolCodec) (vs : List byte_array) (v : byte_array) :
    max_seq c (vs ++ [v]) = max (max_seq c vs) (seq_of c v) := by
  simp [max_seq, List.foldl_append]

theorem slot_at_snoc (c : PoolCodec) (vs : List byte_array) (v : byte_array) (i : Nat) :
    slot_at c (vs ++ [v]) i = if seq_of c v = i then slot_of c v else slot_at c vs i := by
  simp [slot_at, List.foldl_append]

theorem scanInv_init (c : PoolCodec) :
    ScanInv c [] { lastSeq := 0, count_pool := 0, poolsProcessed := 0, als := [] } :=
  ⟨fun _ => ⟨rfl, rfl⟩, fun h => absurd rfl h, fun i => by simp [slot_at], by simp⟩

theorem rescan_step_inv (c : PoolCodec) (cb : OpenCallback) (done : List byte_array)
    (s s' : ScanState) (v : byte_array) (hinv : ScanInv c done s)
    (h : rescan_step c cb s v = .completed s') : ScanInv c (done ++ [v]) s' := by
  have hlen0 : s.als.length ≤ s.lastSeq + 1 := by
    by_cases hd : done = []
    · rw [(hinv.nil hd).1]; simp
    · rw [(hinv.len hd).1]
  have hmax : done ≠ [] → s.lastSeq = max_seq c done := fun hd => (hinv.len hd).2.2
  have hmax0 : done = [] → max_seq c done = 0 := fun hd => by subst hd; rfl
  unfold rescan_step at h
  simp only at h
  split at h
  · cases h
  split at h
  · cases h
  split at h
  · cases h
  by_cases hge : (c.from_binary v).sequence ≥ s.lastSeq
  · simp only [hge, if_true] at h
    split at h
    · rename_i hlt
      rw [resize_length] at hlt
      have hu : uint32_range = 2 ^ 32 := rfl
      have h1 : (c.from_binary v).sequence % uint32_range + 1 < uint32_range := by
        by_contra hcon
        have hle := Nat.mod_lt (c.from_binary v).sequence (show uint32_range > 0 by rw [hu]; norm_num)
        have : (c.from_binary v).sequence % uint32_range + 1 = uint32_range := by omega
        rw [this, Nat.mod_self] at hlt
        exact Nat.not_lt_zero _ hlt
      rw [Nat.mod_eq_of_lt h1] at hlt
      have h2 : (c.from_binary v).sequence % uint32_range = (c.from_binary v).sequence := by
        have := Nat.mod_le (c.from_binary v).sequence uint32_range
        omega
      rw [h2] at h h1
      rw [Nat.mod_eq_of_lt h1] at h
      injection h with h
      subst h
      have hres : s.als.length ≤ (c.from_binary v).sequence + 1 := by omega
      refine ⟨fun hd => absurd hd (by simp), fun _ => ⟨?_, h1, ?_⟩, fun i => ?_, ?_⟩
      · simp [resize_length]
      · rw [max_seq_snoc]
        show (c.from_binary v).sequence = max (max_seq c done) (seq_of c v)
        by_cases hd : done = []
        · rw [hmax0 hd]; simp [seq_of]
        · rw [← hmax hd]; simp only [seq_of]; omega
      · show List.getD (List.set _ _ _) i _ = _
        rw [set_getD _ _ _ _ (by rw [resize_length]; omega), resize_getD _ _ _ hres,
          slot_at_snoc, hinv.slots i]
        rfl
      · show (s.count_pool + 1) % size_t_range = _
        rw [hinv.count]
        simp [Nat.add_mod]
    · cases h
  · simp only [hge, if_false] at h
    have hne : done ≠ [] := by
      intro hd
      rw [(hinv.nil hd).2] at hge
      exact hge (Nat.zero_le _)
    obtain ⟨hl, hb, hm⟩ := hinv.len hne
    split at h
    · rename_i hlt
      injection h with h
      subst h
      refine ⟨fun hd => absurd hd (by simp), fun _ => ⟨?_, hb, ?_⟩, fun i => ?_, ?_⟩
      · simpa using hl
      · rw [max_seq_snoc]
        show s.lastSeq = max (max_seq c done) (seq_of c v)
        rw [← hm]; simp only [seq_of]; omega
      · show List.getD (List.set _ _ _) i _ = _
        rw [set_getD _ _ _ _ hlt, slot_at_snoc, hinv.slots i]
        rfl
      · show (s.count_pool + 1) % size_t_range = _
        rw [hinv.count]
        simp [Nat.add_mod]
    · cases h

theorem rescan_loop_inv (c : PoolCodec) (cb : OpenCallback) (vs : List byte_array) :
    ∀ (done : List byte_array) (s s' : ScanState), ScanInv c done s →
      rescan_loop c cb s vs = .completed s' → ScanInv c (done ++ vs) s' := by
  induction vs with
  | nil =>
    intro done s s' hinv h
    simp only [rescan_loop] at h
    injection h with h
    subst h
    simpa using hinv
  | cons v vs ih =>
    intro done s s' hinv h
    simp only [rescan_loop] at h
    split at h
    · rename_i s1 hs1
      have := ih (done ++ [v]) s1 s' (rescan_step_inv c cb done s s1 v hinv hs1) h
      simpa using this
    · rename_i r hr
      rw [h] at hr
      exact absurd rfl (hr s')


theorem foldl_max_ge (c : PoolCodec) (vs : List byte_array) :
    ∀ m, m ≤ vs.foldl (fun m v => max m (seq_of c v)) m ∧
      (∀ v ∈ vs, seq_of c v ≤ vs.foldl (fun m v => max m (seq_of c v)) m) ∧
      (vs.foldl (fun m v => max m (seq_of c v)) m = m ∨
        ∃ v ∈ vs, seq_of c v = vs.foldl (fun m v => max m (seq_of c v)) m) := by
  induction vs with
  | nil => intro m; simp
  | cons v vs ih =>
    intro m
    obtain ⟨h1, h2, h3⟩ := ih (max m (seq_of c v))
    simp only [List.foldl_cons, List.mem_cons]
    refine ⟨le_trans (le_max_left _ _) h1, ?_, ?_⟩
    · intro w hw
      rcases hw with rfl | hw
      · exact le_trans (le_max_right _ _) h1
      · exact h2 w hw
    · rcases h3 with h3 | ⟨w, hw, hw2⟩
      · rw [h3]
        rcases le_total m (seq_of c v) with hle | hle
        · right; exact ⟨v, Or.inl rfl, by rw [max_eq_right hle]⟩
        · left; exact max_eq_left hle
      · right; exact ⟨w, Or.inr hw, hw2⟩

theorem max_seq_ge (c : PoolCodec) (vs : List byte_array) (v : byte_array) (hv : v ∈ vs) :
    seq_of c v ≤ max_seq c vs := (foldl_max_ge c vs 0).2.1 v hv

theorem max_seq_mem (c : PoolCodec) (vs : List byte_array) (h : vs ≠ []) :
    ∃ v ∈ vs, seq_of c v = max_seq c vs := by
  rcases (foldl_max_ge c vs 0).2.2 with h0 | h0
  · cases vs with
    | nil => exact absurd rfl h
    | cons v vs =>
      refine ⟨v, List.mem_cons_self _ _, ?_⟩
      have := max_seq_ge c (v :: vs) v (List.mem_cons_self _ _)
      unfold max_seq at this ⊢
      omega
  · exact h0

theorem slot_at_eq (c : PoolCodec) (A : Nat → PoolHash × PoolHash) (i : Nat)
    (vs : List byte_array) (hA : ∀ v ∈ vs, A (seq_of c v) = slot_of c v) :
    ∀ acc, vs.foldl (fun acc v => if seq_of c v = i then slot_of c v else acc) acc
      = if ∃ v ∈ vs, seq_of c v = i then A i else acc := by
  induction vs with
  | nil => intro acc; simp
  | cons v vs ih =>
    intro acc
    simp only [List.foldl_cons]
    rw [ih (fun w hw => hA w (List.mem_cons_of_mem _ hw))]
    by_cases h1 : ∃ w ∈ vs, seq_of c w = i
    · have h2 : ∃ w ∈ v :: vs, seq_of c w = i := by
        obtain ⟨w, hw, hw2⟩ := h1
        exact ⟨w, List.mem_cons_of_mem _ hw, hw2⟩
      rw [if_pos h1, if_pos h2]
    · rw [if_neg h1]
      by_cases h3 : seq_of c v = i
      · have h2 : ∃ w ∈ v :: vs, seq_of c w = i := ⟨v, List.mem_cons_self _ _, h3⟩
        rw [if_pos h3, if_pos h2, ← h3, hA v (List.mem_cons_self _ _)]
      · have h2 : ¬ ∃ w ∈ v :: vs, seq_of c w = i := by
          rintro ⟨w, hw, hw2⟩
          rcases List.mem_cons.1 hw with rfl | hw
          · exact h3 hw2
          · exact h1 ⟨w, hw, hw2⟩
        rw [if_neg h3, if_neg h2]

theorem check_loop_spec (als : List (PoolHash × PoolHash)) :
    ∀ fuel i, 1 ≤ i → i ≤ als.length → als.length ≤ fuel + i →
      ∃ k, i - 1 ≤ k ∧ k < als.length ∧
        (∀ j, i ≤ j → j ≤ k →
          (als.getD j (PoolHash.empty, PoolHash.empty)).2
            = (als.getD (j - 1) (PoolHash.empty, PoolHash.empty)).1) ∧
        (k + 1 < als.length →
          (als.getD (k + 1) (PoolHash.empty, PoolHash.empty)).2
            ≠ (als.getD k (PoolHash.empty, PoolHash.empty)).1) ∧
        check_loop als fuel i (als.getD (i - 1) (PoolHash.empty, PoolHash.empty)).1
          = (als.getD k (PoolHash.empty, PoolHash.empty)).1 := by
  intro fuel
  induction fuel with
  | zero =>
    intro i h1 h2 h3
    refine ⟨i - 1, le_refl _, by omega, fun j hj1 hj2 => by omega, fun h => by omega, ?_⟩
    simp [check_loop]
  | succ fuel ih =>
    intro i h1 h2 h3
    by_cases hi : i < als.length
    · by_cases hbr : i > 0 ∧ (als.getD i (PoolHash.empty, PoolHash.empty)).2
          ≠ (als.getD (i - 1) (PoolHash.empty, PoolHash.empty)).1
      · refine ⟨i - 1, le_refl _, by omega, fun j hj1 hj2 => by omega, fun _ => ?_, ?_⟩
        · have : i - 1 + 1 = i := by omega
          rw [this]; exact hbr.2
        · rw [check_loop, if_pos hi, if_pos hbr]
      · have hlink : (als.getD i (PoolHash.empty, PoolHash.empty)).2
            = (als.getD (i - 1) (PoolHash.empty, PoolHash.empty)).1 := by
          by_contra hne
          exact hbr ⟨h1, hne⟩
        obtain ⟨k, hk1, hk2, hk3, hk4, hk5⟩ := ih (i + 1) (by omega) (by omega) (by omega)
        refine ⟨k, by omega, hk2, fun j hj1 hj2 => ?_, hk4, ?_⟩
        · by_cases hji : j = i
          · subst hji; exact hlink
          · exact hk3 j (by omega) hj2
        · rw [check_loop, if_pos hi, if_neg hbr]
          have hii : i + 1 - 1 = i := by omega
          rw [hii] at hk5
          exact hk5
    · refine ⟨i - 1, le_refl _, by omega, fun j hj1 hj2 => by omega, fun h => by omega, ?_⟩
      rw [check_loop, if_neg hi]


theorem rescan_ok_spec (c : PoolCodec) (cb : OpenCallback) (d d' : priv) (db : Database)
    (hdb : d.db = some db) (hok : rescan c cb d = some (true, d')) :
    ∃ s, ScanInv c (db.records.map Record.value) s ∧
      d' = { d with
             last_hash :=
               if s.als.length = 0 then PoolHash.empty
               else check_loop s.als s.als.length 1
                 (s.als.getD 0 (PoolHash.empty, PoolHash.empty)).1,
             count_pool := s.count_pool } := by
  unfold rescan at hok
  rw [hdb] at hok
  simp only at hok
  split at hok
  · cases hok
  · cases hok
  · rename_i s hs
    have hinv := rescan_loop_inv c cb _ [] _ s (scanInv_init c) hs
    rw [List.nil_append] at hinv
    refine ⟨s, hinv, ?_⟩
    split at hok
    · rename_i h0
      rw [if_pos h0]
      cases hok
      rw [hdb]
    · rename_i h0
      rw [if_neg h0]
      cases hok
      rw [hdb]

/-- C1. Storage rescan, longest linked chain from sequence 0: whenever `rescan` succeeds on
a database holding at least one pool, and `A` is the array indexed by pool sequence whose
slot is (recomputed hash, previous_hash) of the pool stored with that sequence and
(empty, empty) where no pool has that sequence, `last_hash` after the rescan is `A[k].hash`
for the largest index `k` of the array such that `A[i].previous_hash = A[i-1].hash` for
every `1 ≤ i ≤ k`. -/
theorem rescan_last_hash_longest_chain (c : PoolCodec) (cb : OpenCallback) (d d' : priv)
    (db : Database) (A : Nat → PoolHash × PoolHash)
    (hdb : d.db = some db) (hne : db.records ≠ [])
    (hok : rescan c cb d = some (true, d'))
    (hA1 : ∀ r ∈ db.records, A (seq_of c r.value) = slot_of c r.value)
    (hA0 : ∀ s, (∀ r ∈ db.records, seq_of c r.value ≠ s) →
      A s = (PoolHash.empty, PoolHash.empty)) :
    ∃ k, (∃ r ∈ db.records, k ≤ seq_of c r.value) ∧
      (∀ i, 1 ≤ i → i ≤ k → (A i).2 = (A (i - 1)).1) ∧
      (∀ k', (∃ r ∈ db.records, k' ≤ seq_of c r.value) →
        (∀ i, 1 ≤ i → i ≤ k' → (A i).2 = (A (i - 1)).1) → k' ≤ k) ∧
      d'.last_hash = (A k).1 := by
  obtain ⟨s, hinv, hd'⟩ := rescan_ok_spec c cb d d' db hdb hok
  have hvs : db.records.map Record.value ≠ [] := by simpa using hne
  obtain ⟨hlen, _, hmax⟩ := hinv.len hvs
  have hslot : ∀ i, s.als.getD i (PoolHash.empty, PoolHash.empty) = A i := by
    intro i
    rw [hinv.slots i]
    unfold slot_at
    rw [slot_at_eq c A i _ (by
      intro v hv
      obtain ⟨r, hr, rfl⟩ := List.mem_map.1 hv
      exact hA1 r hr)]
    split
    · rfl
    · rename_i hno
      symm
      apply hA0
      intro r hr heq
      exact hno ⟨r.value, List.mem_map.2 ⟨r, hr, rfl⟩, heq⟩
  obtain ⟨k, _, hk2, hk3, hk4, hk5⟩ :=
    check_loop_spec s.als s.als.length 1 (le_refl _) (by omega) (by omega)
  have hlast : d'.last_hash = (A k).1 := by
    rw [hd']
    show (if s.als.length = 0 then PoolHash.empty else _) = _
    rw [if_neg (by omega)]
    rw [← hslot k]
    exact hk5
  refine ⟨k, ?_, ?_, ?_, hlast⟩
  · obtain ⟨v, hv, hv2⟩ := max_seq_mem c _ hvs
    obtain ⟨r, hr, rfl⟩ := List.mem_map.1 hv
    exact ⟨r, hr, by omega⟩
  · intro i hi1 hi2
    rw [← hslot i, ← hslot (i - 1)]
    exact hk3 i hi1 hi2
  · intro k' ⟨r, hr, hrk⟩ hlinks
    by_contra hlt
    have hkk : k + 1 ≤ k' := by omega
    have hb : k' ≤ s.lastSeq := by
      rw [hmax]
      exact le_trans hrk (max_seq_ge c _ _ (List.mem_map.2 ⟨r, hr, rfl⟩))
    have := hk4 (by omega)
    rw [hslot, hslot] at this
    apply this
    have h2 := hlinks (k + 1) (by omega) hkk
    simpa using h2


theorem slot_at_cases (c : PoolCodec) (i : Nat) (vs : List byte_array) :
    ∀ acc, (vs.foldl (fun acc v => if seq_of c v = i then slot_of c v else acc) acc = acc ∧
        ∀ v ∈ vs, seq_of c v ≠ i) ∨
      ∃ v ∈ vs, seq_of c v = i ∧
        vs.foldl (fun acc v => if seq_of c v = i then slot_of c v else acc) acc = slot_of c v := by
  induction vs with
  | nil => intro acc; left; simp
  | cons v vs ih =>
    intro acc
    simp only [List.foldl_cons]
    rcases ih (if seq_of c v = i then slot_of c v else acc) with ⟨h1, h2⟩ | ⟨w, hw, hw1, hw2⟩
    · by_cases hv : seq_of c v = i
      · right
        refine ⟨v, List.mem_cons_self _ _, hv, ?_⟩
        rw [h1, if_pos hv]
      · left
        rw [if_neg hv] at h1
        refine ⟨by rw [if_neg hv]; exact h1, ?_⟩
        intro w hw
        rcases List.mem_cons.1 hw with rfl | hw
        · exact hv
        · exact h2 w hw
    · right
      exact ⟨w, List.mem_cons_of_mem _ hw, hw1, hw2⟩

/-- C2 (as amended). Storage rescan, gap: when no pool has sequence `g`, some pool has a
sequence greater than `g` and some pool has a sequence below `g` (recomputed hashes being
digests, never the empty hash), a successful rescan does not extend `last_hash` past the
gap: `last_hash` is the empty hash or the hash of a pool whose sequence is below `g`. -/
theorem rescan_stops_before_gap (c : PoolCodec) (cb : OpenCallback) (d d' : priv)
    (db : Database) (g : Nat)
    (hdb : d.db = some db)
    (hok : rescan c cb d = some (true, d'))
    (hhash : ∀ v, c.calc_from_data v ≠ PoolHash.empty)
    (hgap : ∀ r ∈ db.records, seq_of c r.value ≠ g)
    (hgt : ∃ r ∈ db.records, g < seq_of c r.value)
    (hbelow : ∃ r ∈ db.records, seq_of c r.value < g) :
    d'.last_hash = PoolHash.empty ∨
      ∃ r ∈ db.records, seq_of c r.value < g ∧ d'.last_hash = c.calc_from_data r.value := by
  obtain ⟨s, hinv, hd'⟩ := rescan_ok_spec c cb d d' db hdb hok
  obtain ⟨r0, hr0, hr0g⟩ := hbelow
  have hvs : db.records.map Record.value ≠ [] := by
    intro h
    rw [List.map_eq_nil_iff] at h
    rw [h] at hr0
    cases hr0
  obtain ⟨hlen, _, hmax⟩ := hinv.len hvs
  obtain ⟨k, _, hk2, hk3, _, hk5⟩ :=
    check_loop_spec s.als s.als.length 1 (le_refl _) (by omega) (by omega)
  have hlast : d'.last_hash = (s.als.getD k (PoolHash.empty, PoolHash.empty)).1 := by
    rw [hd']
    show (if s.als.length = 0 then PoolHash.empty else _) = _
    rw [if_neg (by omega), hk5]
  -- from the pool below the gap up to `k`, every index carries a pool
  have hpool : ∀ n, seq_of c r0.value + n ≤ k →
      ∃ v ∈ db.records.map Record.value, seq_of c v = seq_of c r0.value + n ∧
        s.als.getD (seq_of c r0.value + n) (PoolHash.empty, PoolHash.empty) = slot_of c v := by
    intro n
    induction n with
    | zero =>
      intro _
      rcases slot_at_cases c (seq_of c r0.value) (db.records.map Record.value)
        (PoolHash.empty, PoolHash.empty) with ⟨_, h2⟩ | ⟨v, hv, hv1, hv2⟩
      · exact absurd rfl (h2 _ (List.mem_map.2 ⟨r0, hr0, rfl⟩))
      · exact ⟨v, hv, hv1, by rw [Nat.add_zero, hinv.slots]; exact hv2⟩
    | succ n ih =>
      intro hj
      obtain ⟨w, _, _, hw2⟩ := ih (by omega)
      have hlink := hk3 (seq_of c r0.value + (n + 1)) (by omega) hj
      have hpred : seq_of c r0.value + (n + 1) - 1 = seq_of c r0.value + n := by omega
      rw [hpred, hw2] at hlink
      rcases slot_at_cases c (seq_of c r0.value + (n + 1)) (db.records.map Record.value)
        (PoolHash.empty, PoolHash.empty) with ⟨h1, _⟩ | ⟨v, hv, hv1, hv2⟩
      · exfalso
        have hs := hinv.slots (seq_of c r0.value + (n + 1))
        unfold slot_at at hs
        rw [h1] at hs
        rw [hs] at hlink
        exact hhash w hlink.symm
      · exact ⟨v, hv, hv1, by rw [hinv.slots]; exact hv2⟩
  have hkg : k < g := by
    by_contra hge
    obtain ⟨v, hv, hv1, _⟩ := hpool (g - seq_of c r0.value) (by omega)
    obtain ⟨r, hr, rfl⟩ := List.mem_map.1 hv
    exact hgap r hr (by omega)
  rcases slot_at_cases c k (db.records.map Record.value) (PoolHash.empty, PoolHash.empty)
    with ⟨h1, _⟩ | ⟨v, hv, hv1, hv2⟩
  · left
    rw [hlast, hinv.slots k]
    unfold slot_at
    rw [h1]
  · right
    obtain ⟨r, hr, rfl⟩ := List.mem_map.1 hv
    refine ⟨r, hr, by omega, ?_⟩
    rw [hlast, hinv.slots k]
    unfold slot_at
    rw [hv2]
    rfl

/-- C1, at a concrete database: the linked pools 0, 1, 2 stored in the order 2, 0, 1. -/
theorem rescan_last_hash_longest_chain_witness :
    (sample.store_of [sample.bytes2, sample.bytes0, sample.bytes1]).db
        = some { is_open := true,
                 records := [sample.bytes2, sample.bytes0, sample.bytes1].map sample.record } ∧
      rescan sample.codec none (sample.store_of [sample.bytes2, sample.bytes0, sample.bytes1])
        = some (true,
            { sample.store_of [sample.bytes2, sample.bytes0, sample.bytes1] with
              last_hash := sample.codec.calc_from_data sample.bytes2, count_pool := 3 }) ∧
      ∃ k, (∃ r ∈ [sample.bytes2, sample.bytes0, sample.bytes1].map sample.record,
            k ≤ seq_of sample.codec r.value) ∧
        (∀ i, 1 ≤ i → i ≤ k →
          (slot_at sample.codec [sample.bytes2, sample.bytes0, sample.bytes1] i).2
            = (slot_at sample.codec [sample.bytes2, sample.bytes0, sample.bytes1] (i - 1)).1) ∧
        (∀ k', (∃ r ∈ [sample.bytes2, sample.bytes0, sample.bytes1].map sample.record,
            k' ≤ seq_of sample.codec r.value) →
          (∀ i, 1 ≤ i → i ≤ k' →
            (slot_at sample.codec [sample.bytes2, sample.bytes0, sample.bytes1] i).2
              = (slot_at sample.codec [sample.bytes2, sample.bytes0, sample.bytes1] (i - 1)).1) →
          k' ≤ k) ∧
        sample.codec.calc_from_data sample.bytes2
          = (slot_at sample.codec [sample.bytes2, sample.bytes0, sample.bytes1] k).1 :=
  ⟨rfl, rfl,
    rescan_last_hash_longest_chain sample.codec none
      (sample.store_of [sample.bytes2, sample.bytes0, sample.bytes1])
      { sample.store_of [sample.bytes2, sample.bytes0, sample.bytes1] with
        last_hash := sample.codec.calc_from_data sample.bytes2, count_pool := 3 }
      { is_open := true,
        records := [sample.bytes2, sample.bytes0, sample.bytes1].map sample.record }
      (slot_at sample.codec [sample.bytes2, sample.bytes0, sample.bytes1])
      rfl (by decide) rfl (by decide)
      (by
        intro s hs
        have h2 : s ≠ 2 := fun h => hs (sample.record sample.bytes2) (by simp) (by rw [h]; rfl)
        have h0 : s ≠ 0 := fun h => hs (sample.record sample.bytes0) (by simp) (by rw [h]; rfl)
        have h1 : s ≠ 1 := fun h => hs (sample.record sample.bytes1) (by simp) (by rw [h]; rfl)
        have e2 : seq_of sample.codec sample.bytes2 = 2 := rfl
        have e0 : seq_of sample.codec sample.bytes0 = 0 := rfl
        have e1 : seq_of sample.codec sample.bytes1 = 1 := rfl
        simp only [slot_at, List.foldl_cons, List.foldl_nil, e2, e0, e1]
        rw [if_neg (Ne.symm h2), if_neg (Ne.symm h0), if_neg (Ne.symm h1)])⟩

/-- C2, counterexample to the claim as stated: the database holds one pool, of sequence 1
and with empty `previous_hash`; sequences are pairwise distinct, no pool has sequence 0 and
a pool has a larger sequence, yet the successful rescan sets `last_hash` to the hash of the
pool at sequence 1, which is neither empty nor the hash of a pool below the gap. -/
theorem rescan_gap_at_zero_counterexample :
    rescan sample.codec none (sample.store_of [[1]])
        = some (true,
            { sample.store_of [[1]] with
              last_hash := sample.codec.calc_from_data [1], count_pool := 1 }) ∧
      ([[1]].map (seq_of sample.codec)).Nodup ∧
      (∀ v ∈ [[1]], seq_of sample.codec v ≠ 0) ∧
      (∃ v ∈ [[1]], 0 < seq_of sample.codec v) ∧
      ¬ (sample.codec.calc_from_data [1] = PoolHash.empty ∨
          ∃ v ∈ [[1]], seq_of sample.codec v < 0 ∧
            sample.codec.calc_from_data [1] = sample.codec.calc_from_data v) :=
  ⟨rfl, by decide, by decide, by decide, by decide⟩

/-- C2 (as amended), at the database of the specification's scenario: correctly linked
pools at sequences 0, 1, 2 and 4 (gap at 3) give `last_hash = hash(pool@2)` and
`count = 4`. -/
theorem rescan_stops_before_gap_witness :
    rescan sample.codec none
        (sample.store_of [sample.bytes0, sample.bytes1, sample.bytes2, sample.bytes4])
        = some (true,
            { sample.store_of [sample.bytes0, sample.bytes1, sample.bytes2, sample.bytes4] with
              last_hash := sample.codec.calc_from_data sample.bytes2, count_pool := 4 }) ∧
      (sample.codec.calc_from_data sample.bytes2 = PoolHash.empty ∨
        ∃ r ∈ [sample.bytes0, sample.bytes1, sample.bytes2, sample.bytes4].map sample.record,
          seq_of sample.codec r.value < 3 ∧
            sample.codec.calc_from_data sample.bytes2 = sample.codec.calc_from_data r.value) :=
  ⟨rfl,
    rescan_stops_before_gap sample.codec none
      (sample.store_of [sample.bytes0, sample.bytes1, sample.bytes2, sample.bytes4])
      { sample.store_of [sample.bytes0, sample.bytes1, sample.bytes2, sample.bytes4] with
        last_hash := sample.codec.calc_from_data sample.bytes2, count_pool := 4 }
      { is_open := true,
        records :=
          [sample.bytes0, sample.bytes1, sample.bytes2, sample.bytes4].map sample.record }
      3 rfl rfl (fun v h => by cases h) (by decide) (by decide) (by decide)⟩

/-- C3, the failing schedule. On the empty open store `pool_save(pool0)` returns `true` and
a load finds the pool in the write queue; once the writer has popped the pool from the
queue and before its `db->put`, the pool is in neither place and `pool_load(pool0.hash)`
returns the invalid pool with `DatabaseError`; after the put the load succeeds again. -/
theorem pool_load_fails_while_writer_holds_pool :
    (pool_save empty_open.d sample.pool0).1 = true ∧
      pool_load sample.codec (run sample.codec (empty_open, []) [.save sample.pool0]).1.d
          sample.pool0.hash
        = (sample.pool0, (run sample.codec (empty_open, []) [.save sample.pool0]).1.d) ∧
      (run sample.codec (empty_open, []) [.save sample.pool0, .take]).1.writer_pool
        = some sample.pool0 ∧
      (run sample.codec (empty_open, []) [.save sample.pool0, .take]).1.d.write_queue = [] ∧
      (run sample.codec (empty_open, []) [.save sample.pool0, .take]).1.d.db
        = some { is_open := true, records := [] } ∧
      pool_load sample.codec (run sample.codec (empty_open, []) [.save sample.pool0, .take]).1.d
          sample.pool0.hash
        = (Pool.invalid,
            { (run sample.codec (empty_open, []) [.save sample.pool0, .take]).1.d with
              last_error := .DatabaseError }) ∧
      pool_load sample.codec
          (run sample.codec (empty_open, []) [.save sample.pool0, .take, .put]).1.d
          sample.pool0.hash
        = (sample.pool0,
            (run sample.codec (empty_open, []) [.save sample.pool0, .take, .put]).1.d) := by
  refine ⟨rfl, rfl, rfl, rfl, rfl, rfl, rfl⟩

/-- C4, the failing input. `pool_save(pool0)` twice in a row on the empty open store, the
first copy still waiting in the write queue: the second call returns `true` as well, the
queue holds the pool twice and the count is 2. Once the writer has stored the pool, a
further `pool_save(pool0)` is refused with `InvalidParameter`. -/
theorem pool_save_accepts_queued_duplicate :
    (pool_save empty_open.d sample.pool0).1 = true ∧
      pool_save (pool_save empty_open.d sample.pool0).2 sample.pool0
        = (true,
            { empty_open.d with
              write_queue := [sample.pool0, sample.pool0], count_pool := 2,
              last_hash := sample.pool0.hash, last_error := .NoError }) ∧
      pool_save (run sample.codec (empty_open, []) [.save sample.pool0, .take, .put]).1.d
          sample.pool0
        = (false,
            { (run sample.codec (empty_open, []) [.save sample.pool0, .take, .put]).1.d with
              last_error := .InvalidParameter }) := by
  refine ⟨rfl, rfl, rfl⟩

/-- C5, counterexample to the claim as stated: `pool1` is saved on the empty open store,
its `previous_hash` differs from the current (empty) `last_hash`, the call succeeds,
`last_hash` is unchanged, and the count has grown from 0 to 1. -/
theorem pool_save_count_counterexample :
    (pool_save empty_open.d sample.pool1).1 = true ∧
      sample.pool1.previous_hash ≠ empty_open.d.last_hash ∧
      (pool_save empty_open.d sample.pool1).2.last_hash = empty_open.d.last_hash ∧
      empty_open.d.count_pool = 0 ∧
      (pool_save empty_open.d sample.pool1).2.count_pool = 1 ∧
      ¬ ((pool_save empty_open.d sample.pool1).2.last_hash = empty_open.d.last_hash ∧
          (pool_save empty_open.d sample.pool1).2.count_pool = empty_open.d.count_pool) := by
  refine ⟨rfl, by decide, rfl, rfl, rfl, by decide⟩

/-- C5 (as amended). A successful `pool_save(p)` always advances the count by one (in
`size_t` arithmetic); `last_hash` becomes `p.hash` if `p.previous_hash` equals the current
`last_hash` and is left unchanged otherwise. -/
theorem pool_save_last_hash_and_count (d d' : priv) (p : Pool)
    (h : pool_save d p = (true, d')) :
    d'.count_pool = (d.count_pool + 1) % size_t_range ∧
      (d.count_pool + 1 < size_t_range → d'.count_pool = d.count_pool + 1) ∧
      (p.previous_hash = d.last_hash → d'.last_hash = p.hash) ∧
      (p.previous_hash ≠ d.last_hash → d'.last_hash = d.last_hash) := by
  unfold pool_save at h
  split at h
  · cases h
  · simp only at h
    split at h
    · cases h
    split at h
    · cases h
    split at h
    · cases h
    · injection h with _ h
      subst h
      refine ⟨rfl, fun hlt => Nat.mod_eq_of_lt hlt, fun he => ?_, fun hne => ?_⟩
      · show (if d.last_hash = p.previous_hash then p.hash else d.last_hash) = p.hash
        rw [if_pos he.symm]
      · show (if d.last_hash = p.previous_hash then p.hash else d.last_hash) = d.last_hash
        rw [if_neg (fun he => hne he.symm)]

/-- C5 (as amended), on the empty open store with `pool0`, which extends the chain. -/
theorem pool_save_last_hash_and_count_witness :
    pool_save empty_open.d sample.pool0
        = (true,
            { empty_open.d with
              write_queue := [sample.pool0], count_pool := 1, last_hash := sample.pool0.hash }) ∧
      (1 : Nat) = (empty_open.d.count_pool + 1) % size_t_range ∧
      (empty_open.d.count_pool + 1 < size_t_range → (1 : Nat) = empty_open.d.count_pool + 1) ∧
      (sample.pool0.previous_hash = empty_open.d.last_hash →
        sample.pool0.hash = sample.pool0.hash) ∧
      (sample.pool0.previous_hash ≠ empty_open.d.last_hash →
        sample.pool0.hash = empty_open.d.last_hash) :=
  ⟨rfl,
    pool_save_last_hash_and_count empty_open.d
      { empty_open.d with
        write_queue := [sample.pool0], count_pool := 1, last_hash := sample.pool0.hash }
      sample.pool0 rfl⟩


theorem linkedTo_mono (acc : List Pool) (p : Pool) (h : PoolHash) (hl : LinkedTo acc h) :
    LinkedTo (acc ++ [p]) h := by
  induction hl with
  | root => exact LinkedTo.root
  | link P hP _ ih => exact LinkedTo.link P (List.mem_append_left _ hP) ih

theorem pool_save_last_hash (d : priv) (p : Pool) :
    ((pool_save d p).1 = false ∧ (pool_save d p).2.last_hash = d.last_hash) ∨
      ((pool_save d p).1 = true ∧
        ((pool_save d p).2.last_hash = d.last_hash ∨
          ((pool_save d p).2.last_hash = p.hash ∧ d.last_hash = p.previous_hash))) := by
  unfold pool_save
  cases d.db with
  | none => left; exact ⟨rfl, rfl⟩
  | some db =>
    simp only
    by_cases h1 : (!db.is_open) = true
    · rw [if_pos h1]; left; exact ⟨rfl, rfl⟩
    rw [if_neg h1]
    by_cases h2 : (!p.is_valid) = true
    · rw [if_pos h2]; left; exact ⟨rfl, rfl⟩
    rw [if_neg h2]
    by_cases h3 : (db.get p.hash.to_binary).isSome = true
    · rw [if_pos h3]; left; exact ⟨rfl, rfl⟩
    rw [if_neg h3]
    right
    refine ⟨rfl, ?_⟩
    by_cases h4 : d.last_hash = p.previous_hash
    · right; exact ⟨if_pos h4, h4⟩
    · left; exact if_neg h4

theorem step_linked (c : PoolCodec) (sa : Store × List Pool) (op : Op)
    (h : LinkedTo sa.2 sa.1.d.last_hash) :
    LinkedTo (step c sa op).2 (step c sa op).1.d.last_hash := by
  cases op with
  | save p =>
    simp only [step]
    rcases pool_save_last_hash sa.1.d p with ⟨h1, h2⟩ | ⟨h1, h2⟩
    · rw [h1, h2]; exact h
    · rw [h1, if_pos rfl]
      rcases h2 with h2 | ⟨h2, h3⟩
      · rw [h2]; exact linkedTo_mono _ _ _ h
      · rw [h2]
        refine LinkedTo.link p (by simp) ?_
        rw [← h3]
        exact linkedTo_mono _ _ _ h
  | take =>
    simp only [step]
    unfold writer_take
    split
    · exact h
    · exact h
  | put =>
    simp only [step]
    unfold writer_put
    split
    · exact h
    · exact h

/-- C6, counterexample to the claim as stated: on the empty open store `pool_save(pool5)`
succeeds, so the store has accepted a pool of sequence 5 whose `previous_hash` is the hash
of no accepted pool. -/
theorem accepted_pool_without_predecessor_counterexample :
    (run sample.codec (empty_open, []) [.save sample.pool5]).2 = [sample.pool5] ∧
      sample.pool5.sequence = 5 ∧
      ¬ ∀ P ∈ (run sample.codec (empty_open, []) [.save sample.pool5]).2, P.sequence > 0 →
          ∃ Q ∈ (run sample.codec (empty_open, []) [.save sample.pool5]).2,
            Q.hash = P.previous_hash ∧ Q.sequence = P.sequence - 1 := by
  refine ⟨rfl, rfl, ?_⟩
  have hrun : (run sample.codec (empty_open, []) [.save sample.pool5]).2 = [sample.pool5] := rfl
  rw [hrun]
  decide

/-- C6 (as amended). In every state reachable from the empty open store by `pool_save`
calls and writer steps, `last_hash` heads a chain of accepted pools: it is the empty hash,
or the hash of an accepted pool whose `previous_hash` is again the empty hash or the hash
of an accepted pool, and so on down to the empty hash. -/
theorem last_hash_chain_of_accepted_pools (c : PoolCodec) (ops : List Op) :
    LinkedTo (run c (empty_open, []) ops).2 (run c (empty_open, []) ops).1.d.last_hash := by
  have key : ∀ (ops : List Op) (sa : Store × List Pool), LinkedTo sa.2 sa.1.d.last_hash →
      LinkedTo (run c sa ops).2 (run c sa ops).1.d.last_hash := by
    intro ops
    induction ops with
    | nil => intro sa h; exact h
    | cons op ops ih =>
      intro sa h
      exact ih (step c sa op) (step_linked c sa op h)
  exact key ops (empty_open, []) LinkedTo.root

theorem rescan_depends_on_db (c : PoolCodec) (cb : OpenCallback) (d d0 : priv)
    (h : d0.db = d.db) :
    (rescan c cb d0).map (fun r => (r.1, r.2.last_hash, r.2.count_pool, r.2.db))
      = (rescan c cb d).map (fun r => (r.1, r.2.last_hash, r.2.count_pool, r.2.db)) := by
  unfold rescan
  rw [h]
  cases d.db with
  | none => rfl
  | some db =>
    simp only
    split
    · rfl
    · simp [h]
    · split
      · simp [h]
      · simp [h]

theorem rescan_keeps_db (c : PoolCodec) (cb : OpenCallback) (d d1 : priv) (ok : Bool)
    (h : rescan c cb d = some (ok, d1)) : d1.db = d.db := by
  unfold rescan at h
  split at h
  · cases h
  · split at h
    · cases h
    · cases h; rfl
    · split at h
      · cases h; rfl
      · cases h; rfl

/-- C7. Rescan idempotence: running `rescan` twice in a row yields the same success flag
and the same `(last_hash, count)` as running it once, and the outcome does not depend on the
`last_hash`, count, queue or error state the object had before: any two objects on the same
database agree. The callback is a function of the progress counter, which covers the absent
and the never-cancelling callback. -/
theorem rescan_idempotent (c : PoolCodec) (cb : OpenCallback) (d : priv) :
    ((rescan c cb d).bind (fun r => rescan c cb r.2)).map
        (fun r => (r.1, r.2.last_hash, r.2.count_pool))
      = (rescan c cb d).map (fun r => (r.1, r.2.last_hash, r.2.count_pool)) ∧
      (∀ d0, d0.db = d.db →
        (rescan c cb d0).map (fun r => (r.1, r.2.last_hash, r.2.count_pool))
          = (rescan c cb d).map (fun r => (r.1, r.2.last_hash, r.2.count_pool))) := by
  have key : ∀ d0 : priv, d0.db = d.db →
      (rescan c cb d0).map (fun r => (r.1, r.2.last_hash, r.2.count_pool))
        = (rescan c cb d).map (fun r => (r.1, r.2.last_hash, r.2.count_pool)) := by
    intro d0 h0
    have h2 := congrArg (Option.map (fun r : Bool × PoolHash × Nat × Option Database =>
      (r.1, r.2.1, r.2.2.1))) (rescan_depends_on_db c cb d d0 h0)
    simpa [Option.map_map, Function.comp] using h2
  refine ⟨?_, key⟩
  cases h : rescan c cb d with
  | none => rfl
  | some r =>
    have hdb := rescan_keeps_db c cb d r.2 r.1 h
    have := key r.2 hdb
    rw [h] at this
    simpa using this

/-- C8. Empty store: `open` on an open database that holds no records returns `true` and
leaves `last_hash` empty, `count = 0` and `last_error = NoError`, whatever the object held
before and whatever the callback. -/
theorem open_empty_database (c : PoolCodec) (cb : OpenCallback) (d : priv) (db : Database)
    (hopen : db.is_open = true) (hempty : db.records = []) :
    ∃ d', open_ c cb (some db) d = some (true, d') ∧ d'.last_hash = PoolHash.empty ∧
      d'.count_pool = 0 ∧ d'.last_error = .NoError := by
  have h : open_ c cb (some db) d
      = some (true, ({ db := some db, last_hash := PoolHash.empty, count_pool := 0,
                       write_queue := d.write_queue, last_error := .NoError } : priv)) := by
    unfold open_
    simp only [hopen, Bool.not_true, Bool.false_eq_true, if_false]
    unfold rescan
    simp only [hempty, List.map_nil, rescan_loop, List.length_nil, if_true]
  exact ⟨_, h, rfl, rfl, rfl⟩

/-- C8, on an object that was used before. -/
theorem open_empty_database_witness :
    ({ is_open := true, records := [] } : Database).is_open = true ∧
      ({ is_open := true, records := [] } : Database).records = [] ∧
      ∃ d', open_ sample.codec none (some { is_open := true, records := [] })
            { db := none, last_hash := ⟨[9]⟩, count_pool := 77, write_queue := [],
              last_error := .DatabaseError } = some (true, d') ∧
        d'.last_hash = PoolHash.empty ∧ d'.count_pool = 0 ∧ d'.last_error = .NoError :=
  ⟨rfl, rfl,
    open_empty_database sample.codec none
      { db := none, last_hash := ⟨[9]⟩, count_pool := 77, write_queue := [],
        last_error := .DatabaseError }
      { is_open := true, records := [] } rfl rfl⟩

end Storage
end csdb

namespace cs

open csdb

/-! ### Frame lemmas: what the helpers leave untouched -/

theorem set_contract_exe_queue (s : SmartContracts) (a : Address) (st : StateItem) :
    (s.set_contract a st).exe_queue = s.exe_queue := rfl

theorem update_metadata_exe_queue (env : Env) (s : SmartContracts)
    (c : SmartContractInvocation) (st : StateItem) :
    (update_metadata env s c st).2.2.exe_queue = s.exe_queue := by
  unfold update_metadata
  split
  · rfl
  · simp only
    split <;> rfl

theorem is_payable_exe_queue (env : Env) (s : SmartContracts) (a : Address) :
    (is_payable env s a).2.exe_queue = s.exe_queue := by
  unfold is_payable
  split
  · rfl
  · split
    · rfl
    · split
      · rfl
      · simp only
        split <;> simp [set_contract_exe_queue, update_metadata_exe_queue]

theorem is_payable_target_exe_queue (env : Env) (s : SmartContracts) (t : Transaction) :
    (is_payable_target env s t).2.exe_queue = s.exe_queue := by
  unfold is_payable_target
  simp only
  split
  · rfl
  · exact is_payable_exe_queue env s _

theorem get_smart_contract_impl_exe_queue (env : Env) (s : SmartContracts) (t : Transaction) :
    (get_smart_contract_impl env s t).2.exe_queue = s.exe_queue := by
  unfold get_smart_contract_impl
  simp only
  repeat' split
  all_goals first | exact is_payable_target_exe_queue env s t | rfl

theorem print_executed_method_exe_queue (env : Env) (s : SmartContracts)
    (ref : SmartContractRef) :
    (print_executed_method env s ref).exe_queue = s.exe_queue := by
  unfold print_executed_method
  split
  · rfl
  · simp only
    split
    · rfl
    · split
      · exact get_smart_contract_impl_exe_queue env s _
      · exact is_payable_target_exe_queue env s _

theorem update_lock_status_exe_queue (s : SmartContracts) (a : Address) (v : Bool) :
    (update_lock_status s a v).exe_queue = s.exe_queue := by
  unfold update_lock_status
  split
  · split <;> rfl
  · rfl

theorem foldl_exe_queue {α : Type} (f : SmartContracts → α → SmartContracts)
    (hf : ∀ s x, (f s x).exe_queue = s.exe_queue) (l : List α) :
    ∀ s, (l.foldl f s).exe_queue = s.exe_queue := by
  induction l with
  | nil => intro s; rfl
  | cons x l ih => intro s; rw [List.foldl_cons, ih, hf]

theorem update_lock_status_item_exe_queue (env : Env) (s : SmartContracts) (item : QueueItem)
    (v : Bool) : (update_lock_status_item env s item v).exe_queue = s.exe_queue := by
  unfold update_lock_status_item
  rw [foldl_exe_queue _ (fun acc u => update_lock_status_exe_queue acc _ v)]
  exact update_lock_status_exe_queue s _ v

theorem update_status_exe_queue (env : Env) (s : SmartContracts) (item : QueueItem)
    (r : Sequence) (status : SmartContractStatus) :
    (update_status env s item r status).2.exe_queue = s.exe_queue := by
  unfold update_status
  cases status <;> simp only [update_lock_status_item_exe_queue]

theorem remove_from_queue_at_exe_queue (env : Env) (s : SmartContracts) (i : Nat) :
    (remove_from_queue_at env s i).exe_queue = s.exe_queue.eraseIdx i := by
  unfold remove_from_queue_at
  split
  · rename_i h
    rw [List.eraseIdx_of_length_le]
    exact List.get?_eq_none.1 h
  · simp only
    have h1 : ∀ (l : List ExecutionItem) (s0 : SmartContracts),
        (l.foldl (fun acc e => print_executed_method env acc e.ref_start) s0).exe_queue
          = s0.exe_queue :=
      fun l s0 => foldl_exe_queue _ (fun acc e => print_executed_method_exe_queue env acc _) l s0
    split
    · rw [update_lock_status_item_exe_queue, h1]
    · rw [h1]

theorem refresh_running_metadata_exe_queue (env : Env) (l : List QueueItem) :
    ∀ s, (refresh_running_metadata env l s).exe_queue = s.exe_queue := by
  induction l with
  | nil => intro s; rfl
  | cons x l ih =>
    intro s
    unfold refresh_running_metadata
    split
    · split
      · split
        · split
          · simp only
            split
            · simp [set_contract_exe_queue, update_metadata_exe_queue]
            · rw [ih]; simp [set_contract_exe_queue, update_metadata_exe_queue]
          · exact ih s
        · exact ih s
      · exact ih s
    · exact ih s

theorem test_executor_availability_exe_queue (env : Env) (s : SmartContracts) :
    (test_executor_availability env s).2.exe_queue = s.exe_queue := by
  unfold test_executor_availability
  split
  · simp only
    split
    · rw [refresh_running_metadata_exe_queue]
    · rfl
  · rfl

theorem execute_async_collect_exe_queue (env : Env) (l : List ExecutionItem) :
    ∀ s acc, (execute_async_collect env l s acc).2.exe_queue = s.exe_queue := by
  induction l with
  | nil => intro s acc; rfl
  | cons x l ih =>
    intro s acc
    unfold execute_async_collect
    simp only
    split
    · split
      · exact is_payable_target_exe_queue env s _
      · rw [ih]; exact is_payable_target_exe_queue env s _
    · exact ih s _

theorem execute_async_exe_queue (env : Env) (s : SmartContracts) (l : List ExecutionItem) :
    (execute_async env s l).2.exe_queue = s.exe_queue := by
  unfold execute_async
  simp only
  split
  · exact execute_async_collect_exe_queue env l s []
  · split
    · exact execute_async_collect_exe_queue env l s []
    · exact execute_async_collect_exe_queue env l s []


theorem take_set_self {α : Type} (l : List α) :
    ∀ (i : Nat) (x : α), (l.set i x).take i = l.take i := by
  induction l with
  | nil => intro i x; rfl
  | cons a l ih =>
    intro i x
    cases i with
    | zero => rfl
    | succ i => simp only [List.set_cons_succ, List.take_succ_cons, ih]

theorem take_eraseIdx_self {α : Type} (l : List α) :
    ∀ i : Nat, (l.eraseIdx i).take i = l.take i := by
  induction l with
  | nil => intro i; rfl
  | cons a l ih =>
    intro i
    cases i with
    | zero => rfl
    | succ i => simp only [List.eraseIdx_cons_succ, List.take_succ_cons, ih]

theorem update_status_at_take (env : Env) (s : SmartContracts) (i : Nat) (r : Sequence)
    (status : SmartContractStatus) :
    (update_status_at env s i r status).exe_queue.take i = s.exe_queue.take i := by
  unfold update_status_at
  split
  · rfl
  · simp only [set_item, take_set_self, update_status_exe_queue]

theorem executor_unavailable_exe_queue (env : Env) (s : SmartContracts) (it : QueueItem) :
    (executor_unavailable env s it).2.exe_queue = s.exe_queue := by
  unfold executor_unavailable
  split
  · exact test_executor_availability_exe_queue env s
  · rfl

theorem skip_execution_take (env : Env) (s : SmartContracts) (i : Nat) (it : QueueItem) :
    (skip_execution env s i it).exe_queue.take i = s.exe_queue.take i := by
  unfold skip_execution
  simp only
  split
  · split
    · simp only [SmartContracts.emit, set_item, take_set_self]
    · simp only [set_item, take_set_self]
  · simp only [set_item, take_set_self]

theorem start_item_take (env : Env) (s : SmartContracts) (i : Nat) :
    (start_item env s i).exe_queue.take i = s.exe_queue.take i := by
  have h1 := update_status_at_take env s i env.getLastSequence .Running
  unfold start_item
  simp only
  split
  · exact h1
  · split
    · split
      · rw [skip_execution_take, executor_unavailable_exe_queue]
        exact h1
      · rw [execute_async_exe_queue, executor_unavailable_exe_queue]
        exact h1
    · exact h1

theorem test_exe_queue_step_take (env : Env) (s : SmartContracts) (i : Nat) (it : QueueItem) :
    (test_exe_queue_step env s i it).1.exe_queue.take i = s.exe_queue.take i ∧
      i ≤ (test_exe_queue_step env s i it).2 := by
  unfold test_exe_queue_step
  split
  · exact ⟨by simp only [remove_from_queue_at_exe_queue, take_eraseIdx_self], le_refl _⟩
  split
  · exact ⟨by simp only [remove_from_queue_at_exe_queue, take_eraseIdx_self], le_refl _⟩
  split
  · exact ⟨rfl, Nat.le_succ _⟩
  split
  · exact ⟨rfl, Nat.le_succ _⟩
  split
  · exact ⟨rfl, Nat.le_succ _⟩
  · exact ⟨start_item_take env s i, Nat.le_succ _⟩

theorem test_exe_queue_loop_take (env : Env) :
    ∀ (fuel i : Nat) (s : SmartContracts),
      (test_exe_queue_loop env fuel i s).exe_queue.take i = s.exe_queue.take i := by
  intro fuel
  induction fuel with
  | zero => intro i s; rfl
  | succ fuel ih =>
    intro i s
    unfold test_exe_queue_loop
    split
    · rfl
    · rename_i it _
      obtain ⟨h1, h2⟩ := test_exe_queue_step_take env s i it
      have h3 := ih (test_exe_queue_step env s i it).2 (test_exe_queue_step env s i it).1
      have h4 := congrArg (List.take i) h3
      rw [List.take_take, List.take_take, Nat.min_eq_left h2] at h4
      rw [h4, h1]

theorem update_status_at_length (env : Env) (s : SmartContracts) (i : Nat) (r : Sequence)
    (status : SmartContractStatus) :
    (update_status_at env s i r status).exe_queue.length = s.exe_queue.length := by
  unfold update_status_at
  split
  · rfl
  · simp only [set_item, List.length_set, update_status_exe_queue]

theorem skip_execution_length (env : Env) (s : SmartContracts) (i : Nat) (it : QueueItem) :
    (skip_execution env s i it).exe_queue.length = s.exe_queue.length := by
  unfold skip_execution
  simp only
  split
  · split
    · simp only [SmartContracts.emit, set_item, List.length_set]
    · simp only [set_item, List.length_set]
  · simp only [set_item, List.length_set]

theorem start_item_length (env : Env) (s : SmartContracts) (i : Nat) :
    (start_item env s i).exe_queue.length = s.exe_queue.length := by
  have h1 := update_status_at_length env s i env.getLastSequence .Running
  unfold start_item
  simp only
  split
  · exact h1
  · split
    · split
      · rw [skip_execution_length, executor_unavailable_exe_queue]
        exact h1
      · rw [execute_async_exe_queue, executor_unavailable_exe_queue]
        exact h1
    · exact h1

theorem erase_length {α : Type} (l : List α) :
    ∀ i : Nat, i < l.length → (l.eraseIdx i).length + 1 = l.length := by
  induction l with
  | nil => intro i h; cases h
  | cons a l ih =>
    intro i h
    cases i with
    | zero => rfl
    | succ i =>
      simp only [List.eraseIdx_cons_succ, List.length_cons]
      rw [ih i (Nat.lt_of_succ_lt_succ h)]

theorem test_exe_queue_step_measure (env : Env) (s : SmartContracts) (i : Nat) (it : QueueItem)
    (h : s.exe_queue.get? i = some it) :
    (test_exe_queue_step env s i it).1.exe_queue.length - (test_exe_queue_step env s i it).2
      < s.exe_queue.length - i := by
  have hi : i < s.exe_queue.length := by
    by_contra hge
    rw [List.get?_eq_none.2 (Nat.le_of_not_lt hge)] at h
    cases h
  have hrem : (remove_from_queue_at env s i).exe_queue.length + 1 = s.exe_queue.length := by
    rw [remove_from_queue_at_exe_queue]
    exact erase_length _ i hi
  unfold test_exe_queue_step
  split
  · show (remove_from_queue_at env s i).exe_queue.length - i < _
    omega
  split
  · show (remove_from_queue_at env s i).exe_queue.length - i < _
    omega
  split
  · show s.exe_queue.length - (i + 1) < _
    omega
  split
  · show s.exe_queue.length - (i + 1) < _
    omega
  split
  · show s.exe_queue.length - (i + 1) < _
    omega
  · show (start_item env s i).exe_queue.length - (i + 1) < _
    rw [start_item_length]
    omega

/-- The pass of `test_exe_queue` ends because the iterator reaches the end of the queue:
with at least as much fuel as items from the iterator on, more fuel changes nothing. -/
theorem test_exe_queue_loop_enough_fuel (env : Env) :
    ∀ (fuel i : Nat) (s : SmartContracts), s.exe_queue.length - i ≤ fuel →
      ∀ extra, test_exe_queue_loop env (fuel + extra) i s = test_exe_queue_loop env fuel i s := by
  intro fuel
  induction fuel with
  | zero =>
    intro i s h extra
    have hnone : s.exe_queue.get? i = none := List.get?_eq_none.2 (by omega)
    cases extra with
    | zero => rfl
    | succ extra =>
      rw [Nat.zero_add]
      unfold test_exe_queue_loop
      rw [hnone]
  | succ fuel ih =>
    intro i s h extra
    have he : fuel + 1 + extra = (fuel + extra) + 1 := by omega
    rw [he]
    conv => lhs; unfold test_exe_queue_loop
    conv => rhs; unfold test_exe_queue_loop
    cases hget : s.exe_queue.get? i with
    | none => rfl
    | some it =>
      simp only
      have hm := test_exe_queue_step_measure env s i it hget
      exact ih _ _ (by omega) extra

theorem wait_until_unlock_of_locked (env : Env) (s : SmartContracts) (it : QueueItem)
    (hl : is_locked s it.abs_addr = true ∨
      ∃ e ∈ it.executions, ∃ u ∈ e.uses, is_locked s (env.absolute_address u) = true) :
    wait_until_unlock env s it = true := by
  unfold wait_until_unlock
  split
  · rfl
  · rcases hl with hl | ⟨e, he, u, hu, hlu⟩
    · rename_i h; exact absurd hl h
    · rw [List.any_eq_true]
      exact ⟨e, he, List.any_eq_true.2 ⟨u, hu, hlu⟩⟩

/-- C10. Lock rule in `test_exe_queue`: when the pass examines, at position `i`, a Waiting
item (holding at least one execution) whose own `abs_addr` is locked, or one of whose
executions lists in `uses` an address that is locked at that moment, the item is passed
over: the scheduler is left exactly as it was (the item keeps status Waiting and its
`seq_start`, nothing is locked, no execution is launched, no event is emitted) and the
iterator moves to the next position; the rest of the pass does not touch the item
either, which is found unchanged at position `i` when the pass ends. -/
theorem test_exe_queue_waits_for_locks (env : Env) (s : SmartContracts) (i fuel : Nat)
    (it : QueueItem)
    (hit : s.exe_queue.get? i = some it)
    (hw : it.status = .Waiting)
    (hne : it.executions ≠ [])
    (hl : is_locked s it.abs_addr = true ∨
      ∃ e ∈ it.executions, ∃ u ∈ e.uses, is_locked s (env.absolute_address u) = true) :
    test_exe_queue_step env s i it = (s, i + 1) ∧
      test_exe_queue_loop env (fuel + 1) i s = test_exe_queue_loop env fuel (i + 1) s ∧
      (test_exe_queue_loop env (fuel + 1) i s).exe_queue.get? i = some it := by
  have hstep : test_exe_queue_step env s i it = (s, i + 1) := by
    unfold test_exe_queue_step
    have h1 : ¬ it.status = .Closed := by rw [hw]; decide
    have h2 : ¬ it.executions.isEmpty = true := by
      cases hi : it.executions with
      | nil => exact absurd hi hne
      | cons a l => simp
    have h3 : ¬ it.status = .Running := by rw [hw]; decide
    have h4 : ¬ it.status = .Finished := by rw [hw]; decide
    rw [if_neg h1, if_neg h2, if_neg h3, if_neg h4,
      if_pos (wait_until_unlock_of_locked env s it hl)]
  have hloop : test_exe_queue_loop env (fuel + 1) i s = test_exe_queue_loop env fuel (i + 1) s := by
    conv => lhs; unfold test_exe_queue_loop
    rw [hit]
    simp only [hstep]
  refine ⟨hstep, hloop, ?_⟩
  rw [hloop]
  have h5 := test_exe_queue_loop_take env fuel (i + 1) s
  have h6 : ((test_exe_queue_loop env fuel (i + 1) s).exe_queue.take (i + 1)).get? i
      = (s.exe_queue.take (i + 1)).get? i := by rw [h5]
  simp only [List.get?_eq_getElem?] at h6 hit ⊢
  rw [List.getElem?_take_of_lt (Nat.lt_succ_self i),
    List.getElem?_take_of_lt (Nat.lt_succ_self i)] at h6
  rw [h6, hit]


theorem find_map_replace (a b : Address) (st : StateItem) (l : List (Address × StateItem)) :
    (l.map (fun e => if e.1 = a then (a, st) else e)).find? (fun e => decide (e.1 = b))
      = if a = b then (if l.any (fun e => decide (e.1 = a)) then some (a, st) else none)
        else l.find? (fun e => decide (e.1 = b)) := by
  induction l with
  | nil => simp
  | cons e l ih =>
    simp only [List.map_cons, List.find?_cons, List.any_cons]
    by_cases hea : e.1 = a
    · by_cases hab : a = b
      · simp [hea, hab]
      · have heb : ¬ e.1 = b := fun h => hab (hea ▸ h)
        simp only [hea, if_true, hab, decide_False, if_false, heb] at ih ⊢
        exact ih
    · by_cases hab : a = b
      · have heb : ¬ e.1 = b := fun h => hea (h.trans hab.symm)
        simp only [hea, if_false, heb, decide_False, Bool.false_or, hab, if_true] at ih ⊢
        exact ih
      · simp only [hea, if_false, hab] at ih ⊢
        rw [ih]

theorem find_append_new (a b : Address) (st : StateItem) (l : List (Address × StateItem))
    (h : l.any (fun e => decide (e.1 = a)) = false) :
    (l ++ [(a, st)]).find? (fun e => decide (e.1 = b))
      = if a = b then some (a, st) else l.find? (fun e => decide (e.1 = b)) := by
  induction l with
  | nil =>
    by_cases hab : a = b <;> simp [hab]
  | cons e l ih =>
    simp only [List.any_cons, Bool.or_eq_false_iff, decide_eq_false_iff_not] at h
    simp only [List.cons_append, List.find?_cons]
    by_cases heb : e.1 = b
    · have hab : ¬ a = b := fun hab => h.1 (heb.trans hab.symm)
      simp [heb, hab]
    · simp only [heb, decide_False]
      exact ih h.2

theorem find_contract_set_contract (s : SmartContracts) (a b : Address) (st : StateItem) :
    (s.set_contract a st).find_contract b = if a = b then some st else s.find_contract b := by
  unfold SmartContracts.set_contract SmartContracts.find_contract
  simp only
  by_cases h : s.known_contracts.any (fun e => decide (e.1 = a)) = true
  · rw [if_pos h, find_map_replace, h]
    by_cases hab : a = b <;> simp [hab]
  · rw [if_neg h, find_append_new _ _ _ _ (by simp only [Bool.not_eq_true] at h; exact h)]
    by_cases hab : a = b <;> simp [hab]

theorem find_contract_update_lock_status (s : SmartContracts) (a b : Address) (v : Bool) :
    (update_lock_status s a v).find_contract b
      = if a = b then (s.find_contract b).map (fun st => { st with is_locked := v })
        else s.find_contract b := by
  unfold update_lock_status
  cases h : s.find_contract a with
  | none =>
    simp only
    by_cases hab : a = b
    · subst hab; simp [h]
    · simp [hab]
  | some st =>
    simp only
    by_cases hv : (st.is_locked != v) = true
    · rw [if_pos hv, find_contract_set_contract]
      by_cases hab : a = b
      · subst hab; simp [h]
      · simp [hab]
    · rw [if_neg hv]
      by_cases hab : a = b
      · subst hab
        have : st.is_locked = v := by simpa using hv
        simp [h, ← this]
      · simp [hab]

theorem find_contract_lock_all (as : List Address) (b : Address) :
    ∀ s : SmartContracts,
      (as.foldl (fun acc a => update_lock_status acc a true) s).find_contract b
        = (s.find_contract b).map
            (fun st => if b ∈ as then { st with is_locked := true } else st) := by
  induction as with
  | nil => intro s; simp
  | cons a as ih =>
    intro s
    rw [List.foldl_cons, ih, find_contract_update_lock_status]
    by_cases hab : a = b
    · subst hab
      cases s.find_contract a with
      | none => simp
      | some st =>
        simp only [if_true, Option.map_some', List.mem_cons, true_or]
        by_cases hm : a ∈ as <;> simp [hm]
    · rw [if_neg hab]
      have hba : ¬ b = a := fun h => hab h.symm
      cases s.find_contract b with
      | none => rfl
      | some st =>
        simp only [Option.map_some', List.mem_cons, hba, false_or]

/-- The addresses `update_status` locks for an item that becomes Running. -/
theorem find_contract_update_status_running (env : Env) (s : SmartContracts) (item : QueueItem)
    (r : Sequence) (b : Address) :
    (update_status env s item r .Running).2.find_contract b
      = (s.find_contract b).map
          (fun st =>
            if b ∈ item.abs_addr ::
                (item.executions.flatMap (fun e => e.uses)).map env.absolute_address
            then { st with is_locked := true } else st) := by
  have h := find_contract_lock_all
    (item.abs_addr :: (item.executions.flatMap (fun e => e.uses)).map env.absolute_address) b s
  rw [List.foldl_cons, List.foldl_map] at h
  exact h

/-- The lock taken when a queue item is moved to Running: `update_status(item, r, Running)`
sets the status and `seq_start`, and for the item's own address and every address in the
uses lists of its executions it sets `is_locked` in the entry of `known_contracts` when the
address is registered there, and creates no entry (hence no lock) when it is not. -/
theorem update_status_running_locks_registered (env : Env) (s : SmartContracts)
    (item : QueueItem) (r : Sequence) (a : Address)
    (ha : a = item.abs_addr ∨
      ∃ e ∈ item.executions, ∃ u ∈ e.uses, a = env.absolute_address u) :
    (update_status env s item r .Running).1 = { item with status := .Running, seq_start := r } ∧
      (∀ st, s.find_contract a = some st →
        (update_status env s item r .Running).2.find_contract a
          = some { st with is_locked := true }) ∧
      (s.find_contract a = none →
        (update_status env s item r .Running).2.find_contract a = none) := by
  have hmem : a ∈ item.abs_addr ::
      (item.executions.flatMap (fun e => e.uses)).map env.absolute_address := by
    rcases ha with ha | ⟨e, he, u, hu, hau⟩
    · rw [ha]; exact List.mem_cons_self _ _
    · refine List.mem_cons_of_mem _ (List.mem_map.2 ⟨u, ?_, hau.symm⟩)
      exact List.mem_flatMap.2 ⟨e, he, hu⟩
  refine ⟨rfl, ?_, ?_⟩
  · intro st hst
    rw [find_contract_update_status_running, hst, Option.map_some', if_pos hmem]
  · intro hnone
    rw [find_contract_update_status_running, hnone, Option.map_none']


/-- C9, the failing input: two calls of `on_store_block` from the scheduler as constructed.
Block 1 holds the deploy of a contract and a call of it; both are coalesced into one queue
item, which `on_store_block` moves to Running and whose contract it locks. Block 2 holds the
new-state of the deploy only: `on_new_state` unlocks the contract and removes that
execution, while the queue item, still Running, keeps the other call. The state after the
second `on_store_block` has a Running item whose registered contract has
`is_locked = false`. -/
theorem new_state_unlocks_contract_of_running_item :
    on_store_block (sample.env [sample.block1]) (SmartContracts.init [8] false) sample.block1
        = some sample.after_block1 ∧
      on_store_block (sample.env [sample.block1, sample.block2]) sample.after_block1
          sample.block2
        = some sample.after_block2 ∧
      sample.after_block1.exe_queue.map (fun it => (it.status, it.abs_addr, it.executions.length))
        = [(.Running, sample.contract, 2)] ∧
      is_locked sample.after_block1 sample.contract = true ∧
      sample.after_block2.exe_queue.map (fun it => (it.status, it.abs_addr, it.executions.length))
        = [(.Running, sample.contract, 1)] ∧
      (sample.after_block2.find_contract sample.contract).map (fun st => st.is_locked)
        = some false ∧
      ¬ ∀ it ∈ sample.after_block2.exe_queue,
          (it.status = .Running ∨ it.status = .Finished) →
            ∃ st, sample.after_block2.find_contract it.abs_addr = some st ∧
              st.is_locked = true := by
  have h4 : (sample.after_block2.find_contract sample.contract).map (fun st => st.is_locked)
      = some false := by decide
  refine ⟨by decide, by decide, by decide, by decide, by decide, h4, ?_⟩
  intro h
  have hmem : ∃ it ∈ sample.after_block2.exe_queue,
      it.status = .Running ∧ it.abs_addr = sample.contract := by decide
  obtain ⟨it, hit, hs, ha⟩ := hmem
  obtain ⟨st, hst, hl⟩ := h it hit (Or.inl hs)
  rw [ha] at hst
  rw [hst] at h4
  simp only [Option.map_some', Option.some.injEq] at h4
  rw [hl] at h4
  exact Bool.noConfusion h4

/-- The lock taken at the move to Running, at the scheduler left by the two sample blocks:
moving the waiting call of the contract to Running locks the registered contract. -/
theorem update_status_running_locks_registered_witness :
    (sample.contract = sample.waiting_call.abs_addr ∨
        ∃ e ∈ sample.waiting_call.executions, ∃ u ∈ e.uses,
          sample.contract = (sample.env [sample.block1, sample.block2]).absolute_address u) ∧
      ((update_status (sample.env [sample.block1, sample.block2]) sample.after_block2
            sample.waiting_call 2 .Running).1
          = { sample.waiting_call with status := .Running, seq_start := 2 } ∧
        (∀ st, sample.after_block2.find_contract sample.contract = some st →
          (update_status (sample.env [sample.block1, sample.block2]) sample.after_block2
              sample.waiting_call 2 .Running).2.find_contract sample.contract
            = some { st with is_locked := true }) ∧
        (sample.after_block2.find_contract sample.contract = none →
          (update_status (sample.env [sample.block1, sample.block2]) sample.after_block2
              sample.waiting_call 2 .Running).2.find_contract sample.contract = none)) :=
  ⟨Or.inl rfl,
    update_status_running_locks_registered (sample.env [sample.block1, sample.block2])
      sample.after_block2 sample.waiting_call 2 sample.contract (Or.inl rfl)⟩

/-- C10, at the scheduler left by block 1 and a further call of the same contract in block
2: the first item is Running and holds the lock of the contract, the second item waits and
is passed over by the pass. -/
theorem test_exe_queue_waits_for_locks_witness :
    sample.after_block2_call.exe_queue.get? 1 = some sample.waiting_call ∧
      sample.waiting_call.status = .Waiting ∧
      sample.waiting_call.executions ≠ [] ∧
      is_locked sample.after_block2_call sample.waiting_call.abs_addr = true ∧
      (test_exe_queue_step (sample.env [sample.block1, sample.block2_call])
            sample.after_block2_call 1 sample.waiting_call
          = (sample.after_block2_call, 1 + 1) ∧
        test_exe_queue_loop (sample.env [sample.block1, sample.block2_call]) (0 + 1) 1
            sample.after_block2_call
          = test_exe_queue_loop (sample.env [sample.block1, sample.block2_call]) 0 (1 + 1)
              sample.after_block2_call ∧
        (test_exe_queue_loop (sample.env [sample.block1, sample.block2_call]) (0 + 1) 1
            sample.after_block2_call).exe_queue.get? 1 = some sample.waiting_call) :=
  ⟨by decide, rfl, by decide, by decide,
    test_exe_queue_waits_for_locks (sample.env [sample.block1, sample.block2_call])
      sample.after_block2_call 1 0 sample.waiting_call (by decide) rfl (by decide)
      (Or.inl (by decide))⟩

end cs

namespace cs
open csdb

theorem foldl_append_byteCode (l : List ByteCodeObject) :
    ∀ acc : Bytes, l.foldl (fun acc c => acc ++ c.byteCode) acc
      = acc ++ (l.map (fun c => c.byteCode)).flatten := by
  induction l with
  | nil => intro acc; simp
  | cons a l ih => intro acc; simp [ih, List.append_assoc]

theorem digest_as_key (hash : Bytes) (h : hash.length = kHashSize) :
    (List.range kPublicKeySize).map (fun k => if k < kHashSize then hash.getD k 0 else 0)
      = hash := by
  apply List.ext_getElem
  · simp [h, kPublicKeySize, kHashSize]
  · intro n h1 h2
    simp only [List.length_map, List.length_range] at h1
    have h3 : n < kHashSize := h1
    simp [h3, List.getD_eq_getElem?_getD, List.getElem?_eq_getElem h2]

theorem uint64_low_bytes (x : Nat) :
    (uint64_bytes (x % 2 ^ 64)).take 6
      = [x % 256, x / 256 % 256, x / 256 ^ 2 % 256, x / 256 ^ 3 % 256, x / 256 ^ 4 % 256,
          x / 256 ^ 5 % 256] := by
  have e : uint64_bytes (x % 2 ^ 64) = (List.range 8).map (fun k => (x % 2 ^ 64) / 256 ^ k % 256) := rfl
  rw [e]
  simp only [List.range_succ, List.range_zero, List.nil_append, List.cons_append, List.map_cons,
    List.map_nil, List.take_succ_cons, List.take_zero, pow_zero, Nat.div_one, pow_one]
  have key : ∀ k, k ≤ 5 → x % 2 ^ 64 / 256 ^ k % 256 = x / 256 ^ k % 256 := by
    intro k hk
    interval_cases k <;> omega
  have k0 := key 0 (by omega)
  have k1 := key 1 (by omega)
  have k2 := key 2 (by omega)
  have k3 := key 3 (by omega)
  have k4 := key 4 (by omega)
  have k5 := key 5 (by omega)
  simp only [pow_zero, Nat.div_one, pow_one] at k0 k1
  rw [k0, k1, k2, k3, k4, k5]

/-- C16. Contract address derivation: for a hash function whose digests have `kHashSize`
bytes, `get_valid_smart_address` applied to a deployer in public-key form, an inner id and
deploy data returns the address of the specification, whose key is `H(deployer public key ||
the six low-order bytes of the id, least significant first || the byteCode fields of
data.byteCodeObjects concatenated in list order)`. The function takes nothing but the hash
function and these three arguments, so equal inputs give equal addresses. -/
theorem get_valid_smart_address_eq_spec (H : Bytes → Bytes)
    (hH : ∀ x, (H x).length = kHashSize) (pk : Bytes) (id : Nat) (data : SmartContractDeploy) :
    get_valid_smart_address H (.public_key pk) id data
      = spec_contract_address H pk id (data.byteCodeObjects.map (fun c => c.byteCode)) := by
  unfold get_valid_smart_address spec_contract_address
  simp only [public_key_of]
  rw [digest_as_key _ (hH _), foldl_append_byteCode, uint64_low_bytes, List.nil_append]

/-- C16 at a concrete input: deployer key `[1, 2]`, inner id 258, two byte-code objects. -/
theorem get_valid_smart_address_eq_spec_witness :
    (∀ x, (sample.calculateHash x).length = kHashSize) ∧
    get_valid_smart_address sample.calculateHash (.public_key [1, 2]) 258
        { byteCodeObjects := [{ name := "A", byteCode := [7, 8] }, { name := "B", byteCode := [9] }] }
      = spec_contract_address sample.calculateHash [1, 2] 258 [[7, 8], [9]] :=
  ⟨fun x => by simp [sample.calculateHash, kHashSize],
    get_valid_smart_address_eq_spec sample.calculateHash
      (fun x => by simp [sample.calculateHash, kHashSize]) [1, 2] 258
      { byteCodeObjects := [{ name := "A", byteCode := [7, 8] }, { name := "B", byteCode := [9] }] }⟩

end cs

namespace cs
namespace IterValidator

open csdb

variable {σ : Type}

/-! ### The validator of itervalidator.cpp -/

theorem insert_invalid_mem (v : IterValidator σ) (a b : Address) :
    a ∈ (v.insert_invalid b).smartSourceInvalidSignatures
      ↔ a ∈ v.smartSourceInvalidSignatures ∨ a = b := by
  unfold insert_invalid
  split
  · rename_i h
    constructor
    · intro ha; exact Or.inl ha
    · rintro (ha | rfl)
      · exact ha
      · simpa using h
  · simp

theorem count_correct_signatures_eq (ctx : SolverContext σ) (confidants : List Bytes)
    (hash : Bytes) (sigs : List (Nat × Bytes)) :
    ∀ c, count_correct_signatures ctx confidants hash sigs c
      = c + (sigs.filter (fun sg => decide (sg.1 < confidants.length) &&
          ctx.verifySignature sg.2 (confidants.getD sg.1 []) hash)).length := by
  induction sigs with
  | nil => intro c; rfl
  | cons sg rest ih =>
    intro c
    unfold count_correct_signatures
    by_cases h1 : sg.1 < confidants.length
    · by_cases h2 : ctx.verifySignature sg.2 (confidants.getD sg.1 []) hash = true
      · simp only [h1, h2, if_true, ih, List.filter_cons, decide_True, Bool.and_self,
          List.length_cons]
        omega
      · simp only [h1, h2, if_true, if_false, ih, List.filter_cons, decide_True, Bool.true_and]
        simp
    · simp only [h1, if_false, ih, List.filter_cons, decide_False, Bool.false_and]
      simp

end IterValidator
end cs

namespace cs
namespace IterValidator

open csdb

variable {σ : Type}

theorem check_packet_eq (ctx : SolverContext σ) (v : IterValidator σ) (p : Packet)
    (t : Transaction) (hh : p.transactions.head? = some t) :
    check_packet ctx v p
      = if spec_packet_refused ctx p t then v.insert_invalid t.source else v := by
  unfold check_packet spec_packet_refused
  rw [hh]
  simp only
  have href : (if is_new_state t = true then
        SmartContractRef.from_user_field ctx.env (t.user_field uf.RefStart)
      else SmartContractRef.from_user_field ctx.env (t.user_field ctx.smart_gen_RefStart))
      = SmartContractRef.from_user_field ctx.env
          (t.user_field (if is_new_state t then uf.RefStart else ctx.smart_gen_RefStart)) := by
    split <;> rfl
  rw [href]
  generalize SmartContractRef.from_user_field ctx.env
    (t.user_field (if is_new_state t then uf.RefStart else ctx.smart_gen_RefStart)) = ref
  have hcount : count_correct_signatures ctx (ctx.env.loadBlock ref.sequence).confidants p.hash
      p.signatures 0 = spec_valid_signatures ctx (ctx.env.loadBlock ref.sequence).confidants p := by
    rw [count_correct_signatures_eq, Nat.zero_add]
    rfl
  rw [hcount]
  by_cases h1 : ref.is_valid = true <;>
    by_cases h2 : (ctx.env.loadBlock ref.sequence).is_valid = true <;>
    by_cases h3 : spec_valid_signatures ctx (ctx.env.loadBlock ref.sequence).confidants p
        < (ctx.env.loadBlock ref.sequence).confidants.length / 2 + 1 <;>
    simp [h1, h2, h3]

theorem check_packet_mem (ctx : SolverContext σ) (v : IterValidator σ) (p : Packet) (a : Address) :
    a ∈ (check_packet ctx v p).smartSourceInvalidSignatures ↔
      a ∈ v.smartSourceInvalidSignatures ∨
      ∃ t, p.transactions.head? = some t ∧ t.source = a ∧ spec_packet_refused ctx p t = true := by
  cases hh : p.transactions.head? with
  | none =>
    have e : check_packet ctx v p = v := by
      unfold check_packet
      rw [hh]
    rw [e]
    simp
  | some t =>
    rw [check_packet_eq ctx v p t hh]
    by_cases hr : spec_packet_refused ctx p t = true
    · rw [if_pos hr, insert_invalid_mem]
      constructor
      · rintro (h | rfl)
        · exact Or.inl h
        · exact Or.inr ⟨t, rfl, rfl, hr⟩
      · rintro (h | ⟨t', ht', rfl, _⟩)
        · exact Or.inl h
        · cases ht'; exact Or.inr rfl
    · rw [if_neg hr]
      constructor
      · intro h; exact Or.inl h
      · rintro (h | ⟨t', ht', _, h⟩)
        · exact h
        · cases ht'; exact absurd h hr

theorem foldl_check_packet_mem (ctx : SolverContext σ) (packets : List Packet) (a : Address) :
    ∀ v : IterValidator σ,
      a ∈ (packets.foldl (check_packet ctx) v).smartSourceInvalidSignatures ↔
        a ∈ v.smartSourceInvalidSignatures ∨
        ∃ p ∈ packets, ∃ t, p.transactions.head? = some t ∧ t.source = a ∧
          spec_packet_refused ctx p t = true := by
  induction packets with
  | nil => intro v; simp
  | cons p rest ih =>
    intro v
    rw [List.foldl_cons, ih, check_packet_mem]
    constructor
    · rintro ((h | h) | ⟨q, hq, h⟩)
      · exact Or.inl h
      · exact Or.inr ⟨p, List.mem_cons_self _ _, h⟩
      · exact Or.inr ⟨q, List.mem_cons_of_mem _ hq, h⟩
    · rintro (h | ⟨q, hq, h⟩)
      · exact Or.inl (Or.inl h)
      · rcases List.mem_cons.1 hq with rfl | hq
        · exact Or.inl (Or.inr h)
        · exact Or.inr ⟨q, hq, h⟩

/-- C17. Smart-packet quorum: `checkSignaturesSmartSource` forgets the invalid-signatures set
it finds and leaves the set that holds an address exactly when the address is the source of
the first transaction of one of the smart packets (a packet without transactions counts for
nothing) and that packet is refused: its `RefStart` is malformed, or the block it refers to
cannot be loaded, or fewer than `floor(n/2) + 1` of its signatures verify over the packet
hash against the `n` confidants of that block, signatures with a confidant index of `n` or
more not being counted. -/
theorem checkSignaturesSmartSource_invalid_set (ctx : SolverContext σ) (v : IterValidator σ)
    (packets : List Packet) (a : Address) :
    a ∈ (checkSignaturesSmartSource ctx v packets).smartSourceInvalidSignatures ↔
      ∃ p ∈ packets, ∃ t, p.transactions.head? = some t ∧ t.source = a ∧
        spec_packet_refused ctx p t = true := by
  unfold checkSignaturesSmartSource
  rw [foldl_check_packet_mem]
  simp

/-- C18. Signature rule for new-state transactions: for a transaction that is a new-state,
`checkTransactionSignature` answers true exactly when the source of the transaction equals
its target and the source is not in the invalid-signatures set; the answer is the same
whatever `verify_signature` and the wallet lookup would say, no signature is verified under
a key. -/
theorem checkTransactionSignature_new_state (ctx : SolverContext σ) (v : IterValidator σ)
    (transaction : Transaction) (hns : is_new_state transaction = true) :
    (checkTransactionSignature ctx v transaction = true ↔
      transaction.source = transaction.target ∧
        transaction.source ∉ v.smartSourceInvalidSignatures) ∧
    ∀ (verify : Transaction → Bytes → Bool) (wallets : Nat → Bytes),
      checkTransactionSignature
          { ctx with verify_signature := verify, findWalletData := wallets } v transaction
        = checkTransactionSignature ctx v transaction := by
  constructor
  · unfold checkTransactionSignature
    simp only [hns, Bool.not_true, Bool.false_and, Bool.false_eq_true, if_false, Bool.true_and]
    by_cases h1 : transaction.source = transaction.target
    · by_cases h2 : transaction.source ∈ v.smartSourceInvalidSignatures
      · simp [h1, h2]
      · simp [h1, h2]
    · simp [h1]
  · intro verify wallets
    unfold checkTransactionSignature
    simp only [hns, Bool.not_true, Bool.false_and, Bool.false_eq_true, if_false]

end IterValidator
end cs

namespace cs
namespace IterValidator

open csdb

variable {σ : Type}

/-- A mask of `n` bytes, each 0 or 1. -/
theorem set_marker_shape (mask : Bytes) (n i b : Nat) (hb : b = 0 ∨ b = 1)
    (h : mask.length = n ∧ ∀ x ∈ mask, x = 0 ∨ x = 1) :
    (mask.set i b).length = n ∧ ∀ x ∈ mask.set i b, x = 0 ∨ x = 1 := by
  refine ⟨by rw [List.length_set]; exact h.1, ?_⟩
  intro x hx
  rcases List.mem_or_eq_of_mem_set hx with hx | rfl
  · exact h.2 x hx
  · exact hb

theorem foldl_range_shape {α : Type} (P : α → Prop) (f : α → Nat → α)
    (hf : ∀ a i, P a → P (f a i)) (l : List Nat) :
    ∀ a, P a → P (l.foldl f a) := by
  induction l with
  | nil => intro a ha; exact ha
  | cons i l ih => intro a ha; exact ih _ (hf a i ha)

theorem check_signature_at_shape (ctx : SolverContext σ) (transactions : List Transaction)
    (maskSize n : Nat) (acc : Bytes × IterValidator σ) (i : Nat)
    (h : acc.1.length = n ∧ ∀ x ∈ acc.1, x = 0 ∨ x = 1) :
    (check_signature_at ctx transactions maskSize acc i).1.length = n ∧
      ∀ x ∈ (check_signature_at ctx transactions maskSize acc i).1, x = 0 ∨ x = 1 := by
  unfold check_signature_at
  split
  · simp only
    split
    · split
      · exact set_marker_shape _ _ _ _ (Or.inl rfl) h
      · exact set_marker_shape _ _ _ _ (Or.inl rfl) h
    · exact h
  · exact h

theorem validate_at_shape (ctx : SolverContext σ) (transactions : List Transaction) (n : Nat)
    (acc : Bytes × IterValidator σ) (i : Nat)
    (h : acc.1.length = n ∧ ∀ x ∈ acc.1, x = 0 ∨ x = 1) :
    (validate_at ctx transactions acc i).1.length = n ∧
      ∀ x ∈ (validate_at ctx transactions acc i).1, x = 0 ∨ x = 1 := by
  unfold validate_at
  simp only
  split_ifs
  all_goals
    first
    | exact h
    | exact set_marker_shape _ _ _ _ (Or.inl rfl) h
    | exact set_marker_shape _ _ _ _ (Or.inr rfl) h

theorem setTransactionsFees_length (ctx : SolverContext σ) (transactions : List Transaction)
    (mask : Bytes) : (setTransactionsFees ctx transactions mask).length = transactions.length := by
  simp [setTransactionsFees]

/-- C14. Characteristic shape: provided the two passes of the `TransactionsValidator` that
receive the mask (`checkRejectedSmarts`, `validateByGraph`) keep its length and, in a mask of
zeros and ones, leave zeros and ones, `formCharacteristic` returns, for every transaction
list of length `n` and every list of smart packets, after one round of the validation loop,
a characteristic whose mask has exactly `n` bytes, each 0 or 1. -/
theorem formCharacteristic_mask_shape (ctx : SolverContext σ) (v : IterValidator σ)
    (fuel : Nat) (transactions : List Transaction) (smartsPackets : List Packet)
    (hrej : ∀ w sc txs mask,
      (ctx.checkRejectedSmarts w sc txs mask).2.1.length = mask.length ∧
        ((∀ x ∈ mask, x = 0 ∨ x = 1) →
          ∀ x ∈ (ctx.checkRejectedSmarts w sc txs mask).2.1, x = 0 ∨ x = 1))
    (hgraph : ∀ w sc mask txs,
      (ctx.validateByGraph w sc mask txs).1.length = mask.length ∧
        ((∀ x ∈ mask, x = 0 ∨ x = 1) →
          ∀ x ∈ (ctx.validateByGraph w sc mask txs).1, x = 0 ∨ x = 1)) :
    ∃ r, formCharacteristic ctx v (fuel + 1) transactions smartsPackets = some r ∧
      r.characteristic.mask.length = transactions.length ∧
      ∀ x ∈ r.characteristic.mask, x = 0 ∨ x = 1 := by
  have h0 : (List.replicate transactions.length kValidMarker).length = transactions.length ∧
      ∀ x ∈ List.replicate transactions.length kValidMarker, x = 0 ∨ x = 1 := by
    refine ⟨List.length_replicate _ _, ?_⟩
    intro x hx
    exact Or.inr (List.eq_of_mem_replicate hx)
  have h1 := foldl_range_shape
    (fun acc : Bytes × IterValidator σ =>
      acc.1.length = transactions.length ∧ ∀ x ∈ acc.1, x = 0 ∨ x = 1)
    (check_signature_at ctx transactions (List.replicate transactions.length kValidMarker).length)
    (fun a i ha => check_signature_at_shape ctx transactions _ _ a i ha)
    (List.range transactions.length)
    (List.replicate transactions.length kValidMarker,
      checkSignaturesSmartSource ctx v smartsPackets) h0
  have h2 := foldl_range_shape
    (fun acc : Bytes × IterValidator σ =>
      acc.1.length = transactions.length ∧ ∀ x ∈ acc.1, x = 0 ∨ x = 1)
    (validate_at ctx
      (setTransactionsFees ctx transactions
        (checkTransactionsSignatures ctx v transactions
          (List.replicate transactions.length kValidMarker) smartsPackets).1))
    (fun a i ha => validate_at_shape ctx _ _ a i ha)
    (List.range (setTransactionsFees ctx transactions
        (checkTransactionsSignatures ctx v transactions
          (List.replicate transactions.length kValidMarker) smartsPackets).1).length)
    ((checkTransactionsSignatures ctx v transactions
          (List.replicate transactions.length kValidMarker) smartsPackets).1,
      { (checkTransactionsSignatures ctx v transactions
          (List.replicate transactions.length kValidMarker) smartsPackets).2 with
        pTransval := ctx.reset (ctx.updateFromSource (checkTransactionsSignatures ctx v transactions
          (List.replicate transactions.length kValidMarker) smartsPackets).2.pTransval)
          (setTransactionsFees ctx transactions
            (checkTransactionsSignatures ctx v transactions
              (List.replicate transactions.length kValidMarker) smartsPackets).1).length }) h1
  refine ⟨_, rfl, ?_, ?_⟩
  · show (ctx.validateByGraph _ _ _ _).1.length = _
    rw [(hgraph _ _ _ _).1, (hrej _ _ _ _).1]
    exact h2.1
  · show ∀ x ∈ (ctx.validateByGraph _ _ _ _).1, x = 0 ∨ x = 1
    exact (hgraph _ _ _ _).2 ((hrej _ _ _ _).2 h2.2)

end IterValidator
end cs

namespace cs
namespace IterValidator

open csdb

/-- C18 at a concrete input: the new-state transaction of block 2, whose source and target
are the contract. -/
theorem checkTransactionSignature_new_state_witness :
    is_new_state sample.tx_new_state = true ∧
    ((checkTransactionSignature sample.context sample.validator sample.tx_new_state = true ↔
      sample.tx_new_state.source = sample.tx_new_state.target ∧
        sample.tx_new_state.source ∉ sample.validator.smartSourceInvalidSignatures) ∧
    ∀ (verify : Transaction → Bytes → Bool) (wallets : Nat → Bytes),
      checkTransactionSignature
          { sample.context with verify_signature := verify, findWalletData := wallets }
          sample.validator sample.tx_new_state
        = checkTransactionSignature sample.context sample.validator sample.tx_new_state) :=
  ⟨by decide,
    checkTransactionSignature_new_state sample.context sample.validator sample.tx_new_state
      (by decide)⟩

/-- C14 at a concrete input: the two transactions of block 1 and no smart packet. -/
theorem formCharacteristic_mask_shape_witness :
    (∀ (w : Unit) sc txs mask,
      (sample.context.checkRejectedSmarts w sc txs mask).2.1.length = mask.length ∧
        ((∀ x ∈ mask, x = 0 ∨ x = 1) →
          ∀ x ∈ (sample.context.checkRejectedSmarts w sc txs mask).2.1, x = 0 ∨ x = 1)) ∧
    (∀ (w : Unit) sc mask txs,
      (sample.context.validateByGraph w sc mask txs).1.length = mask.length ∧
        ((∀ x ∈ mask, x = 0 ∨ x = 1) →
          ∀ x ∈ (sample.context.validateByGraph w sc mask txs).1, x = 0 ∨ x = 1)) ∧
    ∃ r, formCharacteristic sample.context sample.validator (0 + 1)
        [sample.tx_deploy, sample.tx_start] [] = some r ∧
      r.characteristic.mask.length = [sample.tx_deploy, sample.tx_start].length ∧
      ∀ x ∈ r.characteristic.mask, x = 0 ∨ x = 1 :=
  ⟨fun _ _ _ _ => ⟨rfl, fun h => h⟩, fun _ _ _ _ => ⟨rfl, fun h => h⟩,
    formCharacteristic_mask_shape sample.context sample.validator 0
      [sample.tx_deploy, sample.tx_start] []
      (fun _ _ _ _ => ⟨rfl, fun h => h⟩) (fun _ _ _ _ => ⟨rfl, fun h => h⟩)⟩

end IterValidator
end cs

namespace cs

open csdb

/-! ### The pass of `test_exe_conditions` over the queue -/

theorem test_exe_conditions_loop_succ (env : Env) (block : Pool) (fuel i : Nat)
    (s : SmartContracts) (item : QueueItem) (h : s.exe_queue.get? i = some item) :
    test_exe_conditions_loop env block (fuel + 1) i s
      = if (test_exe_conditions_step env block s i item).exe_queue.length < s.exe_queue.length
        then none
        else test_exe_conditions_loop env block fuel (i + 1)
          (test_exe_conditions_step env block s i item) := by
  conv => lhs; unfold test_exe_conditions_loop
  rw [h]

theorem same_refl (r : SmartContractRef) : r.same r = true := by
  simp [SmartContractRef.same]

theorem find_in_queue_le (s : SmartContracts) (i : Nat) (it : QueueItem) (e : ExecutionItem)
    (h : s.exe_queue.get? i = some it) (he : e ∈ it.executions) :
    find_in_queue s e.ref_start ≤ i := by
  unfold find_in_queue
  by_contra hlt
  have hlt' : i < s.exe_queue.findIdx
      (fun it => it.executions.any (fun e' => e'.ref_start.same e.ref_start)) := by omega
  have hi : i < s.exe_queue.length := lt_of_lt_of_le hlt' (List.findIdx_le_length _)
  have hn := List.not_of_lt_findIdx hlt'
  simp only [List.get?_eq_getElem?, List.getElem?_eq_getElem hi, Option.some.injEq] at h
  rw [h] at hn
  have ht : it.executions.any (fun e' => e'.ref_start.same e.ref_start) = true := by
    rw [List.any_eq_true]
    exact ⟨e, he, same_refl _⟩
  rw [hn] at ht
  cases ht

theorem update_status_fst (env : Env) (s : SmartContracts) (item : QueueItem) (r : Sequence)
    (status : SmartContractStatus) :
    (update_status env s item r status).1 =
      match status with
      | .Waiting => { item with status := .Waiting, seq_enqueue := r }
      | .Running => { item with status := .Running, seq_start := r }
      | .Finished => { item with status := .Finished, seq_finish := r }
      | .Closed => { item with status := .Closed }
      | .Idle => { item with status := .Idle } := by
  cases status <;> rfl

theorem update_status_at_queue (env : Env) (s : SmartContracts) (i : Nat) (it : QueueItem)
    (r : Sequence) (status : SmartContractStatus) (h : s.exe_queue.get? i = some it) :
    (update_status_at env s i r status).exe_queue
      = s.exe_queue.set i (update_status env s it r status).1 := by
  unfold update_status_at
  rw [h]
  simp only [set_item, update_status_exe_queue]

theorem update_status_at_finished (env : Env) (s : SmartContracts) (i : Nat) (it : QueueItem)
    (r : Sequence) (h : s.exe_queue.get? i = some it) :
    update_status_at env s i r .Finished
      = set_item s i { it with status := .Finished, seq_finish := r } := by
  unfold update_status_at
  rw [h]
  rfl

theorem list_set_self {α : Type} (l : List α) :
    ∀ (i : Nat) (a : α), l.get? i = some a → l.set i a = l := by
  induction l with
  | nil => intro i a _; rfl
  | cons x l ih =>
    intro i a h
    cases i with
    | zero =>
      simp only [List.get?_cons_zero, Option.some.injEq] at h
      rw [h]
      rfl
    | succ i =>
      simp only [List.get?_cons_succ] at h
      simp only [List.set_cons_succ, ih i a h]

theorem eraseIdx_set_self {α : Type} (l : List α) :
    ∀ (i : Nat) (a : α), (l.set i a).eraseIdx i = l.eraseIdx i := by
  induction l with
  | nil => intro i a; rfl
  | cons x l ih =>
    intro i a
    cases i with
    | zero => rfl
    | succ i => simp only [List.set_cons_succ, List.eraseIdx_cons_succ, ih]

theorem set_item_self (s : SmartContracts) (i : Nat) (it : QueueItem)
    (h : s.exe_queue.get? i = some it) : set_item s i it = s := by
  simp only [set_item, list_set_self _ _ _ h]

theorem get_lt_length {α : Type} (l : List α) (i : Nat) (a : α) (h : l.get? i = some a) :
    i < l.length := by
  by_contra hge
  rw [List.get?_eq_none.2 (Nat.le_of_not_lt hge)] at h
  cases h

theorem set_item_set_item (s : SmartContracts) (i : Nat) (a b : QueueItem) :
    set_item (set_item s i a) i b = set_item s i b := by
  simp [set_item, List.set_set]

theorem set_item_get (s : SmartContracts) (i : Nat) (a it : QueueItem)
    (h : s.exe_queue.get? i = some it) : (set_item s i a).exe_queue.get? i = some a := by
  have hi : i < s.exe_queue.length := by
    by_contra hge
    rw [List.get?_eq_none.2 (Nat.le_of_not_lt hge)] at h
    cases h
  simp [set_item, hi]

theorem map_set_same {α β : Type} (f : α → β) (l : List α) :
    ∀ (j : Nat) (a b : α), l.get? j = some a → f b = f a → (l.set j b).map f = l.map f := by
  induction l with
  | nil => intro j a b _ _; rfl
  | cons x l ih =>
    intro j a b h hf
    cases j with
    | zero =>
      simp only [List.get?_cons_zero, Option.some.injEq] at h
      simp only [List.set_cons_zero, List.map_cons, hf, h]
    | succ j =>
      simp only [List.get?_cons_succ] at h
      simp only [List.set_cons_succ, List.map_cons, ih j a b h hf]

/-- The loop over `data_list` in `on_execution_completed_impl` writes nothing but the
executions of the item at position `i`, and leaves the calls they stand for. -/
theorem completion_fold_state (env : Env) (i : Nat) (it : QueueItem)
    (R : List SmartContractRef) (dl : List SmartExecutionData) :
    ∀ l : CompletionLoop,
      (∃ X, X.map (fun e => e.ref_start) = R ∧
        l.s.exe_queue.get? i = some { it with executions := X }) →
      ∃ X, X.map (fun e => e.ref_start) = R ∧
        (dl.foldl (completion_step env i) l).s = set_item l.s i { it with executions := X } := by
  induction dl with
  | nil =>
    rintro l ⟨X, hR, hX⟩
    exact ⟨X, hR, by rw [List.foldl_nil, set_item_self _ _ _ hX]⟩
  | cons d dl ih =>
    rintro l ⟨X, hR, hX⟩
    rw [List.foldl_cons]
    have hstep : ∃ Y, Y.map (fun e => e.ref_start) = R ∧
        (completion_step env i l d).s = set_item l.s i { it with executions := Y } := by
      unfold completion_step
      split
      · exact ⟨X, hR, by rw [set_item_self _ _ _ hX]⟩
      · rw [hX]
        simp only
        split
        · exact ⟨X, hR, by rw [set_item_self _ _ _ hX]⟩
        · rename_i execution0 hj
          have hset : ∀ e : ExecutionItem, e.ref_start = execution0.ref_start →
              (X.set (find_in_queue_item { it with executions := X } d.contract_ref) e).map
                (fun e => e.ref_start) = R := by
            intro e he
            rw [map_set_same (fun e => e.ref_start) X _ execution0 e hj he, hR]
          split
          · refine ⟨_, ?_, rfl⟩
            exact hset _ rfl
          · split
            · refine ⟨_, ?_, rfl⟩
              exact hset _ rfl
            · refine ⟨_, ?_, rfl⟩
              exact hset _ rfl
    obtain ⟨Y, hRY, hY⟩ := hstep
    have hget : (completion_step env i l d).s.exe_queue.get? i = some { it with executions := Y } := by
      rw [hY]
      exact set_item_get _ _ _ _ hX
    obtain ⟨Z, hRZ, hZ⟩ := ih (completion_step env i l d) ⟨Y, hRY, hget⟩
    exact ⟨Z, hRZ, by rw [hZ, hY, set_item_set_item]⟩

end cs
namespace cs

open csdb

/-! ### Locks: what can lock a contract and what cannot -/

theorem is_locked_congr (s s' : SmartContracts) (h : s'.known_contracts = s.known_contracts)
    (a : Address) : is_locked s' a = is_locked s a := by
  unfold is_locked SmartContracts.find_contract
  rw [h]

theorem is_locked_set_contract (s : SmartContracts) (a b : Address) (st : StateItem) :
    is_locked (s.set_contract a st) b = if a = b then st.is_locked else is_locked s b := by
  unfold is_locked
  rw [find_contract_set_contract]
  by_cases h : a = b <;> simp [h]

theorem no_new_locks_refl (s : SmartContracts) : no_new_locks s s := fun _ h => h

theorem no_new_locks_trans (s1 s2 s3 : SmartContracts) (h12 : no_new_locks s1 s2)
    (h23 : no_new_locks s2 s3) : no_new_locks s1 s3 := fun a h => h12 a (h23 a h)

theorem no_new_locks_of_eq (s s' : SmartContracts)
    (h : s'.known_contracts = s.known_contracts) : no_new_locks s s' := by
  intro a ha
  rw [is_locked_congr s s' h] at ha
  exact ha

theorem no_new_locks_of_same (s s' : SmartContracts)
    (h : ∀ a, is_locked s' a = is_locked s a) : no_new_locks s s' := by
  intro a ha
  rw [h a] at ha
  exact ha

theorem scan_methods_is_locked (env : Env) (ms : List MethodDescription) :
    ∀ st : StateItem, (scan_methods env ms st).is_locked = st.is_locked := by
  induction ms with
  | nil => intro st; rfl
  | cons m ms ih =>
    intro st
    unfold scan_methods
    simp only [ih]

theorem update_metadata_locks (env : Env) (s : SmartContracts) (c : SmartContractInvocation)
    (st : StateItem) :
    (update_metadata env s c st).2.1.is_locked = st.is_locked ∧
      (update_metadata env s c st).2.2.known_contracts = s.known_contracts := by
  unfold update_metadata
  split
  · exact ⟨rfl, rfl⟩
  · simp only
    split
    · exact ⟨rfl, rfl⟩
    · exact ⟨by rw [scan_methods_is_locked], rfl⟩

theorem is_locked_of_find (s : SmartContracts) (a : Address) (st : StateItem)
    (h : s.find_contract a = some st) : is_locked s a = st.is_locked := by
  unfold is_locked
  rw [h]

theorem is_payable_locks (env : Env) (s : SmartContracts) (a b : Address) :
    is_locked (is_payable env s a).2 b = is_locked s b := by
  unfold is_payable
  cases hf : s.find_contract a with
  | none => rfl
  | some state =>
    simp only
    split
    · rfl
    · split
      · rfl
      · rename_i deploy _
        have hm := update_metadata_locks env s deploy state
        have key : is_locked ((update_metadata env s deploy state).2.2.set_contract a
            (update_metadata env s deploy state).2.1) b = is_locked s b := by
          rw [is_locked_set_contract]
          by_cases hab : a = b
          · rw [if_pos hab, hm.1, ← hab, is_locked_of_find s a state hf]
          · rw [if_neg hab]
            exact is_locked_congr s _ hm.2 b
        split <;> exact key

theorem is_payable_target_locks (env : Env) (s : SmartContracts) (t : Transaction) (b : Address) :
    is_locked (is_payable_target env s t).2 b = is_locked s b := by
  unfold is_payable_target
  simp only
  split
  · rfl
  · exact is_payable_locks env s _ b

theorem get_smart_contract_impl_locks (env : Env) (s : SmartContracts) (t : Transaction)
    (b : Address) : is_locked (get_smart_contract_impl env s t).2 b = is_locked s b := by
  unfold get_smart_contract_impl
  simp only
  repeat' split
  all_goals first | exact is_payable_target_locks env s t b | rfl

theorem print_executed_method_locks (env : Env) (s : SmartContracts) (ref : SmartContractRef)
    (b : Address) : is_locked (print_executed_method env s ref) b = is_locked s b := by
  unfold print_executed_method
  split
  · rfl
  · simp only
    split
    · rfl
    · split
      · exact get_smart_contract_impl_locks env s _ b
      · exact is_payable_target_locks env s _ b

theorem foldl_locks {α : Type} (f : SmartContracts → α → SmartContracts)
    (hf : ∀ s x b, is_locked (f s x) b = is_locked s b) (l : List α) :
    ∀ s b, is_locked (l.foldl f s) b = is_locked s b := by
  induction l with
  | nil => intro s b; rfl
  | cons x l ih => intro s b; rw [List.foldl_cons, ih, hf]

theorem is_locked_update_lock_status (s : SmartContracts) (a b : Address) (v : Bool) :
    is_locked (update_lock_status s a v) b
      = if a = b then (if (s.find_contract b).isSome then v else false) else is_locked s b := by
  unfold is_locked
  rw [find_contract_update_lock_status]
  by_cases hab : a = b
  · simp only [hab, if_true]
    cases s.find_contract b <;> rfl
  · simp only [hab, if_false]

theorem update_lock_status_false_no_new (s : SmartContracts) (a : Address) :
    no_new_locks s (update_lock_status s a false) := by
  intro b hb
  rw [is_locked_update_lock_status] at hb
  by_cases hab : a = b
  · simp [hab] at hb
  · simpa [hab] using hb

theorem foldl_unlock_no_new (env : Env) (us : List Address) :
    ∀ s, no_new_locks s
      (us.foldl (fun acc u => update_lock_status acc (env.absolute_address u) false) s) := by
  induction us with
  | nil => intro s; exact no_new_locks_refl s
  | cons u us ih =>
    intro s
    rw [List.foldl_cons]
    exact no_new_locks_trans _ _ _ (update_lock_status_false_no_new s _) (ih _)

theorem update_lock_status_item_false_no_new (env : Env) (s : SmartContracts)
    (item : QueueItem) : no_new_locks s (update_lock_status_item env s item false) := by
  unfold update_lock_status_item
  exact no_new_locks_trans _ _ _ (update_lock_status_false_no_new s _) (foldl_unlock_no_new env _ _)

theorem update_lock_status_item_false_unlocks (env : Env) (s : SmartContracts)
    (item : QueueItem) : is_locked (update_lock_status_item env s item false) item.abs_addr = false := by
  have h1 : is_locked (update_lock_status s item.abs_addr false) item.abs_addr = false := by
    rw [is_locked_update_lock_status]
    simp
  have h2 := foldl_unlock_no_new env (item.executions.flatMap (fun e => e.uses))
    (update_lock_status s item.abs_addr false) item.abs_addr
  unfold update_lock_status_item
  cases h : is_locked ((item.executions.flatMap (fun e => e.uses)).foldl
      (fun acc u => update_lock_status acc (env.absolute_address u) false)
      (update_lock_status s item.abs_addr false)) item.abs_addr
  · rfl
  · rw [h2 h] at h1
    cases h1

theorem remove_from_queue_at_no_new (env : Env) (s : SmartContracts) (i : Nat) :
    no_new_locks s (remove_from_queue_at env s i) := by
  unfold remove_from_queue_at
  split
  · exact no_new_locks_refl s
  · rename_i it _
    simp only
    have h1 : no_new_locks s
        (it.executions.foldl (fun acc e => print_executed_method env acc e.ref_start) s) :=
      no_new_locks_of_same _ _
        (foldl_locks _ (fun s x b => print_executed_method_locks env s _ b) _ s)
    split
    · intro a ha
      exact h1 a (update_lock_status_item_false_no_new env _ it a
        (by rw [is_locked_congr _ _ rfl] at ha; exact ha))
    · intro a ha
      exact h1 a (by rw [is_locked_congr _ _ rfl] at ha; exact ha)

end cs
namespace cs

open csdb

/-- The end of `on_execution_completed_impl`, from the start of the consensus on: nothing is
locked, and the queue is kept or loses the item at position `i`. -/
theorem completion_tail_shape (env : Env) (t : SmartContracts) (i : Nat) (it1 : QueueItem)
    (P : TransactionsPacket) :
    no_new_locks t
      ((if !(if !it1.is_executor then (false, t)
              else (env.start_consensus it1 P,
                t.emit (.start_consensus (it1.executions.map (fun e => e.ref_start)) P))).1
        then remove_from_queue_at env
          (if !it1.is_executor then (false, t)
            else (env.start_consensus it1 P,
              t.emit (.start_consensus (it1.executions.map (fun e => e.ref_start)) P))).2 i
        else (if !it1.is_executor then (false, t)
            else (env.start_consensus it1 P,
              t.emit (.start_consensus (it1.executions.map (fun e => e.ref_start)) P))).2).emit
        (.smart_executed P)) ∧
    (((if !(if !it1.is_executor then (false, t)
              else (env.start_consensus it1 P,
                t.emit (.start_consensus (it1.executions.map (fun e => e.ref_start)) P))).1
        then remove_from_queue_at env
          (if !it1.is_executor then (false, t)
            else (env.start_consensus it1 P,
              t.emit (.start_consensus (it1.executions.map (fun e => e.ref_start)) P))).2 i
        else (if !it1.is_executor then (false, t)
            else (env.start_consensus it1 P,
              t.emit (.start_consensus (it1.executions.map (fun e => e.ref_start)) P))).2).emit
        (.smart_executed P)).exe_queue = t.exe_queue ∨
     ((if !(if !it1.is_executor then (false, t)
              else (env.start_consensus it1 P,
                t.emit (.start_consensus (it1.executions.map (fun e => e.ref_start)) P))).1
        then remove_from_queue_at env
          (if !it1.is_executor then (false, t)
            else (env.start_consensus it1 P,
              t.emit (.start_consensus (it1.executions.map (fun e => e.ref_start)) P))).2 i
        else (if !it1.is_executor then (false, t)
            else (env.start_consensus it1 P,
              t.emit (.start_consensus (it1.executions.map (fun e => e.ref_start)) P))).2).emit
        (.smart_executed P)).exe_queue = t.exe_queue.eraseIdx i) := by
  by_cases hex : it1.is_executor = true
  · by_cases hsc : env.start_consensus it1 P = true
    · simp only [hex, hsc, Bool.not_true, Bool.false_eq_true, if_false]
      exact ⟨no_new_locks_of_eq _ _ rfl, Or.inl rfl⟩
    · have hsc' : env.start_consensus it1 P = false := by simpa using hsc
      simp only [hex, hsc', Bool.not_true, Bool.not_false, Bool.false_eq_true, if_false, if_true]
      constructor
      · intro a ha
        rw [is_locked_congr _ _ rfl] at ha
        have h1 := remove_from_queue_at_no_new env _ _ a ha
        rw [is_locked_congr _ _ rfl] at h1
        exact h1
      · right
        show (remove_from_queue_at env _ _).exe_queue = _
        rw [remove_from_queue_at_exe_queue]
        rfl
  · have hex' : it1.is_executor = false := by simpa using hex
    simp only [hex', Bool.not_false, if_true]
    constructor
    · intro a ha
      rw [is_locked_congr _ _ rfl] at ha
      exact remove_from_queue_at_no_new env _ _ a ha
    · right
      show (remove_from_queue_at env _ _).exe_queue = _
      rw [remove_from_queue_at_exe_queue]

/-- What `on_execution_completed_impl` can do to the scheduler: nothing is locked by it, and
the queue is left as it was, or the item that holds the first completed call, which was
neither Finished nor Closed, is written back as Finished, or that item is erased. -/
theorem on_execution_completed_impl_shape (env : Env) (s : SmartContracts)
    (dl : List SmartExecutionData) :
    no_new_locks s (on_execution_completed_impl env s dl) ∧
    ((on_execution_completed_impl env s dl).exe_queue = s.exe_queue ∨
      ∃ front it X, dl.head? = some front ∧
        s.exe_queue.get? (find_in_queue s front.contract_ref) = some it ∧
        it.status ≠ .Finished ∧ it.status ≠ .Closed ∧
        X.map (fun e => e.ref_start) = it.executions.map (fun e => e.ref_start) ∧
        ((on_execution_completed_impl env s dl).exe_queue
            = s.exe_queue.set (find_in_queue s front.contract_ref)
                { it with status := .Finished, seq_finish := env.getLastSequence,
                          executions := X } ∨
          (on_execution_completed_impl env s dl).exe_queue
            = s.exe_queue.eraseIdx (find_in_queue s front.contract_ref))) := by
  unfold on_execution_completed_impl
  cases hh : dl.head? with
  | none => exact ⟨no_new_locks_refl s, Or.inl rfl⟩
  | some front =>
    simp only
    cases hg : s.exe_queue.get? (find_in_queue s front.contract_ref) with
    | none => exact ⟨no_new_locks_refl s, Or.inl rfl⟩
    | some it =>
      simp only
      by_cases hst : (decide (it.status = .Finished) || decide (it.status = .Closed)) = true
      · rw [if_pos hst]
        exact ⟨no_new_locks_refl s, Or.inl rfl⟩
      · rw [if_neg hst]
        have hF : it.status ≠ .Finished := fun h => hst (by simp [h])
        have hC : it.status ≠ .Closed := fun h => hst (by simp [h])
        rw [update_status_at_finished env s _ it _ hg]
        obtain ⟨X, hR, hX⟩ := completion_fold_state env (find_in_queue s front.contract_ref)
          { it with status := .Finished, seq_finish := env.getLastSequence }
          (it.executions.map (fun e => e.ref_start)) dl
          { s := set_item s (find_in_queue s front.contract_ref)
              { it with status := .Finished, seq_finish := env.getLastSequence },
            next_id := 0, integral_packet := [], returned := false }
          ⟨it.executions, rfl, set_item_get _ _ _ _ hg⟩
        rw [set_item_set_item] at hX
        generalize dl.foldl (completion_step env (find_in_queue s front.contract_ref))
          { s := set_item s (find_in_queue s front.contract_ref)
              { it with status := .Finished, seq_finish := env.getLastSequence },
            next_id := 0, integral_packet := [], returned := false } = l at hX
        have hq : l.s.exe_queue = s.exe_queue.set (find_in_queue s front.contract_ref)
            { it with status := .Finished, seq_finish := env.getLastSequence,
                      executions := X } := by rw [hX]; rfl
        have hk : l.s.known_contracts = s.known_contracts := by rw [hX]; rfl
        split
        · exact ⟨no_new_locks_of_eq _ _ hk, Or.inr ⟨front, it, X, rfl, hg, hF, hC, hR, Or.inl hq⟩⟩
        · have hget := set_item_get s (find_in_queue s front.contract_ref)
            { executions := X, status := .Finished, seq_enqueue := it.seq_enqueue,
              seq_start := it.seq_start, seq_finish := env.getLastSequence,
              abs_addr := it.abs_addr, is_executor := it.is_executor,
              is_rejected := it.is_rejected } it hg
          rw [← hX] at hget
          rw [hget]
          simp only
          obtain ⟨hl, hq'⟩ := completion_tail_shape env l.s (find_in_queue s front.contract_ref)
            { executions := X, status := .Finished, seq_enqueue := it.seq_enqueue,
              seq_start := it.seq_start, seq_finish := env.getLastSequence,
              abs_addr := it.abs_addr, is_executor := it.is_executor,
              is_rejected := it.is_rejected } l.integral_packet
          refine ⟨no_new_locks_trans _ _ _ (no_new_locks_of_eq _ _ hk) hl, ?_⟩
          rcases hq' with h | h
          · exact Or.inr ⟨front, it, X, rfl, hg, hF, hC, hR, Or.inl (h.trans hq)⟩
          · refine Or.inr ⟨front, it, X, rfl, hg, hF, hC, hR, Or.inr (h.trans ?_)⟩
            rw [hq, eraseIdx_set_self]

end cs
namespace cs

open csdb

theorem cancel_item_result (env : Env) (t : SmartContracts) (i : Nat) (x : QueueItem)
    (seq : Sequence) (code : Nat) (message : String) (h : t.exe_queue.get? i = some x) :
    no_new_locks t (cancel_item env t i x seq code message) ∧
      cancel_result env seq i x t.exe_queue (cancel_item env t i x seq code message).exe_queue := by
  unfold cancel_item
  by_cases hex : x.is_executor = true
  · rw [if_pos hex]
    simp only
    cases hexe : x.executions with
    | nil =>
      simp only [List.map_nil, List.isEmpty_nil, Bool.not_true, Bool.false_eq_true, if_false]
      exact ⟨no_new_locks_refl t, Or.inl rfl⟩
    | cons e0 rest =>
      simp only [List.map_cons, List.isEmpty_cons, Bool.not_false, if_true]
      obtain ⟨hl, hq⟩ := on_execution_completed_impl_shape env t
        (error_data e0.ref_start code message ::
          rest.map (fun e => error_data e.ref_start code message))
      refine ⟨hl, ?_⟩
      rcases hq with hq | ⟨front, it, X, hfront, hg, hF, hC, hR, hq⟩
      · exact Or.inl hq
      · simp only [List.head?_cons, Option.some.injEq] at hfront
        subst hfront
        have hle : find_in_queue t e0.ref_start ≤ i :=
          find_in_queue_le t i x e0 h (by rw [hexe]; exact List.mem_cons_self _ _)
        exact Or.inr (Or.inr ⟨_, it, X, hle, hg, hF, hC, hR, hq⟩)
  · rw [if_neg hex, update_status_at_finished env t i x seq h]
    exact ⟨no_new_locks_of_eq _ _ rfl, Or.inr (Or.inl rfl)⟩

theorem hard_timeout_iff (seq start m : Nat) : (seq > start ∧ seq - start > m) ↔ seq - start > m := by
  omega

theorem timeout_signals_frame (env : Env) (l : List ExecutionItem) :
    ∀ s, (timeout_signals env s l).exe_queue = s.exe_queue ∧
      (timeout_signals env s l).known_contracts = s.known_contracts := by
  unfold timeout_signals
  induction l with
  | nil => intro s; exact ⟨rfl, rfl⟩
  | cons e l ih =>
    intro s
    rw [List.foldl_cons]
    obtain ⟨h1, h2⟩ := ih (if ((get_transaction env e.ref_start).is_valid &&
        !is_executable (get_transaction env e.ref_start)) = true
      then s.emit (.payable_timeout (get_transaction env e.ref_start)) else s)
    rw [h1, h2]
    split <;> exact ⟨rfl, rfl⟩

theorem update_status_at_closed (env : Env) (s : SmartContracts) (i : Nat) (it : QueueItem)
    (r : Sequence) (h : s.exe_queue.get? i = some it) :
    update_status_at env s i r .Closed
      = set_item (update_lock_status_item env s { it with status := .Closed } false) i
          { it with status := .Closed } := by
  unfold update_status_at
  rw [h]
  rfl

/-- One turn of the pass of `test_exe_conditions`. -/
theorem test_exe_conditions_step_result (env : Env) (block : Pool) (s : SmartContracts)
    (i : Nat) (item : QueueItem) (h : s.exe_queue.get? i = some item) :
    no_new_locks s (test_exe_conditions_step env block s i item) ∧
      turn_result env block i item s.exe_queue
        (test_exe_conditions_step env block s i item).exe_queue := by
  unfold test_exe_conditions_step
  simp only [hard_timeout_iff]
  by_cases h1 : item.status ≠ .Running ∧ item.status ≠ .Finished
  · rw [if_pos h1]
    exact ⟨no_new_locks_refl s, Or.inl rfl⟩
  · rw [if_neg h1]
    have hRF : item.status = .Running ∨ item.status = .Finished := by
      by_contra hn
      exact h1 ⟨fun h => hn (Or.inl h), fun h => hn (Or.inr h)⟩
    by_cases h2 : block.sequence - item.seq_start > env.MaxRoundsCancelContract
    · rw [if_pos h2]
      obtain ⟨hq, hk⟩ := timeout_signals_frame env item.executions
        (update_status_at env s i block.sequence .Closed)
      constructor
      · intro a ha
        rw [is_locked_congr _ _ hk, update_status_at_closed env s i item _ h,
          is_locked_congr _ _ rfl] at ha
        exact update_lock_status_item_false_no_new env s _ a ha
      · refine Or.inr (Or.inl ⟨hRF, h2, ?_⟩)
        rw [hq, update_status_at_queue env s i item _ _ h]
        rfl
    · rw [if_neg h2]
      by_cases h3 : item.status = .Running
      · rw [if_pos h3]
        by_cases h4 : block.sequence - item.seq_start > env.MaxRoundsExecuteContract
        · rw [if_pos h4]
          obtain ⟨hl, hc⟩ := cancel_item_result env s i item block.sequence error_TimeExpired
            "contract execution timeout" h
          refine ⟨hl, Or.inr (Or.inr ⟨h3, h2, item, Or.inl rfl, Or.inr ?_⟩)⟩
          rw [list_set_self _ _ _ h]
          exact hc
        · rw [if_neg h4]
          have hget1 := set_item_get s i
            { item with
              executions := (charge_round_fee (smart_round_fee block) item.executions).1 } item h
          by_cases h5 : (charge_round_fee (smart_round_fee block) item.executions).2 = true
          · rw [if_pos h5]
            obtain ⟨hl, hc⟩ := cancel_item_result env _ i _ block.sequence error_OutOfFunds
              "contract execution is out of funds" hget1
            refine ⟨no_new_locks_trans _ _ _ (no_new_locks_of_eq _ _ rfl) hl,
              Or.inr (Or.inr ⟨h3, h2, _, Or.inr rfl, Or.inr hc⟩)⟩
          · rw [if_neg h5]
            exact ⟨no_new_locks_of_eq _ _ rfl,
              Or.inr (Or.inr ⟨h3, h2, _, Or.inr rfl, Or.inl rfl⟩)⟩
      · rw [if_neg h3]
        exact ⟨no_new_locks_refl s, Or.inl rfl⟩

end cs

namespace cs

open csdb

/-! ### Lists: what writing or erasing one position keeps -/

theorem mem_take_iff_get {α : Type} (l : List α) (i : Nat) (c : α) :
    c ∈ l.take i ↔ ∃ p, p < i ∧ l.get? p = some c := by
  simp only [List.get?_eq_getElem?]
  rw [List.mem_take_iff_getElem]
  constructor
  · rintro ⟨p, hp, h⟩
    have h1 : p < i := lt_of_lt_of_le hp (min_le_left _ _)
    have h2 : p < l.length := lt_of_lt_of_le hp (min_le_right _ _)
    exact ⟨p, h1, by rw [List.getElem?_eq_getElem h2, h]⟩
  · rintro ⟨p, hp, h⟩
    have h2 : p < l.length := by
      by_contra hge
      rw [List.getElem?_eq_none (Nat.le_of_not_lt hge)] at h
      cases h
    rw [List.getElem?_eq_getElem h2, Option.some.injEq] at h
    exact ⟨p, lt_min hp h2, h⟩

theorem mem_take_set_of_ne {α : Type} (l : List α) (i i0 : Nat) (a c : α)
    (hc : c ∈ l.take i) (hne : l.get? i0 ≠ some c) : c ∈ (l.set i0 a).take i := by
  rw [mem_take_iff_get] at hc ⊢
  obtain ⟨p, hp, h⟩ := hc
  refine ⟨p, hp, ?_⟩
  have hpi : i0 ≠ p := by
    intro e
    rw [e] at hne
    exact hne h
  simp only [List.get?_eq_getElem?] at h ⊢
  rw [List.getElem?_set, if_neg hpi]
  exact h

theorem mem_take_eraseIdx_of_ne {α : Type} (l : List α) (i i0 : Nat) (c : α)
    (hc : c ∈ l.take i) (hne : l.get? i0 ≠ some c) : c ∈ (l.eraseIdx i0).take i := by
  rw [mem_take_iff_get] at hc ⊢
  obtain ⟨p, hp, h⟩ := hc
  have hpi : i0 ≠ p := by
    intro e
    rw [e] at hne
    exact hne h
  simp only [List.get?_eq_getElem?] at h ⊢
  by_cases hlt : p < i0
  · exact ⟨p, hp, by rw [List.getElem?_eraseIdx, if_pos hlt]; exact h⟩
  · have hp1 : 1 ≤ p := by omega
    refine ⟨p - 1, by omega, ?_⟩
    rw [List.getElem?_eraseIdx, if_neg (by omega)]
    have e : p - 1 + 1 = p := by omega
    rw [e]
    exact h

theorem drop_eraseIdx_le {α : Type} (l : List α) (i i0 : Nat) (h : i0 ≤ i) :
    (l.eraseIdx i0).drop i = l.drop (i + 1) := by
  apply List.ext_getElem?
  intro j
  rw [List.getElem?_drop, List.getElem?_drop, List.getElem?_eraseIdx, if_neg (by omega)]
  congr 1
  omega

theorem mem_set_cases {α : Type} (l : List α) (i : Nat) (a c : α) (h : c ∈ l.set i a) :
    c ∈ l ∨ c = a := List.mem_or_eq_of_mem_set h

theorem mem_of_get {α : Type} (l : List α) (i : Nat) (a : α) (h : l.get? i = some a) : a ∈ l :=
  List.mem_iff_get?.2 ⟨i, h⟩

/-! ### One turn of the pass, seen from the queue -/

theorem cancel_result_suffix (env : Env) (seq : Sequence) (i : Nat) (x : QueueItem)
    (q q' : List QueueItem) (hi : i < q.length) (hc : cancel_result env seq i x q q') :
    (q'.length = q.length ∧ q'.drop (i + 1) = q.drop (i + 1)) ∨
      (q'.length + 1 = q.length ∧ q'.drop i = q.drop (i + 1)) := by
  rcases hc with rfl | rfl | ⟨i0, old, X, hle, hg, _, _, _, rfl | rfl⟩
  · exact Or.inl ⟨rfl, rfl⟩
  · exact Or.inl ⟨List.length_set _ _ _, List.drop_set_of_lt _ _ (Nat.lt_succ_self i)⟩
  · exact Or.inl ⟨List.length_set _ _ _, List.drop_set_of_lt _ _ (by omega)⟩
  · refine Or.inr ⟨erase_length _ _ (get_lt_length _ _ _ hg), drop_eraseIdx_le _ _ _ hle⟩

theorem turn_result_suffix (env : Env) (block : Pool) (i : Nat) (item : QueueItem)
    (q q' : List QueueItem) (hi : i < q.length) (ht : turn_result env block i item q q') :
    (q'.length = q.length ∧ q'.drop (i + 1) = q.drop (i + 1)) ∨
      (q'.length + 1 = q.length ∧ q'.drop i = q.drop (i + 1)) := by
  rcases ht with rfl | ⟨_, _, rfl⟩ | ⟨_, _, x, _, rfl | hc⟩
  · exact Or.inl ⟨rfl, rfl⟩
  · exact Or.inl ⟨List.length_set _ _ _, List.drop_set_of_lt _ _ (Nat.lt_succ_self i)⟩
  · exact Or.inl ⟨List.length_set _ _ _, List.drop_set_of_lt _ _ (Nat.lt_succ_self i)⟩
  · have h1 := cancel_result_suffix env block.sequence i x (q.set i x) q'
      (by rw [List.length_set]; exact hi) hc
    rw [List.length_set, List.drop_set_of_lt _ _ (Nat.lt_succ_self i)] at h1
    exact h1

theorem cancel_result_done_prefix (env : Env) (seq : Sequence) (i : Nat) (x : QueueItem)
    (q q' : List QueueItem) (hc : cancel_result env seq i x q q') (c : QueueItem)
    (hmem : c ∈ q.take i) (hdone : c.status = .Finished ∨ c.status = .Closed) :
    c ∈ q'.take i := by
  rcases hc with rfl | rfl | ⟨i0, old, X, hle, hg, hF, hC, _, rfl | rfl⟩
  · exact hmem
  · rw [take_set_self]; exact hmem
  · apply mem_take_set_of_ne _ _ _ _ _ hmem
    rw [hg]
    intro e
    cases e
    rcases hdone with h | h
    · exact hF h
    · exact hC h
  · apply mem_take_eraseIdx_of_ne _ _ _ _ hmem
    rw [hg]
    intro e
    cases e
    rcases hdone with h | h
    · exact hF h
    · exact hC h

theorem turn_result_done_prefix (env : Env) (block : Pool) (i : Nat) (item : QueueItem)
    (q q' : List QueueItem) (ht : turn_result env block i item q q') (c : QueueItem)
    (hmem : c ∈ q.take i) (hdone : c.status = .Finished ∨ c.status = .Closed) :
    c ∈ q'.take i := by
  rcases ht with rfl | ⟨_, _, rfl⟩ | ⟨_, _, x, _, rfl | hc⟩
  · exact hmem
  · rw [take_set_self]; exact hmem
  · rw [take_set_self]; exact hmem
  · exact cancel_result_done_prefix env block.sequence i x (q.set i x) q' hc c
      (by rw [take_set_self]; exact hmem) hdone

theorem charge_round_fee_refs (f : Amount) (l : List ExecutionItem) :
    (charge_round_fee f l).1.map (fun e => e.ref_start) = l.map (fun e => e.ref_start) := by
  induction l with
  | nil => rfl
  | cons e l ih =>
    unfold charge_round_fee
    simp only
    split
    · rfl
    · simp only [List.map_cons, ih]

theorem charge_round_fee_fee (f : Amount) (hf : 0 ≤ f) (l : List ExecutionItem) :
    ∀ e' ∈ (charge_round_fee f l).1, ∃ e ∈ l, e.ref_start = e'.ref_start ∧
      e'.avail_fee = e.avail_fee ∧ e.consumed_fee ≤ e'.consumed_fee := by
  induction l with
  | nil => intro e' he'; cases he'
  | cons e l ih =>
    intro e' he'
    unfold charge_round_fee at he'
    simp only at he'
    split at he'
    · rcases List.mem_cons.1 he' with rfl | h
      · exact ⟨e, List.mem_cons_self _ _, rfl, rfl, le_add_of_nonneg_right hf⟩
      · exact ⟨e', List.mem_cons_of_mem _ h, rfl, rfl, le_refl _⟩
    · rcases List.mem_cons.1 he' with rfl | h
      · exact ⟨e, List.mem_cons_self _ _, rfl, rfl, le_add_of_nonneg_right hf⟩
      · obtain ⟨e0, h0, h1⟩ := ih e' h
        exact ⟨e0, List.mem_cons_of_mem _ h0, h1⟩

/-- Where the items of the queue after one turn of the pass come from: an item is left as
it was, or it stands for the same calls as an item of the queue before the turn and is
that item marked Closed after the long timeout, or is Finished, or is that Running item
with the round fee charged. -/
theorem turn_result_members (env : Env) (block : Pool) (i : Nat) (item : QueueItem)
    (q q' : List QueueItem) (h : q.get? i = some item)
    (ht : turn_result env block i item q q') (it' : QueueItem) (hmem : it' ∈ q') :
    it' ∈ q ∨ ∃ it ∈ q, same_calls it it' ∧
      ((it' = { it with status := .Closed } ∧ (it.status = .Running ∨ it.status = .Finished) ∧
          block.sequence - it.seq_start > env.MaxRoundsCancelContract) ∨
        it'.status = .Finished ∨
        (it.status = .Running ∧
          it' = { it with
                  executions := (charge_round_fee (smart_round_fee block) it.executions).1 })) := by
  have hitem : item ∈ q := mem_of_get _ _ _ h
  rcases ht with rfl | ⟨hRF, hhard, rfl⟩ | ⟨hR, _, x, hx, hq⟩
  · exact Or.inl hmem
  · rcases mem_set_cases _ _ _ _ hmem with h1 | rfl
    · exact Or.inl h1
    · exact Or.inr ⟨item, hitem, ⟨rfl, rfl, rfl, rfl⟩, Or.inl ⟨rfl, hRF, hhard⟩⟩
  · have hxcalls : same_calls item x := by
      rcases hx with rfl | rfl
      · exact ⟨rfl, rfl, rfl, rfl⟩
      · exact ⟨rfl, rfl, rfl, charge_round_fee_refs _ _⟩
    have hxcase : x ∈ q ∨ (item.status = .Running ∧
        x = { item with
              executions := (charge_round_fee (smart_round_fee block) item.executions).1 }) := by
      rcases hx with rfl | rfl
      · exact Or.inl hitem
      · exact Or.inr ⟨hR, rfl⟩
    have hxres : x ∈ q ∨ ∃ it ∈ q, same_calls it x ∧
        ((x = { it with status := .Closed } ∧ (it.status = .Running ∨ it.status = .Finished) ∧
            block.sequence - it.seq_start > env.MaxRoundsCancelContract) ∨
          x.status = .Finished ∨
          (it.status = .Running ∧
            x = { it with
                  executions := (charge_round_fee (smart_round_fee block) it.executions).1 })) := by
      rcases hxcase with h1 | h1
      · exact Or.inl h1
      · exact Or.inr ⟨item, hitem, hxcalls, Or.inr (Or.inr h1)⟩
    have hset : ∀ c ∈ q.set i x, c ∈ q ∨ c = x := fun c hc => mem_set_cases _ _ _ _ hc
    rcases hq with rfl | rfl | rfl | ⟨i0, old, X, _, hg, _, _, hXr, rfl | rfl⟩
    · rcases hset it' hmem with h1 | rfl
      · exact Or.inl h1
      · exact hxres
    · rcases hset it' hmem with h1 | rfl
      · exact Or.inl h1
      · exact hxres
    · rcases mem_set_cases _ _ _ _ hmem with h1 | rfl
      · rcases hset it' h1 with h2 | rfl
        · exact Or.inl h2
        · exact hxres
      · exact Or.inr ⟨item, hitem, ⟨hxcalls.1, hxcalls.2.1, hxcalls.2.2.1, hxcalls.2.2.2⟩,
          Or.inr (Or.inl rfl)⟩
    · rcases mem_set_cases _ _ _ _ hmem with h1 | rfl
      · rcases hset it' h1 with h2 | rfl
        · exact Or.inl h2
        · exact hxres
      · have hold := mem_of_get _ _ _ hg
        rcases hset old hold with h2 | rfl
        · exact Or.inr ⟨old, h2, ⟨rfl, rfl, rfl, hXr⟩, Or.inr (Or.inl rfl)⟩
        · exact Or.inr ⟨item, hitem,
            ⟨hxcalls.1, hxcalls.2.1, hxcalls.2.2.1, hXr.trans hxcalls.2.2.2⟩,
            Or.inr (Or.inl rfl)⟩
    · rcases hset it' (List.mem_of_mem_eraseIdx hmem) with h2 | rfl
      · exact Or.inl h2
      · exact hxres

end cs
namespace cs

open csdb

/-! ### The whole pass of `test_exe_conditions` -/

/-- A relation between schedulers that is reflexive, transitive and holds across every turn
of the pass holds across a pass that has a result. -/
theorem test_exe_conditions_loop_rel (env : Env) (block : Pool)
    (Rel : SmartContracts → SmartContracts → Prop)
    (hrefl : ∀ s, Rel s s)
    (htrans : ∀ s1 s2 s3, Rel s1 s2 → Rel s2 s3 → Rel s1 s3)
    (hstep : ∀ s i item, s.exe_queue.get? i = some item →
      Rel s (test_exe_conditions_step env block s i item)) :
    ∀ fuel i s s', test_exe_conditions_loop env block fuel i s = some s' → Rel s s' := by
  intro fuel
  induction fuel with
  | zero =>
    intro i s s' h
    unfold test_exe_conditions_loop at h
    cases h
    exact hrefl s
  | succ fuel ih =>
    intro i s s' h
    cases hg : s.exe_queue.get? i with
    | none =>
      unfold test_exe_conditions_loop at h
      rw [hg] at h
      cases h
      exact hrefl s
    | some item =>
      rw [test_exe_conditions_loop_succ env block fuel i s item hg] at h
      split at h
      · cases h
      · exact htrans _ _ _ (hstep s i item hg) (ih _ _ _ h)

theorem test_exe_conditions_rel (env : Env) (block : Pool)
    (Rel : SmartContracts → SmartContracts → Prop)
    (hrefl : ∀ s, Rel s s)
    (htrans : ∀ s1 s2 s3, Rel s1 s2 → Rel s2 s3 → Rel s1 s3)
    (hstep : ∀ s i item, s.exe_queue.get? i = some item →
      Rel s (test_exe_conditions_step env block s i item))
    (s s' : SmartContracts) (h : test_exe_conditions env s block = some s') : Rel s s' := by
  unfold test_exe_conditions at h
  split at h
  · cases h
    exact hrefl s
  · exact test_exe_conditions_loop_rel env block Rel hrefl htrans hstep _ _ _ _ h

end cs
namespace cs

open csdb

/-! ### The event log across status updates, and Closed items in `test_exe_queue` -/

theorem update_lock_status_log (s : SmartContracts) (a : Address) (v : Bool) :
    (update_lock_status s a v).log = s.log := by
  unfold update_lock_status
  split
  · split <;> rfl
  · rfl

theorem foldl_log {α : Type} (f : SmartContracts → α → SmartContracts)
    (hf : ∀ s x, (f s x).log = s.log) (l : List α) :
    ∀ s, (l.foldl f s).log = s.log := by
  induction l with
  | nil => intro s; rfl
  | cons x l ih => intro s; rw [List.foldl_cons, ih, hf]

theorem update_lock_status_item_log (env : Env) (s : SmartContracts) (item : QueueItem)
    (v : Bool) : (update_lock_status_item env s item v).log = s.log := by
  unfold update_lock_status_item
  rw [foldl_log _ (fun acc u => update_lock_status_log acc _ v)]
  exact update_lock_status_log s _ v

theorem update_status_log (env : Env) (s : SmartContracts) (item : QueueItem)
    (r : Sequence) (status : SmartContractStatus) :
    (update_status env s item r status).2.log = s.log := by
  unfold update_status
  cases status <;> simp only [update_lock_status_item_log]

theorem update_status_at_log (env : Env) (s : SmartContracts) (i : Nat) (r : Sequence)
    (status : SmartContractStatus) : (update_status_at env s i r status).log = s.log := by
  unfold update_status_at
  split
  · rfl
  · simp only [set_item, update_status_log]

theorem timeout_signals_log (env : Env) (l : List ExecutionItem) :
    ∀ s, ∃ evs, (timeout_signals env s l).log = s.log ++ evs ∧
      ∀ ev ∈ evs, ∃ t, ev = Event.payable_timeout t := by
  unfold timeout_signals
  induction l with
  | nil => intro s; exact ⟨[], by simp, by simp⟩
  | cons e l ih =>
    intro s
    rw [List.foldl_cons]
    simp only
    by_cases hc : ((get_transaction env e.ref_start).is_valid &&
        !is_executable (get_transaction env e.ref_start)) = true
    · rw [if_pos hc]
      obtain ⟨evs, h1, h2⟩ := ih (s.emit (.payable_timeout (get_transaction env e.ref_start)))
      refine ⟨.payable_timeout (get_transaction env e.ref_start) :: evs, ?_, ?_⟩
      · rw [h1]
        simp [SmartContracts.emit]
      · intro ev hev
        rcases List.mem_cons.1 hev with rfl | h
        · exact ⟨_, rfl⟩
        · exact h2 ev h
    · rw [if_neg hc]
      exact ih s

theorem start_item_status (env : Env) (s : SmartContracts) (i : Nat) (it it' : QueueItem)
    (h : s.exe_queue.get? i = some it)
    (h' : (start_item env s i).exe_queue.get? i = some it') : it'.status = .Running := by
  have hq1 := update_status_at_queue env s i it env.getLastSequence .Running h
  have hg1 : (update_status_at env s i env.getLastSequence .Running).exe_queue.get? i
      = some { it with status := .Running, seq_start := env.getLastSequence } := by
    rw [hq1]
    have hi := get_lt_length _ _ _ h
    simp only [List.get?_eq_getElem?, List.getElem?_set, hi, if_true]
    rfl
  unfold start_item at h'
  simp only [hg1] at h'
  split at h'
  · split at h'
    · unfold skip_execution at h'
      simp only at h'
      have hlen : i < (executor_unavailable env
          (update_status_at env s i env.getLastSequence .Running)
          { it with status := .Running, seq_start := env.getLastSequence }).2.exe_queue.length := by
        rw [executor_unavailable_exe_queue, update_status_at_length]
        exact get_lt_length _ _ _ h
      split at h'
      · split at h'
        · simp only [SmartContracts.emit, set_item, List.get?_eq_getElem?, List.getElem?_set,
            hlen, if_true, Option.some.injEq] at h'
          rw [← h']
        · simp only [set_item, List.get?_eq_getElem?, List.getElem?_set,
            hlen, if_true, Option.some.injEq] at h'
          rw [← h']
      · simp only [set_item, List.get?_eq_getElem?, List.getElem?_set,
          hlen, if_true, Option.some.injEq] at h'
        rw [← h']
    · rw [execute_async_exe_queue, executor_unavailable_exe_queue, hg1] at h'
      cases h'
      rfl
  · rw [hg1] at h'
    cases h'
    rfl

/-- After a pass of `test_exe_queue` no item of the queue is Closed. -/
theorem test_exe_queue_loop_no_closed (env : Env) :
    ∀ (fuel i : Nat) (s : SmartContracts), s.exe_queue.length - i ≤ fuel →
      (∀ c ∈ s.exe_queue.take i, c.status ≠ .Closed) →
      ∀ c ∈ (test_exe_queue_loop env fuel i s).exe_queue, c.status ≠ .Closed := by
  intro fuel
  induction fuel with
  | zero =>
    intro i s hf hpre c hc
    have e : test_exe_queue_loop env 0 i s = s := rfl
    rw [e] at hc
    apply hpre c
    rw [List.take_of_length_le (by omega)]
    exact hc
  | succ fuel ih =>
    intro i s hf hpre c hc
    unfold test_exe_queue_loop at hc
    cases hg : s.exe_queue.get? i with
    | none =>
      rw [hg] at hc
      apply hpre c
      rw [List.take_of_length_le (List.get?_eq_none.1 hg)]
      exact hc
    | some it =>
      rw [hg] at hc
      simp only at hc
      have hm := test_exe_queue_step_measure env s i it hg
      refine ih _ _ (by omega) ?_ c hc
      intro c' hc'
      unfold test_exe_queue_step at hc'
      split at hc'
      · simp only [remove_from_queue_at_exe_queue, take_eraseIdx_self] at hc'
        exact hpre c' hc'
      · rename_i hnc
        have hnext : ∀ c'', c'' ∈ s.exe_queue.take (i + 1) → c''.status ≠ .Closed := by
          intro c'' h''
          rw [mem_take_iff_get] at h''
          obtain ⟨p, hp, hp2⟩ := h''
          by_cases hpi : p < i
          · exact hpre c'' ((mem_take_iff_get _ _ _).2 ⟨p, hpi, hp2⟩)
          · have e : p = i := by omega
            rw [e, hg] at hp2
            cases hp2
            exact hnc
        split at hc'
        · simp only [remove_from_queue_at_exe_queue, take_eraseIdx_self] at hc'
          exact hpre c' hc'
        · split at hc'
          · exact hnext c' hc'
          · split at hc'
            · exact hnext c' hc'
            · split at hc'
              · exact hnext c' hc'
              · simp only at hc'
                rw [mem_take_iff_get] at hc'
                obtain ⟨p, hp, hp2⟩ := hc'
                by_cases hpi : p < i
                · apply hpre c'
                  rw [← start_item_take env s i]
                  exact (mem_take_iff_get _ _ _).2 ⟨p, hpi, hp2⟩
                · have e : p = i := by omega
                  rw [e] at hp2
                  rw [start_item_status env s i it c' hg hp2]
                  decide

theorem test_exe_queue_no_closed (env : Env) (s : SmartContracts) :
    ∀ c ∈ (test_exe_queue env s).exe_queue, c.status ≠ .Closed := by
  unfold test_exe_queue
  apply test_exe_queue_loop_no_closed env _ 0 s (by omega)
  intro c hc
  simp at hc

end cs
namespace cs

open csdb

theorem same_calls_refl (it : QueueItem) : same_calls it it := ⟨rfl, rfl, rfl, rfl⟩

theorem same_calls_trans (a b c : QueueItem) (h1 : same_calls a b) (h2 : same_calls b c) :
    same_calls a c :=
  ⟨h2.1.trans h1.1, h2.2.1.trans h1.2.1, h2.2.2.1.trans h1.2.2.1, h2.2.2.2.trans h1.2.2.2⟩

/-- The turn of the pass on an item that has been Running or Finished for more than
`MaxRoundsCancelContract` blocks. -/
theorem test_exe_conditions_step_hard (env : Env) (block : Pool) (s : SmartContracts) (i : Nat)
    (item : QueueItem)
    (hst : item.status = .Running ∨ item.status = .Finished)
    (hhard : block.sequence - item.seq_start > env.MaxRoundsCancelContract) :
    test_exe_conditions_step env block s i item
      = timeout_signals env (update_status_at env s i block.sequence .Closed) item.executions := by
  unfold test_exe_conditions_step
  simp only [hard_timeout_iff]
  have h1 : ¬ (item.status ≠ .Running ∧ item.status ≠ .Finished) := by
    rintro ⟨a, b⟩
    rcases hst with h | h
    · exact a h
    · exact b h
  rw [if_neg h1, if_pos hhard]

end cs

namespace cs

open csdb

/-! ### Completion of calls cancelled by the scheduler -/

theorem find_filter_ne (l : List (Int × UserField)) (id id' : Int) (h : id' ≠ id) :
    (l.filter (fun g => !decide (g.1 = id))).find? (fun f => decide (f.1 = id'))
      = l.find? (fun f => decide (f.1 = id')) := by
  induction l with
  | nil => rfl
  | cons a l ih =>
    by_cases h1 : a.1 = id
    · have h2 : decide (a.1 = id') = false := decide_eq_false (fun e => h (e.symm.trans h1))
      have h3 : (!decide (a.1 = id)) = false := by simp [h1]
      rw [List.filter_cons, h3, List.find?_cons, h2]
      exact ih
    · simp only [List.filter_cons, h1, decide_False, Bool.not_false, if_true, List.find?_cons, ih]

theorem find_filter_same (l : List (Int × UserField)) (id : Int) :
    (l.filter (fun g => !decide (g.1 = id))).find? (fun f => decide (f.1 = id)) = none := by
  rw [List.find?_eq_none]
  intro x hx
  rw [List.mem_filter] at hx
  simpa using hx.2

theorem user_field_add_same (t : Transaction) (id : Int) (f : UserField) :
    (t.add_user_field id f).user_field id = f := by
  unfold Transaction.add_user_field Transaction.user_field
  simp only [List.find?_append, find_filter_same]
  simp

theorem user_field_add_ne (t : Transaction) (id id' : Int) (f : UserField) (h : id' ≠ id) :
    (t.add_user_field id f).user_field id' = t.user_field id' := by
  unfold Transaction.add_user_field Transaction.user_field
  simp only [List.find?_append, find_filter_ne _ _ _ h]
  have h2 : ¬ id = id' := fun e => h e.symm
  cases List.find? (fun f => decide (f.1 = id')) t.user_fields <;> simp [h2]

theorem error_result_fields (env : Env) (r : Transaction) (v : Variant) :
    (set_return_value env (r.add_user_field uf.Value (.string [])) v).user_field uf.Value
        = .string [] ∧
      (set_return_value env (r.add_user_field uf.Value (.string [])) v).user_field uf.RetVal
        = .string (env.serialize_variant v) := by
  unfold set_return_value
  constructor
  · rw [user_field_add_ne _ _ _ _ (by decide), user_field_add_same]
  · rw [user_field_add_same]

/-- One iteration of the loop of `on_execution_completed_impl` for a call that failed and
whose starter can be loaded. -/
theorem completion_step_error (env : Env) (i : Nat) (l : CompletionLoop)
    (d : SmartExecutionData) (it : QueueItem) (e : ExecutionItem)
    (hret : l.returned = false)
    (hg : l.s.exe_queue.get? i = some it)
    (he : it.executions.get? (find_in_queue_item it d.contract_ref) = some e)
    (hload : (get_transaction env d.contract_ref).is_valid = true)
    (herr : d.error.isEmpty = false) :
    ∃ t n, t.user_field uf.Value = .string [] ∧
      t.user_field uf.RetVal = .string (env.serialize_variant d.retValue) ∧
      completion_step env i l d
        = { s := set_item l.s i
              { it with
                executions := it.executions.set (find_in_queue_item it d.contract_ref)
                  { e with consumed_fee := d.executor_fee, result := [t] } },
            next_id := n, integral_packet := l.integral_packet ++ [t], returned := false } := by
  unfold completion_step
  rw [if_neg (by rw [hret]; decide), hg]
  simp only [he, herr, Bool.not_false, if_true, hload, Bool.not_true, Bool.false_eq_true, if_false]
  split
  · rename_i hnone
    exfalso
    split_ifs at hnone
    all_goals cases hnone
  · rename_i r hsome
    exact ⟨_, _, (error_result_fields env r d.retValue).1,
      (error_result_fields env r d.retValue).2, rfl⟩

end cs
namespace cs

open csdb

theorem update_metadata_log (env : Env) (s : SmartContracts) (c : SmartContractInvocation)
    (st : StateItem) : (update_metadata env s c st).2.2.log = s.log := by
  unfold update_metadata
  split
  · rfl
  · simp only
    split <;> rfl

theorem is_payable_log (env : Env) (s : SmartContracts) (a : Address) :
    (is_payable env s a).2.log = s.log := by
  unfold is_payable
  split
  · rfl
  · split
    · rfl
    · split
      · rfl
      · simp only
        split <;> exact update_metadata_log env s _ _

theorem is_payable_target_log (env : Env) (s : SmartContracts) (t : Transaction) :
    (is_payable_target env s t).2.log = s.log := by
  unfold is_payable_target
  simp only
  split
  · rfl
  · exact is_payable_log env s _

theorem get_smart_contract_impl_log (env : Env) (s : SmartContracts) (t : Transaction) :
    (get_smart_contract_impl env s t).2.log = s.log := by
  unfold get_smart_contract_impl
  simp only
  repeat' split
  all_goals first | exact is_payable_target_log env s t | rfl

theorem print_executed_method_log (env : Env) (s : SmartContracts) (ref : SmartContractRef) :
    (print_executed_method env s ref).log = s.log := by
  unfold print_executed_method
  split
  · rfl
  · simp only
    split
    · rfl
    · split
      · exact get_smart_contract_impl_log env s _
      · exact is_payable_target_log env s _

theorem remove_from_queue_at_log (env : Env) (s : SmartContracts) (i : Nat) :
    (remove_from_queue_at env s i).log = s.log := by
  unfold remove_from_queue_at
  split
  · rfl
  · simp only
    split
    · show (update_lock_status_item env _ _ false).log = _
      rw [update_lock_status_item_log,
        foldl_log _ (fun s x => print_executed_method_log env s _)]
    · show (List.foldl _ s _).log = _
      rw [foldl_log _ (fun s x => print_executed_method_log env s _)]

theorem findIdx_append_first {α : Type} (p : α → Bool) (l1 l2 : List α) (y : α)
    (h1 : ∀ x ∈ l1, p x = false) (hy : p y = true) :
    (l1 ++ y :: l2).findIdx p = l1.length := by
  induction l1 with
  | nil => simp [List.findIdx_cons, hy]
  | cons a l1 ih =>
    have ha : p a = false := h1 a (List.mem_cons_self _ _)
    simp only [List.cons_append, List.findIdx_cons, ha, cond_false, List.length_cons]
    rw [ih (fun x hx => h1 x (List.mem_cons_of_mem _ hx))]

theorem set_append_first {α : Type} (l1 l2 : List α) (y z : α) :
    (l1 ++ y :: l2).set l1.length z = l1 ++ z :: l2 := by
  induction l1 with
  | nil => rfl
  | cons a l1 ih => simp only [List.cons_append, List.length_cons, List.set_cons_succ, ih]

theorem get_append_first {α : Type} (l1 l2 : List α) (y : α) :
    (l1 ++ y :: l2).get? l1.length = some y := by
  induction l1 with
  | nil => rfl
  | cons a l1 ih => simpa using ih

/-- The loop of `on_execution_completed_impl` over error data made for the executions `todo`
of the item at position `i`, the executions before them being completed already. -/
theorem completion_fold_errors (env : Env) (i : Nat) (it : QueueItem) (code : Nat)
    (message : String) (hmsg : message.isEmpty = false) :
    ∀ (todo a' : List ExecutionItem) (l : CompletionLoop),
      l.returned = false →
      l.s.exe_queue.get? i = some { it with executions := a' ++ todo } →
      (∀ x ∈ a', ∀ e ∈ todo, x.ref_start.same e.ref_start = false) →
      (todo.map (fun e => e.ref_start)).Pairwise (fun r1 r2 => r1.same r2 = false) →
      (∀ e ∈ todo, (get_transaction env e.ref_start).is_valid = true) →
      ∃ Y, List.Forall₂ (cancelled_with env code) todo Y ∧
        ((todo.map (fun e => error_data e.ref_start code message)).foldl
            (completion_step env i) l).s
          = set_item l.s i { it with executions := a' ++ Y } ∧
        ((todo.map (fun e => error_data e.ref_start code message)).foldl
            (completion_step env i) l).returned = false ∧
        ((todo.map (fun e => error_data e.ref_start code message)).foldl
            (completion_step env i) l).integral_packet
          = l.integral_packet ++ Y.flatMap (fun e => e.result) := by
  intro todo
  induction todo with
  | nil =>
    intro a' l hret hg _ _ _
    refine ⟨[], List.Forall₂.nil, ?_, hret, by simp⟩
    simp only [List.map_nil, List.foldl_nil]
    rw [set_item_self _ _ _ hg]
  | cons e todo ih =>
    intro a' l hret hg hpre hpair hload
    simp only [List.map_cons, List.foldl_cons]
    have hfind : find_in_queue_item { it with executions := a' ++ e :: todo }
        (error_data e.ref_start code message).contract_ref = a'.length := by
      unfold find_in_queue_item
      exact findIdx_append_first _ _ _ _
        (fun x hx => hpre x hx e (List.mem_cons_self _ _)) (same_refl _)
    have he : ({ it with executions := a' ++ e :: todo } : QueueItem).executions.get?
        (find_in_queue_item { it with executions := a' ++ e :: todo }
          (error_data e.ref_start code message).contract_ref) = some e := by
      rw [hfind]
      exact get_append_first _ _ _
    obtain ⟨t, n, hV, hR, hstep⟩ := completion_step_error env i l
      (error_data e.ref_start code message) _ e hret hg he
      (hload e (List.mem_cons_self _ _)) hmsg
    rw [hstep, hfind]
    simp only [set_append_first]
    have hpair' := List.pairwise_cons.1 hpair
    obtain ⟨Y, hY, hs, hr, hp⟩ := ih
      (a' ++ [{ e with consumed_fee := (error_data e.ref_start code message).executor_fee,
                       result := [t] }])
      { s := set_item l.s i
          { it with
            executions := a' ++
              { e with consumed_fee := (error_data e.ref_start code message).executor_fee,
                       result := [t] } :: todo },
        next_id := n, integral_packet := l.integral_packet ++ [t], returned := false }
      rfl
      (by
        have := set_item_get l.s i
          { it with
            executions := a' ++
              { e with consumed_fee := (error_data e.ref_start code message).executor_fee,
                       result := [t] } :: todo } _ hg
        simpa using this)
      (by
        intro x hx e2 he2
        rcases List.mem_append.1 hx with h | h
        · exact hpre x h e2 (List.mem_cons_of_mem _ he2)
        · simp only [List.mem_singleton] at h
          subst h
          exact hpair'.1 e2.ref_start (List.mem_map.2 ⟨e2, he2, rfl⟩))
      hpair'.2
      (fun e2 he2 => hload e2 (List.mem_cons_of_mem _ he2))
    refine ⟨{ e with consumed_fee := (error_data e.ref_start code message).executor_fee,
                     result := [t] } :: Y, ?_, ?_, hr, ?_⟩
    · exact List.Forall₂.cons ⟨rfl, rfl, rfl, rfl, rfl, t, rfl, hV, hR⟩ hY
    · rw [hs]
      simp only [set_item_set_item, List.append_assoc, List.singleton_append]
    · rw [hp]
      simp [List.flatMap_cons]

end cs
namespace cs

open csdb

/-- The completion handler run by `test_exe_conditions` on an executor node for an item
that is cancelled: every execution is completed with the error, the packet of new-states
is handed to the consensus and announced, and the item is left Finished in the queue when
the consensus starts, and erased otherwise. -/
theorem on_execution_completed_impl_cancelled (env : Env) (s : SmartContracts) (i : Nat)
    (item : QueueItem) (e0 : ExecutionItem) (rest : List ExecutionItem) (code : Nat)
    (message : String) (hmsg : message.isEmpty = false)
    (hg : s.exe_queue.get? i = some item)
    (hexe : item.executions = e0 :: rest)
    (hfind : find_in_queue s e0.ref_start = i)
    (hF : item.status ≠ .Finished) (hC : item.status ≠ .Closed)
    (hex : item.is_executor = true)
    (hpair : (item.executions.map (fun e => e.ref_start)).Pairwise
      (fun r1 r2 => r1.same r2 = false))
    (hload : ∀ e ∈ item.executions, (get_transaction env e.ref_start).is_valid = true) :
    ∃ Y, List.Forall₂ (cancelled_with env code) item.executions Y ∧
      (on_execution_completed_impl env s
          (item.executions.map (fun e => error_data e.ref_start code message))).log
        = s.log ++ [.start_consensus (Y.map (fun e => e.ref_start))
                      (Y.flatMap (fun e => e.result)),
                    .smart_executed (Y.flatMap (fun e => e.result))] ∧
      (on_execution_completed_impl env s
          (item.executions.map (fun e => error_data e.ref_start code message))).exe_queue
        = if env.start_consensus
              { item with status := .Finished, seq_finish := env.getLastSequence,
                          executions := Y }
              (Y.flatMap (fun e => e.result)) = true
          then s.exe_queue.set i
              { item with status := .Finished, seq_finish := env.getLastSequence,
                          executions := Y }
          else s.exe_queue.eraseIdx i := by
  have hst : ¬ (decide (item.status = .Finished) || decide (item.status = .Closed)) = true := by
    simp [hF, hC]
  have hhead : (item.executions.map (fun e => error_data e.ref_start code message)).head?
      = some (error_data e0.ref_start code message) := by
    rw [hexe]; rfl
  have hfront : (error_data e0.ref_start code message).contract_ref = e0.ref_start := rfl
  obtain ⟨Y, hY, hs, hr, hp⟩ := completion_fold_errors env i
    { item with status := .Finished, seq_finish := env.getLastSequence } code message hmsg
    item.executions []
    { s := set_item s i { item with status := .Finished, seq_finish := env.getLastSequence },
      next_id := 0, integral_packet := [], returned := false }
    rfl (set_item_get _ _ _ _ hg) (fun x hx => by cases hx) hpair hload
  simp only [set_item_set_item, List.nil_append] at hs hp
  refine ⟨Y, hY, ?_⟩
  unfold on_execution_completed_impl
  rw [hhead]
  simp only [hfront, hfind, hg, if_neg hst]
  rw [update_status_at_finished env s i item _ hg]
  generalize (item.executions.map (fun e => error_data e.ref_start code message)).foldl
    (completion_step env i)
    { s := set_item s i { item with status := .Finished, seq_finish := env.getLastSequence },
      next_id := 0, integral_packet := [], returned := false } = l at hs hr hp
  have hget := set_item_get s i
    { executions := Y, status := .Finished, seq_enqueue := item.seq_enqueue,
      seq_start := item.seq_start, seq_finish := env.getLastSequence,
      abs_addr := item.abs_addr, is_executor := item.is_executor,
      is_rejected := item.is_rejected } item hg
  rw [← hs] at hget
  rw [if_neg (by rw [hr]; decide), hget]
  simp only [hex, Bool.not_true, Bool.false_eq_true, if_false, hp]
  by_cases hsc : env.start_consensus
      { executions := Y, status := .Finished, seq_enqueue := item.seq_enqueue,
        seq_start := item.seq_start, seq_finish := env.getLastSequence,
        abs_addr := item.abs_addr, is_executor := true,
        is_rejected := item.is_rejected } (Y.flatMap (fun e => e.result)) = true
  · simp only [hsc, Bool.not_true, Bool.false_eq_true, if_false, if_true]
    constructor
    · simp only [SmartContracts.emit, hs, set_item, List.append_assoc, List.singleton_append]
    · simp only [SmartContracts.emit, hs, set_item, hex]
  · have hsc2 : env.start_consensus
        { executions := Y, status := .Finished, seq_enqueue := item.seq_enqueue,
          seq_start := item.seq_start, seq_finish := env.getLastSequence,
          abs_addr := item.abs_addr, is_executor := true,
          is_rejected := item.is_rejected } (Y.flatMap (fun e => e.result)) = false := by
      simpa using hsc
    simp only [hsc2, Bool.not_false, if_true, Bool.false_eq_true, if_false]
    constructor
    · simp only [SmartContracts.emit, remove_from_queue_at_log, hs, set_item, List.append_assoc,
        List.singleton_append]
    · show (remove_from_queue_at env _ i).exe_queue = _
      rw [remove_from_queue_at_exe_queue]
      simp only [SmartContracts.emit, hs, set_item, eraseIdx_set_self]

end cs
namespace cs

open csdb

/-! ### Where the items before the position of the pass come from -/

theorem set_take_origin (q : List QueueItem) (i i0 : Nat) (old y : QueueItem)
    (hg : q.get? i0 = some old) (hy : same_calls old y) :
    ∀ it' ∈ (q.set i0 y).take (i + 1), ∃ it ∈ q.take (i + 1), same_calls it it' := by
  intro it' hmem
  rw [mem_take_iff_get] at hmem
  obtain ⟨p, hp, hp2⟩ := hmem
  simp only [List.get?_eq_getElem?, List.getElem?_set] at hp2
  by_cases hpi : i0 = p
  · rw [if_pos hpi] at hp2
    split at hp2
    · cases hp2
      exact ⟨old, (mem_take_iff_get _ _ _).2 ⟨i0, by omega, hg⟩, hy⟩
    · cases hp2
  · rw [if_neg hpi] at hp2
    exact ⟨it', (mem_take_iff_get _ _ _).2 ⟨p, hp, by simpa using hp2⟩, same_calls_refl _⟩

theorem eraseIdx_take_origin (q : List QueueItem) (i i0 : Nat) :
    ∀ it' ∈ (q.eraseIdx i0).take i, ∃ it ∈ q.take (i + 1), same_calls it it' := by
  intro it' hmem
  rw [mem_take_iff_get] at hmem
  obtain ⟨p, hp, hp2⟩ := hmem
  simp only [List.get?_eq_getElem?, List.getElem?_eraseIdx] at hp2
  split at hp2
  · exact ⟨it', (mem_take_iff_get _ _ _).2 ⟨p, by omega, by simpa using hp2⟩, same_calls_refl _⟩
  · exact ⟨it', (mem_take_iff_get _ _ _).2 ⟨p + 1, by omega, by simpa using hp2⟩,
      same_calls_refl _⟩

theorem cancel_result_prefix_origin (env : Env) (seq : Sequence) (i : Nat) (x : QueueItem)
    (q q' : List QueueItem) (hx : q.get? i = some x) (hc : cancel_result env seq i x q q') :
    (q'.length = q.length ∧
        ∀ it' ∈ q'.take (i + 1), ∃ it ∈ q.take (i + 1), same_calls it it') ∨
      (q'.length + 1 = q.length ∧
        ∀ it' ∈ q'.take i, ∃ it ∈ q.take (i + 1), same_calls it it') := by
  rcases hc with rfl | rfl | ⟨i0, old, X, hle, hg, _, _, hX, rfl | rfl⟩
  · exact Or.inl ⟨rfl, fun it' h => ⟨it', h, same_calls_refl _⟩⟩
  · exact Or.inl ⟨List.length_set _ _ _,
      set_take_origin q i i x _ hx ⟨rfl, rfl, rfl, rfl⟩⟩
  · exact Or.inl ⟨List.length_set _ _ _,
      set_take_origin q i i0 old _ hg ⟨rfl, rfl, rfl, hX⟩⟩
  · exact Or.inr ⟨erase_length _ _ (get_lt_length _ _ _ hg), eraseIdx_take_origin q i i0⟩

theorem turn_result_prefix_origin (env : Env) (block : Pool) (i : Nat) (item : QueueItem)
    (q q' : List QueueItem) (h : q.get? i = some item)
    (ht : turn_result env block i item q q') :
    (q'.length = q.length ∧
        ∀ it' ∈ q'.take (i + 1), ∃ it ∈ q.take (i + 1), same_calls it it') ∨
      (q'.length + 1 = q.length ∧
        ∀ it' ∈ q'.take i, ∃ it ∈ q.take (i + 1), same_calls it it') := by
  rcases ht with rfl | ⟨_, _, rfl⟩ | ⟨_, _, x, hx, hq⟩
  · exact Or.inl ⟨rfl, fun it' h => ⟨it', h, same_calls_refl _⟩⟩
  · exact Or.inl ⟨List.length_set _ _ _,
      set_take_origin q i i item _ h ⟨rfl, rfl, rfl, rfl⟩⟩
  · have hxc : same_calls item x := by
      rcases hx with rfl | rfl
      · exact same_calls_refl _
      · exact ⟨rfl, rfl, rfl, charge_round_fee_refs _ _⟩
    have h1 := set_take_origin q i i item x h hxc
    rcases hq with rfl | hc
    · exact Or.inl ⟨List.length_set _ _ _, h1⟩
    · have hgx : (q.set i x).get? i = some x := by
        have hi := get_lt_length _ _ _ h
        simp [hi]
      rcases cancel_result_prefix_origin env block.sequence i x _ q' hgx hc with
        ⟨hl, ho⟩ | ⟨hl, ho⟩
      · refine Or.inl ⟨by rw [hl, List.length_set], ?_⟩
        intro it' hmem
        obtain ⟨it1, hit1, hc1⟩ := ho it' hmem
        obtain ⟨it0, hit0, hc0⟩ := h1 it1 hit1
        exact ⟨it0, hit0, same_calls_trans _ _ _ hc0 hc1⟩
      · refine Or.inr ⟨by rw [hl, List.length_set], ?_⟩
        intro it' hmem
        obtain ⟨it1, hit1, hc1⟩ := ho it' hmem
        obtain ⟨it0, hit0, hc0⟩ := h1 it1 hit1
        exact ⟨it0, hit0, same_calls_trans _ _ _ hc0 hc1⟩

theorem mem_take_mono {α : Type} (l : List α) (a b : Nat) (c : α) (hab : a ≤ b)
    (h : c ∈ l.take a) : c ∈ l.take b := by
  rw [mem_take_iff_get] at h ⊢
  obtain ⟨p, hp, hp2⟩ := h
  exact ⟨p, by omega, hp2⟩

theorem find_in_queue_eq (s : SmartContracts) (i : Nat) (it : QueueItem) (r : SmartContractRef)
    (hg : s.exe_queue.get? i = some it)
    (hold : it.executions.any (fun e => e.ref_start.same r) = true)
    (hbefore : ∀ it' ∈ s.exe_queue.take i,
      it'.executions.any (fun e => e.ref_start.same r) = false) :
    find_in_queue s r = i := by
  unfold find_in_queue
  have hi := get_lt_length _ _ _ hg
  have hsplit : s.exe_queue = s.exe_queue.take i ++ it :: s.exe_queue.drop (i + 1) := by
    have h1 := (List.take_append_drop i s.exe_queue).symm
    have h2 : s.exe_queue.drop i = it :: s.exe_queue.drop (i + 1) := by
      rw [List.drop_eq_getElem_cons hi]
      simp only [List.get?_eq_getElem?, List.getElem?_eq_getElem hi, Option.some.injEq] at hg
      rw [hg]
    rw [h2] at h1
    exact h1
  have hlen : (s.exe_queue.take i).length = i := by
    rw [List.length_take]; omega
  rw [hsplit, findIdx_append_first _ _ _ _ hbefore hold, hlen]

theorem holds_ref_of_same_calls (it it' : QueueItem) (r : SmartContractRef)
    (h : same_calls it it') :
    it'.executions.any (fun e => e.ref_start.same r)
      = it.executions.any (fun e => e.ref_start.same r) := by
  have e : ∀ l : List ExecutionItem, l.any (fun e => e.ref_start.same r)
      = (l.map (fun e => e.ref_start)).any (fun x => x.same r) := by
    intro l
    induction l with
    | nil => rfl
    | cons a l ih => simp only [List.any_cons, List.map_cons, ih]
  rw [e, e, h.2.2.2]

end cs
namespace cs

open csdb

/-- The turn of the pass on a Running item past the soft limit and not past the hard one. -/
theorem test_exe_conditions_step_soft (env : Env) (block : Pool) (s : SmartContracts) (i : Nat)
    (item : QueueItem)
    (hrun : item.status = .Running)
    (hsoft : block.sequence - item.seq_start > env.MaxRoundsExecuteContract)
    (hnothard : block.sequence - item.seq_start ≤ env.MaxRoundsCancelContract) :
    test_exe_conditions_step env block s i item
      = cancel_item env s i item block.sequence error_TimeExpired
          "contract execution timeout" := by
  unfold test_exe_conditions_step
  simp only [hard_timeout_iff]
  have h1 : ¬ (item.status ≠ .Running ∧ item.status ≠ .Finished) := fun h => h.1 hrun
  rw [if_neg h1, if_neg (by omega), if_pos hrun, if_pos hsoft]

end cs

namespace cs

open csdb

end cs

namespace cs

open csdb

theorem get_executed_method_name_exe_queue (env : Env) (s : SmartContracts)
    (ref : SmartContractRef) :
    (get_executed_method_name env s ref).2.exe_queue = s.exe_queue := by
  unfold get_executed_method_name
  simp only
  split_ifs
  · rfl
  · split
    · exact get_smart_contract_impl_exe_queue env s _
    · split_ifs <;> exact get_smart_contract_impl_exe_queue env s _
  · exact is_payable_target_exe_queue env s _
  · exact is_payable_target_exe_queue env s _

theorem add_uses_from_exe_queue (env : Env) :
    ∀ (fuel : Nat) (s : SmartContracts) (a : Address) (m : String) (uses : List Address),
      (add_uses_from env fuel s a m uses).2.exe_queue = s.exe_queue := by
  intro fuel
  induction fuel with
  | zero => intro s a m uses; rfl
  | succ n ih =>
    intro s a m uses
    unfold add_uses_from
    split
    · rfl
    · rename_i st hst
      simp only
      have hfold : ∀ (l : List (Address × String)) (acc : List Address × SmartContracts),
          (l.foldl (fun (acc : List Address × SmartContracts) sub =>
            if acc.1.contains sub.1 then acc
            else add_uses_from env n acc.2 sub.1 sub.2 (acc.1 ++ [sub.1])) acc).2.exe_queue
            = acc.2.exe_queue := by
        intro l
        induction l with
        | nil => intro acc; rfl
        | cons x l ihl =>
          intro acc
          rw [List.foldl_cons, ihl]
          split_ifs
          · rfl
          · exact ih _ _ _ _
      rw [hfold]
      simp only
      split_ifs
      · split
        · split_ifs
          · simp only [set_contract_exe_queue, update_metadata_exe_queue,
              get_smart_contract_impl_exe_queue]
          · simp only [set_contract_exe_queue, update_metadata_exe_queue,
              get_smart_contract_impl_exe_queue]
        · exact get_smart_contract_impl_exe_queue env s _
      · rfl
      · rfl

theorem enqueue_metadata_exe_queue (env : Env) (s : SmartContracts) (r : SmartContractRef)
    (t : Transaction) (a : Address) :
    (enqueue_metadata env s r t a).exe_queue = s.exe_queue := by
  unfold enqueue_metadata
  split_ifs
  · simp only
    split
    · simp only [set_contract_exe_queue, update_metadata_exe_queue,
        get_smart_contract_impl_exe_queue]
    · exact get_smart_contract_impl_exe_queue env s _
  · rw [is_payable_exe_queue]
    simp only
    split
    · simp only [set_contract_exe_queue, update_metadata_exe_queue,
        get_smart_contract_impl_exe_queue]
    · exact get_smart_contract_impl_exe_queue env s _
  · rw [is_payable_exe_queue]


theorem findIdx_none {α : Type} (p : α → Bool) (l : List α) (h : ∀ x ∈ l, p x = false) :
    l.findIdx p = l.length := by
  induction l with
  | nil => rfl
  | cons a l ih =>
    have ha : p a = false := h a (List.mem_cons_self _ _)
    rw [List.findIdx_cons, ha]
    simp only [cond_false, List.length_cons]
    rw [ih (fun x hx => h x (List.mem_cons_of_mem _ hx))]

/-- The end of `enqueue`: the item written at `pos` is marked waiting for the sequence of
the block and gets the executor flag. -/
theorem enqueue_finish_shape (env : Env) (block : Pool) (seq : Sequence) (s2 : SmartContracts)
    (pos : Nat) (it0 it1 : QueueItem) (hget : s2.exe_queue.get? pos = some it0) :
    (match (set_item s2 pos it1).exe_queue.get? pos with
      | none => set_item s2 pos it1
      | some it' =>
        let u := update_status env (set_item s2 pos it1) it' seq .Waiting
        set_item u.2 pos { u.1 with is_executor := contains_me u.2 block.confidants }).exe_queue
      = s2.exe_queue.set pos
          { it1 with status := .Waiting, seq_enqueue := seq,
                     is_executor := contains_me (set_item s2 pos it1) block.confidants } := by
  rw [set_item_get s2 pos it1 it0 hget]
  simp only [update_status, set_item, List.set_set]

/-- The second part of `enqueue`, once the call is placed at `pos` and found in its item,
when no address of the expanded uses is unknown: the execution gets the expanded uses, the
fee reserved for the additional new-states and the fee of the first round, and the item is
left waiting. -/
theorem enqueue_tail_shape (env : Env) (block : Pool) (new_item : SmartContractRef)
    (abs_addr : Address) (s1 : SmartContracts) (pos : Nat) (it : QueueItem)
    (execution : ExecutionItem)
    (hget : s1.exe_queue.get? pos = some it)
    (hj : it.executions.get? (find_in_queue_item it new_item) = some execution)
    (hk : (add_uses_from env (uses_fuel env (get_executed_method_name env s1 new_item).2)
        (get_executed_method_name env s1 new_item).2 abs_addr
        (get_executed_method_name env s1 new_item).1 execution.uses).1.all
        (fun u => in_known_contracts env
          (add_uses_from env (uses_fuel env (get_executed_method_name env s1 new_item).2)
            (get_executed_method_name env s1 new_item).2 abs_addr
            (get_executed_method_name env s1 new_item).1 execution.uses).2 u) = true) :
    ∃ (uses : List Address) (k : Nat) (b : Bool),
      (match s1.exe_queue.get? pos with
        | none => s1
        | some it =>
          let finish (s' : SmartContracts) : SmartContracts :=
            match s'.exe_queue.get? pos with
            | none => s'
            | some it' =>
              let u := update_status env s' it' new_item.sequence .Waiting
              set_item u.2 pos { u.1 with is_executor := contains_me u.2 block.confidants }
          let j := find_in_queue_item it new_item
          match it.executions.get? j with
          | none => finish s1
          | some execution =>
            let m := get_executed_method_name env s1 new_item
            let cnt_0 := execution.uses.length
            let au := add_uses_from env (uses_fuel env m.2) m.2 abs_addr m.1 execution.uses
            let cnt := au.1.length
            let write (e : ExecutionItem) : SmartContracts :=
              set_item au.2 pos { it with executions := it.executions.set j e }
            if au.1.any (fun u => !in_known_contracts env au.2 u) then
              remove_from_queue env (write { execution with uses := au.1 }) new_item
            else
              finish (write
                { execution with
                  uses := au.1,
                  avail_fee := execution.avail_fee - execution.new_state_fee * ((cnt - cnt_0 : Nat) : Int),
                  consumed_fee := execution.consumed_fee + smart_round_fee block })).exe_queue
        = s1.exe_queue.set pos
            { it with
              executions := it.executions.set (find_in_queue_item it new_item)
                { execution with
                  uses := uses,
                  avail_fee := execution.avail_fee - execution.new_state_fee * (k : Int),
                  consumed_fee := execution.consumed_fee + smart_round_fee block },
              status := .Waiting, seq_enqueue := new_item.sequence, is_executor := b } := by
  have hany : (add_uses_from env (uses_fuel env (get_executed_method_name env s1 new_item).2)
        (get_executed_method_name env s1 new_item).2 abs_addr
        (get_executed_method_name env s1 new_item).1 execution.uses).1.any
        (fun u => !in_known_contracts env
          (add_uses_from env (uses_fuel env (get_executed_method_name env s1 new_item).2)
            (get_executed_method_name env s1 new_item).2 abs_addr
            (get_executed_method_name env s1 new_item).1 execution.uses).2 u) = false := by
    rw [List.any_eq_false]
    intro x hx
    rw [List.all_eq_true] at hk
    simp [hk x hx]
  have hq : (add_uses_from env (uses_fuel env (get_executed_method_name env s1 new_item).2)
        (get_executed_method_name env s1 new_item).2 abs_addr
        (get_executed_method_name env s1 new_item).1 execution.uses).2.exe_queue
        = s1.exe_queue := by
    rw [add_uses_from_exe_queue, get_executed_method_name_exe_queue]
  simp only [hget, hj]
  generalize add_uses_from env (uses_fuel env (get_executed_method_name env s1 new_item).2)
        (get_executed_method_name env s1 new_item).2 abs_addr
        (get_executed_method_name env s1 new_item).1 execution.uses = au at hk hany hq ⊢
  rw [if_neg (by rw [hany]; exact Bool.false_ne_true)]
  have hget2 : au.2.exe_queue.get? pos = some it := by rw [hq]; exact hget
  refine ⟨au.1, au.1.length - execution.uses.length, contains_me au.2 block.confidants, ?_⟩
  rw [← hq]
  exact enqueue_finish_shape env block new_item.sequence au.2 pos it _ hget2


theorem add_executions (env : Env) (item : QueueItem) (r : SmartContractRef) (t : Transaction) :
    ∃ e0, (QueueItem.add env item r t) = { item with executions := item.executions ++ [e0] }
      ∧ e0.ref_start = r ∧ e0.consumed_fee = 0 :=
  ⟨_, rfl, rfl, rfl⟩

theorem enqueue_new (env : Env) (s : SmartContracts) (block : Pool) (idx : Nat)
    (hidx : idx < block.transactions.length)
    (hfresh : ¬ find_in_queue s (ref_of block idx) < s.exe_queue.length)
    (hnone : ∀ it ∈ s.exe_queue,
      ¬ (it.seq_enqueue = block.sequence ∧ it.abs_addr = called_contract env block idx))
    (hknown : uses_known env s block idx = true) :
    ∃ (e0 : ExecutionItem) (uses : List Address) (k : Nat) (b : Bool),
      (QueueItem.create env (ref_of block idx) (called_contract env block idx)
        (block.transactions.getD idx Transaction.invalid)).executions = [e0]
      ∧ e0.ref_start = ref_of block idx
      ∧ (enqueue env s block idx).exe_queue = s.exe_queue ++
        [{ executions :=
             [{ e0 with uses := uses,
                        avail_fee := e0.avail_fee - e0.new_state_fee * (k : Int),
                        consumed_fee := e0.consumed_fee + smart_round_fee block }],
           status := .Waiting, seq_enqueue := block.sequence, seq_start := 0, seq_finish := 0,
           abs_addr := called_contract env block idx, is_executor := b,
           is_rejected := false }] := by
  have hpos : s.exe_queue.findIdx (fun it => it.seq_enqueue == block.sequence
      && decide (it.abs_addr = called_contract env block idx)) = s.exe_queue.length := by
    apply findIdx_none
    intro x hx
    have := hnone x hx
    by_contra hc
    simp only [Bool.not_eq_false, Bool.and_eq_true, beq_iff_eq, decide_eq_true_eq] at hc
    exact this hc
  have hget : s.exe_queue.get? (s.exe_queue.findIdx (fun it => it.seq_enqueue == block.sequence
      && decide (it.abs_addr = called_contract env block idx))) = none := by
    rw [hpos]; exact List.get?_eq_none.2 (le_refl _)
  obtain ⟨e0, he0, hr0, -⟩ := add_executions env
    { executions := [], status := .Waiting, seq_enqueue := 0, seq_start := 0, seq_finish := 0,
      abs_addr := called_contract env block idx, is_executor := false, is_rejected := false }
    (ref_of block idx) (block.transactions.getD idx Transaction.invalid)
  have hcreate : QueueItem.create env (ref_of block idx) (called_contract env block idx)
      (block.transactions.getD idx Transaction.invalid)
      = { executions := [e0], status := .Waiting, seq_enqueue := 0, seq_start := 0,
          seq_finish := 0, abs_addr := called_contract env block idx, is_executor := false,
          is_rejected := false } := he0
  have hfind : find_in_queue_item
      (QueueItem.create env (ref_of block idx) (called_contract env block idx)
        (block.transactions.getD idx Transaction.invalid)) (ref_of block idx) = 0 := by
    rw [hcreate]
    unfold find_in_queue_item
    simp only [List.findIdx_cons, hr0, same_refl, cond_true]
  have hframe : (print_executed_method env (enqueue_metadata env s (ref_of block idx)
      (block.transactions.getD idx Transaction.invalid) (called_contract env block idx))
      (ref_of block idx)).exe_queue = s.exe_queue := by
    rw [print_executed_method_exe_queue, enqueue_metadata_exe_queue]
  unfold uses_known enqueue_uses enqueue_place at hknown
  unfold enqueue
  rw [if_neg (Nat.not_le.2 hidx)]
  unfold called_contract ref_of at *
  simp only [hget] at hknown
  simp only
  rw [if_neg hfresh]
  simp only [hget]
  generalize hS : print_executed_method env (enqueue_metadata env s _ _ _) _ = S
    at hknown hframe ⊢
  have hg1 : ({ S with exe_queue := S.exe_queue ++ [QueueItem.create env
        { hash := block.hash, sequence := block.sequence, transaction := idx }
        (env.absolute_address (block.transactions.getD idx Transaction.invalid).target)
        (block.transactions.getD idx Transaction.invalid)] } : SmartContracts).exe_queue.get?
      (s.exe_queue.findIdx (fun it => it.seq_enqueue == block.sequence
        && decide (it.abs_addr
          = env.absolute_address (block.transactions.getD idx Transaction.invalid).target)))
      = some (QueueItem.create env
        { hash := block.hash, sequence := block.sequence, transaction := idx }
        (env.absolute_address (block.transactions.getD idx Transaction.invalid).target)
        (block.transactions.getD idx Transaction.invalid)) := by
    rw [hpos]
    show (S.exe_queue ++ [_]).get? _ = _
    rw [hframe]
    exact get_append_first _ _ _
  have hj : (QueueItem.create env
        { hash := block.hash, sequence := block.sequence, transaction := idx }
        (env.absolute_address (block.transactions.getD idx Transaction.invalid).target)
        (block.transactions.getD idx Transaction.invalid)).executions.get?
      (find_in_queue_item (QueueItem.create env
        { hash := block.hash, sequence := block.sequence, transaction := idx }
        (env.absolute_address (block.transactions.getD idx Transaction.invalid).target)
        (block.transactions.getD idx Transaction.invalid))
        { hash := block.hash, sequence := block.sequence, transaction := idx }) = some e0 := by
    rw [hfind, hcreate]; rfl
  have hg1k := hg1
  simp only at hg1k
  simp only [hg1k, hj] at hknown
  obtain ⟨uses, k, b, h⟩ := enqueue_tail_shape env block
    { hash := block.hash, sequence := block.sequence, transaction := idx }
    (env.absolute_address (block.transactions.getD idx Transaction.invalid).target)
    _ _ _ e0 hg1 hj hknown
  refine ⟨e0, uses, k, b, by rw [hcreate], hr0, ?_⟩
  refine Eq.trans h ?_
  show (S.exe_queue ++ [_]).set _ _ = _
  rw [hpos, hframe, hfind, hcreate]
  exact set_append_first _ _ _ _

theorem fresh_in_item (s : SmartContracts) (r : SmartContractRef) (pos : Nat) (old : QueueItem)
    (hfresh : ¬ find_in_queue s r < s.exe_queue.length)
    (hget : s.exe_queue.get? pos = some old) :
    ∀ e ∈ old.executions, e.ref_start.same r = false := by
  intro e he
  by_contra hc
  have hc' : e.ref_start.same r = true := by simpa using hc
  apply hfresh
  unfold find_in_queue
  rw [List.findIdx_lt_length]
  refine ⟨old, mem_of_get _ _ _ hget, ?_⟩
  rw [List.any_eq_true]
  exact ⟨e, he, hc'⟩

theorem enqueue_add (env : Env) (s : SmartContracts) (block : Pool) (idx : Nat)
    (old : QueueItem)
    (hidx : idx < block.transactions.length)
    (hfresh : ¬ find_in_queue s (ref_of block idx) < s.exe_queue.length)
    (hget : s.exe_queue.get? (s.exe_queue.findIdx (fun it => it.seq_enqueue == block.sequence
      && decide (it.abs_addr = called_contract env block idx))) = some old)
    (hknown : uses_known env s block idx = true) :
    ∃ (e0 : ExecutionItem) (uses : List Address) (k : Nat) (b : Bool),
      QueueItem.add env old (ref_of block idx) (block.transactions.getD idx Transaction.invalid)
        = { old with executions := old.executions ++ [e0] }
      ∧ e0.ref_start = ref_of block idx ∧ e0.consumed_fee = 0
      ∧ (enqueue env s block idx).exe_queue = s.exe_queue.set
        (s.exe_queue.findIdx (fun it => it.seq_enqueue == block.sequence
          && decide (it.abs_addr = called_contract env block idx)))
        { old with
          executions := old.executions ++
             [{ e0 with uses := uses,
                        avail_fee := e0.avail_fee - e0.new_state_fee * (k : Int),
                        consumed_fee := e0.consumed_fee + smart_round_fee block }],
          status := .Waiting, seq_enqueue := block.sequence, is_executor := b } := by
  obtain ⟨e0, he0, hr0, hc0⟩ := add_executions env old
    (ref_of block idx) (block.transactions.getD idx Transaction.invalid)
  have hold := fresh_in_item s (ref_of block idx) _ old hfresh hget
  have hfind : find_in_queue_item
      (QueueItem.add env old (ref_of block idx)
        (block.transactions.getD idx Transaction.invalid)) (ref_of block idx)
      = old.executions.length := by
    rw [he0]
    unfold find_in_queue_item
    exact findIdx_append_first _ _ [] e0 hold (by rw [hr0]; exact same_refl _)
  unfold uses_known enqueue_uses enqueue_place at hknown
  unfold enqueue
  rw [if_neg (Nat.not_le.2 hidx)]
  unfold called_contract ref_of at *
  simp only [hget] at hknown
  simp only
  rw [if_neg hfresh]
  simp only [hget]
  have hg1 : (set_item s (s.exe_queue.findIdx (fun it => it.seq_enqueue == block.sequence
        && decide (it.abs_addr
          = env.absolute_address (block.transactions.getD idx Transaction.invalid).target)))
        (QueueItem.add env old
          { hash := block.hash, sequence := block.sequence, transaction := idx }
          (block.transactions.getD idx Transaction.invalid))).exe_queue.get?
      (s.exe_queue.findIdx (fun it => it.seq_enqueue == block.sequence
        && decide (it.abs_addr
          = env.absolute_address (block.transactions.getD idx Transaction.invalid).target)))
      = some (QueueItem.add env old
        { hash := block.hash, sequence := block.sequence, transaction := idx }
        (block.transactions.getD idx Transaction.invalid)) :=
    set_item_get s _ _ old hget
  have hj : (QueueItem.add env old
        { hash := block.hash, sequence := block.sequence, transaction := idx }
        (block.transactions.getD idx Transaction.invalid)).executions.get?
      (find_in_queue_item (QueueItem.add env old
        { hash := block.hash, sequence := block.sequence, transaction := idx }
        (block.transactions.getD idx Transaction.invalid))
        { hash := block.hash, sequence := block.sequence, transaction := idx }) = some e0 := by
    rw [hfind, he0]
    exact get_append_first _ [] _
  simp only [hg1, hj] at hknown
  obtain ⟨uses, k, b, h⟩ := enqueue_tail_shape env block
    { hash := block.hash, sequence := block.sequence, transaction := idx }
    (env.absolute_address (block.transactions.getD idx Transaction.invalid).target)
    _ _ _ e0 hg1 hj hknown
  refine ⟨e0, uses, k, b, he0, hr0, hc0, ?_⟩
  refine Eq.trans h ?_
  rw [hfind, he0]
  simp only [set_item, List.set_set]
  rw [set_append_first]

end cs

namespace cs
open csdb

theorem rejected_item_eq (env : Env) (s : SmartContracts) (cur : Sequence) (it : QueueItem)
    (reject : List ExecutionItem) :
    (rejected_item env s cur it reject).1
      = { it with executions := reject.map (fun e => (reject_result env it.abs_addr e).1),
                  status := .Finished, seq_finish := cur, is_rejected := true } := by
  simp only [rejected_item, QueueItem.fork, update_status, List.map_map]
  rfl

theorem restart_item_eq (env : Env) (s : SmartContracts) (cur : Sequence) (it : QueueItem)
    (restart : List ExecutionItem) :
    restart_item env s cur it restart
      = { it with executions := restart, status := .Waiting, seq_enqueue := cur } := rfl

/-- The body of the loop of `on_reject` for one item, seen from the queue. -/
theorem on_reject_item_shape (env : Env) (cur seq : Sequence) (idxs : List Nat)
    (s : SmartContracts) (new : List QueueItem) (i : Nat) (it : QueueItem) :
    ((on_reject_item env cur seq idxs s new i it).1.exe_queue = s.exe_queue ∧
      (on_reject_item env cur seq idxs s new i it).2 = new ∧
      (it.seq_enqueue = seq → split_rejected idxs it = none)) ∨
    (it.seq_enqueue = seq ∧ ∃ stay reject restart,
      split_rejected idxs it = some (stay, reject, restart) ∧
      (on_reject_item env cur seq idxs s new i it).1.exe_queue
        = s.exe_queue.set i { it with executions := stay } ∧
      (on_reject_item env cur seq idxs s new i it).2
        = new ++
          (if reject.isEmpty then []
            else [{ it with executions := reject.map (fun e => (reject_result env it.abs_addr e).1),
                            status := .Finished, seq_finish := cur, is_rejected := true }]) ++
          (if restart.isEmpty then []
            else [{ it with executions := restart, status := .Waiting, seq_enqueue := cur }])) := by
  unfold on_reject_item
  by_cases hs : it.seq_enqueue = seq
  · rw [if_pos hs]
    cases hsp : split_rejected idxs it with
    | none => exact Or.inl ⟨rfl, rfl, fun _ => rfl⟩
    | some v =>
      obtain ⟨stay, reject, restart⟩ := v
      refine Or.inr ⟨hs, stay, reject, restart, rfl, ?_, ?_⟩
      · simp only
        by_cases h1 : reject.isEmpty = true <;> by_cases h2 : restart.isEmpty = true <;>
          simp [h1, h2, set_item, SmartContracts.emit]
      · simp only [rejected_item_eq, restart_item_eq]
        by_cases h1 : reject.isEmpty = true <;> by_cases h2 : restart.isEmpty = true <;>
          simp [h1, h2]
  · rw [if_neg hs]
    exact Or.inl ⟨rfl, rfl, fun h => absurd h hs⟩

end cs

namespace cs
open csdb

/-- What `split_rejected` returns when it splits: the item is not marked `is_rejected`, the
first rejected call stands at `k`, the executions before it stay, those from `k` on go to
`reject` (the rejected ones, `k` among them) and to `restart`. -/
theorem split_rejected_some (idxs : List Nat) (it : QueueItem)
    (stay reject restart : List ExecutionItem)
    (h : split_rejected idxs it = some (stay, reject, restart)) :
    it.is_rejected = false ∧
    it.executions.findIdx (is_rejected_call idxs) < it.executions.length ∧
    stay = it.executions.take (it.executions.findIdx (is_rejected_call idxs)) ∧
    reject = (it.executions.drop (it.executions.findIdx (is_rejected_call idxs))).filter
      (is_rejected_call idxs) ∧
    restart = ((it.executions.drop (it.executions.findIdx (is_rejected_call idxs))).filter
      (fun e => !is_rejected_call idxs e)).map (fun e => { e with result := [] }) := by
  unfold split_rejected at h
  simp only at h
  split_ifs at h with h1 h2
  · have h' := Option.some.inj h
    simp only [Prod.mk.injEq] at h'
    obtain ⟨e1, e2, e3⟩ := h'
    refine ⟨by simpa using h2, h1, e1.symm, e2.symm, e3.symm⟩

theorem split_rejected_reject_ne (idxs : List Nat) (it : QueueItem)
    (stay reject restart : List ExecutionItem)
    (h : split_rejected idxs it = some (stay, reject, restart)) : reject ≠ [] := by
  obtain ⟨-, hk, -, hr, -⟩ := split_rejected_some idxs it stay reject restart h
  have hp : is_rejected_call idxs (it.executions.get ⟨_, hk⟩) = true :=
    List.findIdx_getElem (w := hk)
  intro e
  rw [e] at hr
  have hmem : it.executions.get ⟨_, hk⟩
      ∈ (it.executions.drop (it.executions.findIdx (is_rejected_call idxs))).filter
        (is_rejected_call idxs) := by
    rw [List.mem_filter]
    refine ⟨?_, hp⟩
    rw [List.mem_drop_iff_getElem]
    exact ⟨0, by simpa using hk, by simp⟩
  rw [← hr] at hmem
  cases hmem

theorem split_rejected_stay_ne (seq : Sequence) (idxs : List Nat) (a : QueueItem)
    (stay reject restart : List ExecutionItem)
    (hk : reject_kept seq idxs a) (hs : a.seq_enqueue = seq)
    (h : split_rejected idxs a = some (stay, reject, restart)) : stay ≠ [] := by
  obtain ⟨hnr, hlt, hst, -, -⟩ := split_rejected_some idxs a stay reject restart h
  have hhead := hk.2 hs hnr
  cases hex : a.executions with
  | nil => exact absurd hex hk.1
  | cons e rest =>
    rw [hex] at hst hhead
    have he : is_rejected_call idxs e = false := hhead e rfl
    rw [List.findIdx_cons, he] at hst
    simp only [cond_false] at hst
    rw [hst]
    simp

/-- The result of a rejected execution in the new rejected item. -/
theorem reject_result_as (env : Env) (abs_addr : Address) (e : ExecutionItem) :
    rejected_as env abs_addr e (reject_result env abs_addr e).1 := by
  unfold reject_result
  cases hf : e.result.find?
      (fun t => is_new_state t && decide (env.absolute_address t.target = abs_addr)) with
  | none =>
    refine ⟨rfl, rfl, rfl, rfl, rfl, ?_, fun _ => rfl⟩
    rintro ⟨t, ht, h1, h2⟩
    have := List.find?_eq_none.1 hf t ht
    simp [h1, h2] at this
  | some t =>
    have hp := List.find?_some hf
    have hmem := List.mem_of_find?_eq_some hf
    simp only [Bool.and_eq_true, decide_eq_true_eq] at hp
    refine ⟨rfl, rfl, rfl, rfl, rfl, fun _ => ⟨_, rfl, ?_, ?_⟩, ?_⟩
    · have hns := hp.1
      unfold is_new_state at hns ⊢
      simp only [Bool.and_eq_true] at hns ⊢
      unfold set_return_value
      refine ⟨?_, ?_⟩
      · rw [user_field_add_ne _ _ _ _ (by decide), user_field_add_same]
        rfl
      · rw [user_field_add_ne _ _ _ _ (by decide), user_field_add_ne _ _ _ _ (by decide)]
        exact hns.2
    · exact error_result_fields env t _
    · intro hall
      exact absurd hp (hall t hmem)

/-- The executions of the new items that `on_reject` makes of a split item are executions
of the item, with the fees they had. -/
theorem split_rejected_added (env : Env) (cur : Sequence) (idxs : List Nat) (it : QueueItem)
    (stay reject restart : List ExecutionItem)
    (hsp : split_rejected idxs it = some (stay, reject, restart)) :
    ∀ a ∈
        (if reject.isEmpty then []
          else [{ it with executions := reject.map (fun e => (reject_result env it.abs_addr e).1),
                          status := .Finished, seq_finish := cur, is_rejected := true }]) ++
        (if restart.isEmpty then []
          else [{ it with executions := restart, status := .Waiting, seq_enqueue := cur }]),
      ∀ e' ∈ a.executions, ∃ e ∈ it.executions,
        e'.ref_start = e.ref_start ∧ e'.avail_fee = e.avail_fee ∧
        e'.consumed_fee = e.consumed_fee := by
  obtain ⟨-, -, -, hr, hs⟩ := split_rejected_some idxs it stay reject restart hsp
  intro a ha e' he'
  rcases List.mem_append.1 ha with h | h
  · split_ifs at h
    · cases h
    · rw [List.mem_singleton] at h
      rw [h] at he'
      obtain ⟨e, he, rfl⟩ := List.mem_map.1 he'
      rw [hr] at he
      have hmem := List.mem_of_mem_drop (List.mem_filter.1 he).1
      obtain ⟨h1, h2, -, h4, -⟩ := reject_result_as env it.abs_addr e
      exact ⟨e, hmem, h1, h2, h4⟩
  · split_ifs at h
    · cases h
    · rw [List.mem_singleton] at h
      rw [h] at he'
      simp only at he'
      rw [hs] at he'
      obtain ⟨e, he, rfl⟩ := List.mem_map.1 he'
      have hmem := List.mem_of_mem_drop (List.mem_filter.1 he).1
      exact ⟨e, hmem, rfl, rfl, rfl⟩

/-- Whatever holds of one iteration of the loop of `on_reject` over the queue, and is
reflexive and transitive, holds of the whole loop. -/
theorem on_reject_scan_rel (env : Env) (cur seq : Sequence) (idxs : List Nat)
    (Rel : List QueueItem → List QueueItem → List QueueItem → List QueueItem → Prop)
    (hrefl : ∀ q n, Rel q n q n)
    (htrans : ∀ q1 n1 q2 n2 q3 n3, Rel q1 n1 q2 n2 → Rel q2 n2 q3 n3 → Rel q1 n1 q3 n3)
    (hstep : ∀ q n q' n', reject_turn seq idxs q n q' n' → Rel q n q' n') :
    ∀ (fuel i : Nat) (s : SmartContracts) (new : List QueueItem),
      Rel s.exe_queue new (on_reject_scan env cur seq idxs fuel i s new).1.exe_queue
        (on_reject_scan env cur seq idxs fuel i s new).2 := by
  intro fuel
  induction fuel with
  | zero => intro i s new; exact hrefl _ _
  | succ fuel ih =>
    intro i s new
    rw [on_reject_scan]
    cases hget : s.exe_queue.get? i with
    | none => exact hrefl _ _
    | some it =>
      simp only
      have hi : i < s.exe_queue.length := get_lt_length _ _ _ hget
      have hshape := on_reject_item_shape env cur seq idxs s new i it
      generalize on_reject_item env cur seq idxs s new i it = r at hshape ⊢
      rcases hshape with ⟨hq, hn, -⟩ | ⟨hs, stay, reject, restart, hsp, hq, hn⟩
      · have hg : r.1.exe_queue.get? i = some it := by rw [hq]; exact hget
        rw [hg]
        simp only
        by_cases he : it.executions.isEmpty = true
        · rw [if_pos he]
          have hturn : reject_turn seq idxs s.exe_queue new (r.1.exe_queue.eraseIdx i) r.2 :=
            ⟨i, it, hget, Or.inl ⟨hn, Or.inr ⟨List.isEmpty_iff.1 he, by rw [hq]⟩⟩⟩
          split
          · exact hstep _ _ _ _ hturn
          · exact htrans _ _ _ _ _ _ (hstep _ _ _ _ hturn)
              (ih (i + 1) { r.1 with exe_queue := r.1.exe_queue.eraseIdx i } r.2)
        · rw [if_neg he]
          have := ih (i + 1) r.1 r.2
          rw [hq] at this
          nth_rewrite 1 [hn] at this
          exact this
      · have hg : r.1.exe_queue.get? i = some { it with executions := stay } := by
          rw [hq]; simp [hi]
        rw [hg]
        simp only
        by_cases he : stay.isEmpty = true
        · rw [if_pos he]
          have hturn : reject_turn seq idxs s.exe_queue new (r.1.exe_queue.eraseIdx i) r.2 :=
            ⟨i, it, hget, Or.inr ⟨hs, stay, reject, restart, hsp,
              ⟨_, by rw [hn, List.append_assoc], split_rejected_added env cur idxs it _ _ _ hsp⟩,
              Or.inr ⟨List.isEmpty_iff.1 he, by rw [hq, eraseIdx_set_self]⟩⟩⟩
          split
          · exact hstep _ _ _ _ hturn
          · exact htrans _ _ _ _ _ _ (hstep _ _ _ _ hturn)
              (ih (i + 1) { r.1 with exe_queue := r.1.exe_queue.eraseIdx i } r.2)
        · rw [if_neg he]
          have hturn : reject_turn seq idxs s.exe_queue new r.1.exe_queue r.2 :=
            ⟨i, it, hget, Or.inr ⟨hs, stay, reject, restart, hsp,
              ⟨_, by rw [hn, List.append_assoc], split_rejected_added env cur idxs it _ _ _ hsp⟩,
              Or.inl ⟨fun h => he (List.isEmpty_iff.2 h), hq⟩⟩⟩
          exact htrans _ _ _ _ _ _ (hstep _ _ _ _ hturn) (ih _ _ _)

end cs

namespace cs
open csdb

theorem mem_set_of_ne {α : Type} (l : List α) (i0 : Nat) (a c : α)
    (hc : c ∈ l) (hne : l.get? i0 ≠ some c) : c ∈ l.set i0 a := by
  have h := mem_take_set_of_ne l l.length i0 a c (by rw [List.take_length]; exact hc) hne
  have hl : (l.set i0 a).length = l.length := List.length_set _ _ _
  rw [← hl, List.take_length] at h
  exact h

theorem mem_eraseIdx_of_ne {α : Type} (l : List α) (i0 : Nat) (c : α)
    (hc : c ∈ l) (hne : l.get? i0 ≠ some c) : c ∈ l.eraseIdx i0 := by
  have h := mem_take_eraseIdx_of_ne l l.length i0 c (by rw [List.take_length]; exact hc) hne
  exact List.mem_of_mem_take h

/-- An item that is not split and holds executions is still in the queue after the loop of
`on_reject` for one block sequence. -/
theorem on_reject_scan_keeps_stable (env : Env) (cur seq : Sequence) (idxs : List Nat)
    (fuel i : Nat) (s : SmartContracts) (new : List QueueItem) (m : QueueItem)
    (hm : reject_stable seq idxs m) (hmem : m ∈ s.exe_queue) :
    m ∈ (on_reject_scan env cur seq idxs fuel i s new).1.exe_queue := by
  refine on_reject_scan_rel env cur seq idxs
    (fun q _ q' _ => m ∈ q → m ∈ q') (fun _ _ h => h)
    (fun _ _ _ _ _ _ h1 h2 h => h2 (h1 h)) ?_ fuel i s new hmem
  intro q n q' n' hturn hq
  obtain ⟨j, x, hget, h⟩ := hturn
  rcases h with ⟨-, h⟩ | ⟨hs, stay, reject, restart, hsp, -, h⟩
  · rcases h with ⟨-, h⟩ | ⟨he, h⟩
    · rw [h]; exact hq
    · rw [h]
      refine mem_eraseIdx_of_ne _ _ _ hq ?_
      rw [hget]
      intro e
      have e' : x = m := Option.some.inj e
      rw [e'] at he
      exact hm.1 he
  · have hne : q.get? j ≠ some m := by
      rw [hget]
      intro e
      have e' : x = m := Option.some.inj e
      rw [e'] at hs hsp
      rw [hm.2 hs] at hsp
      cases hsp
    rcases h with ⟨-, h⟩ | ⟨-, h⟩
    · rw [h]; exact mem_set_of_ne _ _ _ _ hq hne
    · rw [h]; exact mem_eraseIdx_of_ne _ _ _ hq hne

/-- The list `new_queue_items` only grows in the loop of `on_reject` over the queue. -/
theorem on_reject_scan_new_grows (env : Env) (cur seq : Sequence) (idxs : List Nat)
    (fuel i : Nat) (s : SmartContracts) (new : List QueueItem) :
    ∃ added, (on_reject_scan env cur seq idxs fuel i s new).2 = new ++ added := by
  refine on_reject_scan_rel env cur seq idxs
    (fun _ n _ n' => ∃ added, n' = n ++ added) (fun _ n => ⟨[], by simp⟩)
    (fun _ _ _ _ _ _ h1 h2 => ?_) ?_ fuel i s new
  · obtain ⟨a1, h1⟩ := h1
    obtain ⟨a2, h2⟩ := h2
    exact ⟨a1 ++ a2, by rw [h2, h1, List.append_assoc]⟩
  · intro q n q' n' hturn
    obtain ⟨j, x, -, h⟩ := hturn
    rcases h with ⟨hn, -⟩ | ⟨-, stay, reject, restart, -, ⟨added, hn, -⟩, -⟩
    · exact ⟨[], by simp [hn]⟩
    · exact ⟨added, hn⟩

/-- The loop of `on_reject` for the block sequence `seq` leaves an item `it` that it does
not split in the queue, and the items in front of it are still items that the loop for
another block sequence `seqT` does not erase. -/
theorem on_reject_scan_keeps_front (env : Env) (cur seq seqT : Sequence)
    (idxs idxsT : List Nat) (hne : seq ≠ seqT)
    (fuel i : Nat) (s : SmartContracts) (new : List QueueItem) (it : QueueItem)
    (hit : reject_stable seq idxs it) (p : Nat)
    (hget : s.exe_queue.get? p = some it)
    (hfront : ∀ a ∈ s.exe_queue.take p, reject_kept seqT idxsT a) :
    ∃ p', (on_reject_scan env cur seq idxs fuel i s new).1.exe_queue.get? p' = some it ∧
      ∀ a ∈ (on_reject_scan env cur seq idxs fuel i s new).1.exe_queue.take p',
        reject_kept seqT idxsT a := by
  refine on_reject_scan_rel env cur seq idxs
    (fun q _ q' _ => (∃ p, q.get? p = some it ∧ ∀ a ∈ q.take p, reject_kept seqT idxsT a) →
      ∃ p', q'.get? p' = some it ∧ ∀ a ∈ q'.take p', reject_kept seqT idxsT a)
    (fun _ _ h => h) (fun _ _ _ _ _ _ h1 h2 h => h2 (h1 h)) ?_ fuel i s new ⟨p, hget, hfront⟩
  intro q n q' n' hturn hq
  obtain ⟨p, hp, hfr⟩ := hq
  obtain ⟨j, x, hgetj, h⟩ := hturn
  have herase : x ≠ it → q' = q.eraseIdx j →
      ∃ p', q'.get? p' = some it ∧ ∀ a ∈ q'.take p', reject_kept seqT idxsT a := by
    intro hx hq'
    have hjp : j ≠ p := by
      intro e
      rw [e, hp] at hgetj
      exact hx (Option.some.inj hgetj).symm
    rw [hq']
    by_cases hlt : j < p
    · refine ⟨p - 1, ?_, ?_⟩
      · simp only [List.get?_eq_getElem?] at hp ⊢
        rw [List.getElem?_eraseIdx, if_neg (by omega)]
        have : p - 1 + 1 = p := by omega
        rw [this]; exact hp
      · intro a ha
        rw [mem_take_iff_get] at ha
        obtain ⟨k, hk, hk2⟩ := ha
        apply hfr
        rw [mem_take_iff_get]
        simp only [List.get?_eq_getElem?, List.getElem?_eraseIdx] at hk2
        split at hk2
        · exact ⟨k, by omega, by simpa using hk2⟩
        · exact ⟨k + 1, by omega, by simpa using hk2⟩
    · refine ⟨p, ?_, ?_⟩
      · simp only [List.get?_eq_getElem?] at hp ⊢
        rw [List.getElem?_eraseIdx, if_pos (by omega)]
        exact hp
      · intro a ha
        rw [mem_take_iff_get] at ha
        obtain ⟨k, hk, hk2⟩ := ha
        apply hfr
        rw [mem_take_iff_get]
        simp only [List.get?_eq_getElem?, List.getElem?_eraseIdx] at hk2
        rw [if_pos (by omega)] at hk2
        exact ⟨k, hk, by simpa using hk2⟩
  rcases h with ⟨-, h⟩ | ⟨hs, stay, reject, restart, hsp, -, h⟩
  · rcases h with ⟨-, h⟩ | ⟨he, h⟩
    · rw [h]; exact ⟨p, hp, hfr⟩
    · refine herase ?_ h
      intro e
      rw [e] at he
      exact hit.1 he
  · have hx : x ≠ it := by
      intro e
      rw [e] at hs hsp
      rw [hit.2 hs] at hsp
      cases hsp
    rcases h with ⟨hst, h⟩ | ⟨-, h⟩
    · have hjp : j ≠ p := by
        intro e
        rw [e, hp] at hgetj
        exact hx (Option.some.inj hgetj).symm
      rw [h]
      refine ⟨p, ?_, ?_⟩
      · simp only [List.get?_eq_getElem?] at hp ⊢
        rw [List.getElem?_set_ne hjp]
        exact hp
      · intro a ha
        rw [mem_take_iff_get] at ha
        obtain ⟨k, hk, hk2⟩ := ha
        simp only [List.get?_eq_getElem?, List.getElem?_set] at hk2
        split at hk2
        · split at hk2
          · have ea := Option.some.inj hk2
            rw [← ea]
            refine ⟨hst, fun hseq => ?_⟩
            exact absurd (hs.symm.trans hseq) hne
          · cases hk2
        · apply hfr
          rw [mem_take_iff_get]
          exact ⟨k, hk, by simpa using hk2⟩
    · exact herase hx h

end cs

namespace cs
open csdb


end cs

namespace cs
open csdb

/-- The loop of `on_reject` for the block sequence `seq` reaches the item at position `p`
when no item in front of it is erased: it then takes its turn on the item as it was. -/
theorem on_reject_scan_reach (env : Env) (cur seq : Sequence) (idxs : List Nat)
    (it : QueueItem) :
    ∀ (d fuel i : Nat) (s : SmartContracts) (new : List QueueItem),
      s.exe_queue.get? (i + d) = some it →
      (∀ j a, i ≤ j → j < i + d → s.exe_queue.get? j = some a → reject_kept seq idxs a) →
      d ≤ fuel →
      ∃ s' new', on_reject_scan env cur seq idxs fuel i s new
          = on_reject_scan env cur seq idxs (fuel - d) (i + d) s' new' ∧
        s'.exe_queue.get? (i + d) = some it := by
  intro d
  induction d with
  | zero => intro fuel i s new hget _ _; exact ⟨s, new, rfl, hget⟩
  | succ d ih =>
    intro fuel i s new hget hfront hfuel
    obtain ⟨f, rfl⟩ : ∃ f, fuel = f + 1 := ⟨fuel - 1, by omega⟩
    have hp : i + (d + 1) < s.exe_queue.length := get_lt_length _ _ _ hget
    have hi : i < s.exe_queue.length := by omega
    obtain ⟨a, ha⟩ : ∃ a, s.exe_queue.get? i = some a :=
      ⟨s.exe_queue.get ⟨i, hi⟩, List.get?_eq_get hi⟩
    have hka := hfront i a (le_refl _) (by omega) ha
    have hidx : i + 1 + d = i + (d + 1) := by omega
    have hfd : f + 1 - (d + 1) = f - d := by omega
    rw [on_reject_scan, ha]
    simp only
    have hshape := on_reject_item_shape env cur seq idxs s new i a
    generalize on_reject_item env cur seq idxs s new i a = r at hshape ⊢
    rcases hshape with ⟨hq, -, -⟩ | ⟨hs, stay, reject, restart, hsp, hq, -⟩
    · have hg : r.1.exe_queue.get? i = some a := by rw [hq]; exact ha
      rw [hg]
      simp only
      rw [if_neg (by rw [List.isEmpty_iff]; exact hka.1)]
      obtain ⟨s', new', h1, h2⟩ := ih f (i + 1) r.1 r.2
        (by rw [hq, hidx]; exact hget)
        (fun j b hj1 hj2 hb => hfront j b (by omega) (by omega) (by rw [← hq]; exact hb))
        (by omega)
      rw [hidx] at h1 h2
      rw [hfd]
      exact ⟨s', new', h1, h2⟩
    · have hst := split_rejected_stay_ne seq idxs a stay reject restart hka hs hsp
      have hg : r.1.exe_queue.get? i = some { a with executions := stay } := by
        rw [hq]; simp [hi]
      rw [hg]
      simp only
      rw [if_neg (by rw [List.isEmpty_iff]; exact hst)]
      obtain ⟨s', new', h1, h2⟩ := ih f (i + 1) r.1 r.2
        (by
          rw [hq, hidx]
          simp only [List.get?_eq_getElem?] at hget ⊢
          rw [List.getElem?_set_ne (by omega)]
          exact hget)
        (fun j b hj1 hj2 hb => hfront j b (by omega) (by omega) (by
          rw [hq] at hb
          simp only [List.get?_eq_getElem?] at hb ⊢
          rw [List.getElem?_set_ne (by omega)] at hb
          exact hb))
        (by omega)
      rw [hidx] at h1 h2
      rw [hfd]
      exact ⟨s', new', h1, h2⟩

/-- The loop of `on_reject` for the block sequence `seq` splits the item `it` at position
`p` when no item in front of it is erased: the new rejected item is in `new_queue_items`,
and the item with the executions that stay is in the queue when there are any. -/
theorem on_reject_scan_splits (env : Env) (cur seq : Sequence) (idxs : List Nat)
    (s : SmartContracts) (p : Nat) (it : QueueItem)
    (stay reject restart : List ExecutionItem)
    (hget : s.exe_queue.get? p = some it) (hseq : it.seq_enqueue = seq)
    (hsp : split_rejected idxs it = some (stay, reject, restart))
    (hfront : ∀ a ∈ s.exe_queue.take p, reject_kept seq idxs a)
    (fuel : Nat) (hfuel : p < fuel) :
    ({ it with executions := reject.map (fun e => (reject_result env it.abs_addr e).1),
               status := .Finished, seq_finish := cur, is_rejected := true } : QueueItem)
      ∈ (on_reject_scan env cur seq idxs fuel 0 s []).2 ∧
    (stay ≠ [] → ({ it with executions := stay } : QueueItem)
      ∈ (on_reject_scan env cur seq idxs fuel 0 s []).1.exe_queue) := by
  obtain ⟨s', new', h1, h2⟩ := on_reject_scan_reach env cur seq idxs it p fuel 0 s []
    (by rw [Nat.zero_add]; exact hget)
    (fun j a _ hj ha => hfront a ((mem_take_iff_get _ _ _).2 ⟨j, by omega, ha⟩))
    (by omega)
  rw [Nat.zero_add] at h1 h2
  rw [h1]
  obtain ⟨f, hf⟩ : ∃ f, fuel - p = f + 1 := ⟨fuel - p - 1, by omega⟩
  rw [hf, on_reject_scan, h2]
  simp only
  have hp : p < s'.exe_queue.length := get_lt_length _ _ _ h2
  have hshape := on_reject_item_shape env cur seq idxs s' new' p it
  generalize on_reject_item env cur seq idxs s' new' p it = r at hshape ⊢
  rcases hshape with ⟨-, -, hno⟩ | ⟨-, stay', reject', restart', hsp', hq, hn⟩
  · rw [hno hseq] at hsp
    cases hsp
  · rw [hsp] at hsp'
    have e := Option.some.inj hsp'
    simp only [Prod.mk.injEq] at e
    obtain ⟨e1, e2, e3⟩ := e
    subst e1 e2 e3
    have hrne := split_rejected_reject_ne idxs it stay reject restart hsp
    have hR : ({ it with executions := reject.map (fun e => (reject_result env it.abs_addr e).1), status := .Finished, seq_finish := cur, is_rejected := true } : QueueItem)
        ∈ r.2 := by
      rw [hn, if_neg (by rw [List.isEmpty_iff]; exact hrne)]
      simp
    have hg : r.1.exe_queue.get? p = some { it with executions := stay } := by
      rw [hq]; simp [hp]
    rw [hg]
    simp only
    by_cases he : stay.isEmpty = true
    · rw [if_pos he]
      refine ⟨?_, fun h => absurd (List.isEmpty_iff.1 he) h⟩
      split
      · exact hR
      · obtain ⟨added, ha⟩ := on_reject_scan_new_grows env cur seq idxs f (p + 1)
          { r.1 with exe_queue := r.1.exe_queue.eraseIdx p } r.2
        rw [ha]
        exact List.mem_append_left _ hR
    · rw [if_neg he]
      refine ⟨?_, fun _ => ?_⟩
      · obtain ⟨added, ha⟩ := on_reject_scan_new_grows env cur seq idxs f (p + 1) r.1 r.2
        rw [ha]
        exact List.mem_append_left _ hR
      · refine on_reject_scan_keeps_stable env cur seq idxs f (p + 1) r.1 r.2 _ ?_
          (mem_of_get _ _ _ hg)
        refine ⟨fun h => he (List.isEmpty_iff.2 h), fun _ => ?_⟩
        -- no call of the executions that stay is rejected
        obtain ⟨-, hk, hst, -, -⟩ := split_rejected_some idxs it stay reject restart hsp
        unfold split_rejected
        simp only
        rw [if_neg]
        rw [hst, not_lt]
        have hall : ∀ x ∈ it.executions.take
            (it.executions.findIdx (is_rejected_call idxs)), is_rejected_call idxs x = false := by
          intro x hx
          rw [List.mem_take_iff_getElem] at hx
          obtain ⟨j, hj, hjx⟩ := hx
          have hj' : j < it.executions.findIdx (is_rejected_call idxs) :=
            lt_of_lt_of_le hj (min_le_left _ _)
          have := List.not_of_lt_findIdx hj'
          rw [← hjx]
          simpa using this
        rw [findIdx_none _ _ hall]

end cs

namespace cs
open csdb

/-- What `test_exe_queue` does when it starts the item at position `i`, seen from the
queue: the item is replaced by an item with the same executions. -/
theorem start_item_queue (env : Env) (s : SmartContracts) (i : Nat) (it : QueueItem)
    (h : s.exe_queue.get? i = some it) :
    ∃ X : QueueItem, (start_item env s i).exe_queue = s.exe_queue.set i X
      ∧ X.executions = it.executions ∧ X.status = .Running := by
  have hq1 := update_status_at_queue env s i it env.getLastSequence .Running h
  have hi := get_lt_length _ _ _ h
  have hg1 : (update_status_at env s i env.getLastSequence .Running).exe_queue.get? i
      = some { it with status := .Running, seq_start := env.getLastSequence } := by
    rw [hq1]
    simp only [List.get?_eq_getElem?, List.getElem?_set, hi, if_true]
    rfl
  have hq1' : (update_status_at env s i env.getLastSequence .Running).exe_queue
      = s.exe_queue.set i { it with status := .Running, seq_start := env.getLastSequence } := by
    rw [hq1]; rfl
  unfold start_item
  simp only [hg1]
  split
  · split
    · unfold skip_execution
      simp only
      split
      · split
        · refine ⟨{ it with status := .Running, seq_start := env.getLastSequence, is_executor := false }, ?_, rfl, rfl⟩
          simp only [SmartContracts.emit, set_item, executor_unavailable_exe_queue, hq1',
            List.set_set]
        · refine ⟨{ it with status := .Running, seq_start := env.getLastSequence, is_executor := false }, ?_, rfl, rfl⟩
          simp only [set_item, executor_unavailable_exe_queue, hq1', List.set_set]
      · refine ⟨{ it with status := .Running, seq_start := env.getLastSequence, is_executor := false }, ?_, rfl, rfl⟩
        simp only [set_item, executor_unavailable_exe_queue, hq1', List.set_set]
    · rw [execute_async_exe_queue, executor_unavailable_exe_queue]
      exact ⟨_, hq1', rfl, rfl⟩
  · exact ⟨_, hq1', rfl, rfl⟩

/-- An item that is Running or Finished and holds executions is still in the queue after
`test_exe_queue`. -/
theorem test_exe_queue_loop_keeps (env : Env) (m : QueueItem)
    (hm : m.status = .Running ∨ m.status = .Finished) (hne : m.executions ≠ []) :
    ∀ (fuel i : Nat) (s : SmartContracts), m ∈ s.exe_queue →
      m ∈ (test_exe_queue_loop env fuel i s).exe_queue := by
  intro fuel
  induction fuel with
  | zero => intro i s h; exact h
  | succ fuel ih =>
    intro i s h
    unfold test_exe_queue_loop
    cases hg : s.exe_queue.get? i with
    | none => exact h
    | some it =>
      simp only
      apply ih
      unfold test_exe_queue_step
      have herase : it ≠ m → m ∈ (remove_from_queue_at env s i).exe_queue := by
        intro hx
        rw [remove_from_queue_at_exe_queue]
        refine mem_eraseIdx_of_ne _ _ _ h ?_
        rw [hg]
        exact fun e => hx (Option.some.inj e)
      split
      · rename_i hc
        refine herase ?_
        intro e
        rw [e] at hc
        rcases hm with hm | hm <;> rw [hm] at hc <;> cases hc
      · split
        · rename_i he
          refine herase ?_
          intro e
          rw [e] at he
          exact hne (List.isEmpty_iff.1 he)
        · split
          · exact h
          · split
            · exact h
            · split
              · exact h
              · rename_i h1 h2 h3 h4 h5
                obtain ⟨X, hq, -, -⟩ := start_item_queue env s i it hg
                simp only
                rw [hq]
                refine mem_set_of_ne _ _ _ _ h ?_
                rw [hg]
                intro e
                have e' := Option.some.inj e
                rw [e'] at h3 h4
                rcases hm with hm | hm
                · exact h3 hm
                · exact h4 hm

theorem test_exe_queue_keeps (env : Env) (s : SmartContracts) (m : QueueItem)
    (hm : m.status = .Running ∨ m.status = .Finished) (hne : m.executions ≠ [])
    (h : m ∈ s.exe_queue) : m ∈ (test_exe_queue env s).exe_queue :=
  test_exe_queue_loop_keeps env m hm hne _ _ s h

end cs

namespace cs
open csdb

theorem grouped_insert_keys (m : List (Sequence × List Nat)) (key : Sequence) (value : Nat) :
    ∀ g ∈ grouped_insert m key value, g.1 = key ∨ g.1 ∈ m.map Prod.fst := by
  induction m with
  | nil =>
    intro g hg
    simp only [grouped_insert, List.mem_singleton] at hg
    exact Or.inl (by rw [hg])
  | cons a m ih =>
    obtain ⟨k, vs⟩ := a
    intro g hg
    unfold grouped_insert at hg
    split_ifs at hg with h1 h2
    · rcases List.mem_cons.1 hg with e | e
      · exact Or.inl (by rw [e, h1])
      · exact Or.inr (List.mem_cons_of_mem _ (List.mem_map_of_mem _ e))
    · rcases List.mem_cons.1 hg with e | e
      · exact Or.inl (by rw [e])
      · exact Or.inr (List.mem_map_of_mem _ e)
    · rcases List.mem_cons.1 hg with e | e
      · exact Or.inr (by rw [e]; exact List.mem_cons_self _ _)
      · rcases ih g e with h | h
        · exact Or.inl h
        · exact Or.inr (List.mem_cons_of_mem _ h)

theorem grouped_insert_sorted (m : List (Sequence × List Nat)) (key : Sequence) (value : Nat)
    (h : (m.map Prod.fst).Pairwise (fun a b => a < b)) :
    ((grouped_insert m key value).map Prod.fst).Pairwise (fun a b => a < b) := by
  induction m with
  | nil => simp [grouped_insert]
  | cons a m ih =>
    obtain ⟨k, vs⟩ := a
    rw [List.map_cons, List.pairwise_cons] at h
    obtain ⟨hk, hm⟩ := h
    unfold grouped_insert
    split_ifs with h1 h2
    · rw [List.map_cons, List.pairwise_cons]
      exact ⟨hk, hm⟩
    · rw [List.map_cons, List.pairwise_cons]
      refine ⟨?_, ?_⟩
      · intro b hb
        rcases List.mem_cons.1 hb with e | e
        · rw [e]; exact h2
        · exact Nat.lt_trans h2 (hk b e)
      · rw [List.map_cons, List.pairwise_cons]
        exact ⟨hk, hm⟩
    · rw [List.map_cons, List.pairwise_cons]
      refine ⟨?_, ih hm⟩
      intro b hb
      obtain ⟨g, hg, e⟩ := List.mem_map.1 hb
      rcases grouped_insert_keys m key value g hg with h | h
      · rw [← e, h]
        exact Nat.lt_of_le_of_ne (Nat.le_of_not_lt h2) (fun e => h1 e.symm)
      · rw [← e]; exact hk _ h

theorem grouped_insert_mem_other (m : List (Sequence × List Nat)) (key : Sequence) (value : Nat)
    (k : Sequence) (vs : List Nat) (hne : k ≠ key) (h : (k, vs) ∈ m) :
    (k, vs) ∈ grouped_insert m key value := by
  induction m with
  | nil => cases h
  | cons a m ih =>
    obtain ⟨k0, vs0⟩ := a
    unfold grouped_insert
    split_ifs with h1 h2
    · rcases List.mem_cons.1 h with e | e
      · have e1 : k = k0 := (Prod.mk.inj e).1
        exact absurd (e1.trans h1.symm) hne
      · exact List.mem_cons_of_mem _ e
    · exact List.mem_cons_of_mem _ h
    · rcases List.mem_cons.1 h with e | e
      · rw [e]; exact List.mem_cons_self _ _
      · exact List.mem_cons_of_mem _ (ih e)

theorem grouped_insert_mem_new (m : List (Sequence × List Nat)) (key : Sequence) (value : Nat)
    (h : key ∉ m.map Prod.fst) : (key, [value]) ∈ grouped_insert m key value := by
  induction m with
  | nil => exact List.mem_singleton.2 rfl
  | cons a m ih =>
    obtain ⟨k0, vs0⟩ := a
    have h0 : key ≠ k0 := fun e => h (by rw [e]; exact List.mem_cons_self _ _)
    have hm : key ∉ m.map Prod.fst := fun e => h (List.mem_cons_of_mem _ e)
    unfold grouped_insert
    rw [if_neg h0]
    split_ifs with h2
    · exact List.mem_cons_self _ _
    · exact List.mem_cons_of_mem _ (ih hm)

theorem grouped_insert_mem_old (m : List (Sequence × List Nat)) (key : Sequence) (value : Nat)
    (hs : (m.map Prod.fst).Pairwise (fun a b => a < b)) (old : List Nat)
    (h : (key, old) ∈ m) : (key, old ++ [value]) ∈ grouped_insert m key value := by
  induction m with
  | nil => cases h
  | cons a m ih =>
    obtain ⟨k0, vs0⟩ := a
    rw [List.map_cons, List.pairwise_cons] at hs
    obtain ⟨hk, hm⟩ := hs
    unfold grouped_insert
    rcases List.mem_cons.1 h with e | e
    · obtain ⟨e1, e2⟩ := Prod.mk.inj e
      rw [if_pos e1, e2, e1]
      exact List.mem_cons_self _ _
    · have hlt : k0 < key := hk key (List.mem_map_of_mem Prod.fst e)
      rw [if_neg (fun e' => Nat.lt_irrefl k0 (by rw [e'] at hlt; exact hlt)),
        if_neg (Nat.lt_asymm hlt)]
      exact List.mem_cons_of_mem _ (ih hm e)

theorem sorted_keys_unique (m : List (Sequence × List Nat))
    (hs : (m.map Prod.fst).Pairwise (fun a b => a < b)) (k : Sequence) (a b : List Nat)
    (ha : (k, a) ∈ m) (hb : (k, b) ∈ m) : a = b := by
  induction m with
  | nil => cases ha
  | cons x m ih =>
    rw [List.map_cons, List.pairwise_cons] at hs
    obtain ⟨hk, hm⟩ := hs
    rcases List.mem_cons.1 ha with e1 | e1 <;> rcases List.mem_cons.1 hb with e2 | e2
    · exact (Prod.mk.inj (e1.trans e2.symm)).2
    · have := hk k (List.mem_map_of_mem Prod.fst e2)
      rw [← e1] at this
      exact absurd this (Nat.lt_irrefl _)
    · have := hk k (List.mem_map_of_mem Prod.fst e1)
      rw [← e2] at this
      exact absurd this (Nat.lt_irrefl _)
    · exact ih hm e1 e2

theorem grouped_insert_mem_cases (m : List (Sequence × List Nat)) (key : Sequence) (value : Nat)
    (hs : (m.map Prod.fst).Pairwise (fun a b => a < b)) (k : Sequence) (vs : List Nat)
    (h : (k, vs) ∈ grouped_insert m key value) :
    (k ≠ key ∧ (k, vs) ∈ m) ∨
    (k = key ∧ ((∃ old, (key, old) ∈ m ∧ vs = old ++ [value]) ∨
      (key ∉ m.map Prod.fst ∧ vs = [value]))) := by
  have hsorted := grouped_insert_sorted m key value hs
  by_cases hk : k = key
  · refine Or.inr ⟨hk, ?_⟩
    subst hk
    have huniq : ∀ vs', (k, vs') ∈ grouped_insert m k value → vs' = vs :=
      fun vs' h' => sorted_keys_unique _ hsorted k vs' vs h' h
    by_cases hin : k ∈ m.map Prod.fst
    · obtain ⟨g, hg, e⟩ := List.mem_map.1 hin
      obtain ⟨k', old⟩ := g
      simp only at e
      subst e
      refine Or.inl ⟨old, hg, ?_⟩
      exact (huniq _ (grouped_insert_mem_old m k' value hs old hg)).symm
    · exact Or.inr ⟨hin, (huniq _ (grouped_insert_mem_new m k value hin)).symm⟩
  · refine Or.inl ⟨hk, ?_⟩
    clear hsorted
    induction m with
    | nil =>
      simp only [grouped_insert, List.mem_singleton] at h
      exact absurd (Prod.mk.inj h).1 hk
    | cons a m ih =>
      obtain ⟨k0, vs0⟩ := a
      rw [List.map_cons, List.pairwise_cons] at hs
      unfold grouped_insert at h
      split_ifs at h with h1 h2
      · rcases List.mem_cons.1 h with e | e
        · exact absurd ((Prod.mk.inj e).1.trans h1.symm) hk
        · exact List.mem_cons_of_mem _ e
      · rcases List.mem_cons.1 h with e | e
        · exact absurd (Prod.mk.inj e).1 hk
        · exact e
      · rcases List.mem_cons.1 h with e | e
        · rw [e]; exact List.mem_cons_self _ _
        · exact List.mem_cons_of_mem _ (ih hs.2 e)

end cs

namespace cs
open csdb

theorem rejected_indices_append (l : List (Sequence × Nat)) (r : Sequence × Nat)
    (k : Sequence) :
    rejected_indices (l ++ [r]) k
      = rejected_indices l k ++ (if r.1 = k then [r.2 % 2 ^ 16] else []) := by
  unfold rejected_indices
  rw [List.filter_append, List.map_append]
  by_cases h : r.1 = k
  · simp [List.filter_cons, h]
  · simp [List.filter_cons, h]

/-- The invariant of the loop that fills `grouped_failed`: the keys are in ascending
order, and the entry of a block sequence holds the indices the list names for it. -/
theorem group_rejected_fold (l : List (Sequence × Nat)) :
    ∀ (m : List (Sequence × List Nat)) (l0 : List (Sequence × Nat)),
      (m.map Prod.fst).Pairwise (fun a b => a < b) →
      (∀ k vs, (k, vs) ∈ m ↔ (vs = rejected_indices l0 k ∧ vs ≠ [])) →
      ((l.foldl (fun m item => grouped_insert m item.1 (item.2 % 2 ^ 16)) m).map
          Prod.fst).Pairwise (fun a b => a < b) ∧
      (∀ k vs, (k, vs) ∈ l.foldl (fun m item => grouped_insert m item.1 (item.2 % 2 ^ 16)) m
        ↔ (vs = rejected_indices (l0 ++ l) k ∧ vs ≠ [])) := by
  induction l with
  | nil =>
    intro m l0 hs hm
    simp only [List.foldl_nil, List.append_nil]
    exact ⟨hs, hm⟩
  | cons r l ih =>
    intro m l0 hs hm
    rw [List.foldl_cons]
    have hstep := ih (grouped_insert m r.1 (r.2 % 2 ^ 16)) (l0 ++ [r])
      (grouped_insert_sorted m _ _ hs) ?_
    · rw [List.append_assoc, List.singleton_append] at hstep
      exact hstep
    · intro k vs
      rw [rejected_indices_append]
      have hkeys : r.1 ∈ m.map Prod.fst → rejected_indices l0 r.1 ≠ [] := by
        intro hin
        obtain ⟨g, hg, e⟩ := List.mem_map.1 hin
        obtain ⟨k', old⟩ := g
        simp only at e
        rw [e] at hg
        have := (hm r.1 old).1 hg
        rw [← this.1]
        exact this.2
      constructor
      · intro h
        rcases grouped_insert_mem_cases m r.1 _ hs k vs h with ⟨hne, hmem⟩ | ⟨he, hc⟩
        · rw [if_neg (fun e => hne e.symm), List.append_nil]
          exact (hm k vs).1 hmem
        · subst he
          rw [if_pos rfl]
          rcases hc with ⟨old, hold, hv⟩ | ⟨hn, hv⟩
          · have := (hm r.1 old).1 hold
            rw [hv, this.1]
            exact ⟨rfl, by simp⟩
          · have hnil : rejected_indices l0 r.1 = [] := by
              by_contra hne
              exact hn (List.mem_map_of_mem Prod.fst ((hm r.1 _).2 ⟨rfl, hne⟩))
            rw [hv, hnil]
            exact ⟨rfl, by simp⟩
      · rintro ⟨hv, hne⟩
        by_cases hk : r.1 = k
        · subst hk
          rw [if_pos rfl] at hv
          by_cases hnil : rejected_indices l0 r.1 = []
          · rw [hnil, List.nil_append] at hv
            rw [hv]
            exact grouped_insert_mem_new m r.1 _ (fun hin => hkeys hin hnil)
          · rw [hv]
            exact grouped_insert_mem_old m r.1 _ hs _ ((hm r.1 _).2 ⟨rfl, hnil⟩)
        · rw [if_neg hk, List.append_nil] at hv
          exact grouped_insert_mem_other m r.1 _ k vs (fun e => hk e.symm)
            ((hm k vs).2 ⟨hv, hne⟩)

/-- The map `grouped_failed` of `on_reject`: its keys are in ascending order, and it holds
the block sequences named in the reject list, each with the indices named for it. -/
theorem group_rejected_spec (l : List (Sequence × Nat)) :
    ((group_rejected l).map Prod.fst).Pairwise (fun a b => a < b) ∧
    (∀ k vs, (k, vs) ∈ group_rejected l ↔ (vs = rejected_indices l k ∧ vs ≠ [])) := by
  have h := group_rejected_fold l [] [] List.Pairwise.nil
    (fun k vs => by simp [rejected_indices])
  rw [List.nil_append] at h
  exact h

end cs

namespace cs
open csdb


theorem split_rejected_of_rejected (idxs : List Nat) (m : QueueItem)
    (h : m.is_rejected = true) : split_rejected idxs m = none := by
  unfold split_rejected
  simp only
  split_ifs <;> rfl

/-- The queue after the loop of `on_reject` for one block sequence: the new items are
appended. -/
theorem on_reject_group_queue (env : Env) (cur : Sequence) (s : SmartContracts)
    (g : Sequence × List Nat) :
    (on_reject_group env cur s g).exe_queue
      = if g.2.isEmpty then s.exe_queue
        else (on_reject_scan env cur g.1 g.2 s.exe_queue.length 0 s []).1.exe_queue
          ++ (on_reject_scan env cur g.1 g.2 s.exe_queue.length 0 s []).2 := by
  unfold on_reject_group
  by_cases h1 : g.2.isEmpty = true
  · rw [if_pos h1, if_pos h1]
  · rw [if_neg h1, if_neg h1]
    simp only
    by_cases h2 : (on_reject_scan env cur g.1 g.2 s.exe_queue.length 0 s []).2.isEmpty = true
    · rw [if_neg (by simp [h2]), List.isEmpty_iff.1 h2, List.append_nil]
    · rw [if_pos (by simp [h2])]

/-- The loop of `on_reject` for one block sequence, with the new items appended: an item
that is not split and holds executions stays in the queue. -/
theorem on_reject_group_keeps_stable (env : Env) (cur : Sequence) (s : SmartContracts)
    (g : Sequence × List Nat) (m : QueueItem) (hm : reject_stable g.1 g.2 m)
    (hmem : m ∈ s.exe_queue) : m ∈ (on_reject_group env cur s g).exe_queue := by
  rw [on_reject_group_queue]
  split_ifs
  · exact hmem
  · exact List.mem_append_left _
      (on_reject_scan_keeps_stable env cur g.1 g.2 _ 0 s [] m hm hmem)

theorem on_reject_group_keeps_front (env : Env) (cur seqT : Sequence) (idxsT : List Nat)
    (s : SmartContracts) (g : Sequence × List Nat) (hne : g.1 ≠ seqT) (it : QueueItem)
    (hit : reject_stable g.1 g.2 it)
    (h : ∃ p, s.exe_queue.get? p = some it ∧ ∀ a ∈ s.exe_queue.take p, reject_kept seqT idxsT a) :
    ∃ p, (on_reject_group env cur s g).exe_queue.get? p = some it ∧
      ∀ a ∈ (on_reject_group env cur s g).exe_queue.take p, reject_kept seqT idxsT a := by
  obtain ⟨p, hp, hfr⟩ := h
  rw [on_reject_group_queue]
  obtain ⟨p', hp', hfr'⟩ := on_reject_scan_keeps_front env cur g.1 seqT g.2 idxsT hne
    s.exe_queue.length 0 s [] it hit p hp hfr
  split_ifs
  · exact ⟨p, hp, hfr⟩
  · have hlt := get_lt_length _ _ _ hp'
    refine ⟨p', ?_, ?_⟩
    · simp only [List.get?_eq_getElem?] at hp' ⊢
      rw [List.getElem?_append_left hlt]
      exact hp'
    · intro a ha
      apply hfr'
      rw [List.take_append_of_le_length (Nat.le_of_lt hlt)] at ha
      exact ha

theorem on_reject_fold_keeps_stable (env : Env) (cur : Sequence) (m : QueueItem) :
    ∀ (G : List (Sequence × List Nat)) (s : SmartContracts),
      (∀ g ∈ G, reject_stable g.1 g.2 m) → m ∈ s.exe_queue →
      m ∈ (G.foldl (on_reject_group env cur) s).exe_queue := by
  intro G
  induction G with
  | nil => intro s _ h; exact h
  | cons g G ih =>
    intro s hG h
    rw [List.foldl_cons]
    exact ih _ (fun g' hg' => hG g' (List.mem_cons_of_mem _ hg'))
      (on_reject_group_keeps_stable env cur s g m (hG g (List.mem_cons_self _ _)) h)

theorem on_reject_fold_keeps_front (env : Env) (cur seqT : Sequence) (idxsT : List Nat)
    (it : QueueItem) :
    ∀ (G : List (Sequence × List Nat)) (s : SmartContracts),
      (∀ g ∈ G, g.1 ≠ seqT ∧ reject_stable g.1 g.2 it) →
      (∃ p, s.exe_queue.get? p = some it ∧
        ∀ a ∈ s.exe_queue.take p, reject_kept seqT idxsT a) →
      ∃ p, (G.foldl (on_reject_group env cur) s).exe_queue.get? p = some it ∧
        ∀ a ∈ (G.foldl (on_reject_group env cur) s).exe_queue.take p,
          reject_kept seqT idxsT a := by
  intro G
  induction G with
  | nil => intro s _ h; exact h
  | cons g G ih =>
    intro s hG h
    rw [List.foldl_cons]
    exact ih _ (fun g' hg' => hG g' (List.mem_cons_of_mem _ hg'))
      (on_reject_group_keeps_front env cur seqT idxsT s g (hG g (List.mem_cons_self _ _)).1 it
        (hG g (List.mem_cons_self _ _)).2 h)

/-- The loop of `on_reject` for the block sequence of the item `it`, with the new items
appended: the new rejected item is in the queue, and so is the item with the executions
that stay when there are any. -/
theorem on_reject_group_splits (env : Env) (cur : Sequence) (idxs : List Nat)
    (s : SmartContracts) (p : Nat) (it : QueueItem)
    (stay reject restart : List ExecutionItem)
    (hget : s.exe_queue.get? p = some it)
    (hsp : split_rejected idxs it = some (stay, reject, restart))
    (hfront : ∀ a ∈ s.exe_queue.take p, reject_kept it.seq_enqueue idxs a) :
    ({ it with executions := reject.map (fun e => (reject_result env it.abs_addr e).1),
               status := .Finished, seq_finish := cur, is_rejected := true } : QueueItem)
      ∈ (on_reject_group env cur s (it.seq_enqueue, idxs)).exe_queue ∧
    (stay ≠ [] → ({ it with executions := stay } : QueueItem)
      ∈ (on_reject_group env cur s (it.seq_enqueue, idxs)).exe_queue) := by
  have hidx : idxs.isEmpty = false := by
    obtain ⟨-, hk, -, -, -⟩ := split_rejected_some idxs it stay reject restart hsp
    have hp : is_rejected_call idxs (it.executions.get ⟨_, hk⟩) = true :=
      List.findIdx_getElem (w := hk)
    unfold is_rejected_call at hp
    cases idxs with
    | nil => simp at hp
    | cons a l => rfl
  obtain ⟨h1, h2⟩ := on_reject_scan_splits env cur it.seq_enqueue idxs s p it stay reject
    restart hget rfl hsp hfront s.exe_queue.length (get_lt_length _ _ _ hget)
  rw [on_reject_group_queue]
  simp only [hidx, Bool.false_eq_true, if_false]
  exact ⟨List.mem_append_right _ h1, fun h => List.mem_append_left _ (h2 h)⟩

end cs

namespace cs
open csdb

theorem filter_drop_findIdx {α : Type} (p : α → Bool) (l : List α) :
    (l.drop (l.findIdx p)).filter p = l.filter p := by
  induction l with
  | nil => rfl
  | cons a l ih =>
    rw [List.findIdx_cons]
    cases h : p a with
    | true => simp
    | false => simp [List.filter_cons, h, ih]

theorem take_findIdx_none {α : Type} (p : α → Bool) (l : List α) :
    ∀ x ∈ l.take (l.findIdx p), p x = false := by
  induction l with
  | nil => intro x hx; cases hx
  | cons a l ih =>
    intro x hx
    rw [List.findIdx_cons] at hx
    cases h : p a with
    | true => rw [h] at hx; simp at hx
    | false =>
      rw [h] at hx
      simp only [cond_false, List.take_succ_cons, List.mem_cons] at hx
      rcases hx with e | e
      · rw [e]; exact h
      · exact ih x e

/-- The part of `on_reject` before the final `test_exe_queue()`, for an item `it` found at
position `p` of the queue, not marked `is_rejected`, with a rejected call, when no item in
front of it is erased by the loop for its block sequence: the queue holds the new rejected
item, and the item with the executions that stay when there are any. -/
theorem on_reject_groups_splits (env : Env) (s : SmartContracts)
    (reject_list : List (Sequence × Nat)) (p : Nat) (it : QueueItem)
    (hget : s.exe_queue.get? p = some it)
    (hnr : it.is_rejected = false)
    (hrej : ∃ e ∈ it.executions,
      is_rejected_call (rejected_indices reject_list it.seq_enqueue) e = true)
    (hfront : ∀ a ∈ s.exe_queue.take p,
      reject_kept it.seq_enqueue (rejected_indices reject_list it.seq_enqueue) a) :
    ({ it with
        executions := (it.executions.filter
            (is_rejected_call (rejected_indices reject_list it.seq_enqueue))).map
          (fun e => (reject_result env it.abs_addr e).1),
        status := .Finished, seq_finish := env.getLastSequence, is_rejected := true } : QueueItem)
      ∈ (on_reject_groups env s reject_list).exe_queue ∧
    (it.executions.take (it.executions.findIdx
        (is_rejected_call (rejected_indices reject_list it.seq_enqueue))) ≠ [] →
      ({ it with executions := it.executions.take (it.executions.findIdx
        (is_rejected_call (rejected_indices reject_list it.seq_enqueue))) } : QueueItem)
        ∈ (on_reject_groups env s reject_list).exe_queue) := by
  generalize hidx : rejected_indices reject_list it.seq_enqueue = idxs at hrej hfront ⊢
  obtain ⟨e, he, hre⟩ := hrej
  have hk : it.executions.findIdx (is_rejected_call idxs) < it.executions.length :=
    List.findIdx_lt_length.2 ⟨e, he, hre⟩
  have hine : idxs ≠ [] := by
    intro h
    rw [h] at hre
    simp [is_rejected_call] at hre
  have hsp : split_rejected idxs it
      = some (it.executions.take (it.executions.findIdx (is_rejected_call idxs)),
          (it.executions.drop (it.executions.findIdx (is_rejected_call idxs))).filter
            (is_rejected_call idxs),
          ((it.executions.drop (it.executions.findIdx (is_rejected_call idxs))).filter
            (fun e => !is_rejected_call idxs e)).map (fun e => { e with result := [] })) := by
    unfold split_rejected
    simp only
    rw [if_pos hk, if_neg (by rw [hnr]; exact Bool.false_ne_true)]
  have hitne : it.executions ≠ [] := List.ne_nil_of_mem he
  -- the groups before and after the one of the item
  obtain ⟨hsorted, hmemG⟩ := group_rejected_spec reject_list
  have hin : (it.seq_enqueue, idxs) ∈ group_rejected reject_list :=
    (hmemG _ _).2 ⟨hidx.symm, hine⟩
  obtain ⟨G1, G2, hG⟩ := List.append_of_mem hin
  have hkeys : ∀ g ∈ G1 ++ G2, g.1 ≠ it.seq_enqueue := by
    rw [hG, List.map_append, List.map_cons, List.pairwise_append] at hsorted
    obtain ⟨-, h2, h3⟩ := hsorted
    rw [List.pairwise_cons] at h2
    intro g hg
    rcases List.mem_append.1 hg with h | h
    · exact Nat.ne_of_lt (h3 g.1 (List.mem_map_of_mem Prod.fst h) _ (List.mem_cons_self _ _))
    · exact (Nat.ne_of_lt (h2.1 g.1 (List.mem_map_of_mem Prod.fst h))).symm
  unfold on_reject_groups
  rw [hG, List.foldl_append, List.foldl_cons]
  -- the item and the items in front of it after the groups before
  obtain ⟨p1, hp1, hfr1⟩ := on_reject_fold_keeps_front env env.getLastSequence it.seq_enqueue
    idxs it G1 s
    (fun g hg => ⟨hkeys g (List.mem_append_left _ hg),
      hitne, fun h => absurd h (hkeys g (List.mem_append_left _ hg)).symm⟩)
    ⟨p, hget, hfront⟩
  obtain ⟨hR, hO⟩ := on_reject_group_splits env env.getLastSequence idxs _ p1 it _ _ _
    hp1 hsp hfr1
  rw [filter_drop_findIdx] at hR
  have hfne : it.executions.filter (is_rejected_call idxs) ≠ [] :=
    List.ne_nil_of_mem (List.mem_filter.2 ⟨he, hre⟩)
  refine ⟨?_, fun hst => ?_⟩
  · refine on_reject_fold_keeps_stable env env.getLastSequence _ G2 _ (fun g _ => ?_) hR
    exact ⟨by simpa using hfne, fun _ => split_rejected_of_rejected _ _ rfl⟩
  · refine on_reject_fold_keeps_stable env env.getLastSequence _ G2 _ (fun g hg => ?_) (hO hst)
    exact ⟨hst, fun h => absurd h.symm (hkeys g (List.mem_append_right _ hg))⟩

end cs

namespace cs
open csdb

/-- The length of the queue is enough fuel for the loop of `on_reject` over the queue: more
fuel does not change the result. -/
theorem on_reject_scan_enough_fuel (env : Env) (cur seq : Sequence) (idxs : List Nat) :
    ∀ (fuel i : Nat) (s : SmartContracts) (new : List QueueItem),
      s.exe_queue.length ≤ i + fuel →
      on_reject_scan env cur seq idxs (fuel + 1) i s new
        = on_reject_scan env cur seq idxs fuel i s new := by
  intro fuel
  induction fuel with
  | zero =>
    intro i s new h
    have hn : s.exe_queue.get? i = none := List.get?_eq_none.2 (by omega)
    simp only [on_reject_scan, hn]
  | succ fuel ih =>
    intro i s new h
    conv_lhs => unfold on_reject_scan
    conv_rhs => unfold on_reject_scan
    cases hget : s.exe_queue.get? i with
    | none => rfl
    | some it =>
      simp only
      have hshape := on_reject_item_shape env cur seq idxs s new i it
      generalize on_reject_item env cur seq idxs s new i it = r at hshape ⊢
      have hlen : r.1.exe_queue.length = s.exe_queue.length := by
        rcases hshape with ⟨hq, -, -⟩ | ⟨-, stay, reject, restart, -, hq, -⟩
        · rw [hq]
        · rw [hq, List.length_set]
      cases hg : r.1.exe_queue.get? i with
      | none => rfl
      | some it_queue =>
        simp only
        split
        · split
          · rfl
          · apply ih
            simp only [List.length_eraseIdx]
            split <;> omega
        · apply ih
          omega

end cs

namespace cs
open csdb

/-- C12 (as amended). Partial rejection in `on_reject`: for a queue item `it` at position
`p` that is not marked `is_rejected` and holds a call whose transaction index is among those
the reject list names for the block sequence `it.seq_enqueue` (indices read modulo `2^16`),
when every item in front of it holds executions and, if it is split too, does not start
with a rejected call: after `on_reject` the queue holds an item marked `is_rejected` with
status Finished whose executions are the rejected calls of `it`, in order, each with its
result reduced to one new-state with empty `Value` and `RetVal = ConsensusRejected` when the
result held a new-state of the contract, and with its result unchanged when it held none;
the calls in front of the first rejected one stay in the original item, results unchanged:
that item is in the queue before the final `test_exe_queue()`, and after it when the item is
Running or Finished. -/
theorem on_reject_partial_rejection (env : Env) (s : SmartContracts)
    (reject_list : List (Sequence × Nat)) (p : Nat) (it : QueueItem)
    (hget : s.exe_queue.get? p = some it)
    (hnr : it.is_rejected = false)
    (hrej : ∃ e ∈ it.executions,
      is_rejected_call (rejected_indices reject_list it.seq_enqueue) e = true)
    (hfront : ∀ a ∈ s.exe_queue.take p,
      reject_kept it.seq_enqueue (rejected_indices reject_list it.seq_enqueue) a) :
    (∃ R ∈ (on_reject env s reject_list).exe_queue,
      R.is_rejected = true ∧ R.status = .Finished ∧
      List.Forall₂ (rejected_as env it.abs_addr)
        (it.executions.filter (is_rejected_call (rejected_indices reject_list it.seq_enqueue)))
        R.executions) ∧
    on_reject env s reject_list = test_exe_queue env (on_reject_groups env s reject_list) ∧
    (it.executions.take (it.executions.findIdx
        (is_rejected_call (rejected_indices reject_list it.seq_enqueue))) ≠ [] →
      ({ it with executions := it.executions.take (it.executions.findIdx
          (is_rejected_call (rejected_indices reject_list it.seq_enqueue))) } : QueueItem)
        ∈ (on_reject_groups env s reject_list).exe_queue ∧
      ((it.status = .Running ∨ it.status = .Finished) →
        ({ it with executions := it.executions.take (it.executions.findIdx
            (is_rejected_call (rejected_indices reject_list it.seq_enqueue))) } : QueueItem)
          ∈ (on_reject env s reject_list).exe_queue)) := by
  obtain ⟨hR, hO⟩ := on_reject_groups_splits env s reject_list p it hget hnr hrej hfront
  have hlist : reject_list.isEmpty = false := by
    obtain ⟨e, -, hre⟩ := hrej
    cases reject_list with
    | nil => simp [is_rejected_call, rejected_indices] at hre
    | cons a l => rfl
  have hon : on_reject env s reject_list
      = test_exe_queue env (on_reject_groups env s reject_list) := by
    unfold on_reject
    rw [hlist]
    rfl
  have hfne : it.executions.filter
      (is_rejected_call (rejected_indices reject_list it.seq_enqueue)) ≠ [] := by
    obtain ⟨e, he, hre⟩ := hrej
    exact List.ne_nil_of_mem (List.mem_filter.2 ⟨he, hre⟩)
  obtain ⟨R, hRm, hR1, hR2, hR3⟩ : ∃ R ∈ (on_reject_groups env s reject_list).exe_queue,
      R.is_rejected = true ∧ R.status = .Finished ∧
      R.executions = (it.executions.filter
        (is_rejected_call (rejected_indices reject_list it.seq_enqueue))).map
          (fun e => (reject_result env it.abs_addr e).1) := ⟨_, hR, rfl, rfl, rfl⟩
  refine ⟨⟨R, ?_, hR1, hR2, ?_⟩, hon, fun hst => ⟨hO hst, fun hrun => ?_⟩⟩
  · rw [hon]
    refine test_exe_queue_keeps env _ _ (Or.inr hR2) ?_ hRm
    rw [hR3]
    simpa using hfne
  · rw [hR3, List.forall₂_map_right_iff, List.forall₂_same]
    exact fun x _ => reject_result_as env it.abs_addr x
  · rw [hon]
    exact test_exe_queue_keeps env _ _ hrun hst (hO hst)

/-- C12 at the scheduler of the executor node after the two calls of block 1 have been
executed. When the second call is rejected, it ends in a rejected item and the first call
stays in the original item. When the call of block 2 has been enqueued behind it and the
reject list names that call and the second call of block 1, the item of block 2, which
stands behind an item that is not erased, is split as well. -/
theorem on_reject_partial_rejection_witness :
    sample.executed_block1.exe_queue.get? 0 = some sample.executed_item ∧
    (∃ R ∈ (on_reject (sample.env_consensus [sample.block1]) sample.executed_block1
        [(1, 1)]).exe_queue,
      R.is_rejected = true ∧ R.status = .Finished ∧
      List.Forall₂ (rejected_as (sample.env_consensus [sample.block1])
          sample.executed_item.abs_addr)
        (sample.executed_item.executions.filter
          (is_rejected_call (rejected_indices [(1, 1)] sample.executed_item.seq_enqueue)))
        R.executions) ∧
    ({ sample.executed_item with executions := (sample.executed_item.executions.take
        (sample.executed_item.executions.findIdx
          (is_rejected_call (rejected_indices [(1, 1)] sample.executed_item.seq_enqueue)))) }
      : QueueItem)
      ∈ (on_reject (sample.env_consensus [sample.block1]) sample.executed_block1
          [(1, 1)]).exe_queue ∧
    (∃ R ∈ (on_reject (sample.env_consensus [sample.block1, sample.block2_call])
        (enqueue (sample.env_consensus [sample.block1, sample.block2_call])
          sample.executed_block1 sample.block2_call 0)
        [(2, 0), (1, 1)]).exe_queue,
      R.is_rejected = true ∧ R.status = .Finished ∧
      List.Forall₂ (rejected_as (sample.env_consensus [sample.block1, sample.block2_call])
          sample.waiting_call.abs_addr)
        (sample.waiting_call.executions.filter
          (is_rejected_call (rejected_indices [(2, 0), (1, 1)] sample.waiting_call.seq_enqueue)))
        R.executions) :=
  have h := on_reject_partial_rejection (sample.env_consensus [sample.block1])
    sample.executed_block1 [(1, 1)] 0 sample.executed_item (by decide) rfl
    ⟨_, List.mem_cons_of_mem _ (List.mem_cons_self _ _), by decide⟩
    (fun a ha => by cases ha)
  have h2 := on_reject_partial_rejection
    (sample.env_consensus [sample.block1, sample.block2_call])
    (enqueue (sample.env_consensus [sample.block1, sample.block2_call])
      sample.executed_block1 sample.block2_call 0)
    [(2, 0), (1, 1)] 1 { sample.waiting_call with is_executor := true } (by decide) rfl
    ⟨_, List.mem_cons_self _ _, by decide⟩
    (fun a ha => by
      have hq : (enqueue (sample.env_consensus [sample.block1, sample.block2_call])
          sample.executed_block1 sample.block2_call 0).exe_queue.take 1
          = [sample.executed_item] := by decide
      rw [hq, List.mem_singleton] at ha
      rw [ha]
      exact ⟨by decide, fun hs => absurd hs (by decide)⟩)
  ⟨by decide, h.1, (h.2.2 (by decide)).2 (Or.inr rfl), h2.1⟩

/-- Counterexample to C12: at the scheduler of node `[8]` after block 1 (the node does not
execute the calls, their results are empty), rejecting the second call of the block leaves
the first call in the Running item and puts the second in a new item marked `is_rejected`,
Finished, whose result is still empty: no new-state with `RetVal = ConsensusRejected`. -/
theorem on_reject_result_without_new_state_counterexample :
    (on_reject (sample.env [sample.block1]) sample.after_block1 [(1, 1)]).exe_queue.map
      (fun it => (it.is_rejected, it.status,
        it.executions.map (fun e => (e.ref_start.transaction, e.result))))
      = [(false, .Running, [(0, [])]), (true, .Finished, [(1, [])])] := by
  decide

end cs

namespace cs
open csdb

/-- The loop of `on_reject` over the queue advances the iterator after it has erased an
item, so the item that followed the erased one is not examined: with the two calls of
block 1 in two queue items (the second for another contract) and both calls rejected, the
first item is split and erased, the second item stays as it was, Running and not marked
`is_rejected`. -/
theorem on_reject_skips_item_after_erased :
    (on_reject (sample.env [sample.block1])
      { sample.after_block1 with exe_queue :=
          [{ sample.running_item with executions := sample.running_item.executions.take 1 },
           { sample.running_item with executions := sample.running_item.executions.drop 1,
                                      abs_addr := sample.user }] }
      [(1, 0), (1, 1)]).exe_queue.map
        (fun it => (it.abs_addr, it.is_rejected, it.status,
          it.executions.map (fun e => e.ref_start.transaction)))
      = [(sample.user, false, .Running, [1]), (sample.contract, true, .Finished, [0])] := by
  decide

end cs

namespace cs
open csdb

/-- Over one turn of the pass of `test_exe_conditions` with a round fee that is not
negative, every execution of an item that is Waiting or Running after the turn is an
execution of an item that was Waiting or Running before it, with the same `avail_fee` and a
`consumed_fee` that did not decrease. -/
theorem test_exe_conditions_step_fee (env : Env) (s : SmartContracts) (block : Pool)
    (hf : 0 ≤ smart_round_fee block) (i : Nat) (item : QueueItem)
    (hget : s.exe_queue.get? i = some item) :
    ∀ it' ∈ (test_exe_conditions_step env block s i item).exe_queue,
      (it'.status = .Waiting ∨ it'.status = .Running) →
      ∀ e' ∈ it'.executions, ∃ it ∈ s.exe_queue,
        (it.status = .Waiting ∨ it.status = .Running) ∧
        ∃ e ∈ it.executions, e.ref_start = e'.ref_start ∧ e'.avail_fee = e.avail_fee ∧
          e.consumed_fee ≤ e'.consumed_fee := by
  intro it' hit' hl e' he'
  have ht := (test_exe_conditions_step_result env block s i item hget).2
  rcases turn_result_members env block i item _ _ hget ht it' hit' with
    h | ⟨it, hit, -, h⟩
  · exact ⟨it', h, hl, e', he', rfl, rfl, le_refl _⟩
  · rcases h with ⟨hc, -, -⟩ | hfin | ⟨hrun, hc⟩
    · rw [hc] at hl
      rcases hl with hl | hl <;> cases hl
    · rw [hfin] at hl
      rcases hl with hl | hl <;> cases hl
    · rw [hc] at he'
      obtain ⟨e, he, h1, h2, h3⟩ := charge_round_fee_fee _ hf it.executions e' he'
      exact ⟨it, hit, Or.inr hrun, e, he, h1, h2, h3⟩

/-- Over a pass of `test_exe_conditions` that has a result, with a round fee that is not
negative, every execution of an item that is Waiting or Running after the pass is an
execution of an item that was Waiting or Running before it, with the same `avail_fee` and a
`consumed_fee` that did not decrease. -/
theorem test_exe_conditions_fee (env : Env) (s : SmartContracts) (block : Pool)
    (hf : 0 ≤ smart_round_fee block) (s' : SmartContracts)
    (hres : test_exe_conditions env s block = some s') :
    ∀ it' ∈ s'.exe_queue,
      (it'.status = .Waiting ∨ it'.status = .Running) →
      ∀ e' ∈ it'.executions, ∃ it ∈ s.exe_queue,
        (it.status = .Waiting ∨ it.status = .Running) ∧
        ∃ e ∈ it.executions, e.ref_start = e'.ref_start ∧ e'.avail_fee = e.avail_fee ∧
          e.consumed_fee ≤ e'.consumed_fee := by
  refine test_exe_conditions_rel env block
    (fun s s' => ∀ it' ∈ s'.exe_queue, (it'.status = .Waiting ∨ it'.status = .Running) →
      ∀ e' ∈ it'.executions, ∃ it ∈ s.exe_queue,
        (it.status = .Waiting ∨ it.status = .Running) ∧
        ∃ e ∈ it.executions, e.ref_start = e'.ref_start ∧ e'.avail_fee = e.avail_fee ∧
          e.consumed_fee ≤ e'.consumed_fee) ?_ ?_ ?_ s s' hres
  · intro s it' hit' hl e' he'
    exact ⟨it', hit', hl, e', he', rfl, rfl, le_refl _⟩
  · intro s1 s2 s3 h12 h23 it' hit' hl e' he'
    obtain ⟨it2, hit2, hl2, e2, he2, hr2, ha2, hc2⟩ := h23 it' hit' hl e' he'
    obtain ⟨it1, hit1, hl1, e1, he1, hr1, ha1, hc1⟩ := h12 it2 hit2 hl2 e2 he2
    exact ⟨it1, hit1, hl1, e1, he1, hr1.trans hr2, ha2.trans ha1, le_trans hc1 hc2⟩
  · intro s i item hget
    exact test_exe_conditions_step_fee env s block hf i item hget

end cs
namespace cs
open csdb

/-- Over the loop of `on_reject` for one block sequence, every execution of an item of the
queue or of `new_queue_items` is an execution of an item that was there before, with the
fees it had. -/
theorem on_reject_scan_fee (env : Env) (cur seq : Sequence) (idxs : List Nat)
    (fuel i : Nat) (s : SmartContracts) (new : List QueueItem) :
    ∀ it' ∈ (on_reject_scan env cur seq idxs fuel i s new).1.exe_queue
        ++ (on_reject_scan env cur seq idxs fuel i s new).2,
      ∀ e' ∈ it'.executions, ∃ it ∈ s.exe_queue ++ new, ∃ e ∈ it.executions,
        e'.ref_start = e.ref_start ∧ e'.avail_fee = e.avail_fee ∧
        e'.consumed_fee = e.consumed_fee := by
  refine on_reject_scan_rel env cur seq idxs
    (fun q n q' n' => ∀ it' ∈ q' ++ n', ∀ e' ∈ it'.executions, ∃ it ∈ q ++ n,
      ∃ e ∈ it.executions, e'.ref_start = e.ref_start ∧ e'.avail_fee = e.avail_fee ∧
        e'.consumed_fee = e.consumed_fee) ?_ ?_ ?_ fuel i s new
  · intro q n it' hit' e' he'
    exact ⟨it', hit', e', he', rfl, rfl, rfl⟩
  · intro q1 n1 q2 n2 q3 n3 h12 h23 it' hit' e' he'
    obtain ⟨it2, hit2, e2, he2, hr2, ha2, hc2⟩ := h23 it' hit' e' he'
    obtain ⟨it1, hit1, e1, he1, hr1, ha1, hc1⟩ := h12 it2 hit2 e2 he2
    exact ⟨it1, hit1, e1, he1, hr2.trans hr1, ha2.trans ha1, hc2.trans hc1⟩
  · intro q n q' n' hturn it' hit' e' he'
    obtain ⟨j, x, hget, h⟩ := hturn
    have hx : x ∈ q := mem_of_get _ _ _ hget
    rcases h with ⟨hn, h⟩ | ⟨-, stay, reject, restart, hsp, ⟨added, hn, hadd⟩, h⟩
    · rw [hn] at hit'
      rcases List.mem_append.1 hit' with hq | hq
      · rcases h with ⟨-, h⟩ | ⟨-, h⟩
        · rw [h] at hq
          exact ⟨it', List.mem_append_left _ hq, e', he', rfl, rfl, rfl⟩
        · rw [h] at hq
          exact ⟨it', List.mem_append_left _ (List.mem_of_mem_eraseIdx hq), e', he', rfl, rfl, rfl⟩
      · exact ⟨it', List.mem_append_right _ hq, e', he', rfl, rfl, rfl⟩
    · rw [hn] at hit'
      rcases List.mem_append.1 hit' with hq | hq
      · rcases h with ⟨-, h⟩ | ⟨-, h⟩
        · rw [h] at hq
          rcases mem_set_cases _ _ _ _ hq with h1 | h1
          · exact ⟨it', List.mem_append_left _ h1, e', he', rfl, rfl, rfl⟩
          · rw [h1] at he'
            obtain ⟨-, -, hst, -, -⟩ := split_rejected_some idxs x stay reject restart hsp
            simp only at he'
            rw [hst] at he'
            exact ⟨x, List.mem_append_left _ hx, e', List.mem_of_mem_take he', rfl, rfl, rfl⟩
        · rw [h] at hq
          exact ⟨it', List.mem_append_left _ (List.mem_of_mem_eraseIdx hq), e', he', rfl, rfl, rfl⟩
      · rcases List.mem_append.1 hq with h1 | h1
        · exact ⟨it', List.mem_append_right _ h1, e', he', rfl, rfl, rfl⟩
        · obtain ⟨e, he, h2⟩ := hadd it' h1 e' he'
          exact ⟨x, List.mem_append_left _ hx, e, he, h2⟩

theorem on_reject_group_fee (env : Env) (cur : Sequence) (s : SmartContracts)
    (g : Sequence × List Nat) :
    ∀ it' ∈ (on_reject_group env cur s g).exe_queue,
      ∀ e' ∈ it'.executions, ∃ it ∈ s.exe_queue, ∃ e ∈ it.executions,
        e'.ref_start = e.ref_start ∧ e'.avail_fee = e.avail_fee ∧
        e'.consumed_fee = e.consumed_fee := by
  rw [on_reject_group_queue]
  split_ifs
  · intro it' hit' e' he'
    exact ⟨it', hit', e', he', rfl, rfl, rfl⟩
  · intro it' hit' e' he'
    have h := on_reject_scan_fee env cur g.1 g.2 s.exe_queue.length 0 s [] it' hit' e' he'
    rw [List.append_nil] at h
    exact h

theorem on_reject_fold_fee (env : Env) (cur : Sequence) :
    ∀ (G : List (Sequence × List Nat)) (s : SmartContracts),
      ∀ it' ∈ (G.foldl (on_reject_group env cur) s).exe_queue,
        ∀ e' ∈ it'.executions, ∃ it ∈ s.exe_queue, ∃ e ∈ it.executions,
          e'.ref_start = e.ref_start ∧ e'.avail_fee = e.avail_fee ∧
          e'.consumed_fee = e.consumed_fee := by
  intro G
  induction G with
  | nil => intro s it' hit' e' he'; exact ⟨it', hit', e', he', rfl, rfl, rfl⟩
  | cons g G ih =>
    intro s it' hit' e' he'
    rw [List.foldl_cons] at hit'
    obtain ⟨it2, hit2, e2, he2, hr2, ha2, hc2⟩ := ih _ it' hit' e' he'
    obtain ⟨it1, hit1, e1, he1, hr1, ha1, hc1⟩ := on_reject_group_fee env cur s g it2 hit2 e2 he2
    exact ⟨it1, hit1, e1, he1, hr2.trans hr1, ha2.trans ha1, hc2.trans hc1⟩

/-- Every item of the queue after `test_exe_queue` holds the executions of an item of the
queue before it. -/
theorem test_exe_queue_loop_executions (env : Env) :
    ∀ (fuel i : Nat) (s : SmartContracts),
      ∀ it' ∈ (test_exe_queue_loop env fuel i s).exe_queue,
        ∃ it ∈ s.exe_queue, it'.executions = it.executions := by
  intro fuel
  induction fuel with
  | zero => intro i s it' h; exact ⟨it', h, rfl⟩
  | succ fuel ih =>
    intro i s it' h
    unfold test_exe_queue_loop at h
    cases hg : s.exe_queue.get? i with
    | none => rw [hg] at h; exact ⟨it', h, rfl⟩
    | some x =>
      rw [hg] at h
      simp only at h
      obtain ⟨it2, hit2, he2⟩ := ih _ _ it' h
      have hstep : ∃ it ∈ s.exe_queue, it2.executions = it.executions := by
        unfold test_exe_queue_step at hit2
        split at hit2
        · rw [remove_from_queue_at_exe_queue] at hit2
          exact ⟨it2, List.mem_of_mem_eraseIdx hit2, rfl⟩
        · split at hit2
          · rw [remove_from_queue_at_exe_queue] at hit2
            exact ⟨it2, List.mem_of_mem_eraseIdx hit2, rfl⟩
          · split at hit2
            · exact ⟨it2, hit2, rfl⟩
            · split at hit2
              · exact ⟨it2, hit2, rfl⟩
              · split at hit2
                · exact ⟨it2, hit2, rfl⟩
                · obtain ⟨X, hq, hX, -⟩ := start_item_queue env s i x hg
                  simp only at hit2
                  rw [hq] at hit2
                  rcases mem_set_cases _ _ _ _ hit2 with h1 | h1
                  · exact ⟨it2, h1, rfl⟩
                  · exact ⟨x, mem_of_get _ _ _ hg, by rw [h1, hX]⟩
      obtain ⟨it1, hit1, he1⟩ := hstep
      exact ⟨it1, hit1, he2.trans he1⟩

/-- Over `on_reject`, every execution of an item of the queue is an execution of an item
that was in the queue before, with the fees it had. -/
theorem on_reject_fee (env : Env) (s : SmartContracts) (reject_list : List (Sequence × Nat)) :
    ∀ it' ∈ (on_reject env s reject_list).exe_queue,
      ∀ e' ∈ it'.executions, ∃ it ∈ s.exe_queue, ∃ e ∈ it.executions,
        e'.ref_start = e.ref_start ∧ e'.avail_fee = e.avail_fee ∧
        e'.consumed_fee = e.consumed_fee := by
  intro it' hit' e' he'
  unfold on_reject at hit'
  split_ifs at hit'
  · exact ⟨it', hit', e', he', rfl, rfl, rfl⟩
  · unfold test_exe_queue at hit'
    obtain ⟨it2, hit2, he2⟩ := test_exe_queue_loop_executions env _ _ _ it' hit'
    rw [he2] at he'
    exact on_reject_fold_fee env env.getLastSequence _ s it2 hit2 e' he'

end cs
namespace cs
open csdb

theorem add_eq_create (env : Env) (item : QueueItem) (r : SmartContractRef) (a : Address)
    (t : Transaction) :
    (QueueItem.add env item r t).executions
      = item.executions ++ (QueueItem.create env r a t).executions := rfl

theorem create_new_state_fee (env : Env) (r : SmartContractRef) (a : Address)
    (t : Transaction) (e0 : ExecutionItem)
    (h : (QueueItem.create env r a t).executions = [e0]) :
    e0.new_state_fee = t.counted_fee ∧ e0.consumed_fee = 0 := by
  unfold QueueItem.create QueueItem.add at h
  simp only [List.nil_append, List.cons.injEq, and_true] at h
  rw [← h]
  exact ⟨rfl, rfl⟩

theorem fee_left_after_enqueue (e0 : ExecutionItem) (uses : List Address) (k : Nat)
    (f : Amount) (hn : 0 ≤ e0.new_state_fee) (hf : 0 ≤ f) :
    fee_left { e0 with uses := uses, avail_fee := e0.avail_fee - e0.new_state_fee * (k : Int),
                       consumed_fee := e0.consumed_fee + f } ≤ fee_left e0 := by
  unfold fee_left
  simp only
  have hk : (0 : Int) ≤ e0.new_state_fee * (k : Int) := mul_nonneg hn (Int.natCast_nonneg k)
  linarith

/-- Over `enqueue` of a call that is not queued yet and whose expanded uses are known, with
fees that are not negative: every execution in the queue afterwards was there before, or is
the new call, whose `avail_fee - consumed_fee` is not above the value it has when
`QueueItem::add` creates it. -/
theorem enqueue_fee (env : Env) (s : SmartContracts) (block : Pool) (idx : Nat)
    (hidx : idx < block.transactions.length)
    (hfresh : ¬ find_in_queue s (ref_of block idx) < s.exe_queue.length)
    (hknown : uses_known env s block idx = true)
    (hnsf : 0 ≤ (block.transactions.getD idx Transaction.invalid).counted_fee)
    (hround : 0 ≤ smart_round_fee block) :
    ∃ e0, (QueueItem.create env (ref_of block idx) (called_contract env block idx)
        (block.transactions.getD idx Transaction.invalid)).executions = [e0] ∧
      ∀ it' ∈ (enqueue env s block idx).exe_queue, ∀ e' ∈ it'.executions,
        (∃ it ∈ s.exe_queue, e' ∈ it.executions) ∨
        (e'.ref_start = ref_of block idx ∧ fee_left e' ≤ fee_left e0) := by
  cases hget : s.exe_queue.get? (s.exe_queue.findIdx (fun it => it.seq_enqueue == block.sequence
      && decide (it.abs_addr = called_contract env block idx))) with
  | none =>
    have hlen := List.get?_eq_none.1 hget
    have hall := List.findIdx_eq_length.1 (Nat.le_antisymm (List.findIdx_le_length _) hlen)
    obtain ⟨e0, uses, k, b, hc, hr, hq⟩ := enqueue_new env s block idx hidx hfresh
      (fun it hit hcon => by
        have := hall it hit
        simp [hcon.1, hcon.2] at this) hknown
    refine ⟨e0, hc, ?_⟩
    intro it' hit' e' he'
    rw [hq] at hit'
    rcases List.mem_append.1 hit' with h | h
    · exact Or.inl ⟨it', h, he'⟩
    · rw [List.mem_singleton] at h
      rw [h] at he'
      simp only [List.mem_singleton] at he'
      rw [he']
      refine Or.inr ⟨hr, fee_left_after_enqueue e0 uses k _ ?_ hround⟩
      rw [(create_new_state_fee env _ _ _ e0 hc).1]
      exact hnsf
  | some old =>
    obtain ⟨e0, uses, k, b, ha, hr, -, hq⟩ := enqueue_add env s block idx old hidx hfresh
      hget hknown
    have hc : (QueueItem.create env (ref_of block idx) (called_contract env block idx)
        (block.transactions.getD idx Transaction.invalid)).executions = [e0] := by
      have h1 := add_eq_create env old (ref_of block idx) (called_contract env block idx)
        (block.transactions.getD idx Transaction.invalid)
      rw [ha] at h1
      exact (List.append_cancel_left h1).symm
    refine ⟨e0, hc, ?_⟩
    intro it' hit' e' he'
    rw [hq] at hit'
    rcases mem_set_cases _ _ _ _ hit' with h | h
    · exact Or.inl ⟨it', h, he'⟩
    · rw [h] at he'
      simp only at he'
      rcases List.mem_append.1 he' with h1 | h1
      · exact Or.inl ⟨old, mem_of_get _ _ _ hget, h1⟩
      · rw [List.mem_singleton] at h1
        rw [h1]
        refine Or.inr ⟨hr, fee_left_after_enqueue e0 uses k _ ?_ hround⟩
        rw [(create_new_state_fee env _ _ _ e0 hc).1]
        exact hnsf

/-- One iteration of the loop of `on_execution_completed_impl`: the execution the data
stands for gets `consumed_fee = executor_fee`, whatever it had consumed before; its
`avail_fee` is unchanged. -/
theorem completion_step_fee (env : Env) (i : Nat) (l : CompletionLoop)
    (d : SmartExecutionData) (it : QueueItem) (e : ExecutionItem)
    (hret : l.returned = false)
    (hg : l.s.exe_queue.get? i = some it)
    (he : it.executions.get? (find_in_queue_item it d.contract_ref) = some e) :
    ∃ it1 e1, (completion_step env i l d).s.exe_queue.get? i = some it1 ∧
      it1.executions.get? (find_in_queue_item it d.contract_ref) = some e1 ∧
      e1.ref_start = e.ref_start ∧ e1.avail_fee = e.avail_fee ∧
      e1.consumed_fee = d.executor_fee := by
  have hi := get_lt_length _ _ _ hg
  have hj := get_lt_length _ _ _ he
  have hx : ∀ x : ExecutionItem,
      (it.executions.set (find_in_queue_item it d.contract_ref) x).get?
        (find_in_queue_item it d.contract_ref) = some x := by
    intro x
    simp [hj]
  unfold completion_step
  rw [if_neg (by rw [hret]; exact Bool.false_ne_true), hg]
  simp only [he]
  split
  · exact ⟨_, _, set_item_get _ _ _ _ hg, hx _, rfl, rfl, rfl⟩
  · split
    · exact ⟨_, _, set_item_get _ _ _ _ hg, hx _, rfl, rfl, rfl⟩
    · exact ⟨_, _, set_item_get _ _ _ _ hg, hx _, rfl, rfl, rfl⟩

end cs
namespace cs
open csdb

/-- C11 (as amended). Fee non-increase, operation by operation, from a scheduler `s`.
(1) `enqueue` with its uses expansion, for a call that is not queued yet and whose expanded
uses are known, with a `new_state_fee` and a round fee that are not negative: every
execution in the queue afterwards was there before, unchanged, or is the new call, whose
`avail_fee - consumed_fee` does not exceed its initial value, the one `QueueItem::add`
gives it (with `consumed_fee = 0`).
(2) `test_exe_conditions` for a block whose round fee is not negative, over every turn of
its loop and over the whole pass, with the scheduler `s'` it leaves: every execution of an
item that is Waiting or Running afterwards is an execution of an item that was Waiting or
Running before, and its `avail_fee - consumed_fee` did not increase.
(3) `on_reject`: every execution in the queue afterwards is an execution that was in the
queue before, with the same `avail_fee - consumed_fee`.
(4) In `on_execution_completed_impl`, the iteration for the data of a call sets the
`consumed_fee` of the call to the `executor_fee` of the data, whatever was consumed before:
`avail_fee - consumed_fee` becomes `avail_fee - executor_fee`. -/
theorem fee_left_by_operation (env : Env) (s : SmartContracts) :
    (∀ (block : Pool) (idx : Nat), idx < block.transactions.length →
      ¬ find_in_queue s (ref_of block idx) < s.exe_queue.length →
      uses_known env s block idx = true →
      0 ≤ (block.transactions.getD idx Transaction.invalid).counted_fee →
      0 ≤ smart_round_fee block →
      ∃ e0, (QueueItem.create env (ref_of block idx) (called_contract env block idx)
          (block.transactions.getD idx Transaction.invalid)).executions = [e0] ∧
        e0.consumed_fee = 0 ∧
        ∀ it' ∈ (enqueue env s block idx).exe_queue, ∀ e' ∈ it'.executions,
          (∃ it ∈ s.exe_queue, e' ∈ it.executions) ∨
          (e'.ref_start = ref_of block idx ∧ fee_left e' ≤ fee_left e0)) ∧
    (∀ block : Pool, 0 ≤ smart_round_fee block →
      (∀ (i : Nat) (item : QueueItem), s.exe_queue.get? i = some item →
        ∀ it' ∈ (test_exe_conditions_step env block s i item).exe_queue,
          (it'.status = .Waiting ∨ it'.status = .Running) →
          ∀ e' ∈ it'.executions, ∃ it ∈ s.exe_queue,
            (it.status = .Waiting ∨ it.status = .Running) ∧
            ∃ e ∈ it.executions, e.ref_start = e'.ref_start ∧ fee_left e' ≤ fee_left e) ∧
      (∀ s' : SmartContracts, test_exe_conditions env s block = some s' →
        ∀ it' ∈ s'.exe_queue,
          (it'.status = .Waiting ∨ it'.status = .Running) →
          ∀ e' ∈ it'.executions, ∃ it ∈ s.exe_queue,
            (it.status = .Waiting ∨ it.status = .Running) ∧
            ∃ e ∈ it.executions, e.ref_start = e'.ref_start ∧ fee_left e' ≤ fee_left e)) ∧
    (∀ reject_list : List (Sequence × Nat),
      ∀ it' ∈ (on_reject env s reject_list).exe_queue,
        ∀ e' ∈ it'.executions, ∃ it ∈ s.exe_queue, ∃ e ∈ it.executions,
          e'.ref_start = e.ref_start ∧ fee_left e' = fee_left e) ∧
    (∀ (i : Nat) (next_id : Int) (packet : TransactionsPacket) (d : SmartExecutionData)
        (it : QueueItem) (e : ExecutionItem),
      s.exe_queue.get? i = some it →
      it.executions.get? (find_in_queue_item it d.contract_ref) = some e →
      ∃ it1 e1,
        (completion_step env i
          { s := s, next_id := next_id, integral_packet := packet, returned := false }
          d).s.exe_queue.get? i = some it1 ∧
        it1.executions.get? (find_in_queue_item it d.contract_ref) = some e1 ∧
        e1.ref_start = e.ref_start ∧ e1.consumed_fee = d.executor_fee ∧
        fee_left e1 = e.avail_fee - d.executor_fee) := by
  refine ⟨?_, ?_, ?_, ?_⟩
  · intro block idx hidx hfresh hknown hnsf hround
    obtain ⟨e0, hc, h⟩ := enqueue_fee env s block idx hidx hfresh hknown hnsf hround
    exact ⟨e0, hc, (create_new_state_fee env _ _ _ e0 hc).2, h⟩
  · intro block hf
    constructor
    · intro i item hget it' hit' hl e' he'
      obtain ⟨it, hit, hl0, e, he, h1, h2, h3⟩ :=
        test_exe_conditions_step_fee env s block hf i item hget it' hit' hl e' he'
      refine ⟨it, hit, hl0, e, he, h1, ?_⟩
      unfold fee_left
      rw [h2]
      exact sub_le_sub_left h3 _
    · intro s' hres it' hit' hl e' he'
      obtain ⟨it, hit, hl0, e, he, h1, h2, h3⟩ :=
        test_exe_conditions_fee env s block hf s' hres it' hit' hl e' he'
      refine ⟨it, hit, hl0, e, he, h1, ?_⟩
      unfold fee_left
      rw [h2]
      exact sub_le_sub_left h3 _
  · intro reject_list it' hit' e' he'
    obtain ⟨it, hit, e, he, h1, h2, h3⟩ := on_reject_fee env s reject_list it' hit' e' he'
    refine ⟨it, hit, e, he, h1, ?_⟩
    unfold fee_left
    rw [h2, h3]
  · intro i next_id packet d it e hg he
    obtain ⟨it1, e1, h1, h2, h3, h4, h5⟩ := completion_step_fee env i
      { s := s, next_id := next_id, integral_packet := packet, returned := false } d it e
      rfl hg he
    refine ⟨it1, e1, h1, h2, h3, h5, ?_⟩
    unfold fee_left
    rw [h4, h5]

/-- Counterexample to C11: on the executor node `[3]`, after block 1 has been stored each of
its two calls has `avail_fee - consumed_fee = 98 - 2 = 96` (the fee of the first round is
consumed); when the executor hands back the two results with the fee `1` each,
`on_execution_completed_impl` leaves `consumed_fee = 1`, less than the round fee consumed
before, and `avail_fee - consumed_fee = 97`. -/
theorem completion_raises_fee_left_counterexample :
    sample.executor_after_block1.exe_queue.map
        (fun it => it.executions.map
          (fun e => (e.ref_start.transaction, e.consumed_fee, fee_left e)))
      = [[(0, 2, 96), (1, 2, 96)]] ∧
    (on_execution_completed_impl (sample.env_consensus [sample.block1])
        sample.executor_after_block1 [sample.executed 0 1, sample.executed 1 1]).exe_queue.map
        (fun it => it.executions.map
          (fun e => (e.ref_start.transaction, e.consumed_fee, fee_left e)))
      = [[(0, 1, 97), (1, 1, 97)]] := by
  decide

end cs
namespace cs
open csdb

/-- C11 (as amended) at the scheduler of the executor node `[3]` after block 1: the call of
block 2 is enqueued, the pass of `test_exe_conditions` for block 2 charges the round fee, and
the completion of the first call of block 1 with the fee `1` leaves `consumed_fee = 1`. -/
theorem fee_left_by_operation_witness :
    (∃ e0, (QueueItem.create (sample.env_consensus [sample.block1, sample.block2_call])
          (ref_of sample.block2_call 0)
          (called_contract (sample.env_consensus [sample.block1, sample.block2_call])
            sample.block2_call 0)
          (sample.block2_call.transactions.getD 0 Transaction.invalid)).executions = [e0] ∧
        e0.consumed_fee = 0 ∧
        ∀ it' ∈ (enqueue (sample.env_consensus [sample.block1, sample.block2_call])
            sample.executor_after_block1 sample.block2_call 0).exe_queue,
          ∀ e' ∈ it'.executions,
            (∃ it ∈ sample.executor_after_block1.exe_queue, e' ∈ it.executions) ∨
            (e'.ref_start = ref_of sample.block2_call 0 ∧ fee_left e' ≤ fee_left e0)) ∧
    (∃ s', test_exe_conditions (sample.env_consensus [sample.block1, sample.block2_call])
          sample.executor_after_block1 sample.block2_call = some s' ∧
      ∀ it' ∈ s'.exe_queue,
        (it'.status = .Waiting ∨ it'.status = .Running) →
        ∀ e' ∈ it'.executions, ∃ it ∈ sample.executor_after_block1.exe_queue,
          (it.status = .Waiting ∨ it.status = .Running) ∧
          ∃ e ∈ it.executions, e.ref_start = e'.ref_start ∧ fee_left e' ≤ fee_left e) ∧
    (∀ it' ∈ (test_exe_conditions_step
          (sample.env_consensus [sample.block1, sample.block2_call]) sample.block2_call
          sample.executor_after_block1 0 sample.executor_item).exe_queue,
        (it'.status = .Waiting ∨ it'.status = .Running) →
        ∀ e' ∈ it'.executions, ∃ it ∈ sample.executor_after_block1.exe_queue,
          (it.status = .Waiting ∨ it.status = .Running) ∧
          ∃ e ∈ it.executions, e.ref_start = e'.ref_start ∧ fee_left e' ≤ fee_left e) ∧
    (∃ it1 e1,
        (completion_step (sample.env_consensus [sample.block1, sample.block2_call]) 0
          { s := sample.executor_after_block1, next_id := 0, integral_packet := [],
            returned := false }
          (sample.executed 0 1)).s.exe_queue.get? 0 = some it1 ∧
        it1.executions.get?
          (find_in_queue_item sample.executor_item (sample.executed 0 1).contract_ref)
          = some e1 ∧
        e1.ref_start = { hash := ⟨[7, 1]⟩, sequence := 1, transaction := 0 } ∧
        e1.consumed_fee = 1 ∧ fee_left e1 = 98 - 1) :=
  have h := fee_left_by_operation (sample.env_consensus [sample.block1, sample.block2_call])
    sample.executor_after_block1
  ⟨h.1 sample.block2_call 0 (by decide) (by decide) (by decide) (by decide) (by decide),
    ⟨(test_exe_conditions_loop (sample.env_consensus [sample.block1, sample.block2_call])
        sample.block2_call 1 0 sample.executor_after_block1).getD sample.executor_after_block1,
      by decide,
      (h.2.1 sample.block2_call (by decide)).2 _ (by decide)⟩,
    (h.2.1 sample.block2_call (by decide)).1 0 sample.executor_item (by decide),
    h.2.2.2 0 0 [] (sample.executed 0 1) sample.executor_item
      { ref_start := { hash := ⟨[7, 1]⟩, sequence := 1, transaction := 0 }, avail_fee := 98,
        new_state_fee := 1, consumed_fee := 2, uses := [], result := [] }
      (by decide) (by decide)⟩

end cs

namespace cs

open csdb

/-- The flag of `charge_round_fee`: some execution is out of funds once the round fee is
added to its consumed fee. -/
theorem charge_round_fee_flag (f : Amount) (l : List ExecutionItem) :
    (charge_round_fee f l).2 = true ↔ ∃ e ∈ l, e.avail_fee < e.consumed_fee + f := by
  induction l with
  | nil => simp [charge_round_fee]
  | cons a l ih =>
    unfold charge_round_fee
    by_cases h : a.avail_fee < a.consumed_fee + f
    · simp only [h, if_true]
      exact ⟨fun _ => ⟨a, List.mem_cons_self _ _, h⟩, fun _ => trivial⟩
    · simp only [h, if_false]
      rw [ih]
      constructor
      · rintro ⟨e, he, hlt⟩
        exact ⟨e, List.mem_cons_of_mem _ he, hlt⟩
      · rintro ⟨e, he, hlt⟩
        rcases List.mem_cons.1 he with rfl | he
        · exact absurd hlt h
        · exact ⟨e, he, hlt⟩

/-- When no execution is out of funds, `charge_round_fee` adds the fee to every one. -/
theorem charge_round_fee_all (f : Amount) (l : List ExecutionItem)
    (h : ∀ e ∈ l, ¬ e.avail_fee < e.consumed_fee + f) :
    charge_round_fee f l
      = (l.map (fun e => { e with consumed_fee := e.consumed_fee + f }), false) := by
  induction l with
  | nil => rfl
  | cons a l ih =>
    unfold charge_round_fee
    have ha := h a (List.mem_cons_self _ _)
    simp only [ha, if_false]
    rw [ih (fun e he => h e (List.mem_cons_of_mem _ he))]
    rfl

/-- The head of the charged list carries the reference of the head. -/
theorem charge_round_fee_head (f : Amount) (e0 : ExecutionItem) (rest : List ExecutionItem) :
    ∃ rest', (charge_round_fee f (e0 :: rest)).1
      = { e0 with consumed_fee := e0.consumed_fee + f } :: rest' := by
  unfold charge_round_fee
  simp only
  split
  · exact ⟨_, rfl⟩
  · exact ⟨_, rfl⟩

/-- An execution cancelled after the round fee was charged is the original one, cancelled:
the completion overwrites the consumed fee. -/
theorem cancelled_with_of_charged (env : Env) (code : Nat) (f : Amount) :
    ∀ (l Y : List ExecutionItem),
      List.Forall₂ (cancelled_with env code) (charge_round_fee f l).1 Y →
      List.Forall₂ (cancelled_with env code) l Y := by
  intro l
  induction l with
  | nil =>
    intro Y h
    exact h
  | cons a l ih =>
    intro Y h
    unfold charge_round_fee at h
    simp only at h
    split at h
    · cases h with
      | cons h1 h2 => exact List.Forall₂.cons h1 h2
    · cases h with
      | cons h1 h2 => exact List.Forall₂.cons h1 (ih _ h2)

/-- The turn of the pass on a Running item that is past neither limit. -/
theorem test_exe_conditions_step_funds (env : Env) (block : Pool) (s : SmartContracts) (i : Nat)
    (item : QueueItem)
    (hrun : item.status = .Running)
    (hnotsoft : block.sequence - item.seq_start ≤ env.MaxRoundsExecuteContract)
    (hnothard : block.sequence - item.seq_start ≤ env.MaxRoundsCancelContract) :
    test_exe_conditions_step env block s i item
      = if (charge_round_fee (smart_round_fee block) item.executions).2 = true then
          cancel_item env
            (set_item s i
              { item with
                executions := (charge_round_fee (smart_round_fee block) item.executions).1 })
            i
            { item with
              executions := (charge_round_fee (smart_round_fee block) item.executions).1 }
            block.sequence error_OutOfFunds "contract execution is out of funds"
        else
          set_item s i
            { item with
              executions := (charge_round_fee (smart_round_fee block) item.executions).1 } := by
  unfold test_exe_conditions_step
  simp only [hard_timeout_iff]
  have h1 : ¬ (item.status ≠ .Running ∧ item.status ≠ .Finished) := fun h => h.1 hrun
  rw [if_neg h1, if_neg (by omega), if_pos hrun, if_neg (by omega)]

end cs
namespace cs

open csdb

end cs
namespace cs

open csdb

end cs
namespace cs

open csdb

/-- C23. A duplicate enqueue is a no-op: when an execution of some queue item already
carries the reference (block sequence, transaction index) of the call, `enqueue` returns the
scheduler as it was, so `exe_queue` (items, executions, statuses, fees) and
`known_contracts` are unchanged. -/
theorem enqueue_duplicate_noop (env : Env) (s : SmartContracts) (block : Pool) (trx_idx : Nat)
    (h : ∃ it ∈ s.exe_queue, ∃ e ∈ it.executions,
      e.ref_start.sequence = block.sequence ∧ e.ref_start.transaction = trx_idx) :
    enqueue env s block trx_idx = s ∧
    (enqueue env s block trx_idx).exe_queue = s.exe_queue ∧
    (enqueue env s block trx_idx).known_contracts = s.known_contracts := by
  have key : enqueue env s block trx_idx = s := by
    obtain ⟨it, hit, e, he, hseq, htr⟩ := h
    have hfind : find_in_queue s
        { hash := block.hash, sequence := block.sequence, transaction := trx_idx }
          < s.exe_queue.length := by
      unfold find_in_queue
      apply List.findIdx_lt_length_of_exists
      refine ⟨it, hit, ?_⟩
      rw [List.any_eq_true]
      refine ⟨e, he, ?_⟩
      simp [SmartContractRef.same, hseq, htr]
    unfold enqueue
    by_cases h1 : trx_idx ≥ block.transactions.length
    · rw [if_pos h1]
    · rw [if_neg h1]
      simp only [hfind, if_true]
  exact ⟨key, by rw [key], by rw [key]⟩

/-- The call of block 1 (transaction 1) is queued after block 1 has been stored; enqueuing it
once more changes nothing. -/
theorem enqueue_duplicate_noop_witness :
    (∃ it ∈ sample.after_block1.exe_queue, ∃ e ∈ it.executions,
      e.ref_start.sequence = sample.block1.sequence ∧ e.ref_start.transaction = 1) ∧
    enqueue (sample.env [sample.block1]) sample.after_block1 sample.block1 1
      = sample.after_block1 :=
  have h : ∃ it ∈ sample.after_block1.exe_queue, ∃ e ∈ it.executions,
      e.ref_start.sequence = sample.block1.sequence ∧ e.ref_start.transaction = 1 := by
    decide
  ⟨h, (enqueue_duplicate_noop (sample.env [sample.block1]) sample.after_block1 sample.block1 1
    h).1⟩

end cs
namespace cs

open csdb

/-- C30. Transaction classification is exclusive and exhaustive: no two of `is_deploy`,
`is_start` and `is_new_state` hold of one transaction; a transaction for which
`is_smart_contract` holds satisfies one of the three; and the dispatch of `on_store_block`
hands such a transaction to exactly one handler, `on_new_state` when it is a new-state and
`enqueue` when it is a deploy or a start. -/
theorem classification_exclusive_exhaustive (env : Env) (tr : Transaction) :
    ¬ (is_deploy env tr = true ∧ is_start env tr = true) ∧
    ¬ (is_deploy env tr = true ∧ is_new_state tr = true) ∧
    ¬ (is_start env tr = true ∧ is_new_state tr = true) ∧
    (is_smart_contract tr = true →
      (is_deploy env tr = true ∨ is_start env tr = true ∨ is_new_state tr = true) ∧
      ∀ (s : SmartContracts) (block : Pool) (tr_idx : Nat),
        (is_new_state tr = true →
          inspect_transaction env s block tr_idx tr = on_new_state env s block tr_idx) ∧
        (is_deploy env tr = true ∨ is_start env tr = true →
          inspect_transaction env s block tr_idx tr = enqueue env s block tr_idx)) := by
  have hd : is_deploy env tr = true → is_executable tr = true := by
    intro h
    unfold is_deploy at h
    by_cases he : is_executable tr = true
    · exact he
    · simp [he] at h
  have hs : is_start env tr = true →
      is_executable tr = true ∧ is_deploy env tr = false := by
    intro h
    unfold is_start at h
    simpa using h
  have hx : is_executable tr = true → is_new_state tr = false := by
    intro h
    unfold is_executable at h
    simp at h
    exact h.2
  refine ⟨?_, ?_, ?_, ?_⟩
  · rintro ⟨h1, h2⟩
    rw [(hs h2).2] at h1
    exact Bool.false_ne_true h1
  · rintro ⟨h1, h2⟩
    rw [hx (hd h1)] at h2
    exact Bool.false_ne_true h2
  · rintro ⟨h1, h2⟩
    rw [hx (hs h1).1] at h2
    exact Bool.false_ne_true h2
  · intro hsm
    have hcases : is_deploy env tr = true ∨ is_start env tr = true ∨ is_new_state tr = true := by
      by_cases hn : is_new_state tr = true
      · exact Or.inr (Or.inr hn)
      · by_cases hdp : is_deploy env tr = true
        · exact Or.inl hdp
        · refine Or.inr (Or.inl ?_)
          unfold is_start is_executable
          simp [hsm, hn, hdp]
    refine ⟨hcases, ?_⟩
    intro s block tr_idx
    constructor
    · intro hn
      have hne : is_executable tr = false := by
        unfold is_executable
        simp [hn]
      have hdf : is_deploy env tr = false := by
        cases h : is_deploy env tr
        · rfl
        · rw [hd h] at hne
          exact absurd hne (by decide)
      have hsf : is_start env tr = false := by
        unfold is_start
        simp [hne]
      unfold inspect_transaction
      simp [hsm, hdf, hsf, hn]
    · intro h
      unfold inspect_transaction
      rcases h with h | h
      · simp [hsm, h]
      · simp [hsm, h, (hs h).2]

/-- The classification on the sample transactions: the call `tx_start` of block 1 is a start
and is enqueued, the new-state of block 2 goes to `on_new_state`. -/
theorem classification_exclusive_exhaustive_witness :
    is_smart_contract sample.tx_start = true ∧
    is_start (sample.env [sample.block1]) sample.tx_start = true ∧
    inspect_transaction (sample.env [sample.block1]) (SmartContracts.init [8] false)
        sample.block1 1 sample.tx_start
      = enqueue (sample.env [sample.block1]) (SmartContracts.init [8] false) sample.block1 1 ∧
    is_smart_contract sample.tx_new_state = true ∧
    is_new_state sample.tx_new_state = true ∧
    inspect_transaction (sample.env [sample.block1, sample.block2]) sample.after_block1
        sample.block2 0 sample.tx_new_state
      = on_new_state (sample.env [sample.block1, sample.block2]) sample.after_block1
          sample.block2 0 :=
  ⟨by decide, by decide,
    (((classification_exclusive_exhaustive (sample.env [sample.block1]) sample.tx_start).2.2.2
      (by decide)).2 (SmartContracts.init [8] false) sample.block1 1).2 (Or.inr (by decide)),
    by decide, by decide,
    (((classification_exclusive_exhaustive (sample.env [sample.block1, sample.block2])
      sample.tx_new_state).2.2.2 (by decide)).2 sample.after_block1 sample.block2 0).1
      (by decide)⟩

end cs

namespace cs

open csdb

/-- The expansion `add_uses_from` only appends to the list of uses. -/
theorem add_uses_from_appends (env : Env) :
    ∀ (fuel : Nat) (s : SmartContracts) (a : Address) (m : String) (uses : List Address),
      ∃ added, (add_uses_from env fuel s a m uses).1 = uses ++ added := by
  intro fuel
  induction fuel with
  | zero => intro s a m uses; exact ⟨[], by simp [add_uses_from]⟩
  | succ n ih =>
    intro s a m uses
    unfold add_uses_from
    split
    · exact ⟨[], by simp⟩
    · rename_i st hst
      simp only
      have hfold : ∀ (l : List (Address × String)) (acc : List Address × SmartContracts),
          ∃ added, (l.foldl (fun (acc : List Address × SmartContracts) sub =>
            if acc.1.contains sub.1 then acc
            else add_uses_from env n acc.2 sub.1 sub.2 (acc.1 ++ [sub.1])) acc).1
            = acc.1 ++ added := by
        intro l
        induction l with
        | nil => intro acc; exact ⟨[], by simp⟩
        | cons x l ihl =>
          intro acc
          rw [List.foldl_cons]
          obtain ⟨added, h⟩ := ihl (if acc.1.contains x.1 then acc
            else add_uses_from env n acc.2 x.1 x.2 (acc.1 ++ [x.1]))
          rw [h]
          split_ifs
          · exact ⟨added, rfl⟩
          · obtain ⟨added', h'⟩ := ih acc.2 x.1 x.2 (acc.1 ++ [x.1])
            rw [h']
            exact ⟨[x.1] ++ added' ++ added, by simp⟩
      exact hfold _ _

/-- The execution that `QueueItem::add` appends. -/
theorem add_execution_fields (env : Env) (item : QueueItem) (r : SmartContractRef)
    (t : Transaction) :
    ∃ e0, QueueItem.add env item r t = { item with executions := item.executions ++ [e0] } ∧
      e0.ref_start = r ∧ e0.consumed_fee = 0 ∧ e0.new_state_fee = t.counted_fee ∧
      e0.uses = declared_uses env t ∧
      e0.avail_fee = t.max_fee - t.counted_fee - t.counted_fee
        - t.counted_fee * ((declared_uses env t).length : Int) :=
  ⟨_, rfl, rfl, rfl, rfl, rfl, rfl⟩

/-- The second part of `enqueue` as in `enqueue_tail_shape`, with the uses and the fee of
the execution told: the uses are those the execution had followed by the added ones, and
`new_state_fee` is taken from `avail_fee` once for every added one. -/
theorem enqueue_tail_uses (env : Env) (block : Pool) (new_item : SmartContractRef)
    (abs_addr : Address) (s1 : SmartContracts) (pos : Nat) (it : QueueItem)
    (execution : ExecutionItem)
    (hget : s1.exe_queue.get? pos = some it)
    (hj : it.executions.get? (find_in_queue_item it new_item) = some execution)
    (hk : (add_uses_from env (uses_fuel env (get_executed_method_name env s1 new_item).2)
        (get_executed_method_name env s1 new_item).2 abs_addr
        (get_executed_method_name env s1 new_item).1 execution.uses).1.all
        (fun u => in_known_contracts env
          (add_uses_from env (uses_fuel env (get_executed_method_name env s1 new_item).2)
            (get_executed_method_name env s1 new_item).2 abs_addr
            (get_executed_method_name env s1 new_item).1 execution.uses).2 u) = true) :
    ∃ (added : List Address) (b : Bool),
      (match s1.exe_queue.get? pos with
        | none => s1
        | some it =>
          let finish (s' : SmartContracts) : SmartContracts :=
            match s'.exe_queue.get? pos with
            | none => s'
            | some it' =>
              let u := update_status env s' it' new_item.sequence .Waiting
              set_item u.2 pos { u.1 with is_executor := contains_me u.2 block.confidants }
          let j := find_in_queue_item it new_item
          match it.executions.get? j with
          | none => finish s1
          | some execution =>
            let m := get_executed_method_name env s1 new_item
            let cnt_0 := execution.uses.length
            let au := add_uses_from env (uses_fuel env m.2) m.2 abs_addr m.1 execution.uses
            let cnt := au.1.length
            let write (e : ExecutionItem) : SmartContracts :=
              set_item au.2 pos { it with executions := it.executions.set j e }
            if au.1.any (fun u => !in_known_contracts env au.2 u) then
              remove_from_queue env (write { execution with uses := au.1 }) new_item
            else
              finish (write
                { execution with
                  uses := au.1,
                  avail_fee := execution.avail_fee - execution.new_state_fee * ((cnt - cnt_0 : Nat) : Int),
                  consumed_fee := execution.consumed_fee + smart_round_fee block })).exe_queue
        = s1.exe_queue.set pos
            { it with
              executions := it.executions.set (find_in_queue_item it new_item)
                { execution with
                  uses := execution.uses ++ added,
                  avail_fee := execution.avail_fee
                    - execution.new_state_fee * (added.length : Int),
                  consumed_fee := execution.consumed_fee + smart_round_fee block },
              status := .Waiting, seq_enqueue := new_item.sequence, is_executor := b } := by
  have hany : (add_uses_from env (uses_fuel env (get_executed_method_name env s1 new_item).2)
        (get_executed_method_name env s1 new_item).2 abs_addr
        (get_executed_method_name env s1 new_item).1 execution.uses).1.any
        (fun u => !in_known_contracts env
          (add_uses_from env (uses_fuel env (get_executed_method_name env s1 new_item).2)
            (get_executed_method_name env s1 new_item).2 abs_addr
            (get_executed_method_name env s1 new_item).1 execution.uses).2 u) = false := by
    rw [List.any_eq_false]
    intro x hx
    rw [List.all_eq_true] at hk
    simp [hk x hx]
  have hq : (add_uses_from env (uses_fuel env (get_executed_method_name env s1 new_item).2)
        (get_executed_method_name env s1 new_item).2 abs_addr
        (get_executed_method_name env s1 new_item).1 execution.uses).2.exe_queue
        = s1.exe_queue := by
    rw [add_uses_from_exe_queue, get_executed_method_name_exe_queue]
  obtain ⟨added, hadd⟩ := add_uses_from_appends env
    (uses_fuel env (get_executed_method_name env s1 new_item).2)
    (get_executed_method_name env s1 new_item).2 abs_addr
    (get_executed_method_name env s1 new_item).1 execution.uses
  simp only [hget, hj]
  generalize add_uses_from env (uses_fuel env (get_executed_method_name env s1 new_item).2)
        (get_executed_method_name env s1 new_item).2 abs_addr
        (get_executed_method_name env s1 new_item).1 execution.uses = au at hk hany hq hadd ⊢
  rw [if_neg (by rw [hany]; exact Bool.false_ne_true)]
  have hget2 : au.2.exe_queue.get? pos = some it := by rw [hq]; exact hget
  refine ⟨added, contains_me au.2 block.confidants, ?_⟩
  rw [← hq]
  have hlen : au.1.length - execution.uses.length = added.length := by
    rw [hadd, List.length_append]; omega
  rw [hlen, hadd]
  exact enqueue_finish_shape env block new_item.sequence au.2 pos it _ hget2

end cs
namespace cs

open csdb

theorem enqueue_new_uses (env : Env) (s : SmartContracts) (block : Pool) (idx : Nat)
    (hidx : idx < block.transactions.length)
    (hfresh : ¬ find_in_queue s (ref_of block idx) < s.exe_queue.length)
    (hnone : ∀ it ∈ s.exe_queue,
      ¬ (it.seq_enqueue = block.sequence ∧ it.abs_addr = called_contract env block idx))
    (hknown : uses_known env s block idx = true) :
    ∃ (e0 : ExecutionItem) (added : List Address) (b : Bool),
      e0.ref_start = ref_of block idx
      ∧ e0.new_state_fee = (block.transactions.getD idx Transaction.invalid).counted_fee
      ∧ e0.uses = declared_uses env (block.transactions.getD idx Transaction.invalid)
      ∧ e0.avail_fee = (block.transactions.getD idx Transaction.invalid).max_fee
          - (block.transactions.getD idx Transaction.invalid).counted_fee
          - (block.transactions.getD idx Transaction.invalid).counted_fee
          - (block.transactions.getD idx Transaction.invalid).counted_fee
            * ((declared_uses env (block.transactions.getD idx Transaction.invalid)).length : Int)
      ∧ (enqueue env s block idx).exe_queue = s.exe_queue ++
        [{ executions :=
             [{ e0 with uses := e0.uses ++ added,
                        avail_fee := e0.avail_fee - e0.new_state_fee * (added.length : Int),
                        consumed_fee := e0.consumed_fee + smart_round_fee block }],
           status := .Waiting, seq_enqueue := block.sequence, seq_start := 0, seq_finish := 0,
           abs_addr := called_contract env block idx, is_executor := b,
           is_rejected := false }] := by
  have hpos : s.exe_queue.findIdx (fun it => it.seq_enqueue == block.sequence
      && decide (it.abs_addr = called_contract env block idx)) = s.exe_queue.length := by
    apply findIdx_none
    intro x hx
    have := hnone x hx
    by_contra hc
    simp only [Bool.not_eq_false, Bool.and_eq_true, beq_iff_eq, decide_eq_true_eq] at hc
    exact this hc
  have hget : s.exe_queue.get? (s.exe_queue.findIdx (fun it => it.seq_enqueue == block.sequence
      && decide (it.abs_addr = called_contract env block idx))) = none := by
    rw [hpos]; exact List.get?_eq_none.2 (le_refl _)
  obtain ⟨e0, he0, hr0, -, hn0, hu0, ha0⟩ := add_execution_fields env
    { executions := [], status := .Waiting, seq_enqueue := 0, seq_start := 0, seq_finish := 0,
      abs_addr := called_contract env block idx, is_executor := false, is_rejected := false }
    (ref_of block idx) (block.transactions.getD idx Transaction.invalid)
  have hcreate : QueueItem.create env (ref_of block idx) (called_contract env block idx)
      (block.transactions.getD idx Transaction.invalid)
      = { executions := [e0], status := .Waiting, seq_enqueue := 0, seq_start := 0,
          seq_finish := 0, abs_addr := called_contract env block idx, is_executor := false,
          is_rejected := false } := he0
  have hfind : find_in_queue_item
      (QueueItem.create env (ref_of block idx) (called_contract env block idx)
        (block.transactions.getD idx Transaction.invalid)) (ref_of block idx) = 0 := by
    rw [hcreate]
    unfold find_in_queue_item
    simp only [List.findIdx_cons, hr0, same_refl, cond_true]
  have hframe : (print_executed_method env (enqueue_metadata env s (ref_of block idx)
      (block.transactions.getD idx Transaction.invalid) (called_contract env block idx))
      (ref_of block idx)).exe_queue = s.exe_queue := by
    rw [print_executed_method_exe_queue, enqueue_metadata_exe_queue]
  unfold uses_known enqueue_uses enqueue_place at hknown
  unfold enqueue
  rw [if_neg (Nat.not_le.2 hidx)]
  unfold called_contract ref_of at *
  simp only [hget] at hknown
  simp only
  rw [if_neg hfresh]
  simp only [hget]
  generalize hS : print_executed_method env (enqueue_metadata env s _ _ _) _ = S
    at hknown hframe ⊢
  have hg1 : ({ S with exe_queue := S.exe_queue ++ [QueueItem.create env
        { hash := block.hash, sequence := block.sequence, transaction := idx }
        (env.absolute_address (block.transactions.getD idx Transaction.invalid).target)
        (block.transactions.getD idx Transaction.invalid)] } : SmartContracts).exe_queue.get?
      (s.exe_queue.findIdx (fun it => it.seq_enqueue == block.sequence
        && decide (it.abs_addr
          = env.absolute_address (block.transactions.getD idx Transaction.invalid).target)))
      = some (QueueItem.create env
        { hash := block.hash, sequence := block.sequence, transaction := idx }
        (env.absolute_address (block.transactions.getD idx Transaction.invalid).target)
        (block.transactions.getD idx Transaction.invalid)) := by
    rw [hpos]
    show (S.exe_queue ++ [_]).get? _ = _
    rw [hframe]
    exact get_append_first _ _ _
  have hj : (QueueItem.create env
        { hash := block.hash, sequence := block.sequence, transaction := idx }
        (env.absolute_address (block.transactions.getD idx Transaction.invalid).target)
        (block.transactions.getD idx Transaction.invalid)).executions.get?
      (find_in_queue_item (QueueItem.create env
        { hash := block.hash, sequence := block.sequence, transaction := idx }
        (env.absolute_address (block.transactions.getD idx Transaction.invalid).target)
        (block.transactions.getD idx Transaction.invalid))
        { hash := block.hash, sequence := block.sequence, transaction := idx }) = some e0 := by
    rw [hfind, hcreate]; rfl
  have hg1k := hg1
  simp only at hg1k
  simp only [hg1k, hj] at hknown
  obtain ⟨added, b, h⟩ := enqueue_tail_uses env block
    { hash := block.hash, sequence := block.sequence, transaction := idx }
    (env.absolute_address (block.transactions.getD idx Transaction.invalid).target)
    _ _ _ e0 hg1 hj hknown
  refine ⟨e0, added, b, hr0, hn0, hu0, ha0, ?_⟩
  refine Eq.trans h ?_
  show (S.exe_queue ++ [_]).set _ _ = _
  rw [hpos, hframe, hfind, hcreate]
  exact set_append_first _ _ _ _

theorem enqueue_add_uses (env : Env) (s : SmartContracts) (block : Pool) (idx : Nat)
    (old : QueueItem)
    (hidx : idx < block.transactions.length)
    (hfresh : ¬ find_in_queue s (ref_of block idx) < s.exe_queue.length)
    (hget : s.exe_queue.get? (s.exe_queue.findIdx (fun it => it.seq_enqueue == block.sequence
      && decide (it.abs_addr = called_contract env block idx))) = some old)
    (hknown : uses_known env s block idx = true) :
    ∃ (e0 : ExecutionItem) (added : List Address) (b : Bool),
      e0.ref_start = ref_of block idx
      ∧ e0.new_state_fee = (block.transactions.getD idx Transaction.invalid).counted_fee
      ∧ e0.uses = declared_uses env (block.transactions.getD idx Transaction.invalid)
      ∧ e0.avail_fee = (block.transactions.getD idx Transaction.invalid).max_fee
          - (block.transactions.getD idx Transaction.invalid).counted_fee
          - (block.transactions.getD idx Transaction.invalid).counted_fee
          - (block.transactions.getD idx Transaction.invalid).counted_fee
            * ((declared_uses env (block.transactions.getD idx Transaction.invalid)).length : Int)
      ∧ (enqueue env s block idx).exe_queue = s.exe_queue.set
        (s.exe_queue.findIdx (fun it => it.seq_enqueue == block.sequence
          && decide (it.abs_addr = called_contract env block idx)))
        { old with
          executions := old.executions ++
             [{ e0 with uses := e0.uses ++ added,
                        avail_fee := e0.avail_fee - e0.new_state_fee * (added.length : Int),
                        consumed_fee := e0.consumed_fee + smart_round_fee block }],
          status := .Waiting, seq_enqueue := block.sequence, is_executor := b } := by
  obtain ⟨e0, he0, hr0, -, hn0, hu0, ha0⟩ := add_execution_fields env old
    (ref_of block idx) (block.transactions.getD idx Transaction.invalid)
  have hold := fresh_in_item s (ref_of block idx) _ old hfresh hget
  have hfind : find_in_queue_item
      (QueueItem.add env old (ref_of block idx)
        (block.transactions.getD idx Transaction.invalid)) (ref_of block idx)
      = old.executions.length := by
    rw [he0]
    unfold find_in_queue_item
    exact findIdx_append_first _ _ [] e0 hold (by rw [hr0]; exact same_refl _)
  unfold uses_known enqueue_uses enqueue_place at hknown
  unfold enqueue
  rw [if_neg (Nat.not_le.2 hidx)]
  unfold called_contract ref_of at *
  simp only [hget] at hknown
  simp only
  rw [if_neg hfresh]
  simp only [hget]
  have hg1 : (set_item s (s.exe_queue.findIdx (fun it => it.seq_enqueue == block.sequence
        && decide (it.abs_addr
          = env.absolute_address (block.transactions.getD idx Transaction.invalid).target)))
        (QueueItem.add env old
          { hash := block.hash, sequence := block.sequence, transaction := idx }
          (block.transactions.getD idx Transaction.invalid))).exe_queue.get?
      (s.exe_queue.findIdx (fun it => it.seq_enqueue == block.sequence
        && decide (it.abs_addr
          = env.absolute_address (block.transactions.getD idx Transaction.invalid).target)))
      = some (QueueItem.add env old
        { hash := block.hash, sequence := block.sequence, transaction := idx }
        (block.transactions.getD idx Transaction.invalid)) :=
    set_item_get s _ _ old hget
  have hj : (QueueItem.add env old
        { hash := block.hash, sequence := block.sequence, transaction := idx }
        (block.transactions.getD idx Transaction.invalid)).executions.get?
      (find_in_queue_item (QueueItem.add env old
        { hash := block.hash, sequence := block.sequence, transaction := idx }
        (block.transactions.getD idx Transaction.invalid))
        { hash := block.hash, sequence := block.sequence, transaction := idx }) = some e0 := by
    rw [hfind, he0]
    exact get_append_first _ [] _
  simp only [hg1, hj] at hknown
  obtain ⟨added, b, h⟩ := enqueue_tail_uses env block
    { hash := block.hash, sequence := block.sequence, transaction := idx }
    (env.absolute_address (block.transactions.getD idx Transaction.invalid).target)
    _ _ _ e0 hg1 hj hknown
  refine ⟨e0, added, b, hr0, hn0, hu0, ha0, ?_⟩
  refine Eq.trans h ?_
  rw [hfind, he0]
  simp only [set_item, List.set_set]
  rw [set_append_first]

end cs
namespace cs

open csdb

/-- The arithmetic of the fee reserved by `QueueItem::add` and by `enqueue`. -/
theorem avail_fee_reserved (m c : Amount) (d a : Nat) :
    m - c - c - c * (d : Int) - c * (a : Int) = m - c - c * (1 + ((d + a : Nat) : Int)) := by
  push_cast
  ring

/-- C22. Available fee: when `enqueue(block, idx)` admits the call at a valid index (it is
not queued yet, and no address of its expanded uses is unknown, so that it is not
cancelled), the queue item that holds the call afterwards holds for it, at the place where
`find_in_queue_item` finds it, an execution whose `new_state_fee` is the counted fee of the
start transaction, whose uses are the addresses declared in the transaction followed by the
added ones, and whose `avail_fee` is
`max_fee - counted_fee - new_state_fee * (1 + |uses|)`. -/
theorem enqueue_avail_fee (env : Env) (s : SmartContracts) (block : Pool) (idx : Nat)
    (hidx : idx < block.transactions.length)
    (hfresh : ¬ find_in_queue s (ref_of block idx) < s.exe_queue.length)
    (hknown : uses_known env s block idx = true) :
    ∃ (pos : Nat) (it : QueueItem) (e : ExecutionItem) (added : List Address),
      (enqueue env s block idx).exe_queue.get? pos = some it ∧
      find_in_queue (enqueue env s block idx) (ref_of block idx) = pos ∧
      it.executions.get? (find_in_queue_item it (ref_of block idx)) = some e ∧
      e.ref_start = ref_of block idx ∧
      e.new_state_fee = (block.transactions.getD idx Transaction.invalid).counted_fee ∧
      e.uses = declared_uses env (block.transactions.getD idx Transaction.invalid) ++ added ∧
      e.avail_fee = (block.transactions.getD idx Transaction.invalid).max_fee
        - (block.transactions.getD idx Transaction.invalid).counted_fee
        - e.new_state_fee * (1 + (e.uses.length : Int)) := by
  have hnoref : ∀ it' ∈ s.exe_queue,
      it'.executions.any (fun e => e.ref_start.same (ref_of block idx)) = false := by
    intro it' hit'
    by_contra hc
    apply hfresh
    unfold find_in_queue
    rw [List.findIdx_lt_length]
    exact ⟨it', hit', by simpa using hc⟩
  cases hget : s.exe_queue.get? (s.exe_queue.findIdx (fun it => it.seq_enqueue == block.sequence
      && decide (it.abs_addr = called_contract env block idx))) with
  | none =>
    have hlen : s.exe_queue.length ≤ s.exe_queue.findIdx (fun it =>
        it.seq_enqueue == block.sequence
          && decide (it.abs_addr = called_contract env block idx)) :=
      List.get?_eq_none.1 hget
    have hnone : ∀ it ∈ s.exe_queue,
        ¬ (it.seq_enqueue = block.sequence ∧ it.abs_addr = called_contract env block idx) := by
      intro it hit hc
      have hlt : s.exe_queue.findIdx (fun it => it.seq_enqueue == block.sequence
          && decide (it.abs_addr = called_contract env block idx)) < s.exe_queue.length := by
        rw [List.findIdx_lt_length]
        exact ⟨it, hit, by simp [hc.1, hc.2]⟩
      omega
    obtain ⟨e0, added, b, hr0, hn0, hu0, ha0, hq⟩ :=
      enqueue_new_uses env s block idx hidx hfresh hnone hknown
    obtain ⟨X, hqX, e1, hXe, h1, h2, h3, h4⟩ : ∃ X : QueueItem,
        (enqueue env s block idx).exe_queue = s.exe_queue ++ [X] ∧
        ∃ e1 : ExecutionItem, X.executions = [e1] ∧ e1.ref_start = e0.ref_start ∧
          e1.new_state_fee = e0.new_state_fee ∧ e1.uses = e0.uses ++ added ∧
          e1.avail_fee = e0.avail_fee - e0.new_state_fee * (added.length : Int) :=
      ⟨_, hq, _, rfl, rfl, rfl, rfl, rfl⟩
    have hg : (enqueue env s block idx).exe_queue.get? s.exe_queue.length = some X := by
      rw [hqX]; exact get_append_first _ [] _
    refine ⟨s.exe_queue.length, X, e1, added, hg, ?_, ?_, by rw [h1, hr0], by rw [h2, hn0],
      by rw [h3, hu0], ?_⟩
    · apply find_in_queue_eq _ _ _ _ hg
      · rw [hXe]
        simp [h1, hr0, same_refl]
      · intro it' hmem
        rw [hqX, List.take_left] at hmem
        exact hnoref it' hmem
    · unfold find_in_queue_item
      rw [hXe]
      simp [List.findIdx_cons, h1, hr0, same_refl]
    · rw [h4, h2, h3, ha0, hn0, List.length_append, hu0]
      exact avail_fee_reserved _ _ _ _
  | some old =>
    obtain ⟨e0, added, b, hr0, hn0, hu0, ha0, hq⟩ :=
      enqueue_add_uses env s block idx old hidx hfresh hget hknown
    have hpos := get_lt_length _ _ _ hget
    obtain ⟨X, hqX, e1, hXe, h1, h2, h3, h4⟩ : ∃ X : QueueItem,
        (enqueue env s block idx).exe_queue = s.exe_queue.set
          (s.exe_queue.findIdx (fun it => it.seq_enqueue == block.sequence
            && decide (it.abs_addr = called_contract env block idx))) X ∧
        ∃ e1 : ExecutionItem, X.executions = old.executions ++ [e1] ∧
          e1.ref_start = e0.ref_start ∧
          e1.new_state_fee = e0.new_state_fee ∧ e1.uses = e0.uses ++ added ∧
          e1.avail_fee = e0.avail_fee - e0.new_state_fee * (added.length : Int) :=
      ⟨_, hq, _, rfl, rfl, rfl, rfl, rfl⟩
    have hg : (enqueue env s block idx).exe_queue.get?
        (s.exe_queue.findIdx (fun it => it.seq_enqueue == block.sequence
          && decide (it.abs_addr = called_contract env block idx))) = some X := by
      rw [hqX]
      simp only [List.get?_eq_getElem?, List.getElem?_set_self hpos]
    have hold := fresh_in_item s (ref_of block idx) _ old hfresh hget
    have hsame : e1.ref_start.same (ref_of block idx) = true := by
      rw [h1, hr0]; exact same_refl _
    refine ⟨_, X, e1, added, hg, ?_, ?_, by rw [h1, hr0], by rw [h2, hn0],
      by rw [h3, hu0], ?_⟩
    · apply find_in_queue_eq _ _ _ _ hg
      · rw [hXe, List.any_eq_true]
        exact ⟨e1, by simp, hsame⟩
      · intro it' hmem
        rw [hqX, take_set_self] at hmem
        exact hnoref it' (List.mem_of_mem_take hmem)
    · unfold find_in_queue_item
      rw [hXe, findIdx_append_first _ _ [] _ hold hsame]
      exact get_append_first _ [] _
    · rw [h4, h2, h3, ha0, hn0, List.length_append, hu0]
      exact avail_fee_reserved _ _ _ _

end cs
namespace cs

open csdb

/-- C22 on a call with `max_fee` 100 and counted fee 3 that declares the use of one known
contract: the call is admitted, and its execution has `new_state_fee` 3, one use and
`avail_fee` 100 - 3 - 3 * (1 + 1) = 91. -/
theorem enqueue_avail_fee_witness :
    0 < sample.block2_uses.transactions.length ∧
    ¬ find_in_queue sample.after_block1_uses (ref_of sample.block2_uses 0)
        < sample.after_block1_uses.exe_queue.length ∧
    uses_known (sample.env_uses [sample.block1, sample.block2_uses]) sample.after_block1_uses
      sample.block2_uses 0 = true ∧
    ((enqueue (sample.env_uses [sample.block1, sample.block2_uses]) sample.after_block1_uses
        sample.block2_uses 0).exe_queue.get? 1).map
      (fun it => it.executions.map (fun e => (e.new_state_fee, e.uses, e.avail_fee)))
      = some [(3, [sample.contract2], 91)] ∧
    ∃ (pos : Nat) (it : QueueItem) (e : ExecutionItem) (added : List Address),
      (enqueue (sample.env_uses [sample.block1, sample.block2_uses]) sample.after_block1_uses
        sample.block2_uses 0).exe_queue.get? pos = some it ∧
      find_in_queue (enqueue (sample.env_uses [sample.block1, sample.block2_uses])
        sample.after_block1_uses sample.block2_uses 0) (ref_of sample.block2_uses 0) = pos ∧
      it.executions.get? (find_in_queue_item it (ref_of sample.block2_uses 0)) = some e ∧
      e.ref_start = ref_of sample.block2_uses 0 ∧
      e.new_state_fee
        = (sample.block2_uses.transactions.getD 0 Transaction.invalid).counted_fee ∧
      e.uses = declared_uses (sample.env_uses [sample.block1, sample.block2_uses])
        (sample.block2_uses.transactions.getD 0 Transaction.invalid) ++ added ∧
      e.avail_fee = (sample.block2_uses.transactions.getD 0 Transaction.invalid).max_fee
        - (sample.block2_uses.transactions.getD 0 Transaction.invalid).counted_fee
        - e.new_state_fee * (1 + (e.uses.length : Int)) :=
  ⟨by decide, by decide, by decide, by decide,
    enqueue_avail_fee (sample.env_uses [sample.block1, sample.block2_uses])
      sample.after_block1_uses sample.block2_uses 0 (by decide) (by decide) (by decide)⟩

end cs

namespace cs

open csdb

/-- The two fees of a new-state made by `create_new_state` from a starter that can be
loaded. -/
theorem create_new_state_fees (env : Env) (item : ExecutionItem) (id : Int)
    (hv : (get_transaction env item.ref_start).is_valid = true) :
    (create_new_state env item id).max_fee
      = env.amount_commission (item.avail_fee - item.consumed_fee) ∧
    (create_new_state env item id).counted_fee = env.amount_commission item.new_state_fee := by
  constructor
  · unfold create_new_state; simp [hv, Transaction.add_user_field]
  · unfold create_new_state; simp [hv, Transaction.add_user_field]

/-- A fee format of 16 bits does not hold every amount: whatever the conversion, one of the
amounts 0, ..., 65536 is not held as it is. -/
theorem amount_commission_not_exact (env : Env) :
    ∃ a : Amount, 0 ≤ a ∧ a ≤ 65536 ∧ env.amount_commission a ≠ a := by
  by_contra hne
  push_neg at hne
  have hlt : ∀ k : Fin 65537, env.commission_bits ((k.val : Nat) : Int) % 2 ^ 16 < 65536 :=
    fun k => Nat.mod_lt _ (by norm_num)
  obtain ⟨x, y, hxy, hg⟩ := Fintype.exists_ne_map_eq_of_card_lt
    (fun k : Fin 65537 => (⟨_, hlt k⟩ : Fin 65536))
    (by rw [Fintype.card_fin, Fintype.card_fin]; exact Nat.lt_succ_self _)
  have hx := hne ((x.val : Nat) : Int) (Int.natCast_nonneg _)
    (Int.ofNat_le.2 (Nat.lt_succ_iff.1 x.isLt))
  have hy := hne ((y.val : Nat) : Int) (Int.natCast_nonneg _)
    (Int.ofNat_le.2 (Nat.lt_succ_iff.1 y.isLt))
  have hbits : env.commission_bits ((x.val : Nat) : Int) % 2 ^ 16
      = env.commission_bits ((y.val : Nat) : Int) % 2 ^ 16 := by
    simpa using congrArg Fin.val hg
  unfold Env.amount_commission at hx hy
  rw [hbits] at hx
  have hxy' : ((x.val : Nat) : Int) = ((y.val : Nat) : Int) := hx.symm.trans hy
  exact hxy (Fin.ext (by exact_mod_cast hxy'))

/-- C25, the claim as stated fails: on the call of block 1 with 12345 available and nothing
consumed, the fee format of the sample environment holds 12340, so `max_fee` of the new-state
is not `avail_fee - consumed_fee`; with a new-state fee of 2001 `counted_fee` is 2000. And
whatever the conversion to the 16 bits of the fee format, for every starter that can be
loaded there is an execution for which `max_fee` is not `avail_fee - consumed_fee`. -/
theorem create_new_state_fee_rounded_counterexample :
    (get_transaction (sample.env [sample.block1])
        { hash := ⟨[7, 1]⟩, sequence := 1, transaction := 1 }).is_valid = true ∧
    (create_new_state (sample.env [sample.block1])
        { ref_start := { hash := ⟨[7, 1]⟩, sequence := 1, transaction := 1 },
          avail_fee := 12345, new_state_fee := 2001, consumed_fee := 0, uses := [],
          result := [] } 5).max_fee = 12340 ∧
    (create_new_state (sample.env [sample.block1])
        { ref_start := { hash := ⟨[7, 1]⟩, sequence := 1, transaction := 1 },
          avail_fee := 12345, new_state_fee := 2001, consumed_fee := 0, uses := [],
          result := [] } 5).max_fee ≠ 12345 - 0 ∧
    (create_new_state (sample.env [sample.block1])
        { ref_start := { hash := ⟨[7, 1]⟩, sequence := 1, transaction := 1 },
          avail_fee := 12345, new_state_fee := 2001, consumed_fee := 0, uses := [],
          result := [] } 5).counted_fee = 2000 ∧
    (create_new_state (sample.env [sample.block1])
        { ref_start := { hash := ⟨[7, 1]⟩, sequence := 1, transaction := 1 },
          avail_fee := 12345, new_state_fee := 2001, consumed_fee := 0, uses := [],
          result := [] } 5).counted_fee ≠ 2001 ∧
    (∀ (env : Env) (r : SmartContractRef) (id : Int),
      (get_transaction env r).is_valid = true →
      ∃ item : ExecutionItem, item.ref_start = r ∧
        (create_new_state env item id).max_fee ≠ item.avail_fee - item.consumed_fee) := by
  refine ⟨by decide, by decide, by decide, by decide, by decide, ?_⟩
  intro env r id hv
  obtain ⟨a, -, -, ha⟩ := amount_commission_not_exact env
  refine ⟨{ ref_start := r, avail_fee := a, new_state_fee := 0, consumed_fee := 0, uses := [],
            result := [] }, rfl, ?_⟩
  rw [(create_new_state_fees env _ id hv).1]
  simpa using ha

/-- C25 (as amended). New-state layout: when the starter of the execution can be loaded,
`create_new_state(item, id)` returns a transaction with `innerID = id`, source and target
the target of the starter, amount 0, `max_fee` the value `avail_fee - consumed_fee` and
`counted_fee` the value `new_state_fee` as `AmountCommission(x.to_double())` converts them
to the fee format, the field `RefStart` holding `item.ref_start.to_user_field()`,
which `from_user_field` decodes to `item.ref_start` whenever the stream reads back what it
has written for this reference, and the field `Fee` holding `item.consumed_fee`; when the
starter cannot be loaded the result is the invalid transaction. -/
theorem create_new_state_layout (env : Env) (item : ExecutionItem) (id : Int) :
    ((get_transaction env item.ref_start).is_valid = true →
      (create_new_state env item id).innerID = id ∧
      (create_new_state env item id).source = (get_transaction env item.ref_start).target ∧
      (create_new_state env item id).target = (get_transaction env item.ref_start).target ∧
      (create_new_state env item id).amount = 0 ∧
      (create_new_state env item id).max_fee
        = env.amount_commission (item.avail_fee - item.consumed_fee) ∧
      (create_new_state env item id).counted_fee = env.amount_commission item.new_state_fee ∧
      (create_new_state env item id).user_field uf.RefStart
        = item.ref_start.to_user_field env ∧
      (env.ref_of_bytes (env.ref_to_bytes item.ref_start) = some item.ref_start →
        SmartContractRef.from_user_field env
          ((create_new_state env item id).user_field uf.RefStart) = item.ref_start) ∧
      (create_new_state env item id).user_field uf.Fee = .amount item.consumed_fee) ∧
    ((get_transaction env item.ref_start).is_valid = false →
      create_new_state env item id = Transaction.invalid ∧
      (create_new_state env item id).is_valid = false) := by
  constructor
  · intro hv
    have hR : (create_new_state env item id).user_field uf.RefStart
        = item.ref_start.to_user_field env := by
      unfold create_new_state
      simp [hv, Transaction.add_user_field, Transaction.user_field, uf, List.find?]
    refine ⟨?_, ?_, ?_, ?_, ?_, ?_, hR, ?_, ?_⟩
    · unfold create_new_state; simp [hv, Transaction.add_user_field]
    · unfold create_new_state; simp [hv, Transaction.add_user_field]
    · unfold create_new_state; simp [hv, Transaction.add_user_field]
    · unfold create_new_state; simp [hv, Transaction.add_user_field]
    · unfold create_new_state; simp [hv, Transaction.add_user_field]
    · unfold create_new_state; simp [hv, Transaction.add_user_field]
    · intro hround
      rw [hR]
      unfold SmartContractRef.from_user_field SmartContractRef.to_user_field
      simp [UserField.value_string, hround]
    · unfold create_new_state
      simp [hv, Transaction.add_user_field, Transaction.user_field, uf, List.find?]
  · intro hv
    have h : create_new_state env item id = Transaction.invalid := by
      unfold create_new_state
      simp [hv]
    exact ⟨h, by rw [h]; rfl⟩

/-- C25 on the call of block 1 (transaction 1), with 98 available and 2 consumed, and on an
execution whose starter is not in the chain. -/
theorem create_new_state_layout_witness :
    (get_transaction (sample.env [sample.block1])
        { hash := ⟨[7, 1]⟩, sequence := 1, transaction := 1 }).is_valid = true ∧
    (sample.env [sample.block1]).ref_of_bytes ((sample.env [sample.block1]).ref_to_bytes
        { hash := ⟨[7, 1]⟩, sequence := 1, transaction := 1 })
      = some { hash := ⟨[7, 1]⟩, sequence := 1, transaction := 1 } ∧
    (create_new_state (sample.env [sample.block1])
        { ref_start := { hash := ⟨[7, 1]⟩, sequence := 1, transaction := 1 }, avail_fee := 98,
          new_state_fee := 1, consumed_fee := 2, uses := [], result := [] } 5).max_fee = 96 ∧
    SmartContractRef.from_user_field (sample.env [sample.block1])
        ((create_new_state (sample.env [sample.block1])
          { ref_start := { hash := ⟨[7, 1]⟩, sequence := 1, transaction := 1 }, avail_fee := 98,
            new_state_fee := 1, consumed_fee := 2, uses := [], result := [] } 5).user_field
          uf.RefStart)
      = { hash := ⟨[7, 1]⟩, sequence := 1, transaction := 1 } ∧
    (get_transaction (sample.env [sample.block1])
        { hash := ⟨[7, 9]⟩, sequence := 9, transaction := 0 }).is_valid = false ∧
    create_new_state (sample.env [sample.block1])
        { ref_start := { hash := ⟨[7, 9]⟩, sequence := 9, transaction := 0 }, avail_fee := 98,
          new_state_fee := 1, consumed_fee := 2, uses := [], result := [] } 5
      = Transaction.invalid :=
  ⟨by decide, by decide,
    ((create_new_state_layout (sample.env [sample.block1])
      { ref_start := { hash := ⟨[7, 1]⟩, sequence := 1, transaction := 1 }, avail_fee := 98,
        new_state_fee := 1, consumed_fee := 2, uses := [], result := [] } 5).1
      (by decide)).2.2.2.2.1,
    ((create_new_state_layout (sample.env [sample.block1])
      { ref_start := { hash := ⟨[7, 1]⟩, sequence := 1, transaction := 1 }, avail_fee := 98,
        new_state_fee := 1, consumed_fee := 2, uses := [], result := [] } 5).1
      (by decide)).2.2.2.2.2.2.2.1 (by decide),
    by decide,
    ((create_new_state_layout (sample.env [sample.block1])
      { ref_start := { hash := ⟨[7, 9]⟩, sequence := 9, transaction := 0 }, avail_fee := 98,
        new_state_fee := 1, consumed_fee := 2, uses := [], result := [] } 5).2
      (by decide)).1⟩

end cs
namespace cs
namespace IterValidator

open csdb

variable {σ : Type}

/-- The confidants counted once are not more than the valid signatures. -/
theorem spec_distinct_le_valid (ctx : SolverContext σ) (confidants : List Bytes) (p : Packet) :
    (spec_distinct_valid_confidants ctx confidants p).length
      ≤ spec_valid_signatures ctx confidants p := by
  unfold spec_distinct_valid_confidants spec_valid_signatures
  have h := (List.dedup_sublist ((p.signatures.filter (fun sg =>
    decide (sg.1 < confidants.length) &&
      ctx.verifySignature sg.2 (confidants.getD sg.1 []) p.hash)).map Prod.fst)).length_le
  rw [List.length_map] at h
  exact h

/-- Without a repeated confidant index, every valid signature is that of another confidant. -/
theorem spec_distinct_eq_valid (ctx : SolverContext σ) (confidants : List Bytes) (p : Packet)
    (hnodup : (p.signatures.map Prod.fst).Nodup) :
    (spec_distinct_valid_confidants ctx confidants p).length
      = spec_valid_signatures ctx confidants p := by
  unfold spec_distinct_valid_confidants spec_valid_signatures
  have hsub : ((p.signatures.filter (fun sg =>
      decide (sg.1 < confidants.length) &&
        ctx.verifySignature sg.2 (confidants.getD sg.1 []) p.hash)).map Prod.fst).Sublist
      (p.signatures.map Prod.fst) := (List.filter_sublist _).map _
  rw [List.Nodup.dedup (hnodup.sublist hsub), List.length_map]

/-- C28 (as amended). The quorum counts signatures: for a smart packet that
`checkSignaturesSmartSource` accepts (the source of its first transaction is not in the
invalid-signatures set afterwards), the reference to the start is valid, the start block
is loaded, and at least `floor(n/2) + 1` entries of the signatures of the packet carry an
index below the number `n` of confidants of the start block and a signature that verifies
over the packet hash under the key of that confidant. Every index counted as a distinct
confidant has such an entry, the distinct confidants are not more than the entries, and
when no confidant index is repeated among the signatures of the packet, at least
`floor(n/2) + 1` distinct confidants have a valid signature. -/
theorem accepted_packet_quorum (ctx : SolverContext σ) (v : IterValidator σ)
    (packets : List Packet) (p : Packet) (t : Transaction)
    (hp : p ∈ packets) (hh : p.transactions.head? = some t)
    (hacc : t.source ∉ (checkSignaturesSmartSource ctx v packets).smartSourceInvalidSignatures) :
    (SmartContractRef.from_user_field ctx.env
      (t.user_field (if is_new_state t then uf.RefStart else ctx.smart_gen_RefStart))).is_valid
      = true ∧
    (ctx.env.loadBlock (SmartContractRef.from_user_field ctx.env
      (t.user_field (if is_new_state t then uf.RefStart
        else ctx.smart_gen_RefStart))).sequence).is_valid = true ∧
    (ctx.env.loadBlock (SmartContractRef.from_user_field ctx.env
      (t.user_field (if is_new_state t then uf.RefStart
        else ctx.smart_gen_RefStart))).sequence).confidants.length / 2 + 1
      ≤ spec_valid_signatures ctx
          (ctx.env.loadBlock (SmartContractRef.from_user_field ctx.env
            (t.user_field (if is_new_state t then uf.RefStart
              else ctx.smart_gen_RefStart))).sequence).confidants p ∧
    (∀ i ∈ spec_distinct_valid_confidants ctx
          (ctx.env.loadBlock (SmartContractRef.from_user_field ctx.env
            (t.user_field (if is_new_state t then uf.RefStart
              else ctx.smart_gen_RefStart))).sequence).confidants p,
      i < (ctx.env.loadBlock (SmartContractRef.from_user_field ctx.env
            (t.user_field (if is_new_state t then uf.RefStart
              else ctx.smart_gen_RefStart))).sequence).confidants.length ∧
      ∃ sig, (i, sig) ∈ p.signatures ∧
        ctx.verifySignature sig
          ((ctx.env.loadBlock (SmartContractRef.from_user_field ctx.env
            (t.user_field (if is_new_state t then uf.RefStart
              else ctx.smart_gen_RefStart))).sequence).confidants.getD i []) p.hash = true) ∧
    (spec_distinct_valid_confidants ctx
        (ctx.env.loadBlock (SmartContractRef.from_user_field ctx.env
          (t.user_field (if is_new_state t then uf.RefStart
            else ctx.smart_gen_RefStart))).sequence).confidants p).length
      ≤ spec_valid_signatures ctx
          (ctx.env.loadBlock (SmartContractRef.from_user_field ctx.env
            (t.user_field (if is_new_state t then uf.RefStart
              else ctx.smart_gen_RefStart))).sequence).confidants p ∧
    ((p.signatures.map Prod.fst).Nodup →
      (ctx.env.loadBlock (SmartContractRef.from_user_field ctx.env
        (t.user_field (if is_new_state t then uf.RefStart
          else ctx.smart_gen_RefStart))).sequence).confidants.length / 2 + 1
        ≤ (spec_distinct_valid_confidants ctx
            (ctx.env.loadBlock (SmartContractRef.from_user_field ctx.env
              (t.user_field (if is_new_state t then uf.RefStart
                else ctx.smart_gen_RefStart))).sequence).confidants p).length) := by
  have hnot : ¬ spec_packet_refused ctx p t = true := by
    intro hr
    apply hacc
    unfold checkSignaturesSmartSource
    rw [foldl_check_packet_mem]
    exact Or.inr ⟨p, hp, t, hh, rfl, hr⟩
  unfold spec_packet_refused at hnot
  simp only [Bool.or_eq_true, Bool.not_eq_true', decide_eq_true_eq, not_or, Bool.not_eq_false,
    not_lt] at hnot
  obtain ⟨⟨h1, h2⟩, h3⟩ := hnot
  refine ⟨h1, h2, h3, ?_, spec_distinct_le_valid ctx _ p, ?_⟩
  · intro i hi
    unfold spec_distinct_valid_confidants at hi
    rw [List.mem_dedup, List.mem_map] at hi
    obtain ⟨sg, hsg, rfl⟩ := hi
    rw [List.mem_filter] at hsg
    obtain ⟨hmem, hval⟩ := hsg
    simp only [Bool.and_eq_true, decide_eq_true_eq] at hval
    exact ⟨hval.1, sg.2, hmem, hval.2⟩
  · intro hnodup
    rw [spec_distinct_eq_valid ctx _ p hnodup]
    exact h3

/-- C28, counterexample: block 1 has two confidants, so the quorum is 2; the packet that
carries the signature of the confidant of index 0 twice is accepted by
`checkSignaturesSmartSource`, while only one confidant has a valid signature in it. -/
theorem repeated_signature_reaches_quorum_counterexample :
    sample.packet_repeated.transactions.head? = some sample.tx_new_state ∧
    sample.tx_new_state.source
      ∉ (checkSignaturesSmartSource sample.context sample.validator
          [sample.packet_repeated]).smartSourceInvalidSignatures ∧
    sample.block1.confidants.length / 2 + 1 = 2 ∧
    spec_distinct_valid_confidants sample.context sample.block1.confidants
      sample.packet_repeated = [0] ∧
    ¬ (sample.block1.confidants.length / 2 + 1
        ≤ (spec_distinct_valid_confidants sample.context sample.block1.confidants
            sample.packet_repeated).length) := by
  decide

/-- C28 on the packet signed by both confidants of block 1: it is accepted, no index is
repeated, and two distinct confidants have a valid signature. -/
theorem accepted_packet_quorum_witness :
    sample.packet_signed ∈ [sample.packet_signed] ∧
    sample.packet_signed.transactions.head? = some sample.tx_new_state ∧
    sample.tx_new_state.source
      ∉ (checkSignaturesSmartSource sample.context sample.validator
          [sample.packet_signed]).smartSourceInvalidSignatures ∧
    (sample.packet_signed.signatures.map Prod.fst).Nodup ∧
    (sample.context.env.loadBlock (SmartContractRef.from_user_field sample.context.env
        (sample.tx_new_state.user_field (if is_new_state sample.tx_new_state then uf.RefStart
          else sample.context.smart_gen_RefStart))).sequence).confidants.length / 2 + 1
      ≤ (spec_distinct_valid_confidants sample.context
          (sample.context.env.loadBlock (SmartContractRef.from_user_field sample.context.env
            (sample.tx_new_state.user_field (if is_new_state sample.tx_new_state
              then uf.RefStart
              else sample.context.smart_gen_RefStart))).sequence).confidants
          sample.packet_signed).length :=
  ⟨by decide, by decide, by decide, by decide,
    (accepted_packet_quorum sample.context sample.validator [sample.packet_signed]
      sample.packet_signed sample.tx_new_state (by decide) (by decide)
      (by decide)).2.2.2.2.2 (by decide)⟩

end IterValidator
end cs

namespace cs

open csdb

theorem get_transaction_same (env : Env) (r1 r2 : SmartContractRef)
    (h : r1.same r2 = true) : get_transaction env r1 = get_transaction env r2 := by
  unfold SmartContractRef.same at h
  simp only [Bool.and_eq_true, beq_iff_eq] at h
  unfold get_transaction
  rw [h.1, h.2]

theorem find_in_queue_item_same (it : QueueItem) (r : SmartContractRef) (e : ExecutionItem)
    (h : it.executions.get? (find_in_queue_item it r) = some e) :
    e.ref_start.same r = true := by
  unfold find_in_queue_item at h
  have hlt := get_lt_length _ _ _ h
  have hp := List.findIdx_getElem (w := hlt)
  simp only [List.get?_eq_getElem?, List.getElem?_eq_getElem hlt, Option.some.injEq] at h
  rw [h] at hp
  exact hp

/-- The loop over the emitted transactions appends to the packet it is given. -/
theorem add_emitted_acc (trxns : List Transaction) :
    ∀ (n : Int) (p : TransactionsPacket),
      add_emitted trxns n p = ((add_emitted trxns n []).1, p ++ (add_emitted trxns n []).2) := by
  induction trxns with
  | nil => intro n p; simp [add_emitted]
  | cons tr rest ih =>
    intro n p
    unfold add_emitted
    split
    · rw [ih (n + 1) (p ++ _), ih (n + 1) ([] ++ _)]
      simp
    · rw [ih n (p ++ _), ih n ([] ++ _)]
      simp

/-- The loop over the emitted transactions: a transaction with an inner id is appended as it
is, one without gets the next value of the counter, so that the values given are above the
counter on entry, increase, and are not above the counter on exit. -/
theorem add_emitted_spec (trxns : List Transaction) :
    ∀ (n : Int),
      List.Forall₂
        (fun tr t => (tr.innerID ≠ 0 ∧ t = tr) ∨
          (tr.innerID = 0 ∧ t = { tr with innerID := t.innerID }))
        trxns (add_emitted trxns n []).2 ∧
      n ≤ (add_emitted trxns n []).1 ∧
      (counter_ids trxns (add_emitted trxns n []).2).Pairwise (· < ·) ∧
      ∀ x ∈ counter_ids trxns (add_emitted trxns n []).2,
        n < x ∧ x ≤ (add_emitted trxns n []).1 := by
  induction trxns with
  | nil =>
    intro n
    simp [add_emitted, counter_ids]
  | cons tr rest ih =>
    intro n
    unfold add_emitted
    by_cases h0 : tr.innerID = 0
    · rw [if_pos h0, add_emitted_acc]
      obtain ⟨h1, h2, h3, h4⟩ := ih (n + 1)
      simp only [List.nil_append, List.singleton_append]
      refine ⟨List.Forall₂.cons (Or.inr ⟨h0, rfl⟩) h1, by omega, ?_, ?_⟩
      · unfold counter_ids at h3 h4 ⊢
        simp only [List.zip_cons_cons, List.filter_cons, h0, decide_True, if_true,
          List.map_cons, List.pairwise_cons]
        refine ⟨?_, h3⟩
        intro x hx
        have := (h4 x hx).1
        omega
      · unfold counter_ids at h4 ⊢
        simp only [List.zip_cons_cons, List.filter_cons, h0, decide_True, if_true,
          List.map_cons, List.mem_cons]
        rintro x (rfl | hx)
        · exact ⟨by omega, h2⟩
        · have := h4 x hx
          exact ⟨by omega, this.2⟩
    · rw [if_neg h0, add_emitted_acc]
      obtain ⟨h1, h2, h3, h4⟩ := ih n
      simp only [List.nil_append, List.singleton_append]
      refine ⟨List.Forall₂.cons (Or.inl ⟨h0, rfl⟩) h1, h2, ?_, ?_⟩
      · unfold counter_ids at h3 ⊢
        simpa only [List.zip_cons_cons, List.filter_cons, h0, decide_False,
          Bool.false_eq_true, if_false] using h3
      · unfold counter_ids at h4 ⊢
        simpa only [List.zip_cons_cons, List.filter_cons, h0, decide_False,
          Bool.false_eq_true, if_false] using h4

end cs
namespace cs

open csdb

/-- The loop over the subsequent states appends to the packet it is given. -/
theorem add_subsequent_states_acc (env : Env) (call : Option ExecutionItem)
    (states : List (Address × Bytes)) :
    ∀ (n : Int) (p : TransactionsPacket),
      add_subsequent_states env call states n p
        = ((add_subsequent_states env call states n []).1,
            p ++ (add_subsequent_states env call states n []).2) := by
  induction states with
  | nil => intro n p; simp [add_subsequent_states]
  | cons st rest ih =>
    intro n p
    obtain ⟨addr, state⟩ := st
    unfold add_subsequent_states
    cases call with
    | none =>
      simp only
      exact ih n p
    | some it_call =>
      simp only
      split
      · rw [ih (n + 1) (p ++ _), ih (n + 1) ([] ++ _)]
        simp
      · exact ih (n + 1) p

/-- A new-state made by `create_new_state` from a starter that can be loaded has the field
`RefStart`, the inner id it is given and the target of the starter as source. -/
theorem create_new_state_ref_field (env : Env) (e : ExecutionItem) (id : Int)
    (hv : (get_transaction env e.ref_start).is_valid = true) :
    ((create_new_state env e id).user_field uf.RefStart).is_string = true ∧
    (create_new_state env e id).innerID = id ∧
    (create_new_state env e id).source = (get_transaction env e.ref_start).target := by
  have h : create_new_state env e id
      = (({ is_valid := env.built_is_valid
              { is_valid := true, innerID := id,
                source := (get_transaction env e.ref_start).target,
                target := (get_transaction env e.ref_start).target,
                currency := (get_transaction env e.ref_start).currency, amount := 0,
                max_fee := env.amount_commission (e.avail_fee - e.consumed_fee),
                counted_fee := env.amount_commission e.new_state_fee,
                signature := [], user_fields := [] },
            innerID := id, source := (get_transaction env e.ref_start).target,
            target := (get_transaction env e.ref_start).target,
            currency := (get_transaction env e.ref_start).currency, amount := 0,
            max_fee := env.amount_commission (e.avail_fee - e.consumed_fee),
            counted_fee := env.amount_commission e.new_state_fee,
            signature := [], user_fields := [] } : Transaction).add_user_field uf.RefStart
          (e.ref_start.to_user_field env)).add_user_field uf.Fee (.amount e.consumed_fee) := by
    unfold create_new_state
    simp only [hv, Bool.not_true, Bool.false_eq_true, if_false]
  rw [h]
  refine ⟨?_, rfl, rfl⟩
  rw [user_field_add_ne _ _ _ _ (by decide), user_field_add_same]
  rfl

theorem create_new_state_valid (env : Env) (e : ExecutionItem) (id : Int)
    (h : (create_new_state env e id).is_valid = true) :
    (get_transaction env e.ref_start).is_valid = true := by
  by_contra hv
  have hv' : (get_transaction env e.ref_start).is_valid = false := by simpa using hv
  unfold create_new_state at h
  simp [hv', Transaction.invalid] at h

/-- The fields of a new-state once the state and the return value are written. -/
theorem new_state_finished (env : Env) (t : Transaction) (state : Bytes) (v : Variant)
    (h : (t.user_field uf.RefStart).is_string = true) :
    is_new_state (set_return_value env (t.add_user_field uf.Value (.string state)) v) = true ∧
    (set_return_value env (t.add_user_field uf.Value (.string state)) v).innerID = t.innerID ∧
    (set_return_value env (t.add_user_field uf.Value (.string state)) v).source = t.source ∧
    (set_return_value env (t.add_user_field uf.Value (.string state)) v).target
      = t.target := by
  refine ⟨?_, rfl, rfl, rfl⟩
  unfold is_new_state set_return_value
  rw [user_field_add_ne _ _ _ _ (by decide), user_field_add_same,
    user_field_add_ne _ _ _ _ (by decide), user_field_add_ne _ _ _ _ (by decide), h]
  rfl

/-- The loop over the subsequent states: the counter does not decrease, and every new-state
appended is that of one of the contracts of the list, numbered by `next_inner_id` of that
contract. -/
theorem add_subsequent_states_spec (env : Env) (it_call : ExecutionItem)
    (states : List (Address × Bytes)) :
    ∀ (n : Int),
      n ≤ (add_subsequent_states env (some it_call) states n []).1 ∧
      ∀ t ∈ (add_subsequent_states env (some it_call) states n []).2,
        is_new_state t = true ∧ t.innerID = (next_inner_id env t.source : Int) ∧
        t.target = t.source ∧ ∃ st ∈ states, st.1 = t.source := by
  induction states with
  | nil =>
    intro n
    simp [add_subsequent_states]
  | cons st rest ih =>
    intro n
    obtain ⟨addr, state⟩ := st
    unfold add_subsequent_states
    simp only
    obtain ⟨h1, h2⟩ := ih (n + 1)
    split
    · rename_i hvalid
      rw [add_subsequent_states_acc]
      refine ⟨by simp only; omega, ?_⟩
      intro t ht
      simp only [List.nil_append, List.singleton_append, List.mem_cons] at ht
      rcases ht with rfl | ht
      · have hv := create_new_state_valid env it_call (n + 1) hvalid
        have hR := (create_new_state_ref_field env it_call (n + 1) hv).1
        refine ⟨?_, rfl, rfl, (addr, state), List.mem_cons_self _ _, rfl⟩
        unfold is_new_state set_return_value
        rw [user_field_add_ne _ _ _ _ (by decide), user_field_add_ne _ _ _ _ (by decide),
          user_field_add_same,
          user_field_add_ne _ _ _ _ (by decide), user_field_add_ne _ _ _ _ (by decide),
          user_field_add_ne _ _ _ _ (by decide)]
        have e : ({ create_new_state env it_call (n + 1) with
            innerID := (next_inner_id env addr : Int), source := addr,
            target := addr } : Transaction).user_field uf.RefStart
            = (create_new_state env it_call (n + 1)).user_field uf.RefStart := rfl
        rw [e, hR]
        rfl
      · obtain ⟨a, b, c, st, hst, d⟩ := h2 t ht
        exact ⟨a, b, c, st, List.mem_cons_of_mem _ hst, d⟩
    · refine ⟨by omega, ?_⟩
      intro t ht
      obtain ⟨a, b, c, st, hst, d⟩ := h2 t ht
      exact ⟨a, b, c, st, List.mem_cons_of_mem _ hst, d⟩

end cs
namespace cs

open csdb

theorem completion_step_chunk (env : Env) (i : Nat) (l : CompletionLoop)
    (d : SmartExecutionData) (hret : l.returned = false) (hn : 0 ≤ l.next_id) :
    ((completion_step env i l d).integral_packet = l.integral_packet ∧
      ((completion_step env i l d).returned = true ∨ completion_step env i l d = l)) ∨
    ((completion_step env i l d).returned = false ∧
      ∃ chunk ids,
        (completion_step env i l d).integral_packet = l.integral_packet ++ chunk ∧
        call_chunk env d chunk ids ∧ ids.Pairwise (· < ·) ∧
        (∀ x ∈ ids, l.next_id < x ∧ x ≤ (completion_step env i l d).next_id) ∧
        (l.next_id = 0 → ids.head? = some (next_inner_id env
          (env.absolute_address (get_transaction env d.contract_ref).target) : Int))) := by
  unfold completion_step
  rw [if_neg (by rw [hret]; decide)]
  cases hg : l.s.exe_queue.get? i with
  | none => exact Or.inl ⟨rfl, Or.inr rfl⟩
  | some it =>
    simp only
    cases he : it.executions.get? (find_in_queue_item it d.contract_ref) with
    | none => exact Or.inl ⟨rfl, Or.inr rfl⟩
    | some execution0 =>
      simp only
      have hsame := find_in_queue_item_same it d.contract_ref execution0 he
      have hst := get_transaction_same env _ _ hsame
      rw [hst]
      have hexec_st : get_transaction env
          ({ execution0 with consumed_fee := d.executor_fee, result := [] } :
            ExecutionItem).ref_start = get_transaction env d.contract_ref := hst
      generalize hnid : (if l.next_id > 0 then l.next_id + 1
        else if (get_transaction env d.contract_ref).is_valid = true then
          (next_inner_id env
            (env.absolute_address (get_transaction env d.contract_ref).target) : Int)
        else 1) = nid
      generalize ({ execution0 with consumed_fee := d.executor_fee, result := [] } :
        ExecutionItem) = exec at hexec_st ⊢
      generalize hF : (if (!(create_new_state env exec nid).is_valid) = true then _
        else some (create_new_state env exec nid)) = fb
      have hone : ∀ a : Address, (1 : Int) ≤ (next_inner_id env a : Int) := by
        intro a
        unfold next_inner_id
        split <;> simp
      have hfb : ((get_transaction env d.contract_ref).is_valid = false ∧ fb = none) ∨
          ((get_transaction env d.contract_ref).is_valid = true ∧
            ∃ X : ExecutionItem, get_transaction env X.ref_start
                = get_transaction env d.contract_ref ∧
              fb = some (create_new_state env X nid)) := by
        rw [← hF]
        by_cases hv : (get_transaction env d.contract_ref).is_valid = true
        · right
          refine ⟨hv, ?_⟩
          by_cases hb : (create_new_state env exec nid).is_valid = true
          · exact ⟨exec, hexec_st, by simp [hb]⟩
          · have hb' : (create_new_state env exec nid).is_valid = false := by simpa using hb
            obtain ⟨e0, hadd, hr0, -⟩ := add_execution_fields env
              { executions := [], status := .Waiting, seq_enqueue := 0, seq_start := 0,
                seq_finish := 0,
                abs_addr := env.absolute_address (get_transaction env d.contract_ref).target,
                is_executor := false, is_rejected := false }
              d.contract_ref (get_transaction env d.contract_ref)
            have hcreate : (QueueItem.create env d.contract_ref
                (env.absolute_address (get_transaction env d.contract_ref).target)
                (get_transaction env d.contract_ref)).executions = [e0] := by
              unfold QueueItem.create
              rw [hadd]
              rfl
            refine ⟨e0, by rw [hr0], ?_⟩
            simp only [hb', hv, hcreate, Bool.not_false, Bool.not_true, if_true,
              Bool.false_eq_true, if_false, List.head?_cons]
        · left
          have hv' : (get_transaction env d.contract_ref).is_valid = false := by simpa using hv
          refine ⟨hv', ?_⟩
          have hinv : (create_new_state env exec nid).is_valid = false := by
            unfold create_new_state
            simp [hexec_st, hv', Transaction.invalid]
          simp only [hinv, hv', Bool.not_false, if_true]
      clear hF
      rcases hfb with ⟨-, rfl⟩ | ⟨hv, X, hX, rfl⟩
      · exact Or.inl ⟨rfl, Or.inl rfl⟩
      · right
        simp only
        have hlt : l.next_id < nid := by
          rw [← hnid]
          by_cases hpos : l.next_id > 0
          · rw [if_pos hpos]; omega
          · rw [if_neg hpos, if_pos hv]
            have := hone (env.absolute_address (get_transaction env d.contract_ref).target)
            omega
        have hinit : l.next_id = 0 → nid = (next_inner_id env
            (env.absolute_address (get_transaction env d.contract_ref).target) : Int) := by
          intro h0
          rw [← hnid, if_neg (by omega), if_pos hv]
        have hXv : (get_transaction env X.ref_start).is_valid = true := by rw [hX]; exact hv
        obtain ⟨hR, hid, hsrc⟩ := create_new_state_ref_field env X nid hXv
        by_cases herr : d.error.isEmpty = true
        · rw [if_neg (by rw [herr]; decide)]
          obtain ⟨hns, hi2, hs2, -⟩ := new_state_finished env (create_new_state env X nid)
            d.newState d.retValue hR
          obtain ⟨hE1, hE2, hE3, hE4⟩ := add_emitted_spec d.trxns nid
          obtain ⟨hS1, hS2⟩ := add_subsequent_states_spec env exec d.states
            (add_emitted d.trxns nid []).1
          refine ⟨rfl, _, nid :: counter_ids d.trxns (add_emitted d.trxns nid []).2, ?_,
            ⟨_, (add_emitted d.trxns nid []).2,
              (add_subsequent_states env (some exec) d.states
                (add_emitted d.trxns nid []).1 []).2, rfl, hns, ?_, ?_, ?_, hS2⟩, ?_, ?_, ?_⟩
          · simp only
            rw [add_emitted_acc, add_subsequent_states_acc]
            simp
          · rw [hs2, hsrc, hX]
          · rw [if_pos herr]; exact hE1
          · rw [if_pos herr, hi2, hid]
          · rw [List.pairwise_cons]
            exact ⟨fun x hx => (hE4 x hx).1, hE3⟩
          · intro x hx
            simp only
            rw [add_emitted_acc, add_subsequent_states_acc]
            simp only
            rcases List.mem_cons.1 hx with rfl | hx
            · exact ⟨hlt, by omega⟩
            · have := hE4 x hx
              exact ⟨by omega, by omega⟩
          · intro h0
            rw [hinit h0]
            rfl
        · have herr' : d.error.isEmpty = false := by simpa using herr
          rw [if_pos (by rw [herr']; decide)]
          obtain ⟨hns, hi2, hs2, -⟩ := new_state_finished env (create_new_state env X nid)
            [] d.retValue hR
          refine ⟨rfl, _, [nid], rfl, ⟨_, [], [], rfl, hns, ?_, ?_, ?_, ?_⟩, ?_, ?_, ?_⟩
          · rw [hs2, hsrc, hX]
          · rw [if_neg herr]; exact List.Forall₂.nil
          · rw [if_neg herr, hi2, hid]; rfl
          · intro t ht; cases ht
          · exact List.pairwise_singleton _ _
          · intro x hx
            simp only [List.mem_singleton] at hx
            subst hx
            exact ⟨hlt, le_refl _⟩
          · intro h0
            rw [hinit h0]
            rfl

end cs
namespace cs

open csdb

theorem completion_step_returned (env : Env) (i : Nat) (l : CompletionLoop)
    (d : SmartExecutionData) (hret : l.returned = true) : completion_step env i l d = l := by
  unfold completion_step
  rw [if_pos hret]

/-- The loop of `on_execution_completed_impl` over the data: the integral packet is made of
the contributions of the completed calls, and the running counter is not below any of the
inner ids it has given. -/
theorem completion_fold_chunks (env : Env) (i : Nat) (all : List SmartExecutionData) :
    ∀ (dl : List SmartExecutionData) (l : CompletionLoop)
      (calls : List (SmartExecutionData × TransactionsPacket × List Int)),
      (∀ d ∈ dl, d ∈ all) →
      packet_of_calls env all l.integral_packet calls →
      (l.returned = false → 0 ≤ l.next_id ∧
        (∀ x ∈ calls.flatMap (fun c => c.2.2), x ≤ l.next_id) ∧
        (calls = [] → l.next_id = 0)) →
      ∃ calls', packet_of_calls env all (dl.foldl (completion_step env i) l).integral_packet
        calls' := by
  intro dl
  induction dl with
  | nil =>
    intro l calls _ h _
    exact ⟨calls, h⟩
  | cons d dl ih =>
    intro l calls hall hP hN
    rw [List.foldl_cons]
    have hall' : ∀ d' ∈ dl, d' ∈ all := fun d' h => hall d' (List.mem_cons_of_mem _ h)
    by_cases hret : l.returned = true
    · rw [completion_step_returned env i l d hret]
      exact ih l calls hall' hP hN
    · have hret' : l.returned = false := by simpa using hret
      obtain ⟨hn0, hle, hnil⟩ := hN hret'
      rcases completion_step_chunk env i l d hret' hn0 with ⟨hp, hr | he⟩ | ⟨hr, chunk, ids,
          hp, hc, hpw, hb, hi⟩
      · apply ih _ calls hall' (by rw [hp]; exact hP)
        intro h
        rw [hr] at h
        cases h
      · rw [he]
        exact ih l calls hall' hP hN
      · obtain ⟨h1, h2, h3, h4⟩ := hP
        apply ih _ (calls ++ [(d, chunk, ids)]) hall'
        · refine ⟨?_, ?_, ?_, ?_⟩
          · rw [hp, h1]
            simp [List.flatMap_append]
          · intro c hc'
            rcases List.mem_append.1 hc' with h | h
            · exact h2 c h
            · simp only [List.mem_singleton] at h
              subst h
              exact ⟨hall d (List.mem_cons_self _ _), hc⟩
          · simp only [List.flatMap_append, List.flatMap_cons, List.flatMap_nil,
              List.append_nil]
            rw [List.pairwise_append]
            refine ⟨h3, hpw, ?_⟩
            intro a ha b hb'
            have := hle a ha
            have := (hb b hb').1
            omega
          · intro c hh
            cases hcalls : calls with
            | nil =>
              rw [hcalls] at hh
              simp only [List.nil_append, List.head?_cons, Option.some.injEq] at hh
              subst hh
              exact hi (hnil hcalls)
            | cons c0 rest =>
              rw [hcalls] at hh
              simp only [List.cons_append, List.head?_cons, Option.some.injEq] at hh
              subst hh
              exact h4 c0 (by rw [hcalls]; rfl)
        · intro _
          refine ⟨?_, ?_, ?_⟩
          · cases hids : ids with
            | nil =>
              obtain ⟨primary, E, S, -, -, -, -, hids', -⟩ := hc
              rw [hids] at hids'
              cases hids'
            | cons x rest =>
              have := hb x (by rw [hids]; exact List.mem_cons_self _ _)
              omega
          · intro x hx
            simp only [List.flatMap_append, List.flatMap_cons, List.flatMap_nil,
              List.append_nil, List.mem_append] at hx
            rcases hx with h | h
            · have := hle x h
              obtain ⟨primary, E, S, -, -, -, -, hids', -⟩ := hc
              have hm := hb primary.innerID (by rw [hids']; exact List.mem_cons_self _ _)
              omega
            · exact (hb x h).2
          · intro h
            simp at h

end cs
namespace cs

open csdb

/-- C26 (as amended). Inner ids in a result packet: `on_execution_completed_impl` either
announces no packet, or hands one integral packet to the consensus (on an executor node) and
announces it. That packet is made, in the order of the data, of the contributions of the
completed calls: the new-state of the call; then, for a successful call, its emitted
transactions and the new-states of its subsequent contracts. The first new-state gets
`innerID = next_inner_id(contract)`; the new-state of every further call and every emitted
transaction that came with inner id 0 gets a fresh id from the running counter, and these ids
increase strictly through the packet, so that the new-states of the calls carry different,
strictly increasing inner ids in packet order; an emitted transaction that came with an
inner id keeps it; and the new-state of a subsequent contract `addr` has source and target
`addr` and `innerID = next_inner_id(addr)`, whatever the counter. -/
theorem completion_inner_ids (env : Env) (s : SmartContracts)
    (dl : List SmartExecutionData) :
    (on_execution_completed_impl env s dl).log = s.log ∨
    ∃ (P : TransactionsPacket) (pre : List Event)
      (calls : List (SmartExecutionData × TransactionsPacket × List Int)),
      (on_execution_completed_impl env s dl).log = s.log ++ pre ++ [.smart_executed P] ∧
      (pre = [] ∨ ∃ refs, pre = [.start_consensus refs P]) ∧
      packet_of_calls env dl P calls := by
  unfold on_execution_completed_impl
  cases hh : dl.head? with
  | none => exact Or.inl rfl
  | some front =>
    simp only
    cases hg : s.exe_queue.get? (find_in_queue s front.contract_ref) with
    | none => exact Or.inl rfl
    | some it =>
      simp only
      by_cases hst : (decide (it.status = .Finished) || decide (it.status = .Closed)) = true
      · rw [if_pos hst]
        exact Or.inl rfl
      · rw [if_neg hst]
        rw [update_status_at_finished env s _ it _ hg]
        obtain ⟨X, -, hX⟩ := completion_fold_state env (find_in_queue s front.contract_ref)
          { it with status := .Finished, seq_finish := env.getLastSequence }
          (it.executions.map (fun e => e.ref_start)) dl
          { s := set_item s (find_in_queue s front.contract_ref)
              { it with status := .Finished, seq_finish := env.getLastSequence },
            next_id := 0, integral_packet := [], returned := false }
          ⟨it.executions, rfl, set_item_get _ _ _ _ hg⟩
        obtain ⟨calls, hcalls⟩ := completion_fold_chunks env
          (find_in_queue s front.contract_ref) dl dl
          { s := set_item s (find_in_queue s front.contract_ref)
              { it with status := .Finished, seq_finish := env.getLastSequence },
            next_id := 0, integral_packet := [], returned := false } []
          (fun d h => h)
          (by unfold packet_of_calls; simp)
          (by simp)
        generalize dl.foldl (completion_step env (find_in_queue s front.contract_ref))
          { s := set_item s (find_in_queue s front.contract_ref)
              { it with status := .Finished, seq_finish := env.getLastSequence },
            next_id := 0, integral_packet := [], returned := false } = l at hX hcalls
        have hlog : l.s.log = s.log := by rw [hX]; rfl
        split
        · exact Or.inl hlog
        · split
          · exact Or.inl hlog
          · rename_i it1 hit1
            right
            by_cases hex : it1.is_executor = true
            · refine ⟨l.integral_packet,
                [.start_consensus (it1.executions.map (fun e => e.ref_start))
                  l.integral_packet], calls, ?_, Or.inr ⟨_, rfl⟩, hcalls⟩
              simp only [hex, Bool.not_true, Bool.false_eq_true, if_false]
              split
              · show (remove_from_queue_at env _ _).log ++ _ = _
                rw [remove_from_queue_at_log]
                show (l.s.log ++ _) ++ _ = _
                rw [hlog]
              · show (l.s.log ++ _) ++ _ = _
                rw [hlog]
            · have hex' : it1.is_executor = false := by simpa using hex
              refine ⟨l.integral_packet, [], calls, ?_, Or.inl rfl, hcalls⟩
              simp only [hex', Bool.not_false, if_true]
              show (remove_from_queue_at env _ _).log ++ _ = _
              rw [remove_from_queue_at_log, hlog]
              simp

end cs
namespace cs

open csdb

/-- C26, counterexample: on the executor node, the two calls of block 1 complete
successfully and each reports a new state of the subsequent contract `contract2`. The
packet announced holds four new-states: those of the calls, with source `contract` and
inner ids 1 and 3, and those of `contract2`, both with inner id 1, the value of
`next_inner_id(contract2)`: two new-states of the same source carry the same inner id, and
the second new-state of the packet did not get an id larger than the first. -/
theorem subsequent_new_states_share_inner_id_counterexample :
    (sample.announced_packet
      (on_execution_completed_impl (sample.env_consensus [sample.block1])
        sample.executor_after_block1 sample.completed_calls).log).map
      (fun t => (is_new_state t, t.source, t.innerID))
      = [(true, sample.contract, 1), (true, sample.contract2, 1),
         (true, sample.contract, 3), (true, sample.contract2, 1)] := by
  decide

end cs

namespace cs

open csdb

theorem queue_refs_append (q1 q2 : List QueueItem) :
    queue_refs (q1 ++ q2) = queue_refs q1 ++ queue_refs q2 := by
  unfold queue_refs
  rw [List.flatMap_append]

theorem queue_refs_cons (x : QueueItem) (q : List QueueItem) :
    queue_refs (x :: q) = x.executions.map (fun e => e.ref_start) ++ queue_refs q := rfl

/-- Replacing the item at `i` replaces its executions in the list of references. -/
theorem queue_refs_set (q : List QueueItem) :
    ∀ (i : Nat) (x y : QueueItem), q.get? i = some x →
      ∃ a b, queue_refs q = a ++ x.executions.map (fun e => e.ref_start) ++ b ∧
        queue_refs (q.set i y) = a ++ y.executions.map (fun e => e.ref_start) ++ b ∧
        queue_refs (q.eraseIdx i) = a ++ b := by
  induction q with
  | nil => intro i x y h; cases h
  | cons z q ih =>
    intro i x y h
    cases i with
    | zero =>
      simp only [List.get?_cons_zero, Option.some.injEq] at h
      subst h
      exact ⟨[], queue_refs q, by simp [queue_refs_cons], by simp [queue_refs_cons],
        by simp⟩
    | succ i =>
      simp only [List.get?_cons_succ] at h
      obtain ⟨a, b, h1, h2, h3⟩ := ih i x y h
      refine ⟨z.executions.map (fun e => e.ref_start) ++ a, b, ?_, ?_, ?_⟩
      · rw [queue_refs_cons, h1]; simp
      · rw [List.set_cons_succ, queue_refs_cons, h2]; simp
      · rw [List.eraseIdx_cons_succ, queue_refs_cons, h3]; simp

/-- The split of an item into the executions that stay, the rejected ones and the ones to
restart neither loses nor duplicates an execution. -/
theorem split_rejected_perm (idxs : List Nat) (it : QueueItem)
    (stay reject restart : List ExecutionItem)
    (h : split_rejected idxs it = some (stay, reject, restart)) :
    (stay.map (fun e => e.ref_start) ++ (reject.map (fun e => e.ref_start)
        ++ restart.map (fun e => e.ref_start))).Perm
      (it.executions.map (fun e => e.ref_start)) := by
  unfold split_rejected at h
  simp only at h
  split at h
  · split at h
    · cases h
    · simp only [Option.some.injEq, Prod.mk.injEq] at h
      obtain ⟨h1, h2, h3⟩ := h
      subst h1 h2 h3
      rw [List.map_map]
      have e : ((fun e : ExecutionItem => e.ref_start) ∘
          fun e : ExecutionItem => { e with result := [] })
          = fun e : ExecutionItem => e.ref_start := rfl
      rw [e, ← List.map_append, ← List.map_append]
      apply List.Perm.map
      have hp := List.filter_append_perm (is_rejected_call idxs)
        (it.executions.drop (it.executions.findIdx (is_rejected_call idxs)))
      have hq : (it.executions.take (it.executions.findIdx (is_rejected_call idxs)) ++
          it.executions.drop (it.executions.findIdx (is_rejected_call idxs))) = it.executions :=
        List.take_append_drop _ _
      exact (List.Perm.append_left _ hp).trans (by rw [hq])
  · cases h

end cs
namespace cs

open csdb

theorem reject_result_ref (env : Env) (a : Address) (e : ExecutionItem) :
    (reject_result env a e).1.ref_start = e.ref_start := by
  unfold reject_result
  split <;> rfl

/-- One turn of the loop of `on_reject` over the queue, before the test for an item left
without executions: the executions held by the queue and by the new items together are
those held before, and no item is Closed that was not. -/
theorem on_reject_item_refs (env : Env) (cur seq : Sequence) (idxs : List Nat)
    (s : SmartContracts) (new : List QueueItem) (i : Nat) (it : QueueItem)
    (hget : s.exe_queue.get? i = some it) :
    (queue_refs (on_reject_item env cur seq idxs s new i it).1.exe_queue
        ++ queue_refs (on_reject_item env cur seq idxs s new i it).2).Perm
      (queue_refs s.exe_queue ++ queue_refs new) ∧
    ((∀ x ∈ s.exe_queue ++ new, x.status ≠ .Closed) →
      ∀ x ∈ (on_reject_item env cur seq idxs s new i it).1.exe_queue
          ++ (on_reject_item env cur seq idxs s new i it).2, x.status ≠ .Closed) := by
  have hshape := on_reject_item_shape env cur seq idxs s new i it
  generalize on_reject_item env cur seq idxs s new i it = r at hshape ⊢
  rcases hshape with ⟨hq, hn, -⟩ | ⟨hs, stay, reject, restart, hsp, hq, hn⟩
  · rw [hq, hn]
    exact ⟨List.Perm.refl _, fun h => h⟩
  · have hperm := split_rejected_perm idxs it stay reject restart hsp
    obtain ⟨a, b, h1, h2, -⟩ := queue_refs_set s.exe_queue i it
      { it with executions := stay } hget
    have hrej : queue_refs (if reject.isEmpty then []
        else [{ it with executions := reject.map (fun e => (reject_result env it.abs_addr e).1),
                        status := .Finished, seq_finish := cur, is_rejected := true }])
        = reject.map (fun e => e.ref_start) := by
      by_cases he : reject.isEmpty = true
      · rw [if_pos he, List.isEmpty_iff.1 he]
        rfl
      · rw [if_neg he]
        simp only [queue_refs, List.flatMap_cons, List.flatMap_nil, List.append_nil,
          List.map_map]
        apply List.map_congr_left
        intro e _
        exact reject_result_ref env it.abs_addr e
    have hres : queue_refs (if restart.isEmpty then []
        else [{ it with executions := restart, status := .Waiting, seq_enqueue := cur }])
        = restart.map (fun e => e.ref_start) := by
      by_cases he : restart.isEmpty = true
      · rw [if_pos he, List.isEmpty_iff.1 he]
        rfl
      · rw [if_neg he]
        simp [queue_refs]
    constructor
    · rw [hq, hn, queue_refs_append, queue_refs_append, hrej, hres, h1, h2]
      simp only [List.append_assoc]
      apply List.Perm.append_left
      have e1 : stay.map (fun e => e.ref_start) ++ (b ++ (queue_refs new
            ++ (reject.map (fun e => e.ref_start) ++ restart.map (fun e => e.ref_start))))
          = stay.map (fun e => e.ref_start) ++ ((b ++ queue_refs new)
            ++ (reject.map (fun e => e.ref_start) ++ restart.map (fun e => e.ref_start))) := by
        simp
      have e2 : it.executions.map (fun e => e.ref_start) ++ (b ++ queue_refs new)
          = it.executions.map (fun e => e.ref_start) ++ (b ++ queue_refs new) := rfl
      show (stay.map (fun e => e.ref_start) ++ (b ++ (queue_refs new
            ++ (reject.map (fun e => e.ref_start) ++ restart.map (fun e => e.ref_start))))).Perm
          (it.executions.map (fun e => e.ref_start) ++ (b ++ queue_refs new))
      rw [e1]
      refine List.Perm.trans ?_ (List.Perm.append_right _ hperm)
      rw [List.append_assoc (stay.map (fun e => e.ref_start))]
      exact List.Perm.append_left _ List.perm_append_comm
    · intro hclosed x hx
      rw [hq, hn] at hx
      have hit : it.status ≠ .Closed :=
        hclosed it (List.mem_append_left _ (mem_of_get _ _ _ hget))
      rcases List.mem_append.1 hx with h | h
      · rcases mem_set_cases _ _ _ _ h with h' | h'
        · exact hclosed x (List.mem_append_left _ h')
        · rw [h']; exact hit
      · rcases List.mem_append.1 h with h | h
        · rcases List.mem_append.1 h with h | h
          · exact hclosed x (List.mem_append_right _ h)
          · split at h
            · cases h
            · simp only [List.mem_singleton] at h
              rw [h]
              simp
        · split at h
          · cases h
          · simp only [List.mem_singleton] at h
            rw [h]
            simp

/-- The loop of `on_reject` over the queue for one block sequence: the executions held by
the queue and by the new items together are those held before, and no item is Closed that
was not. -/
theorem on_reject_scan_refs (env : Env) (cur seq : Sequence) (idxs : List Nat) :
    ∀ (fuel i : Nat) (s : SmartContracts) (new : List QueueItem),
      (queue_refs (on_reject_scan env cur seq idxs fuel i s new).1.exe_queue
          ++ queue_refs (on_reject_scan env cur seq idxs fuel i s new).2).Perm
        (queue_refs s.exe_queue ++ queue_refs new) ∧
      ((∀ x ∈ s.exe_queue ++ new, x.status ≠ .Closed) →
        ∀ x ∈ (on_reject_scan env cur seq idxs fuel i s new).1.exe_queue
            ++ (on_reject_scan env cur seq idxs fuel i s new).2, x.status ≠ .Closed) := by
  intro fuel
  induction fuel with
  | zero => intro i s new; exact ⟨List.Perm.refl _, fun h => h⟩
  | succ fuel ih =>
    intro i s new
    rw [on_reject_scan]
    cases hget : s.exe_queue.get? i with
    | none => exact ⟨List.Perm.refl _, fun h => h⟩
    | some it =>
      simp only
      obtain ⟨hp, hc⟩ := on_reject_item_refs env cur seq idxs s new i it hget
      generalize on_reject_item env cur seq idxs s new i it = r at hp hc ⊢
      cases hg : r.1.exe_queue.get? i with
      | none => exact ⟨hp, hc⟩
      | some it_queue =>
        simp only
        by_cases he : it_queue.executions.isEmpty = true
        · rw [if_pos he]
          obtain ⟨a, b, h1, -, h3⟩ := queue_refs_set r.1.exe_queue i it_queue it_queue hg
          have herase : queue_refs (r.1.exe_queue.eraseIdx i) = queue_refs r.1.exe_queue := by
            rw [h3, h1, List.isEmpty_iff.1 he]
            simp
          have hc2 : (∀ x ∈ s.exe_queue ++ new, x.status ≠ .Closed) →
              ∀ x ∈ r.1.exe_queue.eraseIdx i ++ r.2, x.status ≠ .Closed := by
            intro hcl x hx
            apply hc hcl x
            rcases List.mem_append.1 hx with h | h
            · exact List.mem_append_left _ (List.mem_of_mem_eraseIdx h)
            · exact List.mem_append_right _ h
          split
          · exact ⟨by show (queue_refs (r.1.exe_queue.eraseIdx i) ++ _).Perm _
                      rw [herase]; exact hp, hc2⟩
          · obtain ⟨hp', hc'⟩ := ih (i + 1) { r.1 with exe_queue := r.1.exe_queue.eraseIdx i }
              r.2
            refine ⟨hp'.trans ?_, fun hcl => hc' (hc2 hcl)⟩
            show (queue_refs (r.1.exe_queue.eraseIdx i) ++ _).Perm _
            rw [herase]
            exact hp
        · rw [if_neg he]
          obtain ⟨hp', hc'⟩ := ih (i + 1) r.1 r.2
          exact ⟨hp'.trans hp, fun hcl => hc' (hc hcl)⟩

end cs
namespace cs

open csdb

/-- The loop of `test_exe_queue` on a queue without Closed items: the executions held by the
queue stay as they are, and no item becomes Closed. -/
theorem test_exe_queue_loop_refs (env : Env) :
    ∀ (fuel i : Nat) (s : SmartContracts),
      (∀ x ∈ s.exe_queue, x.status ≠ .Closed) →
      queue_refs (test_exe_queue_loop env fuel i s).exe_queue = queue_refs s.exe_queue ∧
      ∀ x ∈ (test_exe_queue_loop env fuel i s).exe_queue, x.status ≠ .Closed := by
  intro fuel
  induction fuel with
  | zero => intro i s h; exact ⟨rfl, h⟩
  | succ fuel ih =>
    intro i s hcl
    unfold test_exe_queue_loop
    cases hg : s.exe_queue.get? i with
    | none => exact ⟨rfl, hcl⟩
    | some x =>
      simp only
      have hx : x.status ≠ .Closed := hcl x (mem_of_get _ _ _ hg)
      have hstep : queue_refs (test_exe_queue_step env s i x).1.exe_queue
            = queue_refs s.exe_queue ∧
          ∀ y ∈ (test_exe_queue_step env s i x).1.exe_queue, y.status ≠ .Closed := by
        unfold test_exe_queue_step
        rw [if_neg hx]
        split
        · rename_i he
          simp only
          rw [remove_from_queue_at_exe_queue]
          obtain ⟨a, b, h1, -, h3⟩ := queue_refs_set s.exe_queue i x x hg
          refine ⟨?_, fun y hy => hcl y (List.mem_of_mem_eraseIdx hy)⟩
          rw [h3, h1, List.isEmpty_iff.1 he]
          simp
        · split
          · exact ⟨rfl, hcl⟩
          · split
            · exact ⟨rfl, hcl⟩
            · split
              · exact ⟨rfl, hcl⟩
              · obtain ⟨X, hq, hX, hR⟩ := start_item_queue env s i x hg
                simp only
                rw [hq]
                obtain ⟨a, b, h1, h2, -⟩ := queue_refs_set s.exe_queue i x X hg
                refine ⟨by rw [h2, h1, hX], ?_⟩
                intro y hy
                rcases mem_set_cases _ _ _ _ hy with h | h
                · exact hcl y h
                · rw [h, hR]; decide
      obtain ⟨h1, h2⟩ := ih (test_exe_queue_step env s i x).2 (test_exe_queue_step env s i x).1
        hstep.2
      exact ⟨h1.trans hstep.1, h2⟩

/-- The body of the loop of `on_reject` over the groups of the reject list. -/
theorem on_reject_group_refs (env : Env) (cur : Sequence) (s : SmartContracts)
    (group : Sequence × List Nat) :
    (queue_refs (on_reject_group env cur s group).exe_queue).Perm (queue_refs s.exe_queue) ∧
    ((∀ x ∈ s.exe_queue, x.status ≠ .Closed) →
      ∀ x ∈ (on_reject_group env cur s group).exe_queue, x.status ≠ .Closed) := by
  unfold on_reject_group
  split
  · exact ⟨List.Perm.refl _, fun h => h⟩
  · obtain ⟨hp, hc⟩ := on_reject_scan_refs env cur group.1 group.2 s.exe_queue.length 0 s []
    simp only [queue_refs, List.flatMap_nil, List.append_nil] at hp
    simp only [List.append_nil] at hc
    generalize on_reject_scan env cur group.1 group.2 s.exe_queue.length 0 s [] = r at hp hc ⊢
    simp only
    split
    · exact ⟨by show (queue_refs (r.1.exe_queue ++ r.2)).Perm _
                rw [queue_refs_append]; exact hp, hc⟩
    · rename_i hne
      have hnil : r.2 = [] := by
        cases h : r.2 with
        | nil => rfl
        | cons a l => rw [h] at hne; simp at hne
      rw [hnil] at hp hc
      simp only [List.flatMap_nil, List.append_nil] at hp hc
      exact ⟨hp, hc⟩

theorem on_reject_fold_refs (env : Env) (cur : Sequence) :
    ∀ (groups : List (Sequence × List Nat)) (s : SmartContracts),
      (queue_refs (groups.foldl (on_reject_group env cur) s).exe_queue).Perm
        (queue_refs s.exe_queue) ∧
      ((∀ x ∈ s.exe_queue, x.status ≠ .Closed) →
        ∀ x ∈ (groups.foldl (on_reject_group env cur) s).exe_queue, x.status ≠ .Closed) := by
  intro groups
  induction groups with
  | nil => intro s; exact ⟨List.Perm.refl _, fun h => h⟩
  | cons g groups ih =>
    intro s
    rw [List.foldl_cons]
    obtain ⟨h1, h2⟩ := on_reject_group_refs env cur s g
    obtain ⟨h3, h4⟩ := ih (on_reject_group env cur s g)
    exact ⟨h3.trans h1, fun h => h4 (h2 h)⟩

/-- C29. The call `on_reject` conserves executions: on a queue without Closed items, for
every reject list, the executions held over all queue items after `on_reject`, identified by
`ref_start`, are a rearrangement of those held before, none lost and none duplicated, and
the queue still holds no Closed item; the part of `on_reject` before the final
`test_exe_queue()` rearranges the executions whatever the statuses. -/
theorem on_reject_conserves_executions (env : Env) (s : SmartContracts)
    (reject_list : List (Sequence × Nat))
    (hclosed : ∀ x ∈ s.exe_queue, x.status ≠ .Closed) :
    (queue_refs (on_reject env s reject_list).exe_queue).Perm (queue_refs s.exe_queue) ∧
    (∀ r : SmartContractRef,
      (queue_refs (on_reject env s reject_list).exe_queue).count r
        = (queue_refs s.exe_queue).count r) ∧
    (∀ x ∈ (on_reject env s reject_list).exe_queue, x.status ≠ .Closed) ∧
    (queue_refs (on_reject_groups env s reject_list).exe_queue).Perm
      (queue_refs s.exe_queue) := by
  obtain ⟨h1, h2⟩ := on_reject_fold_refs env env.getLastSequence (group_rejected reject_list) s
  have hperm : (queue_refs (on_reject env s reject_list).exe_queue).Perm
      (queue_refs s.exe_queue) ∧
      ∀ x ∈ (on_reject env s reject_list).exe_queue, x.status ≠ .Closed := by
    unfold on_reject
    split
    · exact ⟨List.Perm.refl _, hclosed⟩
    · unfold test_exe_queue on_reject_groups
      obtain ⟨h3, h4⟩ := test_exe_queue_loop_refs env
        ((group_rejected reject_list).foldl (on_reject_group env env.getLastSequence)
          s).exe_queue.length 0 _ (h2 hclosed)
      rw [h3]
      exact ⟨h1, h4⟩
  exact ⟨hperm.1, fun r => hperm.1.count_eq r, hperm.2, h1⟩

end cs
namespace cs

open csdb

/-- C29 at the scheduler of the executor node after the two calls of block 1 have been
executed, when the first call is rejected: the item is split into a rejected item with the
first call and a restart item with the second, the emptied original is erased, and the
queue holds the same two calls as before. -/
theorem on_reject_conserves_executions_witness :
    (∀ x ∈ sample.executed_block1.exe_queue, x.status ≠ .Closed) ∧
    sample.executed_block1.exe_queue.length = 1 ∧
    (on_reject (sample.env_consensus [sample.block1]) sample.executed_block1
      [(1, 0)]).exe_queue.map (fun it => (it.is_rejected, it.executions.map
        (fun e => e.ref_start.transaction)))
      = [(true, [0]), (false, [1])] ∧
    (queue_refs (on_reject (sample.env_consensus [sample.block1]) sample.executed_block1
      [(1, 0)]).exe_queue).Perm (queue_refs sample.executed_block1.exe_queue) :=
  ⟨by decide, by decide, by decide,
    (on_reject_conserves_executions (sample.env_consensus [sample.block1])
      sample.executed_block1 [(1, 0)] (by decide)).1⟩

end cs

namespace cs

open csdb

/-- The call `execute` changes neither the call of the data nor the state it was handed. -/
theorem execute_keeps (env : Env) (x : Executor) (s : SmartContracts) (data : ExecutionData) :
    (execute env x s data).2.1.explicit_last_state = data.explicit_last_state ∧
    (execute env x s data).2.1.contract_ref = data.contract_ref := by
  unfold execute
  dsimp only
  repeat' split
  all_goals exact ⟨rfl, rfl⟩

/-- With an executor attached and a starter that can be loaded, `execute` returns true, and
the result holds an answer when `setError` leaves one. -/
theorem execute_true (env : Env) (x : Executor) (s : SmartContracts) (data : ExecutionData)
    (hh : env.has_exec_handler = true)
    (hv : (get_transaction env data.contract_ref).is_valid = true)
    (hset : ∀ code r, (x.error_result code r).smartsRes ≠ []) :
    (execute env x s data).1 = true ∧ (execute env x s data).2.1.result.smartsRes ≠ [] := by
  have hcr : (if (!data.result.smartsRes.isEmpty) = true then
      ({ data with result := { data.result with smartsRes := [] } } : ExecutionData)
      else data).contract_ref = data.contract_ref := by
    split <;> rfl
  unfold execute
  simp only [hh, Bool.not_true, Bool.false_eq_true, if_false, hcr, hv]
  split
  · rename_i value hval
    split
    · rename_i front hfront
      have hne : value.smartsRes ≠ [] := by
        intro h
        rw [h] at hfront
        cases hfront
      repeat' split
      all_goals first
        | exact ⟨rfl, hne⟩
        | exact ⟨rfl, hset _ _⟩
    · exact ⟨rfl, hset _ _⟩
  · exact ⟨rfl, hset _ _⟩

/-- The loop of the job: every datum is the one `execute` returns for the call when it is
handed the state recorded in the datum, the first call is handed `last_state`, and every
later call is handed the new state of the answer for the call before it. -/
theorem run_job_chain (env : Env) (x : Executor)
    (hh : env.has_exec_handler = true)
    (hset : ∀ code r, (x.error_result code r).smartsRes ≠ []) :
    ∀ (dl : List ExecutionData) (last_state : Bytes) (s : SmartContracts),
      (∀ d ∈ dl, (get_transaction env d.contract_ref).is_valid = true) →
      List.Forall₂
        (fun d0 d => d.contract_ref = d0.contract_ref ∧
          ∃ sm, (execute env x sm { d0 with explicit_last_state := d.explicit_last_state }).1
              = true ∧
            d = (execute env x sm
              { d0 with explicit_last_state := d.explicit_last_state }).2.1)
        dl (run_job env x dl last_state s).1 ∧
      (∀ d, (run_job env x dl last_state s).1.head? = some d →
        d.explicit_last_state = last_state) ∧
      List.Chain'
        (fun d d' => ∃ front, d.result.smartsRes.head? = some front ∧
          d'.explicit_last_state = front.newState)
        (run_job env x dl last_state s).1 := by
  intro dl
  induction dl with
  | nil =>
    intro last_state s _
    exact ⟨List.Forall₂.nil, (fun d h => by simp [run_job] at h), List.chain'_nil⟩
  | cons d0 rest ih =>
    intro last_state s hload
    have hv : (get_transaction env
        ({ d0 with explicit_last_state := last_state } : ExecutionData).contract_ref).is_valid
        = true := hload d0 (List.mem_cons_self _ _)
    obtain ⟨ht, hne⟩ := execute_true env x s { d0 with explicit_last_state := last_state }
      hh hv hset
    obtain ⟨hk1, hk2⟩ := execute_keeps env x s { d0 with explicit_last_state := last_state }
    unfold run_job
    simp only [ht, Bool.not_true, Bool.false_eq_true, if_false]
    cases hfront : (execute env x s
        { d0 with explicit_last_state := last_state }).2.1.result.smartsRes.head? with
    | none =>
      exfalso
      apply hne
      cases hl : (execute env x s
          { d0 with explicit_last_state := last_state }).2.1.result.smartsRes with
      | nil => rfl
      | cons a l => rw [hl] at hfront; cases hfront
    | some front =>
      simp only
      obtain ⟨h1, h2, h3⟩ := ih front.newState
        (execute env x s { d0 with explicit_last_state := last_state }).2.2
        (fun d hd => hload d (List.mem_cons_of_mem _ hd))
      refine ⟨List.Forall₂.cons ⟨hk2, s, ?_, ?_⟩ h1, ?_, ?_⟩
      · rw [hk1]; exact ht
      · rw [hk1]
      · intro d hd
        simp only [List.head?_cons, Option.some.injEq] at hd
        rw [← hd, hk1]
      · rw [List.chain'_cons']
        refine ⟨?_, h3⟩
        intro d' hd'
        exact ⟨front, hfront, h2 d' hd'⟩

/-- The data list that `execute_async` builds holds the calls of the executions in their
order. -/
theorem execute_async_collect_calls (env : Env) :
    ∀ (executions : List ExecutionItem) (s : SmartContracts)
      (acc calls : List (SmartContractRef × Amount)),
      (execute_async_collect env executions s acc).1 = some calls →
      calls = acc ++ executions.map (fun e => (e.ref_start, e.avail_fee)) := by
  intro executions
  induction executions with
  | nil =>
    intro s acc calls h
    simp only [execute_async_collect, Option.some.injEq] at h
    simp [h]
  | cons e rest ih =>
    intro s acc calls h
    unfold execute_async_collect at h
    simp only at h
    split at h
    · split at h
      · cases h
      · rw [ih _ _ _ h]; simp
    · rw [ih _ _ _ h]; simp

end cs
namespace cs

open csdb

/-- C24. Multi-call state chaining: when `execute_async` starts a job for the executions of a
queue item on a node with an executor attached, the starters of the calls can be loaded and
`setError` leaves an answer in the result (the code relies on it: "execute never returns
empty smartsRes list"), the data list that the job returns holds one datum per execution,
in their order; each datum is what `execute` returns, with the value true, for the call
when it is handed the `explicit_last_state` recorded in the datum; the first call is handed
an empty `explicit_last_state`; and every later call is handed the `newState` of the first
answer in the result of the call before it. -/
theorem execute_async_chains_states (env : Env) (x : Executor) (s : SmartContracts)
    (executions : List ExecutionItem) (job : List ExecutionData × SmartContracts)
    (hh : env.has_exec_handler = true)
    (hload : ∀ e ∈ executions, (get_transaction env e.ref_start).is_valid = true)
    (hset : ∀ code r, (x.error_result code r).smartsRes ≠ [])
    (hjob : execute_async_job env x s executions = some job) :
    List.Forall₂
      (fun e d => d.contract_ref = e.ref_start ∧
        ∃ sm, (execute env x sm
              { contract_ref := e.ref_start, executor_fee := e.avail_fee,
                result := ExecuteResult.empty, error := "",
                explicit_last_state := d.explicit_last_state }).1 = true ∧
          d = (execute env x sm
              { contract_ref := e.ref_start, executor_fee := e.avail_fee,
                result := ExecuteResult.empty, error := "",
                explicit_last_state := d.explicit_last_state }).2.1)
      executions job.1 ∧
    (∀ d, job.1.head? = some d → d.explicit_last_state = []) ∧
    List.Chain'
      (fun d d' => ∃ front, d.result.smartsRes.head? = some front ∧
        d'.explicit_last_state = front.newState)
      job.1 := by
  unfold execute_async_job at hjob
  simp only at hjob
  cases hc : (execute_async_collect env executions s []).1 with
  | none => rw [hc] at hjob; cases hjob
  | some calls =>
    rw [hc] at hjob
    simp only at hjob
    have hcalls := execute_async_collect_calls env executions s [] calls hc
    rw [List.nil_append] at hcalls
    split at hjob
    · cases hjob
    · rename_i hne
      simp only [Option.some.injEq] at hjob
      have hne2 : (job_data calls).isEmpty = false := by
        unfold job_data
        cases hcl : calls with
        | nil => rw [hcl] at hne; simp at hne
        | cons a l => rfl
      unfold runnable at hjob
      rw [hne2] at hjob
      simp only [Bool.not_false, if_true] at hjob
      obtain ⟨h1, h2, h3⟩ := run_job_chain env x hh hset (job_data calls) []
        (execute_async_collect env executions s []).2
        (by
          intro d hd
          unfold job_data at hd
          rw [hcalls, List.map_map, List.mem_map] at hd
          obtain ⟨e, he, rfl⟩ := hd
          exact hload e he)
      rw [hjob] at h1 h2 h3
      refine ⟨?_, h2, h3⟩
      unfold job_data at h1
      rw [hcalls, List.map_map, List.forall₂_map_left_iff] at h1
      exact h1

end cs
namespace cs

open csdb

/-- C24 on the executor node after block 1: the job for the two calls of the block runs the
deploy on an empty `explicit_last_state` and the call on the state `[1]` that the deploy
returned. -/
theorem execute_async_chains_states_witness :
    (sample.env_consensus [sample.block1]).has_exec_handler = true ∧
    (∀ e ∈ sample.executor_item.executions,
      (get_transaction (sample.env_consensus [sample.block1]) e.ref_start).is_valid = true) ∧
    (∀ code r, (sample.executor.error_result code r).smartsRes ≠ []) ∧
    (execute_async_job (sample.env_consensus [sample.block1]) sample.executor
        sample.executor_after_block1 sample.executor_item.executions).map
      (fun j => j.1.map (fun d => (d.contract_ref.transaction, d.explicit_last_state,
        d.result.smartsRes.map (fun r => r.newState))))
      = some [(0, [], [[1]]), (1, [1], [[1, 2]])] ∧
    ∃ job, execute_async_job (sample.env_consensus [sample.block1]) sample.executor
        sample.executor_after_block1 sample.executor_item.executions = some job ∧
      (∀ d, job.1.head? = some d → d.explicit_last_state = []) ∧
      List.Chain'
        (fun d d' => ∃ front, d.result.smartsRes.head? = some front ∧
          d'.explicit_last_state = front.newState)
        job.1 :=
  have hset : ∀ code r, (sample.executor.error_result code r).smartsRes ≠ [] :=
    fun _ _ => List.cons_ne_nil _ _
  have hjob : execute_async_job (sample.env_consensus [sample.block1]) sample.executor
      sample.executor_after_block1 sample.executor_item.executions
      = some (runnable (sample.env_consensus [sample.block1]) sample.executor
          (execute_async_collect (sample.env_consensus [sample.block1])
            sample.executor_item.executions sample.executor_after_block1 []).2
          (job_data (sample.executor_item.executions.map
            (fun e => (e.ref_start, e.avail_fee))))) := by
    decide
  ⟨rfl, by decide, hset, by decide, _, hjob,
    (execute_async_chains_states (sample.env_consensus [sample.block1]) sample.executor
      sample.executor_after_block1 sample.executor_item.executions _ rfl (by decide) hset
      hjob).2⟩

end cs

namespace cs

open csdb

/-- What the tests of opackstream_tests.cpp fix for every implementation of the stream of
which their assertions hold: the stream initialised with `init(Fragmented | NetworkMsg)`
holds one packet, whose encoding is the flags byte followed by two 16-bit little-endian
fields, the first 0 and the second 1, 5 bytes in all; the stream initialised with
`init(Fragmented)` holds one packet, in which the same 5 bytes are followed by the 8-byte
message id 1 and the 32-byte key of the sender, 45 bytes in all; without `init`, and after
`init(Fragmented)` and `clear`, the packet count is 0. -/
theorem tests_fix_tested_headers {σ : Type} (impl : OPackStream σ) (bits : BaseFlags)
    (h1 : test_InitializationWithFragmentedAndNetworkMsgFlags impl bits = true)
    (h2 : test_InitializationWithFragmentedFlagOnly impl bits = true)
    (h3 : test_WithoutInitializationPacketsCountIsZero impl = true)
    (h4 : test_AfterClearPacketsCountIsZero impl bits = true)
    (h5 : test_getPacketsCount impl bits = true) :
    (impl.getPacketsCount
        (impl.init (impl.create kPublicKey) (bits.Fragmented ||| bits.NetworkMsg)) = 1 ∧
      impl.getStreamData
          (impl.init (impl.create kPublicKey) (bits.Fragmented ||| bits.NetworkMsg))
        = [bits.Fragmented ||| bits.NetworkMsg] ++ uint16_bytes 0 ++ uint16_bytes 1 ∧
      (impl.getStreamData
          (impl.init (impl.create kPublicKey) (bits.Fragmented ||| bits.NetworkMsg))).length
        = 5) ∧
    (impl.getPacketsCount (impl.init (impl.create kPublicKey) bits.Fragmented) = 1 ∧
      impl.getStreamData (impl.init (impl.create kPublicKey) bits.Fragmented)
        = [bits.Fragmented] ++ uint16_bytes 0 ++ uint16_bytes 1 ++ uint64_bytes 1
            ++ kPublicKey ∧
      (impl.getStreamData (impl.init (impl.create kPublicKey) bits.Fragmented)).length
        = 45) ∧
    impl.getPacketsCount (impl.create kPublicKey) = 0 ∧
    impl.getPacketsCount (impl.clear (impl.init (impl.create kPublicKey) bits.Fragmented))
      = 0 := by
  simp only [test_InitializationWithFragmentedAndNetworkMsgFlags, Bool.and_eq_true,
    decide_eq_true_eq] at h1
  simp only [test_InitializationWithFragmentedFlagOnly, Bool.and_eq_true,
    decide_eq_true_eq] at h2
  simp only [test_WithoutInitializationPacketsCountIsZero, decide_eq_true_eq] at h3
  simp only [test_AfterClearPacketsCountIsZero, decide_eq_true_eq] at h4
  simp only [test_getPacketsCount, decide_eq_true_eq] at h5
  have e1 : encoded_expected_network_msg (bits.Fragmented ||| bits.NetworkMsg)
      = [bits.Fragmented ||| bits.NetworkMsg] ++ uint16_bytes 0 ++ uint16_bytes 1 := rfl
  have e2 : encoded_expected_fragmented bits.Fragmented
      = [bits.Fragmented] ++ uint16_bytes 0 ++ uint16_bytes 1 ++ uint64_bytes 1
          ++ kPublicKey := by
    have h64 : uint64_bytes 1 = [1, 0, 0, 0, 0, 0, 0, 0] := by decide
    rw [h64]
    rfl
  refine ⟨⟨h5.symm, ?_, ?_⟩, ⟨h2.1.1.symm, ?_, ?_⟩, h3.symm, h4.symm⟩
  · rw [h1.2, e1]
  · rw [h1.2]; rfl
  · rw [h2.2, e2]
  · rw [h2.2]; rfl

/-- The assertions of the five tests hold of the stream that writes the packet-index
first. -/
theorem tests_fix_tested_headers_witness :
    test_InitializationWithFragmentedAndNetworkMsgFlags (spec_stream sample.base_flags true 1)
        sample.base_flags = true ∧
    test_InitializationWithFragmentedFlagOnly (spec_stream sample.base_flags true 1)
        sample.base_flags = true ∧
    test_WithoutInitializationPacketsCountIsZero (spec_stream sample.base_flags true 1)
        = true ∧
    test_AfterClearPacketsCountIsZero (spec_stream sample.base_flags true 1)
        sample.base_flags = true ∧
    test_getPacketsCount (spec_stream sample.base_flags true 1) sample.base_flags = true ∧
    (spec_stream sample.base_flags true 1).getStreamData
        ((spec_stream sample.base_flags true 1).init
          ((spec_stream sample.base_flags true 1).create kPublicKey)
          (sample.base_flags.Fragmented ||| sample.base_flags.NetworkMsg))
      = [sample.base_flags.Fragmented ||| sample.base_flags.NetworkMsg]
          ++ uint16_bytes 0 ++ uint16_bytes 1 :=
  ⟨by decide, by decide, by decide, by decide, by decide,
    (tests_fix_tested_headers (spec_stream sample.base_flags true 1)
      sample.base_flags (by decide) (by decide) (by decide) (by decide) (by decide)).1.2.1⟩

end cs

namespace cs
namespace IterValidator

open csdb

end IterValidator
end cs

namespace cs

open csdb

/-- C20, the failing input. Node `[3]` executes the two items that block 1 of `two_chain`
has queued, both Running since block 1; the blocks 2 to 51 leave them as they are. At block
52 both are past `MaxRoundsExecuteContract` for the first time, and the consensus does not
start. The turn of the first item runs the completion handler, which erases the item from
the queue inside the range-for: the first item is not left in the queue as Finished, the
second is still Running, and the pass has no result. -/
theorem soft_timeout_erases_item_inside_pass :
    sample.run_blocks sample.two_chain 51 = some sample.executor_two_items ∧
    sample.executor_two_items.exe_queue = [sample.first_item, sample.second_item] ∧
    sample.first_item.status = .Running ∧ sample.second_item.status = .Running ∧
    (sample.chain_env sample.two_chain 52 false).MaxRoundsExecuteContract
      < (sample.two_chain 52).sequence - sample.first_item.seq_start ∧
    (sample.two_chain 52).sequence - sample.first_item.seq_start
      ≤ (sample.chain_env sample.two_chain 52 false).MaxRoundsCancelContract ∧
    sample.second_item.seq_start = sample.first_item.seq_start ∧
    (test_exe_conditions_step (sample.chain_env sample.two_chain 52 false)
        (sample.two_chain 52) sample.executor_two_items 0 sample.first_item).exe_queue
      = [sample.second_item] ∧
    test_exe_conditions (sample.chain_env sample.two_chain 52 false)
        sample.executor_two_items (sample.two_chain 52) = none := by
  refine ⟨by decide, by decide, by decide, by decide, by decide, by decide, by decide,
    by decide, by decide⟩

/-- C21, the failing input. Node `[3]` executes the two items that block 1 of `costly_chain`
has queued; block 2 has a round fee of 200, more than the 98 available to a call, and the
consensus does not start. The turn of the first item charges its call, finds it out of
funds and runs the completion handler, which erases the item from the queue inside the
range-for: the second item, Running and past no timeout, is left as it was, with its
`consumed_fee` of 2, and the pass has no result. -/
theorem out_of_funds_erases_item_inside_pass :
    sample.run_blocks sample.costly_chain 1 = some sample.executor_two_started ∧
    sample.executor_two_started.exe_queue = [sample.first_item, sample.second_item] ∧
    sample.first_item.status = .Running ∧ sample.second_item.status = .Running ∧
    smart_round_fee (sample.costly_chain 2) = 200 ∧
    (sample.costly_chain 2).sequence - sample.first_item.seq_start
      ≤ (sample.chain_env sample.costly_chain 2 false).MaxRoundsExecuteContract ∧
    (test_exe_conditions_step (sample.chain_env sample.costly_chain 2 false)
        (sample.costly_chain 2) sample.executor_two_started 0 sample.first_item).exe_queue
      = [sample.second_item] ∧
    sample.second_item.executions.map (fun e => e.consumed_fee) = [2] ∧
    test_exe_conditions (sample.chain_env sample.costly_chain 2 false)
        sample.executor_two_started (sample.costly_chain 2) = none := by
  refine ⟨by decide, by decide, by decide, by decide, by decide, by decide, by decide,
    by decide, by decide⟩

set_option maxRecDepth 100000 in
/-- C19, the failing input. Node `[3]` stores the blocks 1 to 102 of `late_chain`, the
consensus starting: the call of `contract` waits for the new-state of the deploy and is
Running since block 60; the deploy of `contract2`, behind it in the queue, is Running since
block 2 and Finished since its soft timeout. At block 103 the second item is past
`MaxRoundsCancelContract` for the first time, the first is past no timeout, the round fee
of the block exceeds what the first has available, and the consensus does not start. The
turn of the first item runs the completion handler, which erases the item from the queue
inside the range-for; the second item has not been set to Closed, and the pass has no
result. -/
theorem hard_timeout_item_behind_erased_item :
    sample.run_blocks sample.late_chain 102 = some sample.executor_late ∧
    sample.executor_late.exe_queue = [sample.late_item, sample.timed_out_item] ∧
    sample.timed_out_item.status = .Finished ∧
    (sample.late_chain 103).sequence - sample.timed_out_item.seq_start
      > (sample.chain_env sample.late_chain 103 false).MaxRoundsCancelContract ∧
    (sample.late_chain 102).sequence - sample.timed_out_item.seq_start
      ≤ (sample.chain_env sample.late_chain 103 false).MaxRoundsCancelContract ∧
    sample.late_item.status = .Running ∧
    (sample.late_chain 103).sequence - sample.late_item.seq_start
      ≤ (sample.chain_env sample.late_chain 103 false).MaxRoundsExecuteContract ∧
    smart_round_fee (sample.late_chain 103) = 200 ∧
    (test_exe_conditions_step (sample.chain_env sample.late_chain 103 false)
        (sample.late_chain 103) sample.executor_late 0 sample.late_item).exe_queue
      = [sample.timed_out_item] ∧
    test_exe_conditions (sample.chain_env sample.late_chain 103 false) sample.executor_late
        (sample.late_chain 103) = none := by
  refine ⟨by decide, by decide, by decide, by decide, by decide, by decide, by decide,
    by decide, by decide, by decide⟩

end cs

namespace cs

open csdb

/-! ### A pass of `test_exe_conditions` that has a result -/

/-- The length of the queue is enough fuel for the loop of the pass: a turn does not
lengthen the queue. -/
theorem test_exe_conditions_loop_enough_fuel (env : Env) (block : Pool) :
    ∀ (fuel i : Nat) (s : SmartContracts), s.exe_queue.length ≤ i + fuel →
      test_exe_conditions_loop env block (fuel + 1) i s
        = test_exe_conditions_loop env block fuel i s := by
  intro fuel
  induction fuel with
  | zero =>
    intro i s h
    have hg : s.exe_queue.get? i = none := List.get?_eq_none.2 (by omega)
    unfold test_exe_conditions_loop
    rw [hg]
  | succ fuel ih =>
    intro i s h
    cases hg : s.exe_queue.get? i with
    | none =>
      unfold test_exe_conditions_loop
      rw [hg]
    | some item =>
      rw [test_exe_conditions_loop_succ env block (fuel + 1) i s item hg,
        test_exe_conditions_loop_succ env block fuel i s item hg]
      have hi := get_lt_length _ _ _ hg
      rcases turn_result_suffix env block i item _ _ hi
        (test_exe_conditions_step_result env block s i item hg).2 with ⟨hlen, -⟩ | ⟨hlen, -⟩
      · rw [if_neg (by omega), if_neg (by omega)]
        exact ih (i + 1) _ (by omega)
      · rw [if_pos (by omega), if_pos (by omega)]

theorem test_exe_conditions_loop_no_new_locks (env : Env) (block : Pool) (fuel i : Nat)
    (s s' : SmartContracts) (h : test_exe_conditions_loop env block fuel i s = some s') :
    no_new_locks s s' :=
  test_exe_conditions_loop_rel env block no_new_locks no_new_locks_refl no_new_locks_trans
    (fun s i item h => (test_exe_conditions_step_result env block s i item h).1) fuel i s s' h

/-- An item that is Finished or Closed and stands before the position of the pass is still
in the queue when the pass ends. -/
theorem test_exe_conditions_loop_keeps_done (env : Env) (block : Pool) (c : QueueItem)
    (hdone : c.status = .Finished ∨ c.status = .Closed) :
    ∀ fuel i s s', test_exe_conditions_loop env block fuel i s = some s' →
      c ∈ s.exe_queue.take i → c ∈ s'.exe_queue := by
  intro fuel
  induction fuel with
  | zero =>
    intro i s s' hres h
    unfold test_exe_conditions_loop at hres
    cases hres
    exact List.mem_of_mem_take h
  | succ fuel ih =>
    intro i s s' hres h
    cases hg : s.exe_queue.get? i with
    | none =>
      unfold test_exe_conditions_loop at hres
      rw [hg] at hres
      cases hres
      exact List.mem_of_mem_take h
    | some item =>
      rw [test_exe_conditions_loop_succ env block fuel i s item hg] at hres
      have h1 := turn_result_done_prefix env block i item _ _
        (test_exe_conditions_step_result env block s i item hg).2 c h hdone
      split at hres
      · cases hres
      · exact ih _ _ _ hres (mem_take_mono _ _ _ _ (Nat.le_succ _) h1)

/-- A pass that has a result takes its turn on every item of the queue, at the position of
the item, and finds the item as it was before the pass; the items that then stand before
it in the queue stand for the calls of items that stood before it when the pass began. -/
theorem test_exe_conditions_loop_reach (env : Env) (block : Pool) :
    ∀ (k fuel i : Nat) (s s' : SmartContracts) (item : QueueItem),
      s.exe_queue.get? (i + k) = some item → s.exe_queue.length - i ≤ fuel →
      test_exe_conditions_loop env block fuel i s = some s' →
      ∃ sk fuel', sk.exe_queue.get? (i + k) = some item ∧
        test_exe_conditions_loop env block (fuel' + 1) (i + k) sk = some s' ∧
        (∀ it' ∈ sk.exe_queue.take (i + k),
          ∃ it ∈ s.exe_queue.take (i + k), same_calls it it') := by
  intro k
  induction k with
  | zero =>
    intro fuel i s s' item hg hfuel hres
    have hi := get_lt_length _ _ _ hg
    cases fuel with
    | zero => omega
    | succ fuel => exact ⟨s, fuel, hg, hres, fun it' h => ⟨it', h, same_calls_refl _⟩⟩
  | succ k ih =>
    intro fuel i s s' item hg hfuel hres
    have hik := get_lt_length _ _ _ hg
    have hi : i < s.exe_queue.length := by omega
    cases fuel with
    | zero => omega
    | succ fuel =>
      obtain ⟨it0, hit0⟩ : ∃ it0, s.exe_queue.get? i = some it0 := by
        simp only [List.get?_eq_getElem?, List.getElem?_eq_getElem hi]
        exact ⟨_, rfl⟩
      rw [test_exe_conditions_loop_succ env block fuel i s it0 hit0] at hres
      have hturn := (test_exe_conditions_step_result env block s i it0 hit0).2
      have hsuf := turn_result_suffix env block i it0 _ _ hi hturn
      have hpre := turn_result_prefix_origin env block i it0 _ _ hit0 hturn
      have hdrop : ∀ (q q' : List QueueItem) (a b n : Nat), q'.drop a = q.drop b →
          q'.get? (a + n) = q.get? (b + n) := by
        intro q q' a b n h
        simp only [List.get?_eq_getElem?]
        rw [← List.getElem?_drop, ← List.getElem?_drop, h]
      have e : i + 1 + k = i + (k + 1) := by omega
      rcases hsuf with ⟨hlen, hd⟩ | ⟨hlen, hd⟩
      · rw [if_neg (by omega)] at hres
        have hpre' : ∀ it' ∈ (test_exe_conditions_step env block s i it0).exe_queue.take (i + 1),
            ∃ it ∈ s.exe_queue.take (i + 1), same_calls it it' := by
          rcases hpre with ⟨_, h⟩ | ⟨hl2, _⟩
          · exact h
          · omega
        obtain ⟨sk, fuel', hsk, hloop, horig⟩ := ih fuel (i + 1) _ s' item
          (by rw [hdrop _ _ _ _ k hd, e]; exact hg) (by omega) hres
        rw [e] at hsk hloop horig
        refine ⟨sk, fuel', hsk, hloop, ?_⟩
        intro it' hmem
        obtain ⟨it1, h1, hc1⟩ := horig it' hmem
        rw [mem_take_iff_get] at h1
        obtain ⟨p, hp, hp2⟩ := h1
        by_cases hpi : p < i + 1
        · obtain ⟨it, hit, hc⟩ := hpre' it1 ((mem_take_iff_get _ _ _).2 ⟨p, hpi, hp2⟩)
          exact ⟨it, mem_take_mono _ _ _ _ (by omega) hit, same_calls_trans _ _ _ hc hc1⟩
        · refine ⟨it1, (mem_take_iff_get _ _ _).2 ⟨p, hp, ?_⟩, hc1⟩
          have e2 : i + 1 + (p - (i + 1)) = p := by omega
          rw [← e2, ← hdrop _ _ _ _ (p - (i + 1)) hd, e2]
          exact hp2
      · rw [if_pos (by omega)] at hres
        cases hres

/-- Every Closed item of the queue after a pass stands for the calls of an item that was
Closed before the pass or had been started more than `MaxRoundsCancelContract` blocks
before the block. -/
theorem test_exe_conditions_closed_origin (env : Env) (block : Pool) (s s' : SmartContracts)
    (hres : test_exe_conditions env s block = some s') :
    ∀ it' ∈ s'.exe_queue, ∃ it ∈ s.exe_queue,
      same_calls it it' ∧
      (it'.status = .Closed →
        it.status = .Closed ∨ block.sequence - it.seq_start > env.MaxRoundsCancelContract) := by
  refine test_exe_conditions_rel env block
    (fun s s' => ∀ it' ∈ s'.exe_queue, ∃ it ∈ s.exe_queue, same_calls it it' ∧
      (it'.status = .Closed →
        it.status = .Closed ∨ block.sequence - it.seq_start > env.MaxRoundsCancelContract))
    ?_ ?_ ?_ s s' hres
  · intro s it' h
    exact ⟨it', h, same_calls_refl _, fun h => Or.inl h⟩
  · intro s1 s2 s3 h12 h23 it3 h3
    obtain ⟨it2, h2, hc23, hcl23⟩ := h23 it3 h3
    obtain ⟨it1, h1, hc12, hcl12⟩ := h12 it2 h2
    refine ⟨it1, h1, same_calls_trans _ _ _ hc12 hc23, ?_⟩
    intro hcl
    rcases hcl23 hcl with h | h
    · exact hcl12 h
    · right
      rw [← hc12.2.1]
      exact h
  · intro s i item hg it' hmem
    rcases turn_result_members env block i item _ _ hg
      (test_exe_conditions_step_result env block s i item hg).2 it' hmem with h | ⟨it, hit, hc, h⟩
    · exact ⟨it', h, same_calls_refl _, fun h => Or.inl h⟩
    · refine ⟨it, hit, hc, ?_⟩
      intro hcl
      rcases h with ⟨_, _, hh⟩ | hF | ⟨hR, rfl⟩
      · exact Or.inr hh
      · rw [hF] at hcl
        cases hcl
      · simp only at hcl
        rw [hR] at hcl
        cases hcl

/-- The pass of `test_exe_conditions` as the loop over the whole queue. -/
theorem test_exe_conditions_eq_loop (env : Env) (s : SmartContracts) (block : Pool)
    (k : Nat) (item : QueueItem) (hk : s.exe_queue.get? k = some item) :
    test_exe_conditions env s block
      = test_exe_conditions_loop env block s.exe_queue.length 0 s := by
  have hne : s.exe_queue.isEmpty = false := by
    cases hq : s.exe_queue with
    | nil => rw [hq] at hk; cases hk
    | cons a l => rfl
  unfold test_exe_conditions
  rw [hne]
  simp

/-- Hard timeout in a pass of `test_exe_conditions(block)` that has a result: a queue item
that is Running or Finished and whose `seq_start` lies more than `MaxRoundsCancelContract`
blocks before `block.sequence` gets its turn, in which it is set to Closed and nothing is
emitted but `payable_timeout` signals (no packet is built, nothing is sent to the
consensus); when the pass ends, the item, Closed and otherwise as it was, is in the queue
and its contract is not locked; the pass of `test_exe_queue` that follows leaves no Closed
item in the queue; and an item that the pass leaves Closed without it having been Closed
before was started more than `MaxRoundsCancelContract` blocks before the block. -/
theorem hard_timeout_in_pass (env : Env) (s : SmartContracts) (block : Pool)
    (k : Nat) (item : QueueItem)
    (hk : s.exe_queue.get? k = some item)
    (hst : item.status = .Running ∨ item.status = .Finished)
    (hhard : block.sequence - item.seq_start > env.MaxRoundsCancelContract)
    (s' : SmartContracts) (hres : test_exe_conditions env s block = some s') :
    (∃ sk fuel evs, sk.exe_queue.get? k = some item ∧
      (test_exe_conditions_step env block sk k item).exe_queue
        = sk.exe_queue.set k { item with status := .Closed } ∧
      (test_exe_conditions_step env block sk k item).log = sk.log ++ evs ∧
      (∀ ev ∈ evs, ∃ t, ev = Event.payable_timeout t) ∧
      test_exe_conditions_loop env block fuel (k + 1)
        (test_exe_conditions_step env block sk k item) = some s') ∧
    { item with status := .Closed } ∈ s'.exe_queue ∧
    is_locked s' item.abs_addr = false ∧
    (∀ it' ∈ (test_exe_queue env s').exe_queue, it'.status ≠ .Closed) ∧
    (∀ it' ∈ s'.exe_queue, it'.status = .Closed →
      ∃ it ∈ s.exe_queue, same_calls it it' ∧
        (it.status = .Closed ∨
          block.sequence - it.seq_start > env.MaxRoundsCancelContract)) := by
  have hloop0 := hres
  rw [test_exe_conditions_eq_loop env s block k item hk] at hloop0
  obtain ⟨sk, fuel, hsk, hreach, -⟩ := test_exe_conditions_loop_reach env block k
    s.exe_queue.length 0 s s' item (by rw [Nat.zero_add]; exact hk) (by omega) hloop0
  rw [Nat.zero_add] at hsk hreach
  have hstep := test_exe_conditions_step_hard env block sk k item hst hhard
  obtain ⟨hq, hkc⟩ := timeout_signals_frame env item.executions
    (update_status_at env sk k block.sequence .Closed)
  have hqueue : (test_exe_conditions_step env block sk k item).exe_queue
      = sk.exe_queue.set k { item with status := .Closed } := by
    rw [hstep, hq, update_status_at_queue env sk k item _ _ hsk]
    rfl
  have hnext : test_exe_conditions_loop env block fuel (k + 1)
      (test_exe_conditions_step env block sk k item) = some s' := by
    rw [test_exe_conditions_loop_succ env block fuel k sk item hsk, if_neg] at hreach
    · exact hreach
    · rw [hqueue, List.length_set]
      omega
  obtain ⟨evs, hlog, hevs⟩ := timeout_signals_log env item.executions
    (update_status_at env sk k block.sequence .Closed)
  rw [update_status_at_log] at hlog
  refine ⟨⟨sk, fuel, evs, hsk, hqueue, by rw [hstep]; exact hlog, hevs, hnext⟩, ?_, ?_,
    test_exe_queue_no_closed env _, ?_⟩
  · apply test_exe_conditions_loop_keeps_done env block _ (Or.inr rfl) _ _ _ _ hnext
    rw [mem_take_iff_get]
    refine ⟨k, Nat.lt_succ_self _, ?_⟩
    rw [hqueue]
    have hi := get_lt_length _ _ _ hsk
    simp [hi]
  · have hun : is_locked (test_exe_conditions_step env block sk k item) item.abs_addr = false := by
      rw [hstep, is_locked_congr _ _ hkc, update_status_at_closed env sk k item _ hsk,
        is_locked_congr _ _ rfl]
      exact update_lock_status_item_false_unlocks env sk { item with status := .Closed }
    cases hl : is_locked s' item.abs_addr
    · rfl
    · rw [test_exe_conditions_loop_no_new_locks env block fuel (k + 1) _ _ hnext _ hl] at hun
      cases hun
  · intro it' hmem hcl
    obtain ⟨it, hit, hc, h⟩ := test_exe_conditions_closed_origin env block s s' hres it' hmem
    exact ⟨it, hit, hc, h hcl⟩

end cs

namespace cs

open csdb

/-- The turn of the pass on an item that this node does not execute writes the position of
the item only, with an item that this node does not execute either. -/
theorem test_exe_conditions_step_not_executor (env : Env) (block : Pool) (s : SmartContracts)
    (i : Nat) (item : QueueItem) (hg : s.exe_queue.get? i = some item)
    (hex : item.is_executor = false) :
    ∃ x : QueueItem, x.is_executor = false ∧
      (test_exe_conditions_step env block s i item).exe_queue = s.exe_queue.set i x := by
  have hself : s.exe_queue = s.exe_queue.set i item := (list_set_self _ _ _ hg).symm
  have hi := get_lt_length _ _ _ hg
  by_cases hst : item.status = .Running ∨ item.status = .Finished
  · by_cases hhard : block.sequence - item.seq_start > env.MaxRoundsCancelContract
    · refine ⟨{ item with status := .Closed }, hex, ?_⟩
      rw [test_exe_conditions_step_hard env block s i item hst hhard,
        (timeout_signals_frame env item.executions _).1,
        update_status_at_queue env s i item _ _ hg]
      rfl
    · have hnothard : block.sequence - item.seq_start ≤ env.MaxRoundsCancelContract := by omega
      by_cases hrun : item.status = .Running
      · by_cases hsoft : block.sequence - item.seq_start > env.MaxRoundsExecuteContract
        · refine ⟨{ item with status := .Finished, seq_finish := block.sequence }, hex, ?_⟩
          rw [test_exe_conditions_step_soft env block s i item hrun hsoft hnothard]
          unfold cancel_item
          rw [if_neg (by rw [hex]; decide), update_status_at_finished env s i item _ hg]
          rfl
        · have hnotsoft : block.sequence - item.seq_start ≤ env.MaxRoundsExecuteContract := by
            omega
          rw [test_exe_conditions_step_funds env block s i item hrun hnotsoft hnothard]
          split
          · refine ⟨{ item with
                executions := (charge_round_fee (smart_round_fee block) item.executions).1,
                status := .Finished, seq_finish := block.sequence }, hex, ?_⟩
            unfold cancel_item
            rw [if_neg (by simp only [hex]; decide),
              update_status_at_finished env _ i
                { item with
                  executions := (charge_round_fee (smart_round_fee block) item.executions).1 } _
                (by simp [set_item, hi]),
              set_item_set_item]
            rfl
          · exact ⟨{ item with
                executions := (charge_round_fee (smart_round_fee block) item.executions).1 },
              hex, rfl⟩
      · refine ⟨item, hex, ?_⟩
        have hfin : item.status = .Finished := by
          rcases hst with h | h
          · exact absurd h hrun
          · exact h
        have e : test_exe_conditions_step env block s i item = s := by
          unfold test_exe_conditions_step
          simp only [hard_timeout_iff]
          rw [if_neg (by rw [hfin]; simp), if_neg hhard, if_neg hrun]
        rw [e]
        exact hself
  · refine ⟨item, hex, ?_⟩
    have e : test_exe_conditions_step env block s i item = s := by
      unfold test_exe_conditions_step
      simp only
      rw [if_pos (by
        constructor
        · intro h; exact hst (Or.inl h)
        · intro h; exact hst (Or.inr h))]
    rw [e]
    exact hself

/-- On a node that executes none of the queued items the pass of `test_exe_conditions` has
a result: no turn erases an item. -/
theorem test_exe_conditions_defined (env : Env) (block : Pool) (s : SmartContracts)
    (hex : ∀ it ∈ s.exe_queue, it.is_executor = false) :
    ∃ s', test_exe_conditions env s block = some s' := by
  have key : ∀ (fuel i : Nat) (s : SmartContracts),
      (∀ it ∈ s.exe_queue, it.is_executor = false) →
      ∃ s', test_exe_conditions_loop env block fuel i s = some s' := by
    intro fuel
    induction fuel with
    | zero =>
      intro i s _
      exact ⟨s, by unfold test_exe_conditions_loop; rfl⟩
    | succ fuel ih =>
      intro i s hs
      cases hg : s.exe_queue.get? i with
      | none =>
        refine ⟨s, ?_⟩
        unfold test_exe_conditions_loop
        rw [hg]
      | some item =>
        obtain ⟨x, hx, hq⟩ := test_exe_conditions_step_not_executor env block s i item hg
          (hs item (mem_of_get _ _ _ hg))
        rw [test_exe_conditions_loop_succ env block fuel i s item hg,
          if_neg (by rw [hq, List.length_set]; omega)]
        apply ih
        intro it hit
        rw [hq] at hit
        rcases mem_set_cases _ _ _ _ hit with h | h
        · exact hs it h
        · rw [h]; exact hx
  unfold test_exe_conditions
  split
  · exact ⟨s, rfl⟩
  · exact key _ _ s hex

end cs

namespace cs

open csdb

/-- Soft timeout in a pass of `test_exe_conditions(block)` that has a result: a Running item
of the queue whose `seq_start` lies more than `MaxRoundsExecuteContract` and at most
`MaxRoundsCancelContract` blocks before `block.sequence` leaves the Running status. On a
node that is not executor for it, the item, marked Finished at `block.sequence` and
otherwise as it was (no round fee is added), is in the queue when the pass ends. On an
executor node, when the item holds calls that no other queue item holds, that are pairwise
distinct and whose starters can be loaded, the pass arrives at the item and runs the
completion handler, which completes every execution with the error `TimeExpired` (a
new-state with empty `Value`, `RetVal` the error code, consumed fee that of the error data,
no round fee), hands the packet of these new-states to the consensus, which starts, and
announces it; the item, Finished, is in the queue when the pass ends. -/
theorem soft_timeout_in_pass (env : Env) (s : SmartContracts) (block : Pool)
    (k : Nat) (item : QueueItem)
    (hk : s.exe_queue.get? k = some item)
    (hrun : item.status = .Running)
    (hsoft : block.sequence - item.seq_start > env.MaxRoundsExecuteContract)
    (hnothard : block.sequence - item.seq_start ≤ env.MaxRoundsCancelContract)
    (s' : SmartContracts) (hres : test_exe_conditions env s block = some s') :
    (item.is_executor = false →
      { item with status := .Finished, seq_finish := block.sequence } ∈ s'.exe_queue) ∧
    (item.is_executor = true →
      ∀ e0 rest, item.executions = e0 :: rest →
      (∀ p it', s.exe_queue.get? p = some it' → p ≠ k →
        it'.executions.any (fun e => e.ref_start.same e0.ref_start) = false) →
      (item.executions.map (fun e => e.ref_start)).Pairwise
        (fun r1 r2 => r1.same r2 = false) →
      (∀ e ∈ item.executions, (get_transaction env e.ref_start).is_valid = true) →
      ∃ sk Y,
        sk.exe_queue.get? k = some item ∧
        List.Forall₂ (cancelled_with env error_TimeExpired) item.executions Y ∧
        (test_exe_conditions_step env block sk k item).log
          = sk.log ++ [.start_consensus (Y.map (fun e => e.ref_start))
                        (Y.flatMap (fun e => e.result)),
                      .smart_executed (Y.flatMap (fun e => e.result))] ∧
        env.start_consensus
            { item with status := .Finished, seq_finish := env.getLastSequence,
                        executions := Y }
            (Y.flatMap (fun e => e.result)) = true ∧
        { item with status := .Finished, seq_finish := env.getLastSequence, executions := Y }
          ∈ s'.exe_queue) := by
  have hloop0 := hres
  rw [test_exe_conditions_eq_loop env s block k item hk] at hloop0
  obtain ⟨sk, fuel, hsk, hreach, horig⟩ := test_exe_conditions_loop_reach env block k
    s.exe_queue.length 0 s s' item (by rw [Nat.zero_add]; exact hk) (by omega) hloop0
  rw [Nat.zero_add] at hsk hreach horig
  have hstep := test_exe_conditions_step_soft env block sk k item hrun hsoft hnothard
  have hik := get_lt_length _ _ _ hsk
  rw [test_exe_conditions_loop_succ env block fuel k sk item hsk] at hreach
  constructor
  · intro hex
    have hstep2 : test_exe_conditions_step env block sk k item
        = set_item sk k { item with status := .Finished, seq_finish := block.sequence } := by
      rw [hstep]
      unfold cancel_item
      rw [if_neg (by rw [hex]; decide), update_status_at_finished env sk k item _ hsk]
    rw [hstep2, if_neg (by simp [set_item])] at hreach
    apply test_exe_conditions_loop_keeps_done env block _ (Or.inl rfl) _ _ _ _ hreach
    rw [mem_take_iff_get]
    exact ⟨k, Nat.lt_succ_self _, by simp [set_item, hik]⟩
  · intro hex e0 rest hexe huniq hpair hload
    have hfind : find_in_queue sk e0.ref_start = k := by
      apply find_in_queue_eq sk k item e0.ref_start hsk
      · rw [List.any_eq_true]
        exact ⟨e0, by rw [hexe]; exact List.mem_cons_self _ _, same_refl _⟩
      · intro it' hmem
        obtain ⟨it, hit, hc⟩ := horig it' hmem
        rw [holds_ref_of_same_calls it it' _ hc]
        rw [mem_take_iff_get] at hit
        obtain ⟨p, hp, hp2⟩ := hit
        exact huniq p it hp2 (by omega)
    have hstep2 : test_exe_conditions_step env block sk k item
        = on_execution_completed_impl env sk
            (item.executions.map (fun e =>
              error_data e.ref_start error_TimeExpired "contract execution timeout")) := by
      rw [hstep]
      unfold cancel_item
      rw [if_pos hex]
      simp only [hexe, List.map_cons, List.isEmpty_cons, Bool.not_false, if_true]
    obtain ⟨Y, hY, hlog, hq⟩ := on_execution_completed_impl_cancelled env sk k item e0 rest
      error_TimeExpired "contract execution timeout" (by decide) hsk hexe hfind
      (by rw [hrun]; decide) (by rw [hrun]; decide) hex hpair hload
    rw [← hstep2] at hlog hq
    by_cases hsc : env.start_consensus
        { item with status := .Finished, seq_finish := env.getLastSequence, executions := Y }
        (Y.flatMap (fun e => e.result)) = true
    · rw [if_pos hsc] at hq
      rw [if_neg (by rw [hq, List.length_set]; omega)] at hreach
      refine ⟨sk, Y, hsk, hY, hlog, hsc, ?_⟩
      apply test_exe_conditions_loop_keeps_done env block _ (Or.inl rfl) _ _ _ _ hreach
      rw [mem_take_iff_get]
      exact ⟨k, Nat.lt_succ_self _, by rw [hq]; simp [hik]⟩
    · rw [if_neg hsc] at hq
      rw [if_pos (by rw [hq, List.length_eraseIdx, if_pos hik]; omega)] at hreach
      cases hreach

/-- Out of funds in a pass of `test_exe_conditions(block)` that has a result: the pass
arrives at every Running item that is past neither time limit and charges the round fee
`smart_round_fee(block)`. When no execution is out of funds the fee is added to the
consumed fee of every execution and the item stays as it is otherwise. When for some
execution the consumed fee with the round fee exceeds `avail_fee`, the whole item is
cancelled and leaves the Running status: on a node that is not executor for it the item is
marked Finished at `block.sequence` and is in the queue when the pass ends; on an executor
node, when the item holds calls that no other queue item holds, that are pairwise distinct
and whose starters can be loaded, the completion handler completes every execution of the
item with the error `OutOfFunds` (a new-state with empty `Value`, `RetVal` the error
code), hands the packet of these new-states to the consensus, which starts, and announces
it; the item, Finished, is in the queue when the pass ends. -/
theorem out_of_funds_in_pass (env : Env) (s : SmartContracts) (block : Pool)
    (k : Nat) (item : QueueItem)
    (hk : s.exe_queue.get? k = some item)
    (hrun : item.status = .Running)
    (hnotsoft : block.sequence - item.seq_start ≤ env.MaxRoundsExecuteContract)
    (hnothard : block.sequence - item.seq_start ≤ env.MaxRoundsCancelContract)
    (s' : SmartContracts) (hres : test_exe_conditions env s block = some s') :
    ((∀ e ∈ item.executions, ¬ e.avail_fee < e.consumed_fee + smart_round_fee block) →
      ∃ sk fuel, sk.exe_queue.get? k = some item ∧
        test_exe_conditions_loop env block fuel (k + 1)
          (set_item sk k
            { item with
              executions := item.executions.map (fun e =>
                { e with consumed_fee := e.consumed_fee + smart_round_fee block }) })
          = some s') ∧
    ((∃ e ∈ item.executions, e.avail_fee < e.consumed_fee + smart_round_fee block) →
      (item.is_executor = false →
        { item with
          executions := (charge_round_fee (smart_round_fee block) item.executions).1,
          status := .Finished, seq_finish := block.sequence } ∈ s'.exe_queue) ∧
      (item.is_executor = true →
        ∀ e0 rest, item.executions = e0 :: rest →
        (∀ p it', s.exe_queue.get? p = some it' → p ≠ k →
          it'.executions.any (fun e => e.ref_start.same e0.ref_start) = false) →
        (item.executions.map (fun e => e.ref_start)).Pairwise
          (fun r1 r2 => r1.same r2 = false) →
        (∀ e ∈ item.executions, (get_transaction env e.ref_start).is_valid = true) →
        ∃ sk Y,
          sk.exe_queue.get? k = some item ∧
          List.Forall₂ (cancelled_with env error_OutOfFunds) item.executions Y ∧
          (test_exe_conditions_step env block sk k item).log
            = sk.log ++ [.start_consensus (Y.map (fun e => e.ref_start))
                          (Y.flatMap (fun e => e.result)),
                        .smart_executed (Y.flatMap (fun e => e.result))] ∧
          env.start_consensus
              { item with status := .Finished, seq_finish := env.getLastSequence,
                          executions := Y }
              (Y.flatMap (fun e => e.result)) = true ∧
          { item with status := .Finished, seq_finish := env.getLastSequence,
                      executions := Y } ∈ s'.exe_queue)) := by
  have hloop0 := hres
  rw [test_exe_conditions_eq_loop env s block k item hk] at hloop0
  obtain ⟨sk, fuel, hsk, hreach, horig⟩ := test_exe_conditions_loop_reach env block k
    s.exe_queue.length 0 s s' item (by rw [Nat.zero_add]; exact hk) (by omega) hloop0
  rw [Nat.zero_add] at hsk hreach horig
  have hstep := test_exe_conditions_step_funds env block sk k item hrun hnotsoft hnothard
  have hik := get_lt_length _ _ _ hsk
  rw [test_exe_conditions_loop_succ env block fuel k sk item hsk] at hreach
  refine ⟨?_, ?_⟩
  · intro hall
    have hc := charge_round_fee_all (smart_round_fee block) item.executions hall
    rw [hc] at hstep
    simp only [Bool.false_eq_true, if_false] at hstep
    rw [hstep, if_neg (by simp [set_item])] at hreach
    exact ⟨sk, fuel, hsk, hreach⟩
  · intro hsome
    have hflag := (charge_round_fee_flag (smart_round_fee block) item.executions).2 hsome
    rw [if_pos hflag] at hstep
    constructor
    · intro hex
      have hstep2 : test_exe_conditions_step env block sk k item
          = set_item sk k
              { item with
                executions := (charge_round_fee (smart_round_fee block) item.executions).1,
                status := .Finished, seq_finish := block.sequence } := by
        rw [hstep]
        unfold cancel_item
        rw [if_neg (by simp only [hex]; decide),
          update_status_at_finished env _ k
            { item with
              executions := (charge_round_fee (smart_round_fee block) item.executions).1 } _
            (by simp [set_item, hik]),
          set_item_set_item]
      rw [hstep2, if_neg (by simp [set_item])] at hreach
      apply test_exe_conditions_loop_keeps_done env block _ (Or.inl rfl) _ _ _ _ hreach
      rw [mem_take_iff_get]
      exact ⟨k, Nat.lt_succ_self _, by simp [set_item, hik]⟩
    · intro hex e0 rest hexe huniq hpair hload
      obtain ⟨rest', hhead⟩ := charge_round_fee_head (smart_round_fee block) e0 rest
      rw [← hexe] at hhead
      have hrefs := charge_round_fee_refs (smart_round_fee block) item.executions
      have hdata : (charge_round_fee (smart_round_fee block) item.executions).1.map
            (fun e => error_data e.ref_start error_OutOfFunds
              "contract execution is out of funds")
          = item.executions.map (fun e => error_data e.ref_start error_OutOfFunds
              "contract execution is out of funds") := by
        have e1 : ∀ l : List ExecutionItem,
            l.map (fun e => error_data e.ref_start error_OutOfFunds
              "contract execution is out of funds")
            = (l.map (fun e => e.ref_start)).map (fun r => error_data r error_OutOfFunds
              "contract execution is out of funds") := by
          intro l
          rw [List.map_map]
          rfl
        rw [e1, e1, hrefs]
      have hs1 : (set_item sk k
          { item with
            executions := (charge_round_fee (smart_round_fee block) item.executions).1
          }).exe_queue.get? k
          = some { item with
            executions := (charge_round_fee (smart_round_fee block) item.executions).1 } := by
        simp [set_item, hik]
      have hfind : find_in_queue (set_item sk k
          { item with
            executions := (charge_round_fee (smart_round_fee block) item.executions).1 })
          e0.ref_start = k := by
        apply find_in_queue_eq _ k _ e0.ref_start hs1
        · rw [List.any_eq_true]
          refine ⟨{ e0 with consumed_fee := e0.consumed_fee + smart_round_fee block }, ?_,
            same_refl _⟩
          show _ ∈ (charge_round_fee (smart_round_fee block) item.executions).1
          rw [hhead]
          exact List.mem_cons_self _ _
        · intro it' hmem
          have hmem' : it' ∈ sk.exe_queue.take k := by
            simpa [set_item, take_set_self] using hmem
          obtain ⟨it, hit, hc⟩ := horig it' hmem'
          rw [holds_ref_of_same_calls it it' _ hc]
          rw [mem_take_iff_get] at hit
          obtain ⟨p, hp, hp2⟩ := hit
          exact huniq p it hp2 (by omega)
      have hstep2 : test_exe_conditions_step env block sk k item
          = on_execution_completed_impl env
              (set_item sk k
                { item with
                  executions := (charge_round_fee (smart_round_fee block) item.executions).1 })
              (item.executions.map (fun e =>
                error_data e.ref_start error_OutOfFunds
                  "contract execution is out of funds")) := by
        rw [hstep]
        unfold cancel_item
        rw [if_pos hex]
        simp only [hdata]
        simp only [hexe, List.map_cons, List.isEmpty_cons, Bool.not_false, if_true]
      obtain ⟨Y, hY, hlog, hq⟩ := on_execution_completed_impl_cancelled env
        (set_item sk k
          { item with
            executions := (charge_round_fee (smart_round_fee block) item.executions).1 })
        k
        { item with
          executions := (charge_round_fee (smart_round_fee block) item.executions).1 }
        { e0 with consumed_fee := e0.consumed_fee + smart_round_fee block } rest'
        error_OutOfFunds "contract execution is out of funds" (by decide) hs1 hhead hfind
        (by simp only [hrun]; decide) (by simp only [hrun]; decide) hex
        (by simp only [hrefs]; exact hpair)
        (by
          intro e he
          have hm : e.ref_start ∈ (charge_round_fee (smart_round_fee block)
              item.executions).1.map (fun e => e.ref_start) := List.mem_map_of_mem _ he
          rw [hrefs, List.mem_map] at hm
          obtain ⟨e', he', hr⟩ := hm
          rw [← hr]
          exact hload e' he')
      simp only [hdata] at hlog hq
      rw [← hstep2] at hlog hq
      have hlog' : (test_exe_conditions_step env block sk k item).log
          = sk.log ++ [.start_consensus (Y.map (fun e => e.ref_start))
                        (Y.flatMap (fun e => e.result)),
                      .smart_executed (Y.flatMap (fun e => e.result))] := hlog
      have hq' : (test_exe_conditions_step env block sk k item).exe_queue
          = (if env.start_consensus
                { item with status := .Finished, seq_finish := env.getLastSequence,
                            executions := Y }
                (Y.flatMap (fun e => e.result)) = true
            then sk.exe_queue.set k
                { item with status := .Finished, seq_finish := env.getLastSequence,
                            executions := Y }
            else sk.exe_queue.eraseIdx k) := by
        rw [hq]
        split
        · simp [set_item, List.set_set]
        · simp only [set_item]
          exact eraseIdx_set_self _ _ _
      by_cases hsc : env.start_consensus
          { item with status := .Finished, seq_finish := env.getLastSequence, executions := Y }
          (Y.flatMap (fun e => e.result)) = true
      · rw [if_pos hsc] at hq'
        rw [if_neg (by rw [hq', List.length_set]; omega)] at hreach
        refine ⟨sk, Y, hsk, cancelled_with_of_charged env _ _ _ _ hY, hlog', hsc, ?_⟩
        apply test_exe_conditions_loop_keeps_done env block _ (Or.inl rfl) _ _ _ _ hreach
        rw [mem_take_iff_get]
        exact ⟨k, Nat.lt_succ_self _, by rw [hq']; simp [hik]⟩
      · rw [if_neg hsc] at hq'
        rw [if_pos (by rw [hq', List.length_eraseIdx, if_pos hik]; omega)] at hreach
        cases hreach

end cs

namespace cs

open csdb

/-- The hard timeout at the scheduler left by block 1, when block 200 arrives on the node
`[8]`, which executes no item: the pass has a result, in which the Running item is Closed
and its contract unlocked. -/
theorem hard_timeout_in_pass_witness :
    ∃ s', test_exe_conditions (sample.env [sample.block1]) sample.after_block1 sample.block200
        = some s' ∧
      { sample.running_item with status := .Closed } ∈ s'.exe_queue ∧
      is_locked s' sample.running_item.abs_addr = false ∧
      ∀ it' ∈ (test_exe_queue (sample.env [sample.block1]) s').exe_queue,
        it'.status ≠ .Closed := by
  obtain ⟨s', hs'⟩ := test_exe_conditions_defined (sample.env [sample.block1]) sample.block200
    sample.after_block1 (by decide)
  have h := hard_timeout_in_pass (sample.env [sample.block1]) sample.after_block1
    sample.block200 0 sample.running_item (by decide) (Or.inl rfl) (by decide) s' hs'
  exact ⟨s', hs', h.2.1, h.2.2.1, h.2.2.2.1⟩

/-- The soft timeout at the scheduler left by block 1, when block 60 arrives: on the node
that does not execute the calls the item is Finished at block 60; on the executor node,
the consensus starting, both executions are completed with `TimeExpired` and the Finished
item is in the queue when the pass ends. -/
theorem soft_timeout_in_pass_witness :
    (∃ s', test_exe_conditions (sample.env [sample.block1]) sample.after_block1 sample.block60
        = some s' ∧
      { sample.running_item with status := .Finished, seq_finish := sample.block60.sequence }
        ∈ s'.exe_queue) ∧
    (∃ s' Y, test_exe_conditions (sample.env_consensus [sample.block1])
        sample.executor_after_block1 sample.block60 = some s' ∧
      List.Forall₂ (cancelled_with (sample.env_consensus [sample.block1]) error_TimeExpired)
        sample.executor_item.executions Y ∧
      { sample.executor_item with
          status := .Finished,
          seq_finish := (sample.env_consensus [sample.block1]).getLastSequence,
          executions := Y } ∈ s'.exe_queue) := by
  constructor
  · obtain ⟨s', hs'⟩ := test_exe_conditions_defined (sample.env [sample.block1])
      sample.block60 sample.after_block1 (by decide)
    exact ⟨s', hs', (soft_timeout_in_pass (sample.env [sample.block1]) sample.after_block1
      sample.block60 0 sample.running_item (by decide) rfl (by decide) (by decide) s' hs').1
      rfl⟩
  · have hsome : (test_exe_conditions (sample.env_consensus [sample.block1])
        sample.executor_after_block1 sample.block60).isSome = true := by decide
    obtain ⟨s', hs'⟩ := Option.isSome_iff_exists.1 hsome
    have hq : sample.executor_after_block1.exe_queue = [sample.executor_item] := by decide
    obtain ⟨sk, Y, _, hY, _, _, hfin⟩ :=
      (soft_timeout_in_pass (sample.env_consensus [sample.block1])
        sample.executor_after_block1 sample.block60 0 sample.executor_item (by decide) rfl
        (by decide) (by decide) s' hs').2 rfl _ _ rfl
        (by
          intro p it' hp hne
          rw [hq] at hp
          cases p with
          | zero => exact absurd rfl hne
          | succ p => simp at hp)
        (by decide) (by decide)
    exact ⟨s', Y, hs', hY, hfin⟩

/-- Out of funds at the scheduler left by block 1, when a block with a round fee of 200
arrives: both executions of the Running item have 98 available and 2 consumed. On the node
that does not execute the calls the item is Finished at block 2; on the executor node, the
consensus starting, both executions are completed with `OutOfFunds` and the Finished item
is in the queue when the pass ends. -/
theorem out_of_funds_in_pass_witness :
    (∃ s', test_exe_conditions (sample.env [sample.block1]) sample.after_block1
        sample.block2_costly = some s' ∧
      { sample.running_item with
        executions := (charge_round_fee (smart_round_fee sample.block2_costly)
          sample.running_item.executions).1,
        status := .Finished, seq_finish := sample.block2_costly.sequence } ∈ s'.exe_queue) ∧
    (∃ s' Y, test_exe_conditions (sample.env_consensus [sample.block1])
        sample.executor_after_block1 sample.block2_costly = some s' ∧
      List.Forall₂ (cancelled_with (sample.env_consensus [sample.block1]) error_OutOfFunds)
        sample.executor_item.executions Y ∧
      { sample.executor_item with
          status := .Finished,
          seq_finish := (sample.env_consensus [sample.block1]).getLastSequence,
          executions := Y } ∈ s'.exe_queue) := by
  have hout : ∃ e ∈ sample.running_item.executions,
      e.avail_fee < e.consumed_fee + smart_round_fee sample.block2_costly := by decide
  have hout' : ∃ e ∈ sample.executor_item.executions,
      e.avail_fee < e.consumed_fee + smart_round_fee sample.block2_costly := by decide
  constructor
  · obtain ⟨s', hs'⟩ := test_exe_conditions_defined (sample.env [sample.block1])
      sample.block2_costly sample.after_block1 (by decide)
    exact ⟨s', hs', ((out_of_funds_in_pass (sample.env [sample.block1]) sample.after_block1
      sample.block2_costly 0 sample.running_item (by decide) rfl (by decide) (by decide)
      s' hs').2 hout).1 rfl⟩
  · have hsome : (test_exe_conditions (sample.env_consensus [sample.block1])
        sample.executor_after_block1 sample.block2_costly).isSome = true := by decide
    obtain ⟨s', hs'⟩ := Option.isSome_iff_exists.1 hsome
    have hq : sample.executor_after_block1.exe_queue = [sample.executor_item] := by decide
    obtain ⟨sk, Y, _, hY, _, _, hfin⟩ :=
      ((out_of_funds_in_pass (sample.env_consensus [sample.block1])
        sample.executor_after_block1 sample.block2_costly 0 sample.executor_item (by decide)
        rfl (by decide) (by decide) s' hs').2 hout').2 rfl _ _ rfl
        (by
          intro p it' hp hne
          rw [hq] at hp
          cases p with
          | zero => exact absurd rfl hne
          | succ p => simp at hp)
        (by decide) (by decide)
    exact ⟨s', Y, hs', hY, hfin⟩

end cs
